import Mathlib

/-!
# HammerBlade tile kernels: range partitioner, element-wise iteration, software cache

A shallow embedding of `hb_tiled_for.hpp` and `hb_tensor_cached.hpp`, of the
loop nests and scratchpad copies of the convolution kernels, of the blocked
matrix product (`kernel_mm.cpp`, `kernel_addmm.hpp`) and of the sorts of
`kernel_vsort.cpp`.

Machine model.  The kernels run on a 32-bit tile: `uint32_t` values and data
pointers are words, and arithmetic on them is taken modulo `2 ^ 32`.  The
`size_t` counters of `calc_range` and of the element loops are natural
numbers: the partitioner is specified for arithmetic without overflow.
Memory is a map from addresses to scalars; an element is identified with the
address it starts at.  The `int` and `int32_t` indices of the matrix product
and of the sorts are natural numbers or integers without overflow.  A loop
or a recursion that is not structural takes a `fuel` argument that bounds
its iterations.
-/

set_option autoImplicit false

namespace HB

/-! ## Definitions -/

/-- Word modulus of `uint32_t` and of data pointers. -/
def WORD : Nat := 2 ^ 32

/-- Reduction of a natural number to a 32-bit word. -/
def wrap32 (x : Nat) : Nat := x % WORD

/-- The struct `hb_range`: the half-open interval `[start, end_)`. -/
structure hb_range where
  start : Nat
  end_ : Nat
deriving DecidableEq, Repr

/-- Ambient topology coordinates read by `calc_range`: the pod count
`BSG_POD_DIM`, this tile's pod id `__bsg_pod_id`, the tile grid
`bsg_tiles_X` by `bsg_tiles_Y`, and this tile's flat id `__bsg_id`. -/
structure Topology where
  BSG_POD_DIM : Nat
  bsg_pod_id : Nat
  bsg_tiles_X : Nat
  bsg_tiles_Y : Nat
  bsg_id : Nat
deriving DecidableEq, Repr

/-- The function `calc_range` of `hb_tiled_for.hpp`. -/
def calc_range (c : Topology) (numel : Nat) : hb_range :=
  let len_per_pod := numel / c.BSG_POD_DIM + 1
  let pod_start := len_per_pod * c.bsg_pod_id
  let pod_end := pod_start + len_per_pod
  let pod_end := if pod_end > numel then numel else pod_end
  if pod_start ≥ pod_end then ⟨0, 0⟩
  else
    let pod_size := pod_end - pod_start
    let len_per_tile := pod_size / (c.bsg_tiles_X * c.bsg_tiles_Y) + 1
    let start := len_per_tile * c.bsg_id
    let end_ := start + len_per_tile
    let end_ := if end_ > pod_size then pod_size else end_
    if start ≥ end_ then ⟨0, 0⟩
    else ⟨pod_start + start, pod_start + end_⟩

/-- Size of the pod chunk that `calc_range` assigns to a pod. -/
def pod_size (P pod numel : Nat) : Nat :=
  min ((numel / P + 1) * pod + (numel / P + 1)) numel - (numel / P + 1) * pod

/-- Modelled from the spec: the tensor descriptor of `hb_tensor.hpp` (class
`HBTensor`, not among the sources): element count `N`, the per-dimension
strides and sizes, and the data pointer.  The number of dimensions is the
length of `sizes`; dimension 0 is the fastest varying one. -/
structure HBTensor where
  N : Nat
  strides : List Nat
  sizes : List Nat
  data : Nat
deriving DecidableEq, Repr

/-- Accessor `ndim()`. -/
def HBTensor.ndim (t : HBTensor) : Nat := t.sizes.length

/-- Accessor `numel()`. -/
def HBTensor.numel (t : HBTensor) : Nat := t.N

/-- The loop of `offset_calc` over the dimensions still to visit, with the
running `idx` and the `uint32_t` accumulator `offset`. -/
def offset_calc_loop : List Nat → List Nat → Nat → Nat → Nat
  | size :: sizes, stride :: strides, idx, offset =>
      offset_calc_loop sizes strides (idx / size) (wrap32 (offset + wrap32 (idx % size * stride)))
  | _, _, _, offset => offset

/-- The function `offset_calc` of `hb_tiled_for.hpp`: linear index to offset. -/
def offset_calc (idx : Nat) (tensor : HBTensor) : Nat :=
  offset_calc_loop tensor.sizes tensor.strides idx 0

/-- Remote memory: a scalar per address. -/
abbrev Mem (α : Type) := Nat → α

/-- Pointer plus offset, on 32-bit pointers. -/
def ptr_add (p k : Nat) : Nat := wrap32 (p + k)

/-- Address `data_ptr() + offset_calc(idx, tensor)` of the element with flat
index `idx`, as the general path computes it. -/
def elem_addr (t : HBTensor) (idx : Nat) : Nat := ptr_add t.data (offset_calc idx t)

/-- An entry of the array `data[]` of the trivial path: a pointer into remote
memory, or the address of `fixed_data[i]` on the tile's stack. -/
inductive Ptr where
  | remote (addr : Nat)
  | fixed (i : Nat)
deriving DecidableEq, Repr

/-- State of the trivial path: remote memory, the local array `fixed_data`
and the pointer array `data`. -/
structure TrivialState (α : Type) where
  mem : Mem α
  fixed_data : Nat → α
  data : List Ptr

/-- Dereference for reading. -/
def TrivialState.load {α : Type} (st : TrivialState α) : Ptr → α
  | .remote a => st.mem a
  | .fixed i => st.fixed_data i

/-- Assignment through a pointer. -/
def TrivialState.store {α : Type} (st : TrivialState α) (p : Ptr) (v : α) : TrivialState α :=
  match p with
  | .remote a => { st with mem := Function.update st.mem a v }
  | .fixed i => { st with fixed_data := Function.update st.fixed_data i v }

/-- The statement `data[i] += k`.  A pointer to `fixed_data[i]` is only ever
advanced by its zero stride. -/
def Ptr.advance (p : Ptr) (k : Nat) : Ptr :=
  match p with
  | .remote a => .remote (ptr_add a k)
  | .fixed i => .fixed i

/-- The loop "in the case where stride is 0", from operand `i` on: an operand
whose step stride is zero is read once into `fixed_data[i]` and its pointer is
redirected to that copy. -/
def freeze_loop {α : Type} (m : Mem α) : Nat → List Nat → List Nat → (Nat → α) → (Nat → α) × List Ptr
  | i, d :: ds, s :: ss, fd =>
      if s = 0 then
        let r := freeze_loop m (i + 1) ds ss (Function.update fd i (m d))
        (r.1, Ptr.fixed i :: r.2)
      else
        let r := freeze_loop m (i + 1) ds ss fd
        (r.1, Ptr.remote d :: r.2)
  | _, _, _, fd => (fd, [])

/-- First stride `(t.get_strides())[0]` of an operand. -/
def HBTensor.stride0 (t : HBTensor) : Nat := t.strides.headD 0

/-- Set-up of the trivial path: the pointers and step strides of the result
and of the inputs are collected and the zero-stride operands are frozen. -/
def trivial_init {α : Type} [Inhabited α] (res : HBTensor) (inputs : List HBTensor) (m : Mem α) :
    TrivialState α :=
  let r := freeze_loop m 0 (res.data :: inputs.map HBTensor.data)
    (res.stride0 :: inputs.map HBTensor.stride0) (fun _ => default)
  { mem := m, fixed_data := r.1, data := r.2 }

/-- One iteration of the trivial path: the functor is applied to the values
under the input pointers, the result is stored under `data[0]`, and every
pointer is advanced by its stride. -/
def trivial_body {α : Type} (F : List α → α) (strides : List Nat) (st : TrivialState α) :
    TrivialState α :=
  match st.data with
  | [] => st
  | res_dp :: in_dps =>
      { st.store res_dp (F (in_dps.map st.load)) with
        data := List.zipWith Ptr.advance st.data strides }

/-- The trivial path (result rank 1) over the index range `[start, end_)`:
every pointer is first moved by `strides[i] * start`. -/
def trivial_path {α : Type} [Inhabited α] (F : List α → α) (res : HBTensor)
    (inputs : List HBTensor) (start end_ : Nat) (m : Mem α) : Mem α :=
  let strides := res.stride0 :: inputs.map HBTensor.stride0
  let st0 := trivial_init res inputs m
  let st1 := { st0 with
    data := List.zipWith Ptr.advance st0.data (strides.map (fun s => wrap32 (s * start))) }
  ((List.range' start (end_ - start)).foldl (fun st _ => trivial_body F strides st) st1).mem

/-- One iteration of the general path: every operand is addressed through
`offset_calc`. -/
def general_body {α : Type} (F : List α → α) (res : HBTensor) (inputs : List HBTensor)
    (m : Mem α) (idx : Nat) : Mem α :=
  Function.update m (elem_addr res idx) (F (inputs.map (fun t => m (elem_addr t idx))))

/-- The general path (result rank other than 1) over `[start, end_)`. -/
def general_path {α : Type} (F : List α → α) (res : HBTensor) (inputs : List HBTensor)
    (start end_ : Nat) (m : Mem α) : Mem α :=
  (List.range' start (end_ - start)).foldl (general_body F res inputs) m

/-- The functions `hb_foreach` of `hb_tiled_for.hpp` (nullary, unary, binary
and ternary overloads, which differ only in the number of inputs): the result
view, the list of input views and the functor, which receives the input
values in order. -/
def hb_foreach {α : Type} [Inhabited α] (F : List α → α) (res : HBTensor)
    (inputs : List HBTensor) (m : Mem α) : Mem α :=
  if res.ndim = 1 then
    let strides := res.stride0 :: inputs.map HBTensor.stride0
    let st0 := trivial_init res inputs m
    ((List.range' 0 (res.numel - 0)).foldl (fun st _ => trivial_body F strides st) st0).mem
  else general_path F res inputs 0 res.numel m

/-- The functions `hb_tiled_foreach` of `hb_tiled_for.hpp`: as `hb_foreach`,
over the range that `calc_range` gives this tile. -/
def hb_tiled_foreach {α : Type} [Inhabited α] (c : Topology) (F : List α → α) (res : HBTensor)
    (inputs : List HBTensor) (m : Mem α) : Mem α :=
  let range := calc_range c res.numel
  if res.ndim = 1 then trivial_path F res inputs range.start range.end_ m
  else general_path F res inputs range.start range.end_ m

/-- Address the pointer of the trivial path holds at index `idx`: the data
pointer moved by `idx` strides. -/
def lin_addr (t : HBTensor) (idx : Nat) : Nat := wrap32 (t.data + t.stride0 * idx)

/-- One element-wise step with the operands addressed by `A`. -/
def addr_body {α : Type} (A : HBTensor → Nat → Nat) (F : List α → α) (res : HBTensor)
    (inputs : List HBTensor) (m : Mem α) (idx : Nat) : Mem α :=
  Function.update m (A res idx) (F (inputs.map (fun t => m (A t idx))))

/-- The element-wise sweep over `[start, end_)` with the operands addressed
by `A`. -/
def addr_path {α : Type} (A : HBTensor → Nat → Nat) (F : List α → α) (res : HBTensor)
    (inputs : List HBTensor) (start end_ : Nat) (m : Mem α) : Mem α :=
  (List.range' start (end_ - start)).foldl (addr_body A F res inputs) m

/-- Relation between an input view and its pointer of the trivial path at
index `idx`: a frozen copy of the first element, or a remote pointer moved by
`idx` strides. -/
def operand_at {α : Type} (m0 : Mem α) (fd : Nat → α) (idx : Nat) (t : HBTensor) (p : Ptr) : Prop :=
  (t.stride0 = 0 ∧ ∃ i, p = Ptr.fixed i ∧ fd i = m0 t.data) ∨
    (t.stride0 ≠ 0 ∧ p = Ptr.remote (lin_addr t idx))

/-- Well-formed descriptor: one stride per dimension, the element count is
the product of the sizes, and the data pointer is a 32-bit word. -/
def HBTensor.wf (t : HBTensor) : Prop :=
  t.strides.length = t.sizes.length ∧ t.N = t.sizes.prod ∧ t.data < WORD

instance (t : HBTensor) : Decidable t.wf := by
  unfold HBTensor.wf; infer_instance

/-- Precondition of the element-wise map: well-formed operands of equal
sizes, a result whose elements have pairwise distinct offsets, and no result
element at the address of an input element. -/
structure foreach_pre (res : HBTensor) (inputs : List HBTensor) : Prop where
  wf_res : res.wf
  wf_in : ∀ t ∈ inputs, t.wf
  same_sizes : ∀ t ∈ inputs, t.sizes = res.sizes
  distinct : ∀ i, i < res.N → ∀ j, j < res.N → offset_calc i res = offset_calc j res → i = j
  no_overlap : ∀ t ∈ inputs, ∀ i, i < res.N → ∀ j, j < res.N → elem_addr res i ≠ elem_addr t j

/-- The value the element-wise map puts at flat index `idx`: the functor on
the input elements of that index, read from memory `m`. -/
def map_value {α : Type} (F : List α → α) (inputs : List HBTensor) (m : Mem α) (idx : Nat) : α :=
  F (inputs.map (fun t => m (elem_addr t idx)))

/-- All pairs of a pod id below `P` and a tile id below `T`. -/
def all_tiles (P T : Nat) : List (Nat × Nat) := (List.range P).product (List.range T)

/-- The function `hb_tiled_foreach` run by the tiles `(pod id, tile id)` of a
list, one after the other, on a machine of `P` pods of `X` by `Y` tiles. -/
def run_tiles {α : Type} [Inhabited α] (P X Y : Nat) (F : List α → α) (res : HBTensor)
    (inputs : List HBTensor) (tiles : List (Nat × Nat)) (m : Mem α) : Mem α :=
  tiles.foldl (fun m pt => hb_tiled_foreach ⟨P, pt.1, X, Y, pt.2⟩ F res inputs m) m

/-- A binary functor as a functor on the list of input values. -/
def binary_functor {α : Type} [Inhabited α] (f : α → α → α) : List α → α
  | [a, b] => f a b
  | _ => default

/-- Pointer after `k` executions of `data[i] += strides[i]`. -/
def ptr_steps (p stride : Nat) : Nat → Nat
  | 0 => p
  | k + 1 => ptr_add (ptr_steps p stride k) stride

/-- Value of a digit list in the mixed radix given by `sizes`, digit 0 the
least significant: `i_0 + s_0 * (i_1 + s_1 * (...))`. -/
def mixed_radix_value : List Nat → List Nat → Nat
  | s :: sizes, i :: digits => i + s * mixed_radix_value sizes digits
  | _, _ => 0

/-- The sum of `i_d * t_d` over the dimensions. -/
def stride_sum : List Nat → List Nat → Nat
  | i :: digits, t :: strides => i * t + stride_sum digits strides
  | _, _ => 0

/-- The digit list `digits` is a mixed-radix decomposition of `idx` for the
extents `sizes`: one digit per dimension, each below its extent. -/
def is_decomposition (sizes digits : List Nat) (idx : Nat) : Prop :=
  List.Forall₂ (fun i s => i < s) digits sizes ∧ mixed_radix_value sizes digits = idx

/-- The digits of `idx` in the mixed radix `sizes`, digit 0 first. -/
def digits_of : List Nat → Nat → List Nat
  | [], _ => []
  | s :: sizes, idx => idx % s :: digits_of sizes (idx / s)

/-- A rank-1 result of four 4-byte elements at address 0. -/
def ex_res : HBTensor := ⟨4, [4], [4], 0⟩

/-- A rank-1 contiguous input of four elements at address 64. -/
def ex_a : HBTensor := ⟨4, [4], [4], 64⟩

/-- A rank-1 broadcast input (stride 0) at address 128. -/
def ex_b : HBTensor := ⟨4, [0], [4], 128⟩

/-- A one-element result as the host iterator hands it over: a dimension of
extent 1 carries stride 0. -/
def one_res : HBTensor := ⟨1, [0], [1], 0⟩

/-- A one-element input at address 4. -/
def one_in : HBTensor := ⟨1, [0], [1], 4⟩

/-- The 4x4 contiguous result of the broadcast scenario, at address 4096. -/
def bc_res2 : HBTensor := ⟨16, [4, 16], [4, 4], 4096⟩

/-- The 4x4 contiguous first operand, at address 8192. -/
def bc_a2 : HBTensor := ⟨16, [4, 16], [4, 4], 8192⟩

/-- The broadcast scalar as a 4x4 view with all strides 0, at address 12288. -/
def bc_b2 : HBTensor := ⟨16, [0, 0], [4, 4], 12288⟩

/-- The result of the broadcast scenario viewed as rank 1 of 16 elements. -/
def bc_res1 : HBTensor := ⟨16, [4], [16], 4096⟩

/-- The first operand viewed as rank 1 of 16 elements. -/
def bc_a1 : HBTensor := ⟨16, [4], [16], 8192⟩

/-- The broadcast scalar viewed as rank 1 with stride 0. -/
def bc_b1 : HBTensor := ⟨16, [0], [16], 12288⟩

/-- The constant `UINT_MAX`, the invalid tag. -/
def UINT_MAX : Nat := 2 ^ 32 - 1

/-- The class `HBTensorCached` of `hb_tensor_cached.hpp`: the element count
`N` and the remote data of the wrapped view, indexed by flat offset, the
template parameter `cache_size`, the arrays `cache_tag` and `cache_data`, and
the counters `hits` and `misses`.  The class instantiates with the element
type of `cache_data` only (`prefetch_impl` takes that array as `DT*`), so one
type `α` stands for both. -/
structure HBTensorCached (α : Type) where
  N : Nat
  data : Nat → α
  cache_size : Nat
  cache_tag : Nat → Nat
  cache_data : Nat → α
  hits : Nat
  misses : Nat

/-- The member `cache_numel`: the slot count, the capacity over the size of
a tag and a datum. -/
def HBTensorCached.cache_numel {α : Type} (c : HBTensorCached α) : Nat := c.cache_size / (4 + 4)

/-- The constructor of `HBTensorCached`: zeroed data slots, zero counters, and
every tag invalidated. -/
def HBTensorCached.create {α : Type} [Zero α] (cache_size N : Nat) (data : Nat → α) :
    HBTensorCached α :=
  { N := N, data := data, cache_size := cache_size, cache_tag := fun _ => UINT_MAX,
    cache_data := fun _ => 0, hits := 0, misses := 0 }

/-- Body of the loop of `prefetch_impl` for offset `i`. -/
def HBTensorCached.fill {α : Type} (c : HBTensorCached α) (i : Nat) : HBTensorCached α :=
  { c with
    cache_data := Function.update c.cache_data (i % c.cache_numel) (c.data i)
    cache_tag := Function.update c.cache_tag (i % c.cache_numel) i }

/-- The member `prefetch_impl`: the offsets `start`, ..., `end_ - 1` are
loaded into their slots and tagged. -/
def HBTensorCached.prefetch_impl {α : Type} (c : HBTensorCached α) (start end_ : Nat) :
    HBTensorCached α :=
  (List.range' start (end_ - start)).foldl HBTensorCached.fill c

/-- The member `prefetch`: a run of `cache_numel` offsets from `off`, cut at
`N`; the sum is a `uint32_t`. -/
def HBTensorCached.prefetch {α : Type} (c : HBTensorCached α) (off : Nat) : HBTensorCached α :=
  c.prefetch_impl off (min (wrap32 (off + c.cache_numel)) c.N)

/-- The member `cached_read` at flat offset `off` (the value of
`offset(indices...)`): the value returned and the cache afterwards. -/
def HBTensorCached.cached_read {α : Type} (c : HBTensorCached α) (off : Nat) :
    α × HBTensorCached α :=
  let ci := off % c.cache_numel
  if c.cache_tag ci = off then
    (c.cache_data ci, { c with hits := wrap32 (c.hits + 1) })
  else
    let c1 := { c with misses := wrap32 (c.misses + 1) }
    let c2 := c1.prefetch off
    let rdata := c2.data off
    (rdata, { c2 with
      cache_tag := Function.update c2.cache_tag ci off
      cache_data := Function.update c2.cache_data ci rdata })

/-- A sequence of `cached_read` calls: the values returned, in order, and the
cache afterwards. -/
def HBTensorCached.read_all {α : Type} (c : HBTensorCached α) : List Nat → List α × HBTensorCached α
  | [] => ([], c)
  | off :: offs =>
      let r := c.cached_read off
      let rs := HBTensorCached.read_all r.2 offs
      (r.1 :: rs.1, rs.2)

/-- Consistency of the cache with a backing store: a slot with a valid tag
holds the backing value at its tag. -/
def HBTensorCached.consistent {α : Type} (c : HBTensorCached α) (backing : Nat → α) : Prop :=
  c.data = backing ∧ ∀ s, c.cache_tag s = UINT_MAX ∨ c.cache_data s = backing (c.cache_tag s)

/-- The invalidation loop of the constructor over the `cache_numel` slots,
from the uninitialised contents `tag` of the array `cache_tag`. -/
def HBTensorCached.invalidate (cache_numel : Nat) (tag : Nat → Nat) : Nat → Nat :=
  (List.range cache_numel).foldl (fun t i => Function.update t i UINT_MAX) tag

/-- Two caches agree on all that the hit and miss counts depend on: element
count, capacity, tags and counters.  The backing contents and the cached
values may differ. -/
def HBTensorCached.same_tags {α β : Type} (c : HBTensorCached α) (d : HBTensorCached β) : Prop :=
  c.N = d.N ∧ c.cache_size = d.cache_size ∧ c.cache_tag = d.cache_tag ∧
    c.hits = d.hits ∧ c.misses = d.misses

/-- The function `hb_for` of `hb_tiled_for.hpp`: the functor, which may
change the state `σ` it captures, is called on every index from 0 up to
`numel`. -/
def hb_for {σ : Type} (numel : Nat) (functor : Nat → σ → σ) (s : σ) : σ :=
  (List.range' 0 (numel - 0)).foldl (fun s i => functor i s) s

/-- The function `hb_tiled_for` of `hb_tiled_for.hpp`: as `hb_for`, over the
range that `calc_range` gives this tile. -/
def hb_tiled_for {σ : Type} (c : Topology) (numel : Nat) (functor : Nat → σ → σ) (s : σ) : σ :=
  let range := calc_range c numel
  (List.range' range.start (range.end_ - range.start)).foldl (fun s i => functor i s) s

/-- A functor that records the index it is called on at the end of a log. -/
def record_call (i : Nat) (log : List Nat) : List Nat := log ++ [i]

/-- The function `loop_inc` of `kernel_conv_resnet_systolic_smu.cpp`: the
triple `(image_id_nxt, filter_id_nxt, channel_id_nxt)`.  The `size_t` counters
are natural numbers and the `int` bounds `N`, `Cout`, `Cin` are the natural
numbers they hold when positive. -/
def loop_inc (image_id filter_id channel_id N Cout Cin : Nat) : Nat × Nat × Nat :=
  let image_id_nxt := image_id
  let filter_id_nxt := filter_id
  let channel_id_nxt := channel_id + 1
  if channel_id_nxt ≥ Cin then
    let channel_id_nxt := 0
    let filter_id_nxt := filter_id + 16
    if filter_id_nxt ≥ Cout then
      let filter_id_nxt := 0
      let image_id_nxt := image_id + 1
      if image_id_nxt ≥ N then (0, filter_id_nxt, channel_id_nxt)
      else (image_id_nxt, filter_id_nxt, channel_id_nxt)
    else (image_id_nxt, filter_id_nxt, channel_id_nxt)
  else (image_id_nxt, filter_id_nxt, channel_id_nxt)

/-- Which buffer of the FIFO a transfer is aimed at: `fifo.get_buffer()` or
`fifo.get_next_buffer()`. -/
inductive BufferSel where
  | get_buffer
  | get_next_buffer
deriving DecidableEq, Repr

/-- The calls `load_conv_imap` makes to the mover and to the FIFO, whose code
is outside the sources: `launch_smu_conv_imap` with its block coordinates,
block triple and target buffer, `wait_smu` on the acknowledgment flag, and
`fifo.SMU_finish_wb`. -/
inductive SmuCall where
  | launch_smu_conv_imap (block_x block_y image_id filter_id channel_id : Nat)
      (buffer : BufferSel)
  | wait_smu
  | SMU_finish_wb
deriving DecidableEq, Repr

/-- The function `load_conv_imap` of `kernel_conv_resnet_systolic_smu.cpp`, as
the sequence of calls it makes before it returns. -/
def load_conv_imap (block_x block_y image_id filter_id channel_id N Cout Cin : Nat) :
    List SmuCall :=
  let nxt := loop_inc image_id filter_id channel_id N Cout Cin
  (if image_id = 0 ∧ filter_id = 0 ∧ channel_id = 0 then
    [SmuCall.launch_smu_conv_imap block_x block_y image_id filter_id channel_id
        BufferSel.get_buffer,
      SmuCall.wait_smu,
      SmuCall.launch_smu_conv_imap block_x block_y nxt.1 nxt.2.1 nxt.2.2
        BufferSel.get_next_buffer]
  else
    [SmuCall.wait_smu,
      SmuCall.launch_smu_conv_imap block_x block_y nxt.1 nxt.2.1 nxt.2.2
        BufferSel.get_next_buffer])
  ++ [SmuCall.SMU_finish_wb]

/-- The values a loop `for (x = start; x < bound; x += step)` runs through,
with `fuel` bounding the number of iterations. -/
def for_step (step bound : Nat) : Nat → Nat → List Nat
  | 0, _ => []
  | fuel + 1, x => if x < bound then x :: for_step step bound fuel (x + step) else []

/-- The loop nest of `compute_job` in the forward kernel (and, with the names
of filter and channel exchanged, in the back-input kernel) on a tile of column
`bsg_x`: the triples `(image_id, filter_id, channel_id)` in the order of the
iterations. -/
def forward_visits (bsg_x N Cout Cin : Nat) : List (Nat × Nat × Nat) :=
  (List.range N).flatMap (fun image_id =>
    (for_step 16 Cout Cout bsg_x).flatMap (fun filter_id =>
      (List.range Cin).map (fun channel_id => (image_id, filter_id, channel_id))))

/-- The flag `should_pass` of the forward and back-input kernels. -/
def should_pass (bsg_x : Nat) : Bool := if bsg_x = 15 then false else true

/-- Whether the pass-through copy runs, for each iteration of the forward
loop nest: the guard `should_pass && filter_id+1 < Cout`. -/
def forward_passes (bsg_x N Cout Cin : Nat) : List Bool :=
  (forward_visits bsg_x N Cout Cin).map (fun t => should_pass bsg_x && decide (t.2.1 + 1 < Cout))

/-- The loop nest of `compute_job` in the back-weight kernel on tile
`(bsg_x, bsg_y)`: the tuples `(filter_id, channel_id, image_id, block_y,
block_x)` in the order of the iterations. -/
def back_weight_visits (bsg_x bsg_y N Cout N_imap h_blocks w_blocks : Nat) :
    List (Nat × Nat × Nat × Nat × Nat) :=
  (for_step 16 N N bsg_x).flatMap (fun filter_id =>
    (for_step 8 Cout Cout bsg_y).flatMap (fun channel_id =>
      (List.range N_imap).flatMap (fun image_id =>
        (List.range h_blocks).flatMap (fun block_y =>
          (List.range w_blocks).map (fun block_x =>
            (filter_id, channel_id, image_id, block_y, block_x))))))

/-- The flag `should_pass_imap` of the back-weight kernel; the comparison
with `BSG_TILE_GROUP_X_DIM - 1` is on `int`. -/
def should_pass_imap (bsg_x BSG_TILE_GROUP_X_DIM : Nat) : Bool :=
  if (bsg_x : Int) = (BSG_TILE_GROUP_X_DIM : Int) - 1 then false else true

/-- The flag `should_pass_grad` of the back-weight kernel. -/
def should_pass_grad (bsg_y BSG_TILE_GROUP_Y_DIM : Nat) : Bool :=
  if (bsg_y : Int) = (BSG_TILE_GROUP_Y_DIM : Int) - 1 then false else true

/-- Whether the imap pass-through copy runs, for each iteration of the
back-weight loop nest: the guard `should_pass_imap && filter_id+1 < N`. -/
def back_weight_imap_passes (X_DIM bsg_x bsg_y N Cout N_imap h_blocks w_blocks : Nat) :
    List Bool :=
  (back_weight_visits bsg_x bsg_y N Cout N_imap h_blocks w_blocks).map
    (fun t => should_pass_imap bsg_x X_DIM && decide (t.1 + 1 < N))

/-- Whether the grad pass-through copy runs, for each iteration of the
back-weight loop nest: the guard `should_pass_grad && channel_id+1 < Cout`. -/
def back_weight_grad_passes (Y_DIM bsg_x bsg_y N Cout N_imap h_blocks w_blocks : Nat) :
    List Bool :=
  (back_weight_visits bsg_x bsg_y N Cout N_imap h_blocks w_blocks).map
    (fun t => should_pass_grad bsg_y Y_DIM && decide (t.2.1 + 1 < Cout))

/-- The function `loop_inc` applied to a triple
`(image_id, filter_id, channel_id)`. -/
def loop_inc_of (t : Nat × Nat × Nat) (N Cout Cin : Nat) : Nat × Nat × Nat :=
  loop_inc t.1 t.2.1 t.2.2 N Cout Cin

/-- The value `len_per_pod` of `calc_range`: the per-pod chunk length. -/
def len_per_pod (c : Topology) (numel : Nat) : Nat := numel / c.BSG_POD_DIM + 1

/-- The value `len_per_tile` of `calc_range` in a pod of size `pod_size`: the
per-tile chunk length. -/
def len_per_tile (c : Topology) (pod_size : Nat) : Nat :=
  pod_size / (c.bsg_tiles_X * c.bsg_tiles_Y) + 1

/-- The ceiling of `n / d`, for the comparison with the chunk lengths: the
least `q` with `n ≤ d * q`. -/
def ceil_div (n d : Nat) : Nat := (n + d - 1) / d

/-- The direct-mapped invariant of the cache: every slot below the slot count
holds the invalid tag, or a tag below `N` that maps to the slot together with
the backing value at that tag. -/
def HBTensorCached.direct_mapped {α : Type} (c : HBTensorCached α) : Prop :=
  ∀ s, s < c.cache_numel → c.cache_tag s = UINT_MAX ∨
    (c.cache_tag s < c.N ∧ c.cache_tag s % c.cache_numel = s ∧
      c.cache_data s = c.data (c.cache_tag s))

/-- The alternating read sequence `a, b, a, b, ...` of length `k`. -/
def alternate (a b : Nat) : Nat → List Nat
  | 0 => []
  | k + 1 => a :: alternate b a k

/-- The function `loop_inc_back_weight` of
`kernel_conv_resnet_systolic_smu.cpp` on the tile `(bsg_x, bsg_y)`: the tuple
`(filter_id_nxt, channel_id_nxt, image_id_nxt, block_y_nxt, block_x_nxt)`.
The `size_t` counters are natural numbers and the `int` bounds and tile
coordinates are the natural numbers they hold when not negative. -/
def loop_inc_back_weight (bsg_x bsg_y filter_id channel_id image_id block_y block_x
    N Cout N_imap h_blocks_per_out_channel w_blocks_per_out_channel : Nat) :
    Nat × Nat × Nat × Nat × Nat :=
  let filter_id_nxt := filter_id
  let channel_id_nxt := channel_id
  let image_id_nxt := image_id
  let block_y_nxt := block_y
  let block_x_nxt := block_x + 1
  if block_x_nxt ≥ w_blocks_per_out_channel then
    let block_x_nxt := 0
    let block_y_nxt := block_y + 1
    if block_y_nxt ≥ h_blocks_per_out_channel then
      let block_y_nxt := 0
      let image_id_nxt := image_id + 1
      if image_id_nxt ≥ N_imap then
        let image_id_nxt := 0
        let channel_id_nxt := channel_id + 8
        if channel_id_nxt ≥ Cout then
          let channel_id_nxt := bsg_y
          let filter_id_nxt := filter_id + 16
          if filter_id_nxt ≥ N then
            (bsg_x, channel_id_nxt, image_id_nxt, block_y_nxt, block_x_nxt)
          else (filter_id_nxt, channel_id_nxt, image_id_nxt, block_y_nxt, block_x_nxt)
        else (filter_id_nxt, channel_id_nxt, image_id_nxt, block_y_nxt, block_x_nxt)
      else (filter_id_nxt, channel_id_nxt, image_id_nxt, block_y_nxt, block_x_nxt)
    else (filter_id_nxt, channel_id_nxt, image_id_nxt, block_y_nxt, block_x_nxt)
  else (filter_id_nxt, channel_id_nxt, image_id_nxt, block_y_nxt, block_x_nxt)

/-- The function `loop_inc_back_weight` applied to a tuple
`(filter_id, channel_id, image_id, block_y, block_x)`. -/
def loop_inc_back_weight_of (bsg_x bsg_y : Nat) (t : Nat × Nat × Nat × Nat × Nat)
    (N Cout N_imap h_blocks w_blocks : Nat) : Nat × Nat × Nat × Nat × Nat :=
  loop_inc_back_weight bsg_x bsg_y t.1 t.2.1 t.2.2.1 t.2.2.2.1 t.2.2.2.2
    N Cout N_imap h_blocks w_blocks

/-- The `block_x` loop of the back-weight loop nest. -/
def back_weight_block_x_loop (w_blocks f c i y : Nat) : List (Nat × Nat × Nat × Nat × Nat) :=
  (List.range w_blocks).map (fun block_x => (f, c, i, y, block_x))

/-- The `block_y` loop of the back-weight loop nest. -/
def back_weight_block_y_loop (h_blocks w_blocks f c i : Nat) :
    List (Nat × Nat × Nat × Nat × Nat) :=
  (List.range h_blocks).flatMap (fun block_y => back_weight_block_x_loop w_blocks f c i block_y)

/-- The image loop of the back-weight loop nest. -/
def back_weight_image_loop (N_imap h_blocks w_blocks f c : Nat) :
    List (Nat × Nat × Nat × Nat × Nat) :=
  (List.range N_imap).flatMap (fun image_id =>
    back_weight_block_y_loop h_blocks w_blocks f c image_id)

/-- The channel loop of the back-weight loop nest on a tile of row `bsg_y`. -/
def back_weight_channel_loop (bsg_y Cout N_imap h_blocks w_blocks f : Nat) :
    List (Nat × Nat × Nat × Nat × Nat) :=
  (for_step 8 Cout Cout bsg_y).flatMap (fun channel_id =>
    back_weight_image_loop N_imap h_blocks w_blocks f channel_id)

/-- A unary functor as a functor on the list of input values. -/
def unary_functor {α : Type} [Inhabited α] (f : α → α) : List α → α
  | [a] => f a
  | _ => default

/-- Modelled from the spec: the accessor `dim(i)` of `HBTensor` (and entry `i`
of `get_sizes()`), the extent of dimension `i`. -/
def HBTensor.dim (t : HBTensor) (i : Nat) : Nat := t.sizes.getD i 0

/-- Modelled from the spec: entry `i` of `get_strides()`. -/
def HBTensor.stride (t : HBTensor) (i : Nat) : Nat := t.strides.getD i 0

/-- State of `hb_tiled_foreach_conversion`: remote memory, the addresses
stored to so far, in order, and the two running pointers of the sweep in
progress (`data[0]`, `data[1]` on the rank-1 path, `dst_data`, `src_data` on
the rank-2 and rank-3 paths).  One scalar type stands for the values of
`scalar_src` and of `scalar_dst`. -/
structure ConvState (α : Type) where
  mem : Mem α
  stores : List Nat
  dst_data : Nat
  src_data : Nat

/-- One element of a sweep of `hb_tiled_foreach_conversion`: the input under
the source pointer is read, the value of the functor is stored under the
destination pointer, and both pointers advance by their strides. -/
def conversion_step {α : Type} (functor : α → α) (dst_stride src_stride : Nat)
    (st : ConvState α) : ConvState α :=
  { mem := Function.update st.mem st.dst_data (functor (st.mem st.src_data))
    stores := st.stores ++ [st.dst_data]
    dst_data := ptr_add st.dst_data dst_stride
    src_data := ptr_add st.src_data src_stride }

/-- Body of the four-way unrolled loop of the rank-1 path: four inputs are
read and four destination pointers are taken while the pointers advance, then
the four values of the functor are stored. -/
def unrolled_step {α : Type} (functor : α → α) (dst_stride src_stride : Nat)
    (st : ConvState α) : ConvState α :=
  let input_dp_0 := st.mem st.src_data
  let res_dp_0 := st.dst_data
  let dst1 := ptr_add st.dst_data dst_stride
  let src1 := ptr_add st.src_data src_stride
  let input_dp_1 := st.mem src1
  let res_dp_1 := dst1
  let dst2 := ptr_add dst1 dst_stride
  let src2 := ptr_add src1 src_stride
  let input_dp_2 := st.mem src2
  let res_dp_2 := dst2
  let dst3 := ptr_add dst2 dst_stride
  let src3 := ptr_add src2 src_stride
  let input_dp_3 := st.mem src3
  let res_dp_3 := dst3
  let dst4 := ptr_add dst3 dst_stride
  let src4 := ptr_add src3 src_stride
  { mem := Function.update (Function.update (Function.update (Function.update st.mem
      res_dp_0 (functor input_dp_0)) res_dp_1 (functor input_dp_1))
      res_dp_2 (functor input_dp_2)) res_dp_3 (functor input_dp_3)
    stores := st.stores ++ [res_dp_0, res_dp_1, res_dp_2, res_dp_3]
    dst_data := dst4
    src_data := src4 }

/-- The loop `for (; idx < end - 4; idx += 4)` of the rank-1 path, with `fuel`
bounding the number of iterations: the final `idx` and state. -/
def unrolled_loop {α : Type} (functor : α → α) (dst_stride src_stride end_ : Nat) :
    Nat → Nat → ConvState α → Nat × ConvState α
  | 0, idx, st => (idx, st)
  | fuel + 1, idx, st =>
      if idx < end_ - 4 then
        unrolled_loop functor dst_stride src_stride end_ fuel (idx + 4)
          (unrolled_step functor dst_stride src_stride st)
      else (idx, st)

/-- The rank-1 path of `hb_tiled_foreach_conversion` over `[start, end_)`:
the pointers are moved to `start`, the unrolled loop runs if the range has
more than four elements, and the one-element loop finishes the range.  A
range of `calc_range` has `start ≤ end_`, and `end_ - 4` is taken only when
`end_ - start > 4`, so the `size_t` differences do not wrap. -/
def conversion_rank1 {α : Type} (functor : α → α) (res input : HBTensor) (start end_ : Nat)
    (st : ConvState α) : ConvState α :=
  let strides0 := res.stride0
  let strides1 := input.stride0
  let st0 : ConvState α :=
    { st with
      dst_data := ptr_add res.data (wrap32 (strides0 * start))
      src_data := ptr_add input.data (wrap32 (strides1 * start)) }
  let r := if end_ - start > 4 then unrolled_loop functor strides0 strides1 end_ end_ start st0
    else (start, st0)
  (List.range' r.1 (end_ - r.1)).foldl (fun st _ => conversion_step functor strides0 strides1 st) r.2

/-- The plain one-element-at-a-time loop over `[start, end_)`: the rank-1 path
without its unrolled loop. -/
def conversion_rank1_plain {α : Type} (functor : α → α) (res input : HBTensor) (start end_ : Nat)
    (st : ConvState α) : ConvState α :=
  let strides0 := res.stride0
  let strides1 := input.stride0
  let st0 : ConvState α :=
    { st with
      dst_data := ptr_add res.data (wrap32 (strides0 * start))
      src_data := ptr_add input.data (wrap32 (strides1 * start)) }
  (List.range' start (end_ - start)).foldl
    (fun st _ => conversion_step functor strides0 strides1 st) st0

/-- The rank-2 path of `hb_tiled_foreach_conversion` over the positions
`[start, end_)` of dimension 0: for each, the pointers are set from the
stride of dimension 0 and dimension 1 is swept by stride increments. -/
def conversion_rank2 {α : Type} (functor : α → α) (res input : HBTensor) (start end_ : Nat)
    (st : ConvState α) : ConvState α :=
  (List.range' start (end_ - start)).foldl (fun st idx =>
    let dst_data := ptr_add res.data (wrap32 (idx * res.stride 0))
    let src_data := ptr_add input.data (wrap32 (idx * input.stride 0))
    (List.range' 0 (res.dim 1 - 0)).foldl
      (fun st _ => conversion_step functor (res.stride 1) (input.stride 1) st)
      { st with dst_data := dst_data, src_data := src_data }) st

/-- The rank-3 path of `hb_tiled_foreach_conversion` over the outer positions
`[start, end_)`: each is decoded as `idx % sizes[1]` and `idx / sizes[1]`, and
dimension 2 is swept by stride increments. -/
def conversion_rank3 {α : Type} (functor : α → α) (res input : HBTensor) (start end_ : Nat)
    (st : ConvState α) : ConvState α :=
  (List.range' start (end_ - start)).foldl (fun st idx =>
    let dst_data := ptr_add (ptr_add res.data (wrap32 (idx % res.dim 1 * res.stride 1)))
      (wrap32 (idx / res.dim 1 * res.stride 0))
    let src_data := ptr_add (ptr_add input.data (wrap32 (idx % input.dim 1 * input.stride 1)))
      (wrap32 (idx / input.dim 1 * input.stride 0))
    (List.range' 0 (res.dim 2 - 0)).foldl
      (fun st _ => conversion_step functor (res.stride 2) (input.stride 2) st)
      { st with dst_data := dst_data, src_data := src_data }) st

/-- The general path of `hb_tiled_foreach_conversion` over `[start, end_)`:
both operands are addressed through `offset_calc`. -/
def conversion_general {α : Type} (functor : α → α) (res input : HBTensor) (start end_ : Nat)
    (st : ConvState α) : ConvState α :=
  (List.range' start (end_ - start)).foldl (fun st idx =>
    { st with
      mem := Function.update st.mem (elem_addr res idx) (functor (st.mem (elem_addr input idx)))
      stores := st.stores ++ [elem_addr res idx] }) st

/-- The function `hb_tiled_foreach_conversion` of `hb_tiled_for.hpp`: the path
is chosen by the rank of the result, and the range that `calc_range` gives
this tile is a range of flat indices (rank 1 and general path), of positions
of dimension 0 (rank 2), or of the `dim(0) * dim(1)` outer positions
(rank 3). -/
def hb_tiled_foreach_conversion {α : Type} (c : Topology) (functor : α → α)
    (res input : HBTensor) (st : ConvState α) : ConvState α :=
  if res.ndim = 1 then
    let range := calc_range c res.numel
    conversion_rank1 functor res input range.start range.end_ st
  else if res.ndim = 2 then
    let range := calc_range c (res.dim 0)
    conversion_rank2 functor res input range.start range.end_ st
  else if res.ndim = 3 then
    let range := calc_range c (res.dim 0 * res.dim 1)
    conversion_rank3 functor res input range.start range.end_ st
  else
    let range := calc_range c res.numel
    conversion_general functor res input range.start range.end_ st

/-- The function `hb_tiled_foreach_conversion` run by the tiles
`(pod id, tile id)` of a list, one after the other, on a machine of `P` pods
of `X` by `Y` tiles, from memory `m` and an empty record of stores. -/
def run_tiles_conversion {α : Type} (P X Y : Nat) (functor : α → α) (res input : HBTensor)
    (tiles : List (Nat × Nat)) (m : Mem α) : ConvState α :=
  tiles.foldl (fun st pt => hb_tiled_foreach_conversion ⟨P, pt.1, X, Y, pt.2⟩ functor res input st)
    { mem := m, stores := [], dst_data := 0, src_data := 0 }

/-- The element-wise sweep over a list of flat indices, in the order of the
list, with the operands addressed by `A`. -/
def list_path {α : Type} (A : HBTensor → Nat → Nat) (F : List α → α) (res : HBTensor)
    (inputs : List HBTensor) (L : List Nat) (m : Mem α) : Mem α :=
  L.foldl (addr_body A F res inputs) m

/-- The flat indices of `[start, end_)`. -/
def range_indices (start end_ : Nat) : List Nat := List.range' start (end_ - start)

/-- The flat indices that the rank-2 path visits for the positions
`[start, end_)` of dimension 0, in the order of its loops: position `idx` of
dimension 0 and `inner` of dimension 1 is flat index `idx + dim(0) * inner`. -/
def rank2_indices (res : HBTensor) (start end_ : Nat) : List Nat :=
  (List.range' start (end_ - start)).flatMap (fun idx =>
    (List.range (res.dim 1)).map (fun inner => idx + res.dim 0 * inner))

/-- The flat indices that the rank-3 path visits for the outer positions
`[start, end_)`, in the order of its loops: the outer position `idx` is
position `idx / dim(1)` of dimension 0 and `idx % dim(1)` of dimension 1. -/
def rank3_indices (res : HBTensor) (start end_ : Nat) : List Nat :=
  (List.range' start (end_ - start)).flatMap (fun idx =>
    (List.range (res.dim 2)).map (fun inner =>
      idx / res.dim 1 + res.dim 0 * (idx % res.dim 1 + res.dim 1 * inner)))

/-- The flat indices that `hb_tiled_foreach_conversion` visits on a tile, in
the order of its loops. -/
def conversion_indices (c : Topology) (res : HBTensor) : List Nat :=
  if res.ndim = 1 then
    range_indices (calc_range c res.numel).start (calc_range c res.numel).end_
  else if res.ndim = 2 then
    rank2_indices res (calc_range c (res.dim 0)).start (calc_range c (res.dim 0)).end_
  else if res.ndim = 3 then
    rank3_indices res (calc_range c (res.dim 0 * res.dim 1)).start
      (calc_range c (res.dim 0 * res.dim 1)).end_
  else range_indices (calc_range c res.numel).start (calc_range c res.numel).end_

/-- A transformer of the conversion state performs the element-wise sweep
over the list `L` of flat indices, with the operands addressed by `A`: the
memory afterwards is that of the sweep, and the addresses of the result
elements of `L` are appended, in order, to the record of stores. -/
def performs_sweep {α : Type} [Inhabited α] (A : HBTensor → Nat → Nat) (f : α → α)
    (res input : HBTensor) (B : ConvState α → ConvState α) (L : List Nat) : Prop :=
  ∀ st, (B st).mem = list_path A (unary_functor f) res [input] L st.mem ∧
    (B st).stores = st.stores ++ L.map (A res)

/-- A rank-1 result of nine 4-byte elements at address 0. -/
def cv_res1 : HBTensor := ⟨9, [4], [9], 0⟩

/-- A rank-1 input of nine 8-byte elements at address 64. -/
def cv_in1 : HBTensor := ⟨9, [8], [9], 64⟩

/-- A 2x2x2 result of 4-byte elements at address 0. -/
def cv_res3 : HBTensor := ⟨8, [4, 8, 16], [2, 2, 2], 0⟩

/-- A 2x2x2 input of 8-byte elements at address 64. -/
def cv_in3 : HBTensor := ⟨8, [8, 16, 32], [2, 2, 2], 64⟩

/-- One access of `HBTensorCached` to its arrays: a read of the backing
store `data[i]`, or a read or a write of slot `s` of `cache_tag` or of
`cache_data`. -/
inductive CacheAccess where
  | backing_read (i : Nat)
  | tag_read (s : Nat)
  | data_read (s : Nat)
  | tag_write (s : Nat)
  | data_write (s : Nat)
deriving DecidableEq, Repr

/-- An access is in bounds: a backing index is below the element count `N`,
a slot index is below the slot count `n`. -/
def CacheAccess.in_bounds (N n : Nat) : CacheAccess → Prop
  | CacheAccess.backing_read i => i < N
  | CacheAccess.tag_read s => s < n
  | CacheAccess.data_read s => s < n
  | CacheAccess.tag_write s => s < n
  | CacheAccess.data_write s => s < n

/-- The accesses of the body of the loop of `prefetch_impl` for offset `i`:
`data_ptr[i % cache_numel] = remote_data_ptr[i]; tag_ptr[i % cache_numel] = i`. -/
def HBTensorCached.fill_accesses {α : Type} (c : HBTensorCached α) (i : Nat) :
    List CacheAccess :=
  [CacheAccess.backing_read i, CacheAccess.data_write (i % c.cache_numel),
    CacheAccess.tag_write (i % c.cache_numel)]

/-- The accesses of `prefetch_impl`, in program order. -/
def HBTensorCached.prefetch_impl_accesses {α : Type} (c : HBTensorCached α) (start end_ : Nat) :
    List CacheAccess :=
  (List.range' start (end_ - start)).flatMap c.fill_accesses

/-- The accesses of `prefetch`, in program order. -/
def HBTensorCached.prefetch_accesses {α : Type} (c : HBTensorCached α) (off : Nat) :
    List CacheAccess :=
  c.prefetch_impl_accesses off (min (wrap32 (off + c.cache_numel)) c.N)

/-- The accesses of `cached_read` at flat offset `off`, in program order: the
tag comparison, then on a hit the read of the slot, on a miss the prefetch,
the read of `data[off]` and the two writes of slot `ci`. -/
def HBTensorCached.cached_read_accesses {α : Type} (c : HBTensorCached α) (off : Nat) :
    List CacheAccess :=
  let ci := off % c.cache_numel
  if c.cache_tag ci = off then
    [CacheAccess.tag_read ci, CacheAccess.data_read ci]
  else
    let c1 := { c with misses := wrap32 (c.misses + 1) }
    [CacheAccess.tag_read ci] ++ c1.prefetch_accesses off
      ++ [CacheAccess.backing_read off, CacheAccess.tag_write ci, CacheAccess.data_write ci]

/-- The decode of a block index in the main loop of
`tensorlib_conv_resnet_32_3x3` (`kernel_conv_resnet.cpp`): the quadruple
`(image_id, filter_id, block_y, block_x)`, with `h_blocks` and `w_blocks` the
values of `h_blocks_per_out_channel` and `w_blocks_per_out_channel`. -/
def conv_resnet_decode (Cout h_blocks w_blocks idx : Nat) : Nat × Nat × Nat × Nat :=
  let blocks_per_out_channel := h_blocks * w_blocks
  let tmp := idx
  let image_id := tmp / (Cout * blocks_per_out_channel)
  let tmp := tmp % (Cout * blocks_per_out_channel)
  let filter_id := tmp / blocks_per_out_channel
  let tmp := tmp % blocks_per_out_channel
  let block_y := tmp / w_blocks
  let block_x := tmp % w_blocks
  (image_id, filter_id, block_y, block_x)

/-- The block indices for which the tile `bsg_id` of a tile group of `T` tiles
runs the body of the main loop of `tensorlib_conv_resnet_32_3x3`:
`for (idx = bsg_id; idx < num_blocks; idx += T) if (idx < num_blocks) ...`,
with `fuel` bounding the number of iterations. -/
def conv_resnet_block_indices (T num_blocks bsg_id fuel : Nat) : List Nat :=
  (for_step T num_blocks fuel bsg_id).filter (fun idx => decide (idx < num_blocks))

/-- The output blocks the tile `bsg_id` produces in the main loop of
`tensorlib_conv_resnet_32_3x3`, in the order of the iterations. -/
def conv_resnet_main_loop (N Cout h_blocks w_blocks T bsg_id fuel : Nat) :
    List (Nat × Nat × Nat × Nat) :=
  let blocks_per_out_channel := h_blocks * w_blocks
  let num_blocks := N * Cout * blocks_per_out_channel
  (conv_resnet_block_indices T num_blocks bsg_id fuel).map
    (conv_resnet_decode Cout h_blocks w_blocks)

/-- The constants `BLOCK_DIM_X`, `BLOCK_DIM_Y`, `FILTER_DIM`, `IMAP_DIM_X` and
`IMAP_DIM_Y` of `kernel_conv_resnet_systolic_smu.cpp`. -/
def BLOCK_DIM_X : Nat := 16

/-- The constant `BLOCK_DIM_Y`. -/
def BLOCK_DIM_Y : Nat := 8

/-- The constant `FILTER_DIM`. -/
def FILTER_DIM : Nat := 3

/-- The constant `IMAP_DIM_X`. -/
def IMAP_DIM_X : Nat := BLOCK_DIM_X + FILTER_DIM - 1

/-- The constant `IMAP_DIM_Y`. -/
def IMAP_DIM_Y : Nat := BLOCK_DIM_Y + FILTER_DIM - 1

/-- The address `p + k` of a `float*` pointer `p`: `k` elements of 4 bytes
further, on 32-bit pointers. -/
def float_ptr_add (p k : Nat) : Nat := ptr_add p (4 * k)

/-- State of a scratchpad copy: the memory, the addresses loaded from and
stored to so far, in order, and the two pointers `dest` and `src`. -/
structure CopyState (α : Type) where
  mem : Mem α
  loads : List Nat
  stores : List Nat
  dest : Nat
  src : Nat

/-- Body of the loop of `spcpy_imap`: nine loads into `tmp0`, ..., `tmp8`,
then nine stores, then both pointers advance by nine elements. -/
def spcpy_imap_body {α : Type} (st : CopyState α) : CopyState α :=
  let tmp0 := st.mem (float_ptr_add st.src 0)
  let tmp1 := st.mem (float_ptr_add st.src 1)
  let tmp2 := st.mem (float_ptr_add st.src 2)
  let tmp3 := st.mem (float_ptr_add st.src 3)
  let tmp4 := st.mem (float_ptr_add st.src 4)
  let tmp5 := st.mem (float_ptr_add st.src 5)
  let tmp6 := st.mem (float_ptr_add st.src 6)
  let tmp7 := st.mem (float_ptr_add st.src 7)
  let tmp8 := st.mem (float_ptr_add st.src 8)
  { mem := Function.update (Function.update (Function.update (Function.update (Function.update
      (Function.update (Function.update (Function.update (Function.update st.mem
      (float_ptr_add st.dest 0) tmp0) (float_ptr_add st.dest 1) tmp1)
      (float_ptr_add st.dest 2) tmp2) (float_ptr_add st.dest 3) tmp3)
      (float_ptr_add st.dest 4) tmp4) (float_ptr_add st.dest 5) tmp5)
      (float_ptr_add st.dest 6) tmp6) (float_ptr_add st.dest 7) tmp7)
      (float_ptr_add st.dest 8) tmp8
    loads := st.loads ++ [float_ptr_add st.src 0, float_ptr_add st.src 1,
      float_ptr_add st.src 2, float_ptr_add st.src 3, float_ptr_add st.src 4,
      float_ptr_add st.src 5, float_ptr_add st.src 6, float_ptr_add st.src 7,
      float_ptr_add st.src 8]
    stores := st.stores ++ [float_ptr_add st.dest 0, float_ptr_add st.dest 1,
      float_ptr_add st.dest 2, float_ptr_add st.dest 3, float_ptr_add st.dest 4,
      float_ptr_add st.dest 5, float_ptr_add st.dest 6, float_ptr_add st.dest 7,
      float_ptr_add st.dest 8]
    dest := float_ptr_add st.dest 9
    src := float_ptr_add st.src 9 }

/-- The function `spcpy_imap`: the body runs for `i = 0, 9, 18, ...` while
`i < IMAP_DIM_X * IMAP_DIM_Y`, with `fuel` bounding the number of iterations. -/
def spcpy_imap {α : Type} (fuel : Nat) (st : CopyState α) : CopyState α :=
  (for_step 9 (IMAP_DIM_X * IMAP_DIM_Y) fuel 0).foldl (fun st _ => spcpy_imap_body st) st

/-- Body of the loop of `spcpy_grad`: eight loads into `tmp0`, ..., `tmp7`,
then eight stores, then both pointers advance by eight elements. -/
def spcpy_grad_body {α : Type} (st : CopyState α) : CopyState α :=
  let tmp0 := st.mem (float_ptr_add st.src 0)
  let tmp1 := st.mem (float_ptr_add st.src 1)
  let tmp2 := st.mem (float_ptr_add st.src 2)
  let tmp3 := st.mem (float_ptr_add st.src 3)
  let tmp4 := st.mem (float_ptr_add st.src 4)
  let tmp5 := st.mem (float_ptr_add st.src 5)
  let tmp6 := st.mem (float_ptr_add st.src 6)
  let tmp7 := st.mem (float_ptr_add st.src 7)
  { mem := Function.update (Function.update (Function.update (Function.update (Function.update
      (Function.update (Function.update (Function.update st.mem
      (float_ptr_add st.dest 0) tmp0) (float_ptr_add st.dest 1) tmp1)
      (float_ptr_add st.dest 2) tmp2) (float_ptr_add st.dest 3) tmp3)
      (float_ptr_add st.dest 4) tmp4) (float_ptr_add st.dest 5) tmp5)
      (float_ptr_add st.dest 6) tmp6) (float_ptr_add st.dest 7) tmp7
    loads := st.loads ++ [float_ptr_add st.src 0, float_ptr_add st.src 1,
      float_ptr_add st.src 2, float_ptr_add st.src 3, float_ptr_add st.src 4,
      float_ptr_add st.src 5, float_ptr_add st.src 6, float_ptr_add st.src 7]
    stores := st.stores ++ [float_ptr_add st.dest 0, float_ptr_add st.dest 1,
      float_ptr_add st.dest 2, float_ptr_add st.dest 3, float_ptr_add st.dest 4,
      float_ptr_add st.dest 5, float_ptr_add st.dest 6, float_ptr_add st.dest 7]
    dest := float_ptr_add st.dest 8
    src := float_ptr_add st.src 8 }

/-- The function `spcpy_grad`: the body runs for `i = 0, 8, 16, ...` while
`i < BLOCK_DIM_X * BLOCK_DIM_Y`, with `fuel` bounding the number of
iterations. -/
def spcpy_grad {α : Type} (fuel : Nat) (st : CopyState α) : CopyState α :=
  (for_step 8 (BLOCK_DIM_X * BLOCK_DIM_Y) fuel 0).foldl (fun st _ => spcpy_grad_body st) st

/-- Body `dest[i] = src[i]` of the plain copy loop. -/
def copy_plain_step {α : Type} (i : Nat) (st : CopyState α) : CopyState α :=
  { st with
    mem := Function.update st.mem (float_ptr_add st.dest i) (st.mem (float_ptr_add st.src i))
    loads := st.loads ++ [float_ptr_add st.src i]
    stores := st.stores ++ [float_ptr_add st.dest i] }

/-- The plain copy loop `for (int i = 0; i < n; i++) dest[i] = src[i]`, the
loop the bodies of `spcpy_imap` and `spcpy_grad` unroll. -/
def copy_plain {α : Type} (n : Nat) (st : CopyState α) : CopyState α :=
  (List.range n).foldl (fun st i => copy_plain_step i st) st

/-- A block of `n` loads followed by `n` stores, after which both pointers
advance by `n` elements: the common shape of the bodies of `spcpy_imap`
(`n = 9`) and of `spcpy_grad` (`n = 8`). -/
def copy_block {α : Type} (n : Nat) (st : CopyState α) : CopyState α :=
  { mem := (List.range n).foldl
      (fun m k => Function.update m (float_ptr_add st.dest k) (st.mem (float_ptr_add st.src k)))
      st.mem
    loads := st.loads ++ (List.range n).map (float_ptr_add st.src)
    stores := st.stores ++ (List.range n).map (float_ptr_add st.dest)
    dest := float_ptr_add st.dest n
    src := float_ptr_add st.src n }

/-- The memory `m0` with the `n` elements from `src` copied to `dest`, every
value taken from `m0`. -/
def copied {α : Type} (m0 : Mem α) (dest src n : Nat) : Mem α :=
  (List.range n).foldl
    (fun m i => Function.update m (float_ptr_add dest i) (m0 (float_ptr_add src i))) m0

/-- The outcome of copying exactly `n` elements from `src` to `dest`: element
`i` of the destination holds what element `i` of the source held, for
`i < n`; the rest of the memory is unchanged; and the loads and the stores
are those of the source and destination elements `0, ..., n - 1`, in order. -/
def copies_exactly {α : Type} (n : Nat) (st after : CopyState α) : Prop :=
  (∀ i, i < n → after.mem (float_ptr_add st.dest i) = st.mem (float_ptr_add st.src i)) ∧
    (∀ a, (∀ i, i < n → a ≠ float_ptr_add st.dest i) → after.mem a = st.mem a) ∧
    after.loads = st.loads ++ (List.range n).map (float_ptr_add st.src) ∧
    after.stores = st.stores ++ (List.range n).map (float_ptr_add st.dest)

/-- An example state of a copy: the memory that holds at every address that
address plus 7, empty logs, the destination at address 4000 and the source at
address 1000. -/
def copy_example : CopyState Nat :=
  { mem := fun a => a + 7, loads := [], stores := [], dest := 4000, src := 1000 }

/-- The inner loop `for (; k < mid_dim - 8; k += 8)` of `compute_simple`
(`kernel_addmm.hpp`) for the cell `dest[dest_row_offset + j]`: eight products
`tmp0`, ..., `tmp7` are added to the cell at once.  The result is the value of
`k` on exit and the array `dest`; `fuel` bounds the number of iterations, and
the `int` comparison is that of integers (`mid_dim - 8` may be negative).  The
three pointers name three arrays, as at the call site in `kernel_mm.cpp`. -/
def compute_simple_unrolled {R : Type} [Semiring R] (sp_mat1 sp_mat2 : Nat → R)
    (dim_x mid_dim dest_row_offset mat1_row_offset j : Nat) :
    Nat → Nat → (Nat → R) → Nat × (Nat → R)
  | 0, k, dest => (k, dest)
  | fuel + 1, k, dest =>
    if (k : Int) < (mid_dim : Int) - 8 then
      let mat1_idx := mat1_row_offset + k
      let mat2_idx := k * dim_x + j
      let tmp0 := sp_mat1 mat1_idx * sp_mat2 mat2_idx
      let tmp1 := sp_mat1 (mat1_idx + 1) * sp_mat2 (mat2_idx + dim_x)
      let tmp2 := sp_mat1 (mat1_idx + 2) * sp_mat2 (mat2_idx + 2 * dim_x)
      let tmp3 := sp_mat1 (mat1_idx + 3) * sp_mat2 (mat2_idx + 3 * dim_x)
      let tmp4 := sp_mat1 (mat1_idx + 4) * sp_mat2 (mat2_idx + 4 * dim_x)
      let tmp5 := sp_mat1 (mat1_idx + 5) * sp_mat2 (mat2_idx + 5 * dim_x)
      let tmp6 := sp_mat1 (mat1_idx + 6) * sp_mat2 (mat2_idx + 6 * dim_x)
      let tmp7 := sp_mat1 (mat1_idx + 7) * sp_mat2 (mat2_idx + 7 * dim_x)
      compute_simple_unrolled sp_mat1 sp_mat2 dim_x mid_dim dest_row_offset mat1_row_offset j
        fuel (k + 8)
        (Function.update dest (dest_row_offset + j)
          (dest (dest_row_offset + j) + (tmp0 + tmp1 + tmp2 + tmp3 + tmp4 + tmp5 + tmp6 + tmp7)))
    else (k, dest)

/-- The fix-up loop `for (; k < mid_dim; k++)` of `compute_simple`: the
remaining products are added to `tmp_fix`, whose final value is the result;
`fuel` bounds the number of iterations. -/
def compute_simple_fixup {R : Type} [Semiring R] (sp_mat1 sp_mat2 : Nat → R)
    (dim_x mid_dim mat1_row_offset j : Nat) : Nat → Nat → R → R
  | 0, _, tmp_fix => tmp_fix
  | fuel + 1, k, tmp_fix =>
    if k < mid_dim then
      let mat1_idx := mat1_row_offset + k
      let mat2_idx := k * dim_x + j
      compute_simple_fixup sp_mat1 sp_mat2 dim_x mid_dim mat1_row_offset j fuel (k + 1)
        (tmp_fix + sp_mat1 mat1_idx * sp_mat2 mat2_idx)
    else tmp_fix

/-- Body of the loop over `j` of `compute_simple` for row `i`: the unrolled
loop from `k = 0`, then the fix-up loop from where it stopped, whose sum is
added to the cell. -/
def compute_simple_cell {R : Type} [Semiring R] (fuel : Nat) (sp_mat1 sp_mat2 : Nat → R)
    (dim_x mid_dim i j : Nat) (dest : Nat → R) : Nat → R :=
  let dest_row_offset := i * dim_x
  let mat1_row_offset := i * mid_dim
  let r := compute_simple_unrolled sp_mat1 sp_mat2 dim_x mid_dim dest_row_offset mat1_row_offset
    j fuel 0 dest
  let tmp_fix := compute_simple_fixup sp_mat1 sp_mat2 dim_x mid_dim mat1_row_offset j fuel r.1 0
  Function.update r.2 (dest_row_offset + j) (r.2 (dest_row_offset + j) + tmp_fix)

/-- The function `compute_simple` of `kernel_addmm.hpp` over exact arithmetic:
the array `dest` afterwards. -/
def compute_simple {R : Type} [Semiring R] (fuel : Nat) (sp_mat1 sp_mat2 : Nat → R)
    (dim_y dim_x mid_dim : Nat) (dest : Nat → R) : Nat → R :=
  (List.range dim_y).foldl (fun dest i =>
    (List.range dim_x).foldl (fun dest j =>
      compute_simple_cell fuel sp_mat1 sp_mat2 dim_x mid_dim i j dest) dest) dest

/-- The plain accumulation loop
`for i, for j, for k: dest[i * dim_x + j] += sp_mat1[i * mid_dim + k] * sp_mat2[k * dim_x + j]`. -/
def compute_plain {R : Type} [Semiring R] (sp_mat1 sp_mat2 : Nat → R)
    (dim_y dim_x mid_dim : Nat) (dest : Nat → R) : Nat → R :=
  (List.range dim_y).foldl (fun dest i =>
    (List.range dim_x).foldl (fun dest j =>
      (List.range mid_dim).foldl (fun dest k =>
        Function.update dest (i * dim_x + j)
          (dest (i * dim_x + j) + sp_mat1 (i * mid_dim + k) * sp_mat2 (k * dim_x + j)))
        dest) dest) dest

/-- The sum over `k` in `[0, mid_dim)` of
`sp_mat1[i * mid_dim + k] * sp_mat2[k * dim_x + j]`. -/
def dot_product {R : Type} [Semiring R] (sp_mat1 sp_mat2 : Nat → R)
    (dim_x mid_dim i j : Nat) : R :=
  ((List.range mid_dim).map (fun k => sp_mat1 (i * mid_dim + k) * sp_mat2 (k * dim_x + j))).sum

/-- An example first operand over the rationals: element `a` is `a / 2`. -/
def mm_example_mat1 : Nat → ℚ := fun a => (a : ℚ) / 2

/-- An example second operand over the rationals: element `a` is `a + 1`. -/
def mm_example_mat2 : Nat → ℚ := fun a => (a : ℚ) + 1

/-- The write-back of one result block in `tensorlib_mm` (`kernel_mm.cpp`)
for the block coordinates `rr`, `rc`: the pairs `(row, col)` of the elements
`result(rr * BLOCK_DIM + i, rc * BLOCK_DIM + j)` written, in order.  The
constant `BLOCK_DIM` is defined outside the file and is a parameter here.
Inside the block loops the numbers of blocks are positive, so the `int`
differences `m1_num_blk_per_row - 1` and `m2_num_blk_per_col - 1` are those of
natural numbers. -/
def tensorlib_mm_block_writes (BLOCK_DIM r1 c2 rr rc : Nat) : List (Nat × Nat) :=
  let m1_num_blk_per_row := (r1 + BLOCK_DIM - 1) / BLOCK_DIM
  let m2_num_blk_per_col := (c2 + BLOCK_DIM - 1) / BLOCK_DIM
  let m1_last_blk_dim_y := if r1 % BLOCK_DIM = 0 then BLOCK_DIM else r1 % BLOCK_DIM
  let m2_last_blk_dim_x := if c2 % BLOCK_DIM = 0 then BLOCK_DIM else c2 % BLOCK_DIM
  let res_dim_y := if rr = m1_num_blk_per_row - 1 then m1_last_blk_dim_y else BLOCK_DIM
  let res_dim_x := if rc = m2_num_blk_per_col - 1 then m2_last_blk_dim_x else BLOCK_DIM
  (List.range res_dim_y).flatMap (fun i =>
    (List.range res_dim_x).map (fun j => (rr * BLOCK_DIM + i, rc * BLOCK_DIM + j)))

/-- The elements of `result` that the tile `(bsg_x, bsg_y)` of a tile group
of `BSG_TILE_GROUP_X_DIM` by `BSG_TILE_GROUP_Y_DIM` tiles writes in
`tensorlib_mm`, for a first operand of `r1` rows and a second operand of `c2`
columns: the block loops step by the dimensions of the tile group and the
block `(i + bsg_y, j + bsg_x)` is written back; `fuel` bounds the number of
iterations of each block loop. -/
def tensorlib_mm_writes (BLOCK_DIM r1 c2 BSG_TILE_GROUP_X_DIM BSG_TILE_GROUP_Y_DIM bsg_x bsg_y
    fuel : Nat) : List (Nat × Nat) :=
  let m1_num_blk_per_row := (r1 + BLOCK_DIM - 1) / BLOCK_DIM
  let m2_num_blk_per_col := (c2 + BLOCK_DIM - 1) / BLOCK_DIM
  (for_step BSG_TILE_GROUP_Y_DIM m1_num_blk_per_row fuel 0).flatMap (fun i =>
    (for_step BSG_TILE_GROUP_X_DIM m2_num_blk_per_col fuel 0).flatMap (fun j =>
      let rr := i + bsg_y
      let rc := j + bsg_x
      tensorlib_mm_block_writes BLOCK_DIM r1 c2 rr rc))

/-- The exchange of the elements at indices `a` and `b`:
`temp = vec(a); vec(a) = vec(b); vec(b) = temp`. -/
def swap_elems {α : Type} (vec : Int → α) (a b : Int) : Int → α :=
  let temp := vec a
  Function.update (Function.update vec a (vec b)) b temp

/-- The loop `while ((*vec)(i) <= (*vec)(piv) && i < last) i++` of
`tensorlib_vsort_recur` (`kernel_vsort.cpp`): the value of `i` on exit, or
`none` when `fuel` iterations do not reach the exit.  Indices are `int32_t`
values, modelled as integers. -/
def vsort_scan_i {α : Type} [LinearOrder α] (vec : Int → α) (piv last : Int) :
    Nat → Int → Option Int
  | 0, _ => none
  | fuel + 1, i =>
    if vec i ≤ vec piv ∧ i < last then vsort_scan_i vec piv last fuel (i + 1) else some i

/-- The loop `while ((*vec)(j) > (*vec)(piv)) j--` of `tensorlib_vsort_recur`:
the value of `j` on exit, or `none` when `fuel` iterations do not reach the
exit. -/
def vsort_scan_j {α : Type} [LinearOrder α] (vec : Int → α) (piv : Int) :
    Nat → Int → Option Int
  | 0, _ => none
  | fuel + 1, j => if vec j > vec piv then vsort_scan_j vec piv fuel (j - 1) else some j

/-- The loop `while (i < j)` of `tensorlib_vsort_recur`: both scans, then the
exchange of the elements at `i` and `j` when `i < j`.  The result is the value
of `j` on exit and the vector. -/
def vsort_partition {α : Type} [LinearOrder α] (piv last : Int) :
    Nat → Int → Int → (Int → α) → Option (Int × (Int → α))
  | 0, _, _, _ => none
  | fuel + 1, i, j, vec =>
    if i < j then
      (vsort_scan_i vec piv last fuel i).bind (fun i =>
        (vsort_scan_j vec piv fuel j).bind (fun j =>
          vsort_partition piv last fuel i j (if i < j then swap_elems vec i j else vec)))
    else some (j, vec)

/-- The function `tensorlib_vsort_recur` of `kernel_vsort.cpp`: the vector
afterwards, or `none` when `fuel` does not suffice for its loops and its
recursion.  The quotient `(first + last) / 2` is that of C when the sum is
not negative, which it is whenever `0 ≤ first < last`. -/
def tensorlib_vsort_recur {α : Type} [LinearOrder α] :
    Nat → (Int → α) → Int → Int → Option (Int → α)
  | 0, _, _, _ => none
  | fuel + 1, vec, first, last =>
    if first ≥ last then some vec
    else
      let i := first
      let j := last
      let piv := (first + last) / 2
      (vsort_partition piv last fuel i j vec).bind (fun r =>
        let j := r.1
        let vec := swap_elems r.2 piv j
        (tensorlib_vsort_recur fuel vec first (j - 1)).bind (fun vec =>
          tensorlib_vsort_recur fuel vec (j + 1) last))

/-- The vector `[2, 0, 1]` (and 0 at every other index). -/
def vsort_example : Int → Nat :=
  fun i => if i = 0 then 2 else if i = 1 then 0 else if i = 2 then 1 else 0

/-- The conversion of an `int32_t` index to `uint32_t`, as in the product
`i * stride` with a `uint32_t` stride. -/
def int32_to_uint32 (i : Int) : Nat := (i % (2 ^ 32 : Int)).toNat

/-- The address `data + i * stride` of `quicksort_recur`: the product is a
`uint32_t` and the pointer has 32 bits. -/
def quicksort_addr (data stride : Nat) (i : Int) : Nat :=
  ptr_add data (wrap32 (int32_to_uint32 i * stride))

/-- The loop `while (i_val <= p_val && i < last) i++` of `quicksort_recur`
(`kernel_vsort.cpp`): the values `i_val` and `p_val` were loaded before the
loop and are not loaded again.  The result is the value of `i` on exit, or
`none` when `fuel` iterations do not reach the exit. -/
def quicksort_scan_i {α : Type} [LinearOrder α] (i_val p_val : α) (last : Int) :
    Nat → Int → Option Int
  | 0, _ => none
  | fuel + 1, i =>
    if i_val ≤ p_val ∧ i < last then quicksort_scan_i i_val p_val last fuel (i + 1) else some i

/-- The loop `while (j_val > p_val) j--` of `quicksort_recur`: the values
`j_val` and `p_val` were loaded before the loop and are not loaded again.  The
result is the value of `j` on exit, or `none` when `fuel` iterations do not
reach the exit. -/
def quicksort_scan_j {α : Type} [LinearOrder α] (j_val p_val : α) : Nat → Int → Option Int
  | 0, _ => none
  | fuel + 1, j => if j_val > p_val then quicksort_scan_j j_val p_val fuel (j - 1) else some j

/-- The values that `j` takes in the loop `while (j_val > p_val) j--` of
`quicksort_recur` within `fuel` iterations, the starting value first. -/
def quicksort_scan_j_values {α : Type} [LinearOrder α] (j_val p_val : α) : Nat → Int → List Int
  | 0, j => [j]
  | fuel + 1, j =>
    if j_val > p_val then j :: quicksort_scan_j_values j_val p_val fuel (j - 1) else [j]

/-- The exchange of the elements under the pointers `v1` and `v2`:
`temp = *v1; *v1 = *v2; *v2 = temp`. -/
def swap_ptrs {α : Type} (mem : Mem α) (v1 v2 : Nat) : Mem α :=
  let temp := mem v1
  Function.update (Function.update mem v1 (mem v2)) v2 temp

/-- The loop `while (i < j)` of `quicksort_recur`: the three values are
loaded, both scans run on the loaded values, then the elements at `i` and `j`
are exchanged when `i < j`.  The result is the value of `j` on exit and the
memory. -/
def quicksort_partition {α : Type} [LinearOrder α] (data stride : Nat) (piv last : Int) :
    Nat → Int → Int → Mem α → Option (Int × Mem α)
  | 0, _, _, _ => none
  | fuel + 1, i, j, mem =>
    if i < j then
      let i_val := mem (quicksort_addr data stride i)
      let j_val := mem (quicksort_addr data stride j)
      let p_val := mem (quicksort_addr data stride piv)
      (quicksort_scan_i i_val p_val last fuel i).bind (fun i =>
        (quicksort_scan_j j_val p_val fuel j).bind (fun j =>
          quicksort_partition data stride piv last fuel i j
            (if i < j then
              swap_ptrs mem (quicksort_addr data stride i) (quicksort_addr data stride j)
            else mem)))
    else some (j, mem)

/-- The function `quicksort_recur` of `kernel_vsort.cpp`: the memory
afterwards, or `none` when `fuel` does not suffice for its loops and its
recursion.  The quotient `(first + last) / 2` is that of C when the sum is
not negative, which it is whenever `0 ≤ first < last`. -/
def quicksort_recur {α : Type} [LinearOrder α] (data stride : Nat) :
    Nat → Mem α → Int → Int → Option (Mem α)
  | 0, _, _, _ => none
  | fuel + 1, mem, first, last =>
    if first ≥ last then some mem
    else
      let i := first
      let j := last
      let piv := (first + last) / 2
      (quicksort_partition data stride piv last fuel i j mem).bind (fun r =>
        let j := r.1
        let mem := swap_ptrs r.2 (quicksort_addr data stride j) (quicksort_addr data stride piv)
        (quicksort_recur data stride fuel mem first (j - 1)).bind (fun mem =>
          quicksort_recur data stride fuel mem (j + 1) last))

/-- The array `[1, 2]` of 4-byte elements at address 0 (and 0 at every other
address). -/
def quicksort_example : Mem Nat :=
  fun a => if a = 0 then 1 else if a = 4 then 2 else 0

/-- The function `compare_swap` of `kernel_vsort.cpp`: when both indices are
below `numel` and the element at `i` is above the element at `j`, the two are
exchanged. -/
def compare_swap {α : Type} [LinearOrder α] (numel : Nat) (vec : Nat → α) (i j : Nat) :
    Nat → α :=
  if i < numel ∧ j < numel then
    if vec i > vec j then
      let t := vec i
      Function.update (Function.update vec i (vec j)) j t
    else vec
  else vec

/-- The loop `for (i = l + r; i + r < l + s; i += m)` of `odd_even`, from the
value `i` of its counter: the guarded `compare_swap` of `i` and `i + r`.  The
result is `none` when `fuel` iterations do not reach the exit. -/
def odd_even_loop {α : Type} [LinearOrder α] (numel l s r m : Nat) :
    Nat → Nat → (Nat → α) → Option (Nat → α)
  | 0, _, _ => none
  | fuel + 1, i, vec =>
    if i + r < l + s then
      odd_even_loop numel l s r m fuel (i + m)
        (if i + r < numel then compare_swap numel vec i (i + r) else vec)
    else some vec

/-- The function `odd_even` of `kernel_vsort.cpp`: the vector afterwards, or
`none` when `fuel` does not suffice for its recursion and its loop. -/
def odd_even {α : Type} [LinearOrder α] (numel : Nat) :
    Nat → (Nat → α) → Nat → Nat → Nat → Option (Nat → α)
  | 0, _, _, _, _ => none
  | fuel + 1, vec, l, s, r =>
    let m := r * 2
    if m < s then
      (odd_even numel fuel vec l s m).bind (fun vec =>
        (odd_even numel fuel vec (l + r) s m).bind (fun vec =>
          odd_even_loop numel l s r m fuel (l + r) vec))
    else
      some (if l + r < numel then compare_swap numel vec l (l + r) else vec)

/-- The function `merge_range` of `kernel_vsort.cpp`: the vector afterwards,
or `none` when `fuel` does not suffice.  The `size_t` difference `hi - lo` is
that of natural numbers, which it is for `lo ≤ hi`. -/
def merge_range {α : Type} [LinearOrder α] (numel : Nat) :
    Nat → (Nat → α) → Nat → Nat → Option (Nat → α)
  | 0, _, _, _ => none
  | fuel + 1, vec, lo, hi =>
    if hi - lo > 1 then
      let mid := lo + (hi - lo) / 2
      (merge_range numel fuel vec lo mid).bind (fun vec =>
        (merge_range numel fuel vec mid hi).bind (fun vec =>
          odd_even numel fuel vec lo (hi - lo) 1))
    else some vec

/-- The vector `v2` is a rearrangement of `v1` that moves only elements at
indices in `S`. -/
def rearranged_on {α : Type} (S : Nat → Prop) (v1 v2 : Nat → α) : Prop :=
  ∃ σ : Equiv.Perm Nat, (∀ p, ¬ S p → σ p = p) ∧ ∀ p, v2 p = v1 (σ p)

/-- A vector of truth values read as if every element from index `numel` on
were `true`. -/
def ext_true (numel : Nat) (v : Nat → Bool) (p : Nat) : Bool :=
  if p < numel then v p else true

/-- The vector `[5, 3, 8, 1, 9, 2, 7]` (and 0 at every other index). -/
def merge_example : Nat → Nat :=
  fun i => [5, 3, 8, 1, 9, 2, 7].getD i 0

/-- The indices `l`, `l + r`, ..., `l + (n - 1) * r` that are below `numel`. -/
def stride_set (numel l r n : Nat) (p : Nat) : Prop :=
  p < numel ∧ ∃ k, k < n ∧ p = l + k * r

/-- Membership of a flat index in a range. -/
def hb_range.contains (r : hb_range) (i : Nat) : Prop := r.start ≤ i ∧ i < r.end_

instance (r : hb_range) (i : Nat) : Decidable (r.contains i) := by
  unfold hb_range.contains; infer_instance

/-! ## Theorems -/

/-- An index lies in the `q`-th chunk of length `L` exactly when `q` is its quotient. -/
theorem chunk_iff (L q i : Nat) (hL : 0 < L) :
    (L * q ≤ i ∧ i < L * q + L) ↔ i / L = q := by
  constructor
  · rintro ⟨h1, h2⟩
    apply Nat.div_eq_of_lt_le
    · rw [Nat.mul_comm]; exact h1
    · rw [Nat.succ_mul, Nat.mul_comm]; exact h2
  · rintro rfl
    have h1 := Nat.div_add_mod i L
    have h2 := Nat.mod_lt i hL
    constructor <;> omega

/-- Which indices a tile receives: `i` is in the tile's range exactly when it
is below `numel`, its pod quotient is the pod id, and the quotient of its
position inside the pod is the tile id. -/
theorem contains_calc_range (c : Topology) (numel i : Nat) :
    (calc_range c numel).contains i ↔
      i < numel ∧ i / (numel / c.BSG_POD_DIM + 1) = c.bsg_pod_id ∧
        (i - (numel / c.BSG_POD_DIM + 1) * c.bsg_pod_id)
          / (pod_size c.BSG_POD_DIM c.bsg_pod_id numel / (c.bsg_tiles_X * c.bsg_tiles_Y) + 1) = c.bsg_id := by
  have e1 := chunk_iff (numel / c.BSG_POD_DIM + 1) c.bsg_pod_id i (Nat.succ_pos _)
  have e2 := chunk_iff (pod_size c.BSG_POD_DIM c.bsg_pod_id numel / (c.bsg_tiles_X * c.bsg_tiles_Y) + 1) c.bsg_id
    (i - (numel / c.BSG_POD_DIM + 1) * c.bsg_pod_id) (Nat.succ_pos _)
  rw [← e1, ← e2]
  clear e1 e2
  have hmin : ∀ a b : Nat, (if a > b then b else a) = min a b := by
    intro a b
    split_ifs <;> omega
  unfold hb_range.contains calc_range pod_size
  simp only [hmin]
  generalize numel / c.BSG_POD_DIM + 1 = L
  generalize L * c.bsg_pod_id = ps
  generalize (min (ps + L) numel - ps) / (c.bsg_tiles_X * c.bsg_tiles_Y) + 1 = lt
  generalize lt * c.bsg_id = ts
  split_ifs <;> simp only [] <;> omega

/-- The chunks of length `n / d + 1` taken `d` times reach past `n`. -/
theorem lt_succ_div_mul (n d : Nat) (hd : 0 < d) : n < d * (n / d + 1) := by
  have h1 := Nat.div_add_mod n d
  have h2 := Nat.mod_lt n hd
  have h3 : d * (n / d + 1) = d * (n / d) + d := by ring
  omega

/-- Every index below `N` is in the range of some tile of the machine. -/
theorem calc_range_cover (N P X Y : Nat) (hP : 1 ≤ P) (hT : 1 ≤ X * Y) (i : Nat) (hi : i < N) :
    ∃ pod id, pod < P ∧ id < X * Y ∧ (calc_range ⟨P, pod, X, Y, id⟩ N).contains i := by
  have hL : 0 < N / P + 1 := Nat.succ_pos _
  have hpod : i / (N / P + 1) < P := by
    rw [Nat.div_lt_iff_lt_mul hL]
    have := lt_succ_div_mul N P hP
    omega
  obtain ⟨hc1, hc2⟩ := (chunk_iff (N / P + 1) (i / (N / P + 1)) i hL).2 rfl
  refine ⟨i / (N / P + 1),
    (i - (N / P + 1) * (i / (N / P + 1))) / (pod_size P (i / (N / P + 1)) N / (X * Y) + 1),
    hpod, ?_, ?_⟩
  · have hS : 0 < pod_size P (i / (N / P + 1)) N / (X * Y) + 1 := Nat.succ_pos _
    rw [Nat.div_lt_iff_lt_mul hS]
    have h1 := lt_succ_div_mul (pod_size P (i / (N / P + 1)) N) (X * Y) hT
    have h2 : i - (N / P + 1) * (i / (N / P + 1)) < pod_size P (i / (N / P + 1)) N := by
      unfold pod_size
      omega
    omega
  · rw [contains_calc_range]
    exact ⟨hi, rfl, rfl⟩

/-- Two tiles of one machine whose ranges share an index are the same
tile. -/
theorem calc_range_unique (N P X Y pod id pod' id' i : Nat)
    (h : (calc_range ⟨P, pod, X, Y, id⟩ N).contains i)
    (h' : (calc_range ⟨P, pod', X, Y, id'⟩ N).contains i) : pod = pod' ∧ id = id' := by
  rw [contains_calc_range] at h h'
  obtain ⟨-, h2, h3⟩ := h
  obtain ⟨-, h2', h3'⟩ := h'
  simp only [] at h2 h3 h2' h3'
  have hp : pod = pod' := by rw [← h2, ← h2']
  subst hp
  exact ⟨rfl, by rw [← h3, ← h3']⟩

/-- C1: `calc_range` partitions the index space.  For every element count
`N`, every pod count `P ≥ 1` and every tile grid with `X * Y ≥ 1` tiles per
pod, each index below `N` lies in the range of exactly one pair of a pod id
below `P` and a tile id below `X * Y`, and no range, of any pod id and tile
id, contains an index that is not below `N`. -/
theorem calc_range_partition (N P X Y : Nat) (hP : 1 ≤ P) (hT : 1 ≤ X * Y) :
    (∀ i, i < N → ∃! pt : Nat × Nat, pt.1 < P ∧ pt.2 < X * Y ∧
        (calc_range ⟨P, pt.1, X, Y, pt.2⟩ N).contains i) ∧
    (∀ pod id i, (calc_range ⟨P, pod, X, Y, id⟩ N).contains i → i < N) := by
  constructor
  · intro i hi
    obtain ⟨pod, id, h1, h2, h3⟩ := calc_range_cover N P X Y hP hT i hi
    refine ⟨(pod, id), ⟨h1, h2, h3⟩, ?_⟩
    rintro ⟨pod', id'⟩ ⟨-, -, hc⟩
    obtain ⟨e1, e2⟩ := calc_range_unique N P X Y pod id pod' id' i h3 hc
    rw [e1, e2]
  · intro pod id i hc
    exact ((contains_calc_range _ N i).1 hc).1

/-- Witness of C1 on 16 elements, one pod and a 2 by 2 tile grid. -/
theorem calc_range_partition_witness :
    1 ≤ 1 ∧ 1 ≤ 2 * 2 ∧
    ((∀ i, i < 16 → ∃! pt : Nat × Nat, pt.1 < 1 ∧ pt.2 < 2 * 2 ∧
        (calc_range ⟨1, pt.1, 2, 2, pt.2⟩ 16).contains i) ∧
    (∀ pod id i, (calc_range ⟨1, pod, 2, 2, id⟩ 16).contains i → i < 16)) :=
  ⟨by decide, by decide, calc_range_partition 16 1 2 2 (by decide) (by decide)⟩

/-- C2: for `N = 0`, `calc_range` returns `(0, 0)` for every pod id and tile
id, whatever the topology. -/
theorem calc_range_zero (c : Topology) : calc_range c 0 = ⟨0, 0⟩ := by
  unfold calc_range
  simp

/-- C3: with `N = 16`, one pod and a `2 x 2` tile grid, `calc_range` returns
`[0,5)`, `[5,10)`, `[10,15)` and `[15,16)` for tile ids 0, 1, 2 and 3. -/
theorem calc_range_scenario_16 :
    calc_range ⟨1, 0, 2, 2, 0⟩ 16 = ⟨0, 5⟩ ∧ calc_range ⟨1, 0, 2, 2, 1⟩ 16 = ⟨5, 10⟩ ∧
    calc_range ⟨1, 0, 2, 2, 2⟩ 16 = ⟨10, 15⟩ ∧ calc_range ⟨1, 0, 2, 2, 3⟩ 16 = ⟨15, 16⟩ := by
  decide

/-! ### Sequential element-wise writes -/

/-- Writes of a sweep over `[s, s + k)` stay on the result addresses of that
range. -/
theorem addr_path_frame {α : Type} (A : HBTensor → Nat → Nat) (F : List α → α) (res : HBTensor)
    (inputs : List HBTensor) (m : Mem α) (s k : Nat) (a : Nat)
    (ha : ∀ idx, s ≤ idx → idx < s + k → a ≠ A res idx) :
    addr_path A F res inputs s (s + k) m a = m a := by
  unfold addr_path
  rw [Nat.add_sub_cancel_left]
  induction k with
  | zero => rfl
  | succ k ih =>
    rw [List.range'_concat, List.foldl_append, List.foldl_cons, List.foldl_nil]
    unfold addr_body
    rw [Function.update_noteq (ha (s + 1 * k) (by omega) (by omega))]
    exact ih (fun idx h1 h2 => ha idx h1 (by omega))

/-- One more index at the end of a sweep. -/
theorem addr_path_succ {α : Type} (A : HBTensor → Nat → Nat) (F : List α → α) (res : HBTensor)
    (inputs : List HBTensor) (m : Mem α) (s k : Nat) :
    addr_path A F res inputs s (s + (k + 1)) m
      = addr_body A F res inputs (addr_path A F res inputs s (s + k) m) (s + k) := by
  unfold addr_path
  rw [Nat.add_sub_cancel_left, Nat.add_sub_cancel_left, List.range'_concat,
    List.foldl_append, List.foldl_cons, List.foldl_nil, Nat.one_mul]

/-- Values written by a sweep over `[s, s + k)`: when the result addresses of
the range are pairwise distinct and differ from every input address of the
range, the result element of each index holds the functor applied to the
initial input elements of that index. -/
theorem addr_path_value {α : Type} (A : HBTensor → Nat → Nat) (F : List α → α) (res : HBTensor)
    (inputs : List HBTensor) (m : Mem α) (s k : Nat)
    (hd : ∀ i j, s ≤ i → i < s + k → s ≤ j → j < s + k → A res i = A res j → i = j)
    (ho : ∀ t ∈ inputs, ∀ i j, s ≤ i → i < s + k → s ≤ j → j < s + k → A res i ≠ A t j)
    (idx : Nat) (h1 : s ≤ idx) (h2 : idx < s + k) :
    addr_path A F res inputs s (s + k) m (A res idx)
      = F (inputs.map (fun t => m (A t idx))) := by
  induction k with
  | zero => omega
  | succ k ih =>
    rw [addr_path_succ]
    unfold addr_body
    by_cases hk : idx = s + k
    · subst hk
      rw [Function.update_same]
      congr 1
      apply List.map_congr_left
      intro t ht
      apply addr_path_frame
      intro j hj1 hj2 heq
      exact ho t ht j (s + k) hj1 (by omega) (by omega) (by omega) heq.symm
    · have hne : A res idx ≠ A res (s + k) := by
        intro heq
        exact hk (hd idx (s + k) h1 h2 (by omega) (by omega) heq)
      rw [Function.update_noteq hne]
      exact ih (fun i j hi1 hi2 hj1 hj2 => hd i j hi1 (by omega) hj1 (by omega))
        (fun t ht i j hi1 hi2 hj1 hj2 => ho t ht i j hi1 (by omega) hj1 (by omega)) (by omega)

/-- The general path is the sweep that addresses through `offset_calc`. -/
theorem general_path_eq {α : Type} (F : List α → α) (res : HBTensor) (inputs : List HBTensor)
    (s e : Nat) (m : Mem α) :
    general_path F res inputs s e m = addr_path elem_addr F res inputs s e m := rfl

/-! ### The trivial path -/

theorem wrap32_add_wrap32_left (a b : Nat) : wrap32 (wrap32 a + b) = wrap32 (a + b) := by
  unfold wrap32
  exact Nat.mod_add_mod a WORD b

theorem wrap32_add_wrap32_right (a b : Nat) : wrap32 (a + wrap32 b) = wrap32 (a + b) := by
  unfold wrap32
  exact Nat.add_mod_mod a b WORD

theorem wrap32_of_lt (a : Nat) (h : a < WORD) : wrap32 a = a := Nat.mod_eq_of_lt h

/-- Advancing the pointer of index `idx` by one stride gives the pointer of
index `idx + 1`. -/
theorem lin_addr_succ (t : HBTensor) (idx : Nat) :
    ptr_add (lin_addr t idx) t.stride0 = lin_addr t (idx + 1) := by
  unfold ptr_add lin_addr
  rw [wrap32_add_wrap32_left, Nat.mul_succ, Nat.add_assoc]

/-- Moving the data pointer by `stride * start` gives the pointer of index
`start`. -/
theorem lin_addr_start (t : HBTensor) (start : Nat) :
    ptr_add t.data (wrap32 (t.stride0 * start)) = lin_addr t start := by
  unfold ptr_add lin_addr
  rw [wrap32_add_wrap32_right]

/-- A frozen operand sits at the address of every one of its indices. -/
theorem lin_addr_frozen (t : HBTensor) (idx : Nat) (h0 : t.stride0 = 0) (hd : t.data < WORD) :
    lin_addr t idx = t.data := by
  unfold lin_addr
  rw [h0, Nat.zero_mul, Nat.add_zero, wrap32_of_lt _ hd]

/-- The values under the input pointers are the memory contents at the
addresses of index `idx`, when the frozen operands still agree with memory. -/
theorem loads_eq {α : Type} (m0 : Mem α) (st : TrivialState α) (idx : Nat)
    (inputs : List HBTensor) (ptrs : List Ptr)
    (hrel : List.Forall₂ (operand_at m0 st.fixed_data idx) inputs ptrs)
    (hdata : ∀ t ∈ inputs, t.data < WORD)
    (hmem : ∀ t ∈ inputs, st.mem (lin_addr t idx) = m0 (lin_addr t idx)) :
    ptrs.map st.load = inputs.map (fun t => st.mem (lin_addr t idx)) := by
  induction hrel with
  | nil => rfl
  | @cons t p ts ps hp _ ih =>
    rw [List.map_cons, List.map_cons,
      ih (fun u hu => hdata u (List.mem_cons_of_mem _ hu))
        (fun u hu => hmem u (List.mem_cons_of_mem _ hu))]
    congr 1
    rcases hp with ⟨h0, i, rfl, hfd⟩ | ⟨_, rfl⟩
    · have := hmem t (List.mem_cons_self _ _)
      rw [lin_addr_frozen t idx h0 (hdata t (List.mem_cons_self _ _))] at this
      show st.fixed_data i = _
      rw [hfd, lin_addr_frozen t idx h0 (hdata t (List.mem_cons_self _ _)), this]
    · rfl

/-- Advancing every input pointer by its stride moves the relation to the
next index. -/
theorem operand_at_advance {α : Type} (m0 : Mem α) (fd : Nat → α) (idx : Nat)
    (inputs : List HBTensor) (ptrs : List Ptr)
    (hrel : List.Forall₂ (operand_at m0 fd idx) inputs ptrs) :
    List.Forall₂ (operand_at m0 fd (idx + 1)) inputs
      (List.zipWith Ptr.advance ptrs (inputs.map HBTensor.stride0)) := by
  induction hrel with
  | nil => exact List.Forall₂.nil
  | @cons t p ts ps hp _ ih =>
    rw [List.map_cons, List.zipWith_cons_cons]
    refine List.Forall₂.cons ?_ ih
    rcases hp with ⟨h0, i, rfl, hfd⟩ | ⟨h0, rfl⟩
    · exact Or.inl ⟨h0, i, rfl, hfd⟩
    · refine Or.inr ⟨h0, ?_⟩
      show Ptr.remote (ptr_add (lin_addr t idx) t.stride0) = _
      rw [lin_addr_succ]

/-- Loop invariant of the trivial path with a result of non-zero stride:
after `k` iterations from index `s` the memory is that of the sweep addressed
by pointer steps, the frozen copies are untouched, and every pointer stands at
index `s + k`. -/
theorem trivial_loop_eq {α : Type} (F : List α → α) (res : HBTensor) (inputs : List HBTensor)
    (m0 : Mem α) (s : Nat) (hdata : ∀ t ∈ inputs, t.data < WORD)
    (st : TrivialState α) (ptrs : List Ptr) (hmem : st.mem = m0)
    (hptr : st.data = Ptr.remote (lin_addr res s) :: ptrs)
    (hrel : List.Forall₂ (operand_at m0 st.fixed_data s) inputs ptrs) (k : Nat)
    (ho : ∀ t ∈ inputs, ∀ i j, s ≤ i → i < s + k → s ≤ j → j < s + k →
      lin_addr res i ≠ lin_addr t j) :
    ((List.range' s k).foldl
        (fun st _ => trivial_body F (res.stride0 :: inputs.map HBTensor.stride0) st) st).mem
        = addr_path lin_addr F res inputs s (s + k) m0 ∧
      ((List.range' s k).foldl
        (fun st _ => trivial_body F (res.stride0 :: inputs.map HBTensor.stride0) st) st).fixed_data
        = st.fixed_data ∧
      ∃ ptrs', ((List.range' s k).foldl
        (fun st _ => trivial_body F (res.stride0 :: inputs.map HBTensor.stride0) st) st).data
          = Ptr.remote (lin_addr res (s + k)) :: ptrs' ∧
        List.Forall₂ (operand_at m0 st.fixed_data (s + k)) inputs ptrs' := by
  induction k with
  | zero =>
    refine ⟨?_, rfl, ptrs, hptr, hrel⟩
    unfold addr_path
    simpa using hmem
  | succ k ih =>
    obtain ⟨ih1, ih2, ptrs', ih3, ih4⟩ :=
      ih (fun t ht i j hi1 hi2 hj1 hj2 => ho t ht i j hi1 (by omega) hj1 (by omega))
    rw [List.range'_concat, List.foldl_append, List.foldl_cons, List.foldl_nil]
    generalize (List.range' s k).foldl
      (fun st _ => trivial_body F (res.stride0 :: inputs.map HBTensor.stride0) st) st = st' at *
    rw [← ih2] at ih4
    have hfr : ∀ t ∈ inputs, st'.mem (lin_addr t (s + k)) = m0 (lin_addr t (s + k)) := by
      intro t ht
      rw [ih1]
      apply addr_path_frame
      intro idx h1 h2 heq
      exact ho t ht idx (s + k) h1 (by omega) (by omega) (by omega) heq.symm
    have hld := loads_eq m0 st' (s + k) inputs ptrs' ih4 hdata hfr
    unfold trivial_body
    rw [ih3]
    simp only [TrivialState.store, List.zipWith_cons_cons]
    refine ⟨?_, ih2, List.zipWith Ptr.advance ptrs' (inputs.map HBTensor.stride0), ?_, ?_⟩
    · rw [addr_path_succ, hld, ih1]
      rfl
    · show Ptr.remote (ptr_add (lin_addr res (s + k)) res.stride0) :: _ = _
      rw [lin_addr_succ]
      rfl
    · rw [← ih2]
      exact operand_at_advance m0 st'.fixed_data (s + k) inputs ptrs' ih4

/-- The freezing loop started at operand `i` leaves the copies below `i`
alone. -/
theorem freeze_loop_below {α : Type} (m : Mem α) (ds ss : List Nat) (i : Nat) (fd : Nat → α)
    (j : Nat) (hj : j < i) : (freeze_loop m i ds ss fd).1 j = fd j := by
  induction ds generalizing ss i fd with
  | nil => rfl
  | cons d ds ih =>
    cases ss with
    | nil => rfl
    | cons s ss =>
      unfold freeze_loop
      split_ifs with h0
      · show (freeze_loop m (i + 1) ds ss _).1 j = fd j
        rw [ih ss (i + 1) _ (by omega), Function.update_noteq (by omega)]
      · exact ih ss (i + 1) fd (by omega)

/-- After the freezing loop every input pointer is a frozen copy of the
first element or the data pointer itself. -/
theorem freeze_loop_rel {α : Type} (m : Mem α) (inputs : List HBTensor) (i : Nat) (fd : Nat → α)
    (hdata : ∀ t ∈ inputs, t.data < WORD) :
    List.Forall₂
      (operand_at m
        (freeze_loop m i (inputs.map HBTensor.data) (inputs.map HBTensor.stride0) fd).1 0)
      inputs
      (freeze_loop m i (inputs.map HBTensor.data) (inputs.map HBTensor.stride0) fd).2 := by
  induction inputs generalizing i fd with
  | nil => exact List.Forall₂.nil
  | cons t ts ih =>
    have hts : ∀ u ∈ ts, u.data < WORD := fun u hu => hdata u (List.mem_cons_of_mem _ hu)
    rw [List.map_cons, List.map_cons]
    unfold freeze_loop
    split_ifs with h0
    · refine List.Forall₂.cons (Or.inl ⟨h0, i, rfl, ?_⟩) (ih (i + 1) _ hts)
      show (freeze_loop m (i + 1) _ _ _).1 i = _
      rw [freeze_loop_below m _ _ (i + 1) _ i (by omega), Function.update_same]
    · refine List.Forall₂.cons (Or.inr ⟨h0, ?_⟩) (ih (i + 1) _ hts)
      show Ptr.remote t.data = Ptr.remote (lin_addr t 0)
      unfold lin_addr
      rw [Nat.mul_zero, Nat.add_zero, wrap32_of_lt _ (hdata t (List.mem_cons_self _ _))]

/-- Moving every input pointer by `stride * start` takes the relation from
index 0 to index `start`. -/
theorem operand_at_start {α : Type} (m0 : Mem α) (fd : Nat → α) (start : Nat)
    (inputs : List HBTensor) (ptrs : List Ptr)
    (hrel : List.Forall₂ (operand_at m0 fd 0) inputs ptrs) :
    List.Forall₂ (operand_at m0 fd start) inputs
      (List.zipWith Ptr.advance ptrs
        ((inputs.map HBTensor.stride0).map (fun s => wrap32 (s * start)))) := by
  induction hrel with
  | nil => exact List.Forall₂.nil
  | @cons t p ts ps hp _ ih =>
    rw [List.map_cons, List.map_cons, List.zipWith_cons_cons]
    refine List.Forall₂.cons ?_ ih
    rcases hp with ⟨h0, i, rfl, hfd⟩ | ⟨h0, rfl⟩
    · exact Or.inl ⟨h0, i, rfl, hfd⟩
    · refine Or.inr ⟨h0, ?_⟩
      show Ptr.remote (ptr_add (lin_addr t 0) (wrap32 (t.stride0 * start))) = _
      unfold ptr_add lin_addr
      rw [wrap32_add_wrap32_right, wrap32_add_wrap32_left, Nat.mul_zero, Nat.add_zero]

/-- A sweep depends on its bounds through the start and the length only. -/
theorem addr_path_len {α : Type} (A : HBTensor → Nat → Nat) (F : List α → α) (res : HBTensor)
    (inputs : List HBTensor) (s e : Nat) (m : Mem α) :
    addr_path A F res inputs s e m = addr_path A F res inputs s (s + (e - s)) m := by
  unfold addr_path
  rw [Nat.add_sub_cancel_left]

/-- The trivial path of `hb_tiled_foreach`, for a result of non-zero stride
that no input overlaps, is the sweep addressed by pointer steps. -/
theorem trivial_path_eq {α : Type} [Inhabited α] (F : List α → α) (res : HBTensor)
    (inputs : List HBTensor) (s e : Nat) (m : Mem α) (hs : res.stride0 ≠ 0)
    (hdata : ∀ t ∈ inputs, t.data < WORD)
    (ho : ∀ t ∈ inputs, ∀ i j, s ≤ i → i < e → s ≤ j → j < e → lin_addr res i ≠ lin_addr t j) :
    trivial_path F res inputs s e m = addr_path lin_addr F res inputs s e m := by
  rw [addr_path_len]
  unfold trivial_path trivial_init
  simp only [freeze_loop, if_neg hs, List.map_cons, List.zipWith_cons_cons]
  refine (trivial_loop_eq F res inputs m s hdata _
    (List.zipWith Ptr.advance
      (freeze_loop m 1 (inputs.map HBTensor.data) (inputs.map HBTensor.stride0)
        (fun _ => default)).2
      ((inputs.map HBTensor.stride0).map (fun s' => wrap32 (s' * s)))) rfl ?_ ?_ (e - s) ?_).1
  · show Ptr.remote (ptr_add res.data (wrap32 (res.stride0 * s))) :: _ = _
    rw [lin_addr_start]
  · exact operand_at_start m _ s inputs _ (freeze_loop_rel m inputs 1 _ hdata)
  · intro t ht i j hi1 hi2 hj1 hj2
    exact ho t ht i j hi1 (by omega) hj1 (by omega)

/-- The trivial path of `hb_foreach`, for a result of non-zero stride that no
input overlaps, is the sweep addressed by pointer steps. -/
theorem hb_foreach_trivial_eq {α : Type} [Inhabited α] (F : List α → α) (res : HBTensor)
    (inputs : List HBTensor) (m : Mem α) (h1 : res.ndim = 1) (hs : res.stride0 ≠ 0)
    (hres : res.data < WORD) (hdata : ∀ t ∈ inputs, t.data < WORD)
    (ho : ∀ t ∈ inputs, ∀ i j, i < res.N → j < res.N → lin_addr res i ≠ lin_addr t j) :
    hb_foreach F res inputs m = addr_path lin_addr F res inputs 0 res.N m := by
  rw [addr_path_len]
  unfold hb_foreach trivial_init
  rw [if_pos h1]
  simp only [freeze_loop, if_neg hs, HBTensor.numel]
  refine (trivial_loop_eq F res inputs m 0 hdata _
    (freeze_loop m 1 (inputs.map HBTensor.data) (inputs.map HBTensor.stride0)
      (fun _ => default)).2 rfl ?_ ?_ (res.N - 0) ?_).1
  · show Ptr.remote res.data :: _ = Ptr.remote (lin_addr res 0) :: _
    have h0 : lin_addr res 0 = res.data := by
      unfold lin_addr
      rw [Nat.mul_zero, Nat.add_zero, wrap32_of_lt _ hres]
    rw [h0]
  · exact freeze_loop_rel m inputs 1 _ hdata
  · intro t ht i j _ hi2 _ hj2
    exact ho t ht i j (by omega) (by omega)

/-- With the result pointer redirected to a frozen copy the loop of the
trivial path never writes to memory. -/
theorem trivial_loop_frozen {α : Type} (F : List α → α) (s0 : Nat) (ss : List Nat) (l : List Nat)
    (st : TrivialState α) (i : Nat) (ptrs : List Ptr) (hptr : st.data = Ptr.fixed i :: ptrs) :
    (l.foldl (fun st _ => trivial_body F (s0 :: ss) st) st).mem = st.mem := by
  induction l generalizing st ptrs with
  | nil => rfl
  | cons x l ih =>
    rw [List.foldl_cons]
    have hstep : (trivial_body F (s0 :: ss) st).data
        = Ptr.fixed i :: List.zipWith Ptr.advance ptrs ss := by
      unfold trivial_body
      rw [hptr]
      rfl
    have hmem : (trivial_body F (s0 :: ss) st).mem = st.mem := by
      unfold trivial_body
      rw [hptr]
      rfl
    rw [ih _ _ hstep, hmem]

/-- The trivial path of `hb_tiled_foreach` with a result of zero stride
leaves memory unchanged. -/
theorem trivial_path_frozen {α : Type} [Inhabited α] (F : List α → α) (res : HBTensor)
    (inputs : List HBTensor) (s e : Nat) (m : Mem α) (hs : res.stride0 = 0) :
    trivial_path F res inputs s e m = m := by
  unfold trivial_path trivial_init
  simp only [freeze_loop, if_pos hs, List.map_cons, List.zipWith_cons_cons]
  exact trivial_loop_frozen F _ _ _ _ 0 _ rfl

/-- The trivial path of `hb_foreach` with a result of zero stride leaves
memory unchanged. -/
theorem hb_foreach_frozen {α : Type} [Inhabited α] (F : List α → α) (res : HBTensor)
    (inputs : List HBTensor) (m : Mem α) (h1 : res.ndim = 1) (hs : res.stride0 = 0) :
    hb_foreach F res inputs m = m := by
  unfold hb_foreach trivial_init
  rw [if_pos h1]
  simp only [freeze_loop, if_pos hs]
  exact trivial_loop_frozen F _ _ _ _ 0 _ rfl

/-! ### Offsets -/

theorem wrap32_lt (x : Nat) : wrap32 x < WORD := Nat.mod_lt x (by unfold WORD; norm_num)

theorem wrap32_wrap32 (x : Nat) : wrap32 (wrap32 x) = wrap32 x := Nat.mod_mod x WORD

/-- The accumulator of `offset_calc` stays a 32-bit word. -/
theorem offset_calc_loop_lt (sizes strides : List Nat) (idx offset : Nat) (h : offset < WORD) :
    offset_calc_loop sizes strides idx offset < WORD := by
  induction sizes generalizing strides idx offset with
  | nil => unfold offset_calc_loop; exact h
  | cons size sizes ih =>
    cases strides with
    | nil => unfold offset_calc_loop; exact h
    | cons stride strides =>
      unfold offset_calc_loop
      exact ih strides _ _ (wrap32_lt _)

theorem offset_calc_lt (idx : Nat) (t : HBTensor) : offset_calc idx t < WORD :=
  offset_calc_loop_lt _ _ _ _ (by unfold WORD; norm_num)

/-- Distinct offsets of a view give distinct addresses. -/
theorem elem_addr_inj (t : HBTensor) (i j : Nat) (h : elem_addr t i = elem_addr t j) :
    offset_calc i t = offset_calc j t := by
  unfold elem_addr ptr_add wrap32 at h
  have hi := offset_calc_lt i t
  have hj := offset_calc_lt j t
  have h1 : (offset_calc i t) % WORD = (offset_calc j t) % WORD :=
    Nat.ModEq.add_left_cancel' t.data h
  rwa [Nat.mod_eq_of_lt hi, Nat.mod_eq_of_lt hj] at h1

/-- On a rank-1 view the address computed through `offset_calc` is the
address the pointer of the trivial path reaches. -/
theorem elem_addr_rank1 (t : HBTensor) (n s idx : Nat) (hsz : t.sizes = [n]) (hst : t.strides = [s])
    (hidx : idx < n) : elem_addr t idx = lin_addr t idx := by
  unfold elem_addr lin_addr ptr_add offset_calc HBTensor.stride0
  rw [hsz, hst]
  simp only [offset_calc_loop, List.headD_cons, Nat.zero_add]
  rw [wrap32_wrap32, wrap32_add_wrap32_right, Nat.mod_eq_of_lt hidx, Nat.mul_comm]

/-- Sweeps whose address functions agree on the range are equal. -/
theorem addr_path_congr {α : Type} (A B : HBTensor → Nat → Nat) (F : List α → α) (res : HBTensor)
    (inputs : List HBTensor) (s e : Nat) (m : Mem α)
    (hres : ∀ idx, s ≤ idx → idx < e → A res idx = B res idx)
    (hin : ∀ t ∈ inputs, ∀ idx, s ≤ idx → idx < e → A t idx = B t idx) :
    addr_path A F res inputs s e m = addr_path B F res inputs s e m := by
  unfold addr_path
  apply List.foldl_ext
  intro m' idx hidx
  rw [List.mem_range'_1] at hidx
  unfold addr_body
  have hmap : inputs.map (fun t => m' (A t idx)) = inputs.map (fun t => m' (B t idx)) := by
    apply List.map_congr_left
    intro t ht
    rw [hin t ht idx hidx.1 (by omega)]
  rw [hres idx hidx.1 (by omega), hmap]

/-! ### The element-wise functions as sweeps -/

/-- A rank-1 well-formed view has one size, its element count, and one
stride. -/
theorem rank1_shape (t : HBTensor) (hwf : t.wf) (h1 : t.ndim = 1) :
    t.sizes = [t.N] ∧ t.strides = [t.stride0] := by
  obtain ⟨hlen, hN, -⟩ := hwf
  unfold HBTensor.ndim at h1
  obtain ⟨n, hn⟩ := List.length_eq_one.1 h1
  rw [hn] at hlen hN
  obtain ⟨s, hs⟩ := List.length_eq_one.1 hlen
  simp only [List.prod_cons, List.prod_nil, Nat.mul_one] at hN
  unfold HBTensor.stride0
  rw [hn, hs, hN]
  exact ⟨rfl, rfl⟩

/-- Under the precondition, on rank-1 operands, pointer stepping and
`offset_calc` address the same elements. -/
theorem rank1_addr (res : HBTensor) (inputs : List HBTensor) (pre : foreach_pre res inputs)
    (h1 : res.ndim = 1) (idx : Nat) (hidx : idx < res.N) :
    elem_addr res idx = lin_addr res idx ∧
      ∀ t ∈ inputs, elem_addr t idx = lin_addr t idx := by
  obtain ⟨hsz, hst⟩ := rank1_shape res pre.wf_res h1
  refine ⟨elem_addr_rank1 res _ _ idx hsz hst hidx, fun t ht => ?_⟩
  have ht1 : t.ndim = 1 := by
    unfold HBTensor.ndim
    rw [pre.same_sizes t ht]
    exact h1
  obtain ⟨hsz', hst'⟩ := rank1_shape t (pre.wf_in t ht) ht1
  have hN : t.N = res.N := by
    have := pre.same_sizes t ht
    rw [hsz, hsz'] at this
    exact List.head_eq_of_cons_eq this
  exact elem_addr_rank1 t _ _ idx hsz' hst' (by omega)

/-- Under the precondition `hb_tiled_foreach`, on a result that is not
frozen, is the sweep over the tile's range addressed through `offset_calc`. -/
theorem hb_tiled_foreach_eq_sweep {α : Type} [Inhabited α] (c : Topology) (F : List α → α)
    (res : HBTensor) (inputs : List HBTensor) (m : Mem α) (pre : foreach_pre res inputs)
    (hnz : res.ndim = 1 → res.stride0 ≠ 0) :
    hb_tiled_foreach c F res inputs m
      = addr_path elem_addr F res inputs (calc_range c res.N).start (calc_range c res.N).end_ m := by
  have hin : ∀ i, (calc_range c res.N).start ≤ i → i < (calc_range c res.N).end_ → i < res.N :=
    fun i h1 h2 => ((contains_calc_range c res.N i).1 ⟨h1, h2⟩).1
  unfold hb_tiled_foreach HBTensor.numel
  simp only []
  split_ifs with h1
  · rw [trivial_path_eq F res inputs _ _ m (hnz h1) (fun t ht => (pre.wf_in t ht).2.2)]
    · apply addr_path_congr
      · intro idx hs he
        exact ((rank1_addr res inputs pre h1 idx (hin idx hs he)).1).symm
      · intro t ht idx hs he
        exact ((rank1_addr res inputs pre h1 idx (hin idx hs he)).2 t ht).symm
    · intro t ht i j hi1 hi2 hj1 hj2
      rw [← (rank1_addr res inputs pre h1 i (hin i hi1 hi2)).1,
        ← (rank1_addr res inputs pre h1 j (hin j hj1 hj2)).2 t ht]
      exact pre.no_overlap t ht i (hin i hi1 hi2) j (hin j hj1 hj2)
  · rfl

/-- Under the precondition `hb_foreach`, on a result that is not frozen, is
the sweep over all indices addressed through `offset_calc`. -/
theorem hb_foreach_eq_sweep {α : Type} [Inhabited α] (F : List α → α)
    (res : HBTensor) (inputs : List HBTensor) (m : Mem α) (pre : foreach_pre res inputs)
    (hnz : res.ndim = 1 → res.stride0 ≠ 0) :
    hb_foreach F res inputs m = addr_path elem_addr F res inputs 0 res.N m := by
  by_cases h1 : res.ndim = 1
  · rw [hb_foreach_trivial_eq F res inputs m h1 (hnz h1) pre.wf_res.2.2
      (fun t ht => (pre.wf_in t ht).2.2)]
    · apply addr_path_congr
      · intro idx _ he
        exact ((rank1_addr res inputs pre h1 idx he).1).symm
      · intro t ht idx _ he
        exact ((rank1_addr res inputs pre h1 idx he).2 t ht).symm
    · intro t ht i j hi hj
      rw [← (rank1_addr res inputs pre h1 i hi).1, ← (rank1_addr res inputs pre h1 j hj).2 t ht]
      exact pre.no_overlap t ht i hi j hj
  · unfold hb_foreach HBTensor.numel
    rw [if_neg h1]
    rfl

/-- What a sweep through `offset_calc` over a range of valid indices does,
under the precondition: addresses outside the result elements of the range
keep their value, and the result element of each index of the range holds the
map value computed from the initial memory. -/
theorem sweep_spec {α : Type} (F : List α → α) (res : HBTensor) (inputs : List HBTensor)
    (m : Mem α) (pre : foreach_pre res inputs) (s e : Nat)
    (hin : ∀ i, s ≤ i → i < e → i < res.N) :
    (∀ a, (∀ idx, s ≤ idx → idx < e → a ≠ elem_addr res idx) →
        addr_path elem_addr F res inputs s e m a = m a) ∧
      (∀ idx, s ≤ idx → idx < e →
        addr_path elem_addr F res inputs s e m (elem_addr res idx) = map_value F inputs m idx) := by
  rw [addr_path_len]
  constructor
  · intro a ha
    exact addr_path_frame elem_addr F res inputs m s (e - s) a
      (fun idx h1 h2 => ha idx h1 (by omega))
  · intro idx h1 h2
    refine addr_path_value elem_addr F res inputs m s (e - s) ?_ ?_ idx h1 (by omega)
    · intro i j hi1 hi2 hj1 hj2 heq
      exact pre.distinct i (hin i hi1 (by omega)) j (hin j hj1 (by omega))
        (elem_addr_inj res i j heq)
    · intro t ht i j hi1 hi2 hj1 hj2
      exact pre.no_overlap t ht i (hin i hi1 (by omega)) j (hin j hj1 (by omega))

/-- The memory of the element-wise map is determined by its values on the
result elements and its frame. -/
theorem map_mem_ext {α : Type} (F : List α → α) (res : HBTensor) (inputs : List HBTensor)
    (m m1 m2 : Mem α)
    (hf1 : ∀ a, (∀ idx, idx < res.N → a ≠ elem_addr res idx) → m1 a = m a)
    (hv1 : ∀ idx, idx < res.N → m1 (elem_addr res idx) = map_value F inputs m idx)
    (hf2 : ∀ a, (∀ idx, idx < res.N → a ≠ elem_addr res idx) → m2 a = m a)
    (hv2 : ∀ idx, idx < res.N → m2 (elem_addr res idx) = map_value F inputs m idx) :
    m1 = m2 := by
  funext a
  by_cases h : ∃ idx, idx < res.N ∧ a = elem_addr res idx
  · obtain ⟨idx, hidx, rfl⟩ := h
    rw [hv1 idx hidx, hv2 idx hidx]
  · have h' : ∀ idx, idx < res.N → a ≠ elem_addr res idx :=
      fun idx hidx heq => h ⟨idx, hidx, heq⟩
    rw [hf1 a h', hf2 a h']

/-- Running tiles one after the other keeps the frame of the map and the
values of the indices already covered. -/
theorem run_tiles_inv {α : Type} [Inhabited α] (P X Y : Nat) (F : List α → α) (res : HBTensor)
    (inputs : List HBTensor) (m : Mem α) (pre : foreach_pre res inputs)
    (hnz : res.ndim = 1 → res.stride0 ≠ 0) (tiles : List (Nat × Nat)) (cur : Mem α)
    (done : Nat → Prop)
    (hf : ∀ a, (∀ idx, idx < res.N → a ≠ elem_addr res idx) → cur a = m a)
    (hv : ∀ idx, idx < res.N → done idx → cur (elem_addr res idx) = map_value F inputs m idx) :
    (∀ a, (∀ idx, idx < res.N → a ≠ elem_addr res idx) →
        run_tiles P X Y F res inputs tiles cur a = m a) ∧
      (∀ idx, idx < res.N →
        (done idx ∨ ∃ pt ∈ tiles, (calc_range ⟨P, pt.1, X, Y, pt.2⟩ res.N).contains idx) →
        run_tiles P X Y F res inputs tiles cur (elem_addr res idx) = map_value F inputs m idx) := by
  induction tiles generalizing cur done with
  | nil =>
    refine ⟨hf, fun idx hidx h => ?_⟩
    rcases h with h | ⟨pt, hpt, -⟩
    · exact hv idx hidx h
    · exact absurd hpt (List.not_mem_nil _)
  | cons pt tiles ih =>
    have hin : ∀ i, (calc_range ⟨P, pt.1, X, Y, pt.2⟩ res.N).start ≤ i →
        i < (calc_range ⟨P, pt.1, X, Y, pt.2⟩ res.N).end_ → i < res.N :=
      fun i h1 h2 => ((contains_calc_range _ res.N i).1 ⟨h1, h2⟩).1
    obtain ⟨sf, sv⟩ := sweep_spec F res inputs cur pre _ _ hin
    have hval : ∀ idx, idx < res.N → map_value F inputs cur idx = map_value F inputs m idx := by
      intro idx hidx
      unfold map_value
      congr 1
      apply List.map_congr_left
      intro t ht
      apply hf
      intro j hj heq
      exact pre.no_overlap t ht j hj idx hidx heq.symm
    have hstep : run_tiles P X Y F res inputs (pt :: tiles) cur
        = run_tiles P X Y F res inputs tiles
            (addr_path elem_addr F res inputs (calc_range ⟨P, pt.1, X, Y, pt.2⟩ res.N).start
              (calc_range ⟨P, pt.1, X, Y, pt.2⟩ res.N).end_ cur) := by
      unfold run_tiles
      rw [List.foldl_cons, hb_tiled_foreach_eq_sweep _ F res inputs cur pre hnz]
    rw [hstep]
    have hf' : ∀ a, (∀ idx, idx < res.N → a ≠ elem_addr res idx) →
        addr_path elem_addr F res inputs (calc_range ⟨P, pt.1, X, Y, pt.2⟩ res.N).start
          (calc_range ⟨P, pt.1, X, Y, pt.2⟩ res.N).end_ cur a = m a := by
      intro a ha
      rw [sf a (fun idx h1 h2 => ha idx (hin idx h1 h2))]
      exact hf a ha
    have hv' : ∀ idx, idx < res.N →
        (done idx ∨ (calc_range ⟨P, pt.1, X, Y, pt.2⟩ res.N).contains idx) →
        addr_path elem_addr F res inputs (calc_range ⟨P, pt.1, X, Y, pt.2⟩ res.N).start
          (calc_range ⟨P, pt.1, X, Y, pt.2⟩ res.N).end_ cur (elem_addr res idx)
          = map_value F inputs m idx := by
      intro idx hidx hd
      by_cases hc : (calc_range ⟨P, pt.1, X, Y, pt.2⟩ res.N).contains idx
      · rw [sv idx hc.1 hc.2]
        exact hval idx hidx
      · rw [sf]
        · exact hv idx hidx (hd.resolve_right hc)
        · intro j hj1 hj2 heq
          have := pre.distinct idx hidx j (hin j hj1 hj2) (elem_addr_inj res idx j heq)
          subst this
          exact hc ⟨hj1, hj2⟩
    obtain ⟨r1, r2⟩ := ih _
      (fun idx => done idx ∨ (calc_range ⟨P, pt.1, X, Y, pt.2⟩ res.N).contains idx) hf' hv'
    refine ⟨r1, fun idx hidx h => r2 idx hidx ?_⟩
    rcases h with h | ⟨q, hq, hc⟩
    · exact Or.inl (Or.inl h)
    · rcases List.mem_cons.1 hq with rfl | hq'
      · exact Or.inl (Or.inr hc)
      · exact Or.inr ⟨q, hq', hc⟩

/-! ### Offsets and the mixed-radix decomposition -/

/-- The loop of `offset_calc` adds the stride-weighted digits to its
accumulator, as a 32-bit word. -/
theorem offset_calc_loop_decomp (sizes strides digits : List Nat) (idx acc : Nat)
    (hacc : acc < WORD) (hdec : is_decomposition sizes digits idx) :
    offset_calc_loop sizes strides idx acc = wrap32 (acc + stride_sum digits strides) := by
  obtain ⟨hlt, hval⟩ := hdec
  induction hlt generalizing strides idx acc with
  | nil =>
    unfold offset_calc_loop stride_sum
    rw [Nat.add_zero, wrap32_of_lt _ hacc]
  | @cons i sz digits sizes hi _ ih =>
    cases strides with
    | nil =>
      unfold offset_calc_loop stride_sum
      rw [Nat.add_zero, wrap32_of_lt _ hacc]
    | cons t strides =>
      unfold mixed_radix_value at hval
      have hmod : idx % sz = i := by
        rw [← hval, Nat.add_mul_mod_self_left, Nat.mod_eq_of_lt hi]
      have hdiv : idx / sz = mixed_radix_value sizes digits := by
        rw [← hval, Nat.add_mul_div_left _ _ (by omega), Nat.div_eq_of_lt hi, Nat.zero_add]
      unfold offset_calc_loop stride_sum
      rw [hmod, hdiv, ih strides _ _ (wrap32_lt _) rfl, wrap32_add_wrap32_left,
        Nat.add_right_comm, ← wrap32_add_wrap32_right, wrap32_wrap32, wrap32_add_wrap32_right,
        Nat.add_right_comm, Nat.add_assoc]

/-- The digits computed by repeated modulo and divide decompose every index
below the product of the extents. -/
theorem digits_of_decomposition (sizes : List Nat) (idx : Nat) (h : idx < sizes.prod) :
    is_decomposition sizes (digits_of sizes idx) idx := by
  induction sizes generalizing idx with
  | nil => exact ⟨List.Forall₂.nil, by simp at h; rw [h]; rfl⟩
  | cons s sizes ih =>
    rw [List.prod_cons] at h
    have hs : 0 < s := by
      rcases Nat.eq_zero_or_pos s with h0 | h0
      · rw [h0, Nat.zero_mul] at h
        omega
      · exact h0
    have hq : idx / s < sizes.prod := by
      rw [Nat.div_lt_iff_lt_mul hs, Nat.mul_comm]
      exact h
    obtain ⟨h1, h2⟩ := ih (idx / s) hq
    refine ⟨List.Forall₂.cons (Nat.mod_lt _ hs) h1, ?_⟩
    show idx % s + s * mixed_radix_value sizes (digits_of sizes (idx / s)) = idx
    rw [h2]
    exact Nat.mod_add_div idx s

/-- A mixed-radix decomposition is unique. -/
theorem decomposition_unique (sizes digits digits' : List Nat) (idx : Nat)
    (h : is_decomposition sizes digits idx) (h' : is_decomposition sizes digits' idx) :
    digits = digits' := by
  obtain ⟨hlt, hval⟩ := h
  induction hlt generalizing digits' idx with
  | nil =>
    obtain ⟨hlt', -⟩ := h'
    cases hlt'
    rfl
  | @cons i sz digits sizes hi _ ih =>
    obtain ⟨hlt', hval'⟩ := h'
    cases hlt' with
    | @cons i' _ digits' _ hi' hrest =>
      unfold mixed_radix_value at hval hval'
      have hmod : i = i' := by
        have e1 : idx % sz = i := by
          rw [← hval, Nat.add_mul_mod_self_left, Nat.mod_eq_of_lt hi]
        have e2 : idx % sz = i' := by
          rw [← hval', Nat.add_mul_mod_self_left, Nat.mod_eq_of_lt hi']
        rw [← e1, ← e2]
      have hdiv : mixed_radix_value sizes digits = mixed_radix_value sizes digits' := by
        have e1 : idx / sz = mixed_radix_value sizes digits := by
          rw [← hval, Nat.add_mul_div_left _ _ (by omega), Nat.div_eq_of_lt hi, Nat.zero_add]
        have e2 : idx / sz = mixed_radix_value sizes digits' := by
          rw [← hval', Nat.add_mul_div_left _ _ (by omega), Nat.div_eq_of_lt hi', Nat.zero_add]
        rw [← e1, ← e2]
      rw [hmod, ih digits' _ ⟨hrest, hdiv.symm⟩ rfl]

/-- Closed form of the stepped pointer. -/
theorem ptr_steps_eq (p s k : Nat) : ptr_steps (wrap32 p) s k = wrap32 (p + s * k) := by
  induction k with
  | zero => rfl
  | succ k ih =>
    unfold ptr_steps ptr_add
    rw [ih, wrap32_add_wrap32_left, Nat.mul_succ, Nat.add_assoc]

/-! ### The frame of a tile -/

/-- The loop of the trivial path with a remote result pointer writes only
to the addresses the result pointer passes through. -/
theorem trivial_loop_frame {α : Type} (F : List α → α) (res : HBTensor) (ss : List Nat) (s : Nat)
    (st : TrivialState α) (ptrs : List Ptr)
    (hptr : st.data = Ptr.remote (lin_addr res s) :: ptrs) (k : Nat) (a : Nat)
    (ha : ∀ idx, s ≤ idx → idx < s + k → a ≠ lin_addr res idx) :
    ((List.range' s k).foldl (fun st _ => trivial_body F (res.stride0 :: ss) st) st).mem a
        = st.mem a ∧
      ∃ ptrs', ((List.range' s k).foldl
        (fun st _ => trivial_body F (res.stride0 :: ss) st) st).data
          = Ptr.remote (lin_addr res (s + k)) :: ptrs' := by
  induction k with
  | zero => exact ⟨rfl, ptrs, hptr⟩
  | succ k ih =>
    obtain ⟨ih1, ptrs', ih2⟩ := ih (fun idx h1 h2 => ha idx h1 (by omega))
    rw [List.range'_concat, List.foldl_append, List.foldl_cons, List.foldl_nil]
    generalize (List.range' s k).foldl
      (fun st _ => trivial_body F (res.stride0 :: ss) st) st = st' at *
    unfold trivial_body
    rw [ih2]
    simp only [TrivialState.store, List.zipWith_cons_cons]
    refine ⟨?_, List.zipWith Ptr.advance ptrs' ss, ?_⟩
    · rw [Function.update_noteq (ha (s + k) (by omega) (by omega)), ih1]
    · show Ptr.remote (ptr_add (lin_addr res (s + k)) res.stride0) :: _ = _
      rw [lin_addr_succ]
      rfl

/-- The trivial path over `[s, e)` writes only to the addresses the result
pointer passes through. -/
theorem trivial_path_frame {α : Type} [Inhabited α] (F : List α → α) (res : HBTensor)
    (inputs : List HBTensor) (s e : Nat) (m : Mem α) (a : Nat)
    (ha : ∀ idx, s ≤ idx → idx < e → a ≠ lin_addr res idx) :
    trivial_path F res inputs s e m a = m a := by
  by_cases hs : res.stride0 = 0
  · rw [trivial_path_frozen F res inputs s e m hs]
  · unfold trivial_path trivial_init
    simp only [freeze_loop, if_neg hs, List.map_cons, List.zipWith_cons_cons]
    refine (trivial_loop_frame F res _ s _
      (List.zipWith Ptr.advance
        (freeze_loop m 1 (inputs.map HBTensor.data) (inputs.map HBTensor.stride0)
          (fun _ => default)).2
        ((inputs.map HBTensor.stride0).map (fun s' => wrap32 (s' * s)))) ?_ (e - s) a ?_).1
    · show Ptr.remote (ptr_add res.data (wrap32 (res.stride0 * s))) :: _ = _
      rw [lin_addr_start]
    · intro idx h1 h2
      exact ha idx h1 (by omega)

/-- A tile writes only to the addresses of the result elements of its
range. -/
theorem tile_writes_in_range {α : Type} [Inhabited α] (c : Topology) (F : List α → α)
    (res : HBTensor) (inputs : List HBTensor) (m : Mem α) (hwf : res.wf) (a : Nat)
    (ha : ∀ idx, (calc_range c res.N).contains idx → a ≠ elem_addr res idx) :
    hb_tiled_foreach c F res inputs m a = m a := by
  unfold hb_tiled_foreach HBTensor.numel
  split_ifs with h1
  · apply trivial_path_frame
    intro idx hs he
    obtain ⟨hsz, hst⟩ := rank1_shape res hwf h1
    have hlt : idx < res.N := ((contains_calc_range c res.N idx).1 ⟨hs, he⟩).1
    rw [← elem_addr_rank1 res _ _ idx hsz hst hlt]
    exact ha idx ⟨hs, he⟩
  · rw [general_path_eq, addr_path_len]
    apply addr_path_frame
    intro idx hs he
    exact ha idx ⟨hs, by omega⟩

/-! ### The element-wise map -/

/-- The example operands satisfy the precondition of the element-wise
map. -/
theorem ex_pre : foreach_pre ex_res [ex_a, ex_b] :=
  ⟨by decide, by decide, by decide, by decide, by decide⟩

/-- The one-element operands satisfy the precondition of the element-wise
map. -/
theorem one_pre : foreach_pre one_res [one_in] :=
  ⟨by decide, by decide, by decide, by decide, by decide⟩

/-- Failing input of C4: `hb_foreach` does not compute the element-wise map on
a one-element rank-1 result.  The operands satisfy the premises of the claim
(well-formed, equal sizes, distinct result offsets, no overlap).  The loop of
the trivial path that freezes the operands of stride 0 starts at operand 0,
the result, whose one dimension of extent 1 carries stride 0; it redirects
the result pointer to the local copy `fixed_data[0]`, the store of the
functor value lands in that copy, and the result element keeps its old value
7 where the claim demands the functor value 12. -/
theorem hb_foreach_one_element_counterexample :
    foreach_pre one_res [one_in] ∧ 0 < one_res.N ∧
      hb_foreach (fun l => l.sum + 1) one_res [one_in] (fun a => a + 7) (elem_addr one_res 0) = 7 ∧
      hb_foreach (fun l => l.sum + 1) one_res [one_in] (fun a => a + 7) (elem_addr one_res 0)
        ≠ (fun l : List Nat => l.sum + 1) ([one_in].map (fun t => (fun a => a + 7) (elem_addr t 0))) :=
  ⟨one_pre, by decide, by decide, by decide⟩

/-- The general path does not share the defect: on the same one-element
data viewed with rank 2 it stores the functor value 12 into the result
element. -/
theorem one_element_general_path :
    hb_foreach (fun l => l.sum + 1) ⟨1, [0, 0], [1, 1], 0⟩ [⟨1, [0, 0], [1, 1], 4⟩]
      (fun a => a + 7) 0 = 12 := by
  decide

/-- Where the result pointer is not frozen, `hb_foreach` is the element-wise
map: for well-formed operands of equal sizes whose result has pairwise
distinct offsets, overlaps no input and, when of rank 1, has a non-zero
stride, after `hb_foreach` the result element of every flat index below
`numel` is the functor applied to the input elements of that index, and every
input element is unchanged; on the rank-1 path and on the general path. -/
theorem hb_foreach_map {α : Type} [Inhabited α] (F : List α → α) (res : HBTensor)
    (inputs : List HBTensor) (m : Mem α) (pre : foreach_pre res inputs)
    (hnz : res.ndim = 1 → res.stride0 ≠ 0) :
    (∀ idx, idx < res.N →
        hb_foreach F res inputs m (elem_addr res idx)
          = F (inputs.map (fun t => m (elem_addr t idx)))) ∧
      (∀ t ∈ inputs, ∀ idx, idx < res.N →
        hb_foreach F res inputs m (elem_addr t idx) = m (elem_addr t idx)) := by
  rw [hb_foreach_eq_sweep F res inputs m pre hnz]
  obtain ⟨hf, hv⟩ := sweep_spec F res inputs m pre 0 res.N (fun i _ h => h)
  refine ⟨fun idx hidx => hv idx (Nat.zero_le _) hidx, fun t ht idx hidx => hf _ ?_⟩
  intro j _ hj heq
  exact pre.no_overlap t ht j hj idx hidx heq.symm

/-- The element-wise map on the rank-1 example operands. -/
theorem hb_foreach_map_witness :
    foreach_pre ex_res [ex_a, ex_b] ∧ (ex_res.ndim = 1 → ex_res.stride0 ≠ 0) ∧
    ((∀ idx, idx < ex_res.N →
        hb_foreach (binary_functor (fun x y : Nat => x + y)) ex_res [ex_a, ex_b] (fun a => a)
            (elem_addr ex_res idx)
          = binary_functor (fun x y : Nat => x + y)
              ([ex_a, ex_b].map (fun t => (fun a => a) (elem_addr t idx)))) ∧
      (∀ t ∈ [ex_a, ex_b], ∀ idx, idx < ex_res.N →
        hb_foreach (binary_functor (fun x y : Nat => x + y)) ex_res [ex_a, ex_b] (fun a => a)
            (elem_addr t idx) = (fun a => a) (elem_addr t idx))) :=
  ⟨ex_pre, by decide, hb_foreach_map _ ex_res [ex_a, ex_b] _ ex_pre (by decide)⟩

/-- C5: on a rank-1 view with sizes `[n]` and strides `[s]`, for every index
below `n`, the pointer the trivial path reaches after `idx` increments from
the data pointer is the address `data + offset_calc(idx)` of the general path,
also when the pointer first jumps to the start of a tile's range; as an
offset, `offset_calc(idx)` is the 32-bit word `idx * s`. -/
theorem trivial_offsets_eq_general (t : HBTensor) (n s : Nat) (hsz : t.sizes = [n])
    (hst : t.strides = [s]) (hd : t.data < WORD) (idx : Nat) (hidx : idx < n) :
    ptr_steps t.data s idx = elem_addr t idx ∧
      (∀ start k, start + k = idx →
        ptr_steps (ptr_add t.data (wrap32 (s * start))) s k = elem_addr t idx) ∧
      offset_calc idx t = wrap32 (idx * s) := by
  have hs0 : t.stride0 = s := by
    unfold HBTensor.stride0
    rw [hst]
    rfl
  have haddr : elem_addr t idx = wrap32 (t.data + s * idx) := by
    rw [elem_addr_rank1 t n s idx hsz hst hidx]
    unfold lin_addr
    rw [hs0]
  refine ⟨?_, ?_, ?_⟩
  · rw [haddr, ← ptr_steps_eq, wrap32_of_lt _ hd]
  · intro start k hk
    unfold ptr_add
    rw [wrap32_add_wrap32_right, ptr_steps_eq, haddr, ← hk, Nat.mul_add, Nat.add_assoc]
  · unfold offset_calc
    rw [hsz, hst]
    simp only [offset_calc_loop, Nat.zero_add]
    rw [wrap32_wrap32, Nat.mod_eq_of_lt hidx]

/-- Witness of C5 on the example input, index 3. -/
theorem trivial_offsets_eq_general_witness :
    ex_a.sizes = [4] ∧ ex_a.strides = [4] ∧ ex_a.data < WORD ∧ 3 < 4 ∧
    (ptr_steps ex_a.data 4 3 = elem_addr ex_a 3 ∧
      (∀ start k, start + k = 3 →
        ptr_steps (ptr_add ex_a.data (wrap32 (4 * start))) 4 k = elem_addr ex_a 3) ∧
      offset_calc 3 ex_a = wrap32 (3 * 4)) :=
  ⟨rfl, rfl, by decide, by decide, trivial_offsets_eq_general ex_a 4 4 rfl rfl (by decide) 3 (by decide)⟩

/-- C6, as stated, fails: for sizes `[3]`, strides `[2 ^ 31]` and index 2,
whose decomposition is the digit 2, `offset_calc` returns 0 while the sum of
`i_d * t_d` is `2 ^ 32`. -/
theorem offset_calc_overflow_counterexample :
    2 < [3].prod ∧ is_decomposition [3] [2] 2 ∧
      offset_calc 2 ⟨3, [2147483648], [3], 0⟩ = 0 ∧ stride_sum [2] [2147483648] = 4294967296 ∧
      offset_calc 2 ⟨3, [2147483648], [3], 0⟩ ≠ stride_sum [2] [2147483648] :=
  ⟨by decide, ⟨List.Forall₂.cons (by decide) List.Forall₂.nil, rfl⟩, by decide, by decide,
    by decide⟩

/-- C6, amended: for every view and every index below the product of the
sizes, the index has exactly one mixed-radix decomposition with dimension 0
varying fastest, `offset_calc` returns the sum of `i_d * t_d` over its digits
reduced modulo `2 ^ 32`, and it returns that sum itself whenever the sum is
below `2 ^ 32`. -/
theorem offset_calc_mixed_radix (t : HBTensor) (idx : Nat) (hidx : idx < t.sizes.prod) :
    ∃ digits, is_decomposition t.sizes digits idx ∧
      (∀ digits', is_decomposition t.sizes digits' idx → digits' = digits) ∧
      offset_calc idx t = wrap32 (stride_sum digits t.strides) ∧
      (stride_sum digits t.strides < WORD → offset_calc idx t = stride_sum digits t.strides) := by
  have hdec := digits_of_decomposition t.sizes idx hidx
  have hoff : offset_calc idx t = wrap32 (stride_sum (digits_of t.sizes idx) t.strides) := by
    unfold offset_calc
    rw [offset_calc_loop_decomp t.sizes t.strides _ idx 0 (by unfold WORD; norm_num) hdec,
      Nat.zero_add]
  refine ⟨digits_of t.sizes idx, hdec, ?_, hoff, ?_⟩
  · intro digits' h'
    exact decomposition_unique t.sizes digits' _ idx h' hdec
  · intro hlt
    rw [hoff, wrap32_of_lt _ hlt]

/-- Witness of the amended C6 on the 4x4 view of the broadcast scenario,
index 7. -/
theorem offset_calc_mixed_radix_witness :
    7 < bc_a2.sizes.prod ∧
    ∃ digits, is_decomposition bc_a2.sizes digits 7 ∧
      (∀ digits', is_decomposition bc_a2.sizes digits' 7 → digits' = digits) ∧
      offset_calc 7 bc_a2 = wrap32 (stride_sum digits bc_a2.strides) ∧
      (stride_sum digits bc_a2.strides < WORD →
        offset_calc 7 bc_a2 = stride_sum digits bc_a2.strides) :=
  ⟨by decide, offset_calc_mixed_radix bc_a2 7 (by decide)⟩

/-- Membership in the list of all tiles. -/
theorem mem_all_tiles (P T pod id : Nat) : (pod, id) ∈ all_tiles P T ↔ pod < P ∧ id < T := by
  unfold all_tiles
  rw [List.pair_mem_product, List.mem_range, List.mem_range]

/-- With a frozen result every tile leaves memory unchanged. -/
theorem run_tiles_frozen {α : Type} [Inhabited α] (P X Y : Nat) (F : List α → α) (res : HBTensor)
    (inputs : List HBTensor) (tiles : List (Nat × Nat)) (m : Mem α) (h1 : res.ndim = 1)
    (hs : res.stride0 = 0) : run_tiles P X Y F res inputs tiles m = m := by
  unfold run_tiles
  induction tiles with
  | nil => rfl
  | cons pt tiles ih =>
    rw [List.foldl_cons]
    have hstep : hb_tiled_foreach ⟨P, pt.1, X, Y, pt.2⟩ F res inputs m = m := by
      unfold hb_tiled_foreach
      simp only []
      rw [if_pos h1]
      exact trivial_path_frozen F res inputs _ _ m hs
    rw [hstep]
    exact ih

/-- C7: running `hb_tiled_foreach` once on every tile of every pod, in any
order, gives the same final memory as one `hb_foreach` over the full index
space, for the same functor and well-formed operands of equal sizes whose
result has pairwise distinct offsets and overlaps no input. -/
theorem run_tiles_eq_hb_foreach {α : Type} [Inhabited α] (P X Y : Nat) (F : List α → α)
    (res : HBTensor) (inputs : List HBTensor) (m : Mem α) (tiles : List (Nat × Nat))
    (hP : 1 ≤ P) (hT : 1 ≤ X * Y) (pre : foreach_pre res inputs)
    (hperm : tiles.Perm (all_tiles P (X * Y))) :
    run_tiles P X Y F res inputs tiles m = hb_foreach F res inputs m := by
  by_cases hfz : res.ndim = 1 ∧ res.stride0 = 0
  · rw [run_tiles_frozen P X Y F res inputs tiles m hfz.1 hfz.2,
      hb_foreach_frozen F res inputs m hfz.1 hfz.2]
  · have hnz : res.ndim = 1 → res.stride0 ≠ 0 := fun h1 hs => hfz ⟨h1, hs⟩
    obtain ⟨r1, r2⟩ := run_tiles_inv P X Y F res inputs m pre hnz tiles m (fun _ => False)
      (fun _ _ => rfl) (fun _ _ h => h.elim)
    rw [hb_foreach_eq_sweep F res inputs m pre hnz]
    obtain ⟨hf, hv⟩ := sweep_spec F res inputs m pre 0 res.N (fun i _ h => h)
    refine map_mem_ext F res inputs m _ _ r1 ?_ ?_ ?_
    · intro idx hidx
      obtain ⟨pod, id, hpod, hid, hc⟩ := calc_range_cover res.N P X Y hP hT idx hidx
      exact r2 idx hidx
        (Or.inr ⟨(pod, id), hperm.symm.subset ((mem_all_tiles P (X * Y) pod id).2 ⟨hpod, hid⟩), hc⟩)
    · intro a ha
      exact hf a (fun idx _ h2 => ha idx h2)
    · intro idx hidx
      exact hv idx (Nat.zero_le _) hidx

/-- Witness of C7: one pod of 2 by 2 tiles run in reverse order on the
rank-1 example operands. -/
theorem run_tiles_eq_hb_foreach_witness :
    1 ≤ 1 ∧ 1 ≤ 2 * 2 ∧ foreach_pre ex_res [ex_a, ex_b] ∧
    (all_tiles 1 (2 * 2)).reverse.Perm (all_tiles 1 (2 * 2)) ∧
    run_tiles 1 2 2 (binary_functor (fun x y : Nat => x + y)) ex_res [ex_a, ex_b]
        (all_tiles 1 (2 * 2)).reverse (fun a => a)
      = hb_foreach (binary_functor (fun x y : Nat => x + y)) ex_res [ex_a, ex_b] (fun a => a) :=
  ⟨by decide, by decide, ex_pre, List.reverse_perm _,
    run_tiles_eq_hb_foreach 1 2 2 _ ex_res [ex_a, ex_b] _ _ (by decide) (by decide) ex_pre
      (List.reverse_perm _)⟩

/-- C8: `hb_tiled_foreach` on a tile changes no address other than those of
the result elements whose flat index is in the tile's `calc_range` range;
for a result with pairwise distinct offsets it leaves every result element
outside the range unchanged, and the result elements of the ranges of two
distinct tiles are distinct. -/
theorem hb_tiled_foreach_frame {α : Type} [Inhabited α] (c : Topology) (F : List α → α)
    (res : HBTensor) (inputs : List HBTensor) (m : Mem α) (hwf : res.wf) :
    (∀ a, (∀ idx, (calc_range c res.N).contains idx → a ≠ elem_addr res idx) →
        hb_tiled_foreach c F res inputs m a = m a) ∧
    ((∀ i, i < res.N → ∀ j, j < res.N → offset_calc i res = offset_calc j res → i = j) →
      (∀ idx, idx < res.N → ¬ (calc_range c res.N).contains idx →
        hb_tiled_foreach c F res inputs m (elem_addr res idx) = m (elem_addr res idx)) ∧
      (∀ pod' id', (pod', id') ≠ (c.bsg_pod_id, c.bsg_id) → ∀ i j,
        (calc_range c res.N).contains i →
        (calc_range ⟨c.BSG_POD_DIM, pod', c.bsg_tiles_X, c.bsg_tiles_Y, id'⟩ res.N).contains j →
        elem_addr res i ≠ elem_addr res j)) := by
  have hlt : ∀ (c' : Topology) (i : Nat), (calc_range c' res.N).contains i → i < res.N :=
    fun c' i h => ((contains_calc_range c' res.N i).1 h).1
  refine ⟨fun a ha => tile_writes_in_range c F res inputs m hwf a ha, fun hd => ⟨?_, ?_⟩⟩
  · intro idx hidx hnc
    apply tile_writes_in_range c F res inputs m hwf
    intro j hj heq
    have := hd idx hidx j (hlt c j hj) (elem_addr_inj res idx j heq)
    subst this
    exact hnc hj
  · intro pod' id' hne i j hi hj heq
    have hij := hd i (hlt _ i hi) j (hlt _ j hj) (elem_addr_inj res i j heq)
    subst hij
    have hi' : (calc_range ⟨c.BSG_POD_DIM, c.bsg_pod_id, c.bsg_tiles_X, c.bsg_tiles_Y, c.bsg_id⟩
        res.N).contains i := hi
    obtain ⟨e1, e2⟩ := calc_range_unique res.N _ _ _ _ _ _ _ i hi' hj
    exact hne (by rw [e1, e2])

/-- Witness of C8: tile 1 of one pod of 2 by 2 tiles on the rank-1 example
operands. -/
theorem hb_tiled_foreach_frame_witness :
    ex_res.wf ∧
    ((∀ a, (∀ idx, (calc_range ⟨1, 0, 2, 2, 1⟩ ex_res.N).contains idx → a ≠ elem_addr ex_res idx) →
        hb_tiled_foreach ⟨1, 0, 2, 2, 1⟩ (binary_functor (fun x y : Nat => x + y)) ex_res
          [ex_a, ex_b] (fun a => a) a = (fun a => a) a) ∧
    ((∀ i, i < ex_res.N → ∀ j, j < ex_res.N →
        offset_calc i ex_res = offset_calc j ex_res → i = j) →
      (∀ idx, idx < ex_res.N → ¬ (calc_range ⟨1, 0, 2, 2, 1⟩ ex_res.N).contains idx →
        hb_tiled_foreach ⟨1, 0, 2, 2, 1⟩ (binary_functor (fun x y : Nat => x + y)) ex_res
          [ex_a, ex_b] (fun a => a) (elem_addr ex_res idx) = (fun a => a) (elem_addr ex_res idx)) ∧
      (∀ pod' id', (pod', id') ≠ (0, 1) → ∀ i j,
        (calc_range ⟨1, 0, 2, 2, 1⟩ ex_res.N).contains i →
        (calc_range ⟨1, pod', 2, 2, id'⟩ ex_res.N).contains j →
        elem_addr ex_res i ≠ elem_addr ex_res j))) :=
  ⟨by decide, hb_tiled_foreach_frame ⟨1, 0, 2, 2, 1⟩ _ ex_res [ex_a, ex_b] _ (by decide)⟩

/-- The rank-2 operands of the broadcast scenario satisfy the precondition
of the element-wise map. -/
theorem bc_pre2 : foreach_pre bc_res2 [bc_a2, bc_b2] :=
  ⟨by decide, by decide, by decide, by decide, by decide⟩

/-- The rank-1 operands of the broadcast scenario satisfy the precondition
of the element-wise map. -/
theorem bc_pre1 : foreach_pre bc_res1 [bc_a1, bc_b1] :=
  ⟨by decide, by decide, by decide, by decide, by decide⟩

/-- The rank-1 and the rank-2 views of the broadcast scenario address the
same elements. -/
theorem bc_addr : ∀ idx, idx < 16 →
    elem_addr bc_res1 idx = elem_addr bc_res2 idx ∧ elem_addr bc_a1 idx = elem_addr bc_a2 idx ∧
      elem_addr bc_b1 idx = elem_addr bc_b2 idx ∧ elem_addr bc_b2 idx = 12288 := by
  decide

/-- C9: element-wise add of a contiguous 4x4 tensor with a broadcast scalar
(all strides 0) gives the same memory, hence the same 16 output values,
whether computed by the general path on the rank-2 views or by the trivial
path on the same data viewed as rank 1 of 16 elements, where the scalar is
read once into its frozen copy; each output is the element plus the scalar. -/
theorem broadcast_scenario (m : Mem Int) :
    hb_foreach (binary_functor (fun x y : Int => x + y)) bc_res2 [bc_a2, bc_b2] m
        = hb_foreach (binary_functor (fun x y : Int => x + y)) bc_res1 [bc_a1, bc_b1] m ∧
      bc_res2.ndim ≠ 1 ∧ bc_res1.ndim = 1 ∧
      ∀ idx, idx < 16 →
        hb_foreach (binary_functor (fun x y : Int => x + y)) bc_res1 [bc_a1, bc_b1] m
            (elem_addr bc_res1 idx) = m (elem_addr bc_a1 idx) + m 12288 := by
  rw [hb_foreach_eq_sweep _ bc_res2 [bc_a2, bc_b2] m bc_pre2 (by decide),
    hb_foreach_eq_sweep _ bc_res1 [bc_a1, bc_b1] m bc_pre1 (by decide)]
  obtain ⟨hf2, hv2⟩ := sweep_spec (binary_functor (fun x y : Int => x + y)) bc_res2
    [bc_a2, bc_b2] m bc_pre2 0 bc_res2.N (fun i _ h => h)
  obtain ⟨hf1, hv1⟩ := sweep_spec (binary_functor (fun x y : Int => x + y)) bc_res1
    [bc_a1, bc_b1] m bc_pre1 0 bc_res1.N (fun i _ h => h)
  refine ⟨?_, by decide, by decide, ?_⟩
  · refine map_mem_ext _ bc_res2 [bc_a2, bc_b2] m _ _
      (fun a ha => hf2 a (fun idx _ h => ha idx h))
      (fun idx hidx => hv2 idx (Nat.zero_le _) hidx) ?_ ?_
    · intro a ha
      apply hf1
      intro idx _ hidx
      rw [(bc_addr idx hidx).1]
      exact ha idx hidx
    · intro idx hidx
      obtain ⟨e1, e2, e3, -⟩ := bc_addr idx hidx
      rw [← e1, hv1 idx (Nat.zero_le _) hidx]
      unfold map_value
      simp only [List.map_cons, List.map_nil, e2, e3]
  · intro idx hidx
    obtain ⟨-, -, e3, e4⟩ := bc_addr idx hidx
    rw [hv1 idx (Nat.zero_le _) hidx]
    unfold map_value
    simp only [List.map_cons, List.map_nil, e3, e4]
    rfl

/-! ### The software-managed cache -/

/-- Loading one offset keeps the cache consistent. -/
theorem fill_consistent {α : Type} (c : HBTensorCached α) (backing : Nat → α) (i : Nat)
    (h : c.consistent backing) : (c.fill i).consistent backing := by
  obtain ⟨hd, hs⟩ := h
  refine ⟨hd, fun s => ?_⟩
  unfold HBTensorCached.fill
  simp only []
  by_cases hsi : s = i % c.cache_numel
  · right
    rw [hsi, Function.update_same, Function.update_same, hd]
  · rw [Function.update_noteq hsi, Function.update_noteq hsi]
    exact hs s

/-- The prefetch loop keeps the cache consistent. -/
theorem prefetch_impl_consistent {α : Type} (c : HBTensorCached α) (backing : Nat → α)
    (start end_ : Nat) (h : c.consistent backing) :
    (c.prefetch_impl start end_).consistent backing := by
  unfold HBTensorCached.prefetch_impl
  generalize List.range' start (end_ - start) = l
  induction l generalizing c with
  | nil => exact h
  | cons i l ih =>
    rw [List.foldl_cons]
    exact ih (c.fill i) (fill_consistent c backing i h)

/-- One `cached_read` at an offset other than the invalid tag returns the
backing value and keeps the cache consistent. -/
theorem cached_read_consistent {α : Type} (c : HBTensorCached α) (backing : Nat → α) (off : Nat)
    (h : c.consistent backing) (hoff : off ≠ UINT_MAX) :
    (c.cached_read off).1 = backing off ∧ (c.cached_read off).2.consistent backing := by
  unfold HBTensorCached.cached_read
  simp only []
  split_ifs with htag
  · obtain ⟨hd, hs⟩ := h
    refine ⟨?_, hd, hs⟩
    rcases hs (off % c.cache_numel) with hinv | hval
    · rw [htag] at hinv
      exact absurd hinv hoff
    · rw [hval, htag]
  · have h1 : ({ c with misses := wrap32 (c.misses + 1) } : HBTensorCached α).consistent backing :=
      h
    have h2 := prefetch_impl_consistent _ backing off
      (min (wrap32 (off + c.cache_numel)) c.N) h1
    obtain ⟨hd, hs⟩ := h2
    refine ⟨congrFun hd off, hd, fun s => ?_⟩
    simp only []
    by_cases hsi : s = off % c.cache_numel
    · right
      rw [hsi]
      simp only [Function.update_same]
      exact congrFun hd off
    · simp only [Function.update_noteq hsi]
      exact hs s

/-- A sequence of `cached_read` calls on a consistent cache returns the
backing values and leaves the backing store as it was. -/
theorem read_all_consistent {α : Type} (c : HBTensorCached α) (backing : Nat → α)
    (offs : List Nat) (h : c.consistent backing) (hoffs : ∀ off ∈ offs, off ≠ UINT_MAX) :
    (c.read_all offs).1 = offs.map backing ∧ (c.read_all offs).2.consistent backing := by
  induction offs generalizing c with
  | nil => exact ⟨rfl, h⟩
  | cons off offs ih =>
    obtain ⟨h1, h2⟩ := cached_read_consistent c backing off h (hoffs off (List.mem_cons_self _ _))
    obtain ⟨h3, h4⟩ := ih (c.cached_read off).2 h2
      (fun o ho => hoffs o (List.mem_cons_of_mem _ ho))
    unfold HBTensorCached.read_all
    simp only [List.map_cons]
    rw [h1, h3]
    exact ⟨rfl, h4⟩

/-- C10: for every sequence of `cached_read` calls at in-range offsets
(`offset < N < 2 ^ 32 - 1`) on a freshly constructed cache, each call returns
the backing store's value at the requested offset, hit or miss, and the
backing store is unmodified. -/
theorem cached_read_returns_backing {α : Type} [Zero α] (cache_size N : Nat) (data : Nat → α)
    (offs : List Nat) (hN : N < 2 ^ 32 - 1) (hoffs : ∀ off ∈ offs, off < N) :
    ((HBTensorCached.create cache_size N data).read_all offs).1 = offs.map data ∧
      ((HBTensorCached.create cache_size N data).read_all offs).2.data = data := by
  have h0 : (HBTensorCached.create cache_size N data).consistent data :=
    ⟨rfl, fun _ => Or.inl rfl⟩
  obtain ⟨h1, h2⟩ := read_all_consistent _ data offs h0 (fun off ho => by
    have := hoffs off ho
    unfold UINT_MAX
    omega)
  exact ⟨h1, h2.1⟩

/-- Witness of C10: a two-slot cache over five elements, read at offsets
0, 1, 4, 0, 3. -/
theorem cached_read_returns_backing_witness :
    5 < 2 ^ 32 - 1 ∧ (∀ off ∈ [0, 1, 4, 0, 3], off < 5) ∧
    (((HBTensorCached.create 16 5 (fun i => 10 * i)).read_all [0, 1, 4, 0, 3]).1
        = [0, 1, 4, 0, 3].map (fun i => 10 * i) ∧
      ((HBTensorCached.create 16 5 (fun i => 10 * i)).read_all [0, 1, 4, 0, 3]).2.data
        = (fun i => 10 * i)) :=
  ⟨by decide, by decide,
    cached_read_returns_backing 16 5 (fun i => 10 * i) [0, 1, 4, 0, 3] (by decide) (by decide)⟩

/-! ### Hit and miss counts -/

/-- C11, as stated, fails: on a fresh two-slot cache the sequence `[0]` counts
0 hits and 1 miss in its first pass, and 1 hit and 0 misses in its second
pass on the same cache (the counters read 1 hit and 1 miss after it). -/
theorem second_pass_counts_counterexample :
    ((HBTensorCached.create 16 5 (fun i => 10 * i)).read_all [0]).2.hits = 0 ∧
    ((HBTensorCached.create 16 5 (fun i => 10 * i)).read_all [0]).2.misses = 1 ∧
    ((((HBTensorCached.create 16 5 (fun i => 10 * i)).read_all [0]).2).read_all [0]).2.hits
      = 0 + 1 ∧
    ((((HBTensorCached.create 16 5 (fun i => 10 * i)).read_all [0]).2).read_all [0]).2.misses
      = 1 + 0 := by
  decide

/-- A second pass can also miss more often than the first: on a fresh two-slot
cache over four elements the sequence `[0, 1, 0, 3]` misses twice in its first
pass and three times in its second. -/
theorem second_pass_more_misses :
    ((HBTensorCached.create 16 4 (fun i => 10 * i)).read_all [0, 1, 0, 3]).2.misses = 2 ∧
    ((((HBTensorCached.create 16 4 (fun i => 10 * i)).read_all [0, 1, 0, 3]).2).read_all
      [0, 1, 0, 3]).2.misses = 2 + 3 := by
  decide

/-- Loading one offset keeps two caches in agreement on tags and counters. -/
theorem fill_same_tags {α β : Type} (c : HBTensorCached α) (d : HBTensorCached β) (i : Nat)
    (h : c.same_tags d) : (c.fill i).same_tags (d.fill i) := by
  obtain ⟨hN, hs, ht, hh, hm⟩ := h
  refine ⟨hN, hs, ?_, hh, hm⟩
  unfold HBTensorCached.fill HBTensorCached.cache_numel
  simp only []
  rw [ht, hs]

/-- The prefetch loop keeps two caches in agreement on tags and counters. -/
theorem prefetch_impl_same_tags {α β : Type} (c : HBTensorCached α) (d : HBTensorCached β)
    (start end_ : Nat) (h : c.same_tags d) :
    (c.prefetch_impl start end_).same_tags (d.prefetch_impl start end_) := by
  unfold HBTensorCached.prefetch_impl
  generalize List.range' start (end_ - start) = l
  induction l generalizing c d with
  | nil => exact h
  | cons i l ih =>
    rw [List.foldl_cons, List.foldl_cons]
    exact ih (c.fill i) (d.fill i) (fill_same_tags c d i h)

/-- One `cached_read` keeps two caches in agreement on tags and counters. -/
theorem cached_read_same_tags {α β : Type} (c : HBTensorCached α) (d : HBTensorCached β)
    (off : Nat) (h : c.same_tags d) : (c.cached_read off).2.same_tags (d.cached_read off).2 := by
  obtain ⟨hN, hs, ht, hh, hm⟩ := h
  have hn : c.cache_numel = d.cache_numel := by
    unfold HBTensorCached.cache_numel
    rw [hs]
  by_cases hc : c.cache_tag (off % c.cache_numel) = off
  · have hd : d.cache_tag (off % d.cache_numel) = off := by
      rw [← ht, ← hn]
      exact hc
    have ec : (c.cached_read off).2 = { c with hits := wrap32 (c.hits + 1) } := by
      unfold HBTensorCached.cached_read
      simp only []
      rw [if_pos hc]
    have ed : (d.cached_read off).2 = { d with hits := wrap32 (d.hits + 1) } := by
      unfold HBTensorCached.cached_read
      simp only []
      rw [if_pos hd]
    rw [ec, ed]
    refine ⟨hN, hs, ht, ?_, hm⟩
    show wrap32 (c.hits + 1) = wrap32 (d.hits + 1)
    rw [hh]
  · have hd : ¬ d.cache_tag (off % d.cache_numel) = off := by
      rw [← ht, ← hn]
      exact hc
    have h1 : ({ c with misses := wrap32 (c.misses + 1) } : HBTensorCached α).same_tags
        ({ d with misses := wrap32 (d.misses + 1) } : HBTensorCached β) := by
      refine ⟨hN, hs, ht, hh, ?_⟩
      show wrap32 (c.misses + 1) = wrap32 (d.misses + 1)
      rw [hm]
    have h2 := prefetch_impl_same_tags _ _ off (min (wrap32 (off + c.cache_numel)) c.N) h1
    have gc : (c.cached_read off).2
        = { (({ c with misses := wrap32 (c.misses + 1) } : HBTensorCached α).prefetch_impl off
              (min (wrap32 (off + c.cache_numel)) c.N)) with
            cache_tag := Function.update
              (({ c with misses := wrap32 (c.misses + 1) } : HBTensorCached α).prefetch_impl off
                (min (wrap32 (off + c.cache_numel)) c.N)).cache_tag (off % c.cache_numel) off
            cache_data := Function.update
              (({ c with misses := wrap32 (c.misses + 1) } : HBTensorCached α).prefetch_impl off
                (min (wrap32 (off + c.cache_numel)) c.N)).cache_data (off % c.cache_numel)
              ((({ c with misses := wrap32 (c.misses + 1) } : HBTensorCached α).prefetch_impl off
                (min (wrap32 (off + c.cache_numel)) c.N)).data off) } := by
      unfold HBTensorCached.cached_read
      simp only []
      rw [if_neg hc]
      rfl
    have gd : (d.cached_read off).2
        = { (({ d with misses := wrap32 (d.misses + 1) } : HBTensorCached β).prefetch_impl off
              (min (wrap32 (off + c.cache_numel)) c.N)) with
            cache_tag := Function.update
              (({ d with misses := wrap32 (d.misses + 1) } : HBTensorCached β).prefetch_impl off
                (min (wrap32 (off + c.cache_numel)) c.N)).cache_tag (off % c.cache_numel) off
            cache_data := Function.update
              (({ d with misses := wrap32 (d.misses + 1) } : HBTensorCached β).prefetch_impl off
                (min (wrap32 (off + c.cache_numel)) c.N)).cache_data (off % c.cache_numel)
              ((({ d with misses := wrap32 (d.misses + 1) } : HBTensorCached β).prefetch_impl off
                (min (wrap32 (off + c.cache_numel)) c.N)).data off) } := by
      unfold HBTensorCached.cached_read
      simp only []
      rw [if_neg hd, hn, hN]
      rfl
    rw [gc, gd]
    obtain ⟨gN, gs, gt, gh, gm⟩ := h2
    refine ⟨gN, gs, ?_, gh, gm⟩
    show Function.update _ _ _ = Function.update _ _ _
    rw [gt]

/-- A sequence of reads keeps two caches in agreement on tags and counters. -/
theorem read_all_same_tags {α β : Type} (c : HBTensorCached α) (d : HBTensorCached β)
    (offs : List Nat) (h : c.same_tags d) : (c.read_all offs).2.same_tags (d.read_all offs).2 := by
  induction offs generalizing c d with
  | nil => exact h
  | cons off offs ih =>
    unfold HBTensorCached.read_all
    exact ih _ _ (cached_read_same_tags c d off h)

/-- C11, amended: for every read sequence, performing that identical sequence
of `cached_read` calls on two freshly constructed caches of the same capacity
and element count, whatever their backing contents, yields identical hit and
miss counts for the two passes. -/
theorem fresh_passes_same_counts {α β : Type} [Zero α] [Zero β] (cache_size N : Nat)
    (data : Nat → α) (data' : Nat → β) (offs : List Nat) :
    ((HBTensorCached.create cache_size N data).read_all offs).2.hits
        = ((HBTensorCached.create cache_size N data').read_all offs).2.hits ∧
      ((HBTensorCached.create cache_size N data).read_all offs).2.misses
        = ((HBTensorCached.create cache_size N data').read_all offs).2.misses := by
  have h := read_all_same_tags (HBTensorCached.create cache_size N data)
    (HBTensorCached.create cache_size N data') offs ⟨rfl, rfl, rfl, rfl, rfl⟩
  exact ⟨h.2.2.2.1, h.2.2.2.2⟩

/-! ### The run prefetch -/

/-- Two offsets less than a slot count apart fall into different slots. -/
theorem slot_ne (n a b : Nat) (hab : a < b) (hbn : b < a + n) : a % n ≠ b % n := by
  intro h
  have h1 : (b - a) % n = 0 := Nat.sub_mod_eq_zero_of_mod_eq h.symm
  have h2 : (b - a) % n = b - a := Nat.mod_eq_of_lt (by omega)
  omega

/-- The prefetch loop leaves the backing store, the element count and the
capacity as they were. -/
theorem prefetch_impl_data {α : Type} (c : HBTensorCached α) (start end_ : Nat) :
    (c.prefetch_impl start end_).data = c.data ∧ (c.prefetch_impl start end_).N = c.N ∧
      (c.prefetch_impl start end_).cache_size = c.cache_size ∧
      (c.prefetch_impl start end_).hits = c.hits ∧
      (c.prefetch_impl start end_).misses = c.misses := by
  unfold HBTensorCached.prefetch_impl
  generalize List.range' start (end_ - start) = l
  induction l generalizing c with
  | nil => exact ⟨rfl, rfl, rfl, rfl, rfl⟩
  | cons i l ih =>
    rw [List.foldl_cons]
    obtain ⟨h1, h2, h3, h4, h5⟩ := ih (c.fill i)
    exact ⟨h1, h2, h3, h4, h5⟩

/-- After the prefetch loop over a run of at most `cache_numel` offsets from
`start`, every offset of the run sits in its slot, tagged, with its backing
value. -/
theorem prefetch_impl_run {α : Type} (c : HBTensorCached α) (start k : Nat)
    (hk : k ≤ c.cache_numel) (o : Nat) (h1 : start ≤ o) (h2 : o < start + k) :
    (c.prefetch_impl start (start + k)).cache_tag (o % c.cache_numel) = o ∧
      (c.prefetch_impl start (start + k)).cache_data (o % c.cache_numel) = c.data o := by
  induction k with
  | zero => omega
  | succ k ih =>
    have hstep : c.prefetch_impl start (start + (k + 1))
        = (c.prefetch_impl start (start + k)).fill (start + k) := by
      unfold HBTensorCached.prefetch_impl
      rw [Nat.add_sub_cancel_left, Nat.add_sub_cancel_left, List.range'_concat,
        List.foldl_append, List.foldl_cons, List.foldl_nil, Nat.one_mul]
    have hn : (c.prefetch_impl start (start + k)).cache_numel = c.cache_numel := by
      unfold HBTensorCached.cache_numel
      rw [(prefetch_impl_data c start (start + k)).2.2.1]
    rw [hstep]
    unfold HBTensorCached.fill
    simp only []
    rw [hn, (prefetch_impl_data c start (start + k)).1]
    by_cases ho : o = start + k
    · rw [ho, Function.update_same, Function.update_same]
      exact ⟨rfl, rfl⟩
    · have hne : o % c.cache_numel ≠ (start + k) % c.cache_numel :=
        slot_ne c.cache_numel o (start + k) (by omega) (by omega)
      rw [Function.update_noteq hne, Function.update_noteq hne]
      exact ih (by omega) (by omega)

/-- C12, as stated, fails, in two ways.  The run is cut at the element count:
after a miss at offset 4 on a fresh two-slot cache over five elements, slot
`5 mod 2` does not hold tag 5.  And the end of the run is a `uint32_t` sum:
after a miss at offset `2 ^ 32 - 3` on a four-slot cache over `2 ^ 32 - 1`
elements the sum wraps to 1, nothing is prefetched, and the slot of the
in-range offset `2 ^ 32 - 2` does not hold its tag. -/
theorem refill_block_counterexample :
    ((HBTensorCached.create 16 5 (fun i => 10 * i)).cache_tag (4 % 2) ≠ 4 ∧ 4 ≤ 5 ∧ 5 < 4 + 2 ∧
      ((HBTensorCached.create 16 5 (fun i => 10 * i)).cached_read 4).2.cache_tag (5 % 2) ≠ 5) ∧
    ((HBTensorCached.create 32 4294967295 (fun i => 10 * i)).cache_tag (4294967293 % 4)
        ≠ 4294967293 ∧
      4294967293 ≤ 4294967294 ∧ 4294967294 < 4294967293 + 4 ∧ 4294967294 < 4294967295 ∧
      ((HBTensorCached.create 32 4294967295 (fun i => 10 * i)).cached_read 4294967293).2.cache_tag
          (4294967294 % 4) ≠ 4294967294) := by
  decide

/-- C12, amended: on a miss at flat offset `off` whose run end
`off + slot_count` does not overflow 32 bits, after the call, for every offset
`o` with `off ≤ o < off + slot_count` that is below the element count `N`,
slot `o mod slot_count` holds tag `o` and the backing value at `o`. -/
theorem cached_read_refill {α : Type} (c : HBTensorCached α) (off o : Nat)
    (hmiss : c.cache_tag (off % c.cache_numel) ≠ off) (hov : off + c.cache_numel < 2 ^ 32)
    (h1 : off ≤ o) (h2 : o < off + c.cache_numel) (h3 : o < c.N) :
    (c.cached_read off).2.cache_tag (o % c.cache_numel) = o ∧
      (c.cached_read off).2.cache_data (o % c.cache_numel) = c.data o := by
  unfold HBTensorCached.cached_read
  simp only []
  rw [if_neg hmiss]
  unfold HBTensorCached.prefetch
  have hw : wrap32 (off + c.cache_numel) = off + c.cache_numel := wrap32_of_lt _ hov
  have hn : ({ c with misses := wrap32 (c.misses + 1) } : HBTensorCached α).cache_numel
      = c.cache_numel := rfl
  have hN : ({ c with misses := wrap32 (c.misses + 1) } : HBTensorCached α).N = c.N := rfl
  simp only [hn, hN, hw]
  have hend : min (off + c.cache_numel) c.N = off + (min (off + c.cache_numel) c.N - off) := by
    omega
  rw [hend]
  have hrun := prefetch_impl_run ({ c with misses := wrap32 (c.misses + 1) } : HBTensorCached α)
    off (min (off + c.cache_numel) c.N - off) (by rw [hn]; omega) o h1 (by omega)
  rw [hn] at hrun
  have hdat := (prefetch_impl_data ({ c with misses := wrap32 (c.misses + 1) } : HBTensorCached α)
    off (off + (min (off + c.cache_numel) c.N - off))).1
  by_cases ho : o = off
  · subst ho
    constructor
    · show Function.update _ _ _ _ = _
      rw [Function.update_same]
    · show Function.update _ _ _ _ = _
      rw [Function.update_same]
      exact congrFun hdat o
  · have hne : o % c.cache_numel ≠ off % c.cache_numel :=
      (slot_ne c.cache_numel off o (by omega) h2).symm
    simp only [Function.update_noteq hne]
    exact hrun

/-- Witness of the amended C12: a miss at offset 2 on a fresh two-slot cache
over five elements refills offset 3. -/
theorem cached_read_refill_witness :
    (HBTensorCached.create 16 5 (fun i => 10 * i)).cache_tag
        (2 % (HBTensorCached.create 16 5 (fun i => 10 * i)).cache_numel) ≠ 2 ∧
    2 + (HBTensorCached.create 16 5 (fun i => 10 * i)).cache_numel < 2 ^ 32 ∧ 2 ≤ 3 ∧
    3 < 2 + (HBTensorCached.create 16 5 (fun i => 10 * i)).cache_numel ∧
    3 < (HBTensorCached.create 16 5 (fun i => 10 * i)).N ∧
    (((HBTensorCached.create 16 5 (fun i => 10 * i)).cached_read 2).2.cache_tag
        (3 % (HBTensorCached.create 16 5 (fun i => 10 * i)).cache_numel) = 3 ∧
      ((HBTensorCached.create 16 5 (fun i => 10 * i)).cached_read 2).2.cache_data
        (3 % (HBTensorCached.create 16 5 (fun i => 10 * i)).cache_numel)
        = (HBTensorCached.create 16 5 (fun i => 10 * i)).data 3) :=
  ⟨by decide, by decide, by decide, by decide, by decide,
    cached_read_refill (HBTensorCached.create 16 5 (fun i => 10 * i)) 2 3 (by decide) (by decide)
      (by decide) (by decide) (by decide)⟩

/-! ### Construction and the backing store -/

/-- The invalidation loop sets every slot below the slot count to the
invalid tag, whatever the array held. -/
theorem invalidate_spec (n : Nat) (tag : Nat → Nat) (s : Nat) (hs : s < n) :
    HBTensorCached.invalidate n tag s = UINT_MAX := by
  unfold HBTensorCached.invalidate
  induction n with
  | zero => omega
  | succ n ih =>
    rw [List.range_succ, List.foldl_append, List.foldl_cons, List.foldl_nil]
    by_cases h : s = n
    · rw [h, Function.update_same]
    · rw [Function.update_noteq h]
      exact ih (by omega)

/-- C13: after construction every cache tag is the invalid sentinel
`UINT_MAX` (the invalidation loop sets every slot, and so is every tag of the
fresh cache), and the first `cached_read` on a fresh cache is a miss for every
offset below the element count `N`, a `uint32_t`: it counts one miss and no
hit. -/
theorem fresh_cache_first_read_misses {α : Type} [Zero α] (cache_size N : Nat) (data : Nat → α)
    (off : Nat) (hN : N < 2 ^ 32) (hoff : off < N) :
    (∀ tag s, s < (HBTensorCached.create cache_size N data).cache_numel →
        HBTensorCached.invalidate (HBTensorCached.create cache_size N data).cache_numel tag s
          = UINT_MAX) ∧
      (∀ s, (HBTensorCached.create cache_size N data).cache_tag s = UINT_MAX) ∧
      (HBTensorCached.create cache_size N data).cache_tag
        (off % (HBTensorCached.create cache_size N data).cache_numel) ≠ off ∧
      ((HBTensorCached.create cache_size N data).cached_read off).2.misses = 1 ∧
      ((HBTensorCached.create cache_size N data).cached_read off).2.hits = 0 := by
  have hne : (HBTensorCached.create cache_size N data).cache_tag
      (off % (HBTensorCached.create cache_size N data).cache_numel) ≠ off := by
    show UINT_MAX ≠ off
    unfold UINT_MAX
    omega
  refine ⟨fun tag s hs => invalidate_spec _ tag s hs, fun _ => rfl, hne, ?_, ?_⟩
  · unfold HBTensorCached.cached_read
    simp only []
    rw [if_neg hne]
    unfold HBTensorCached.prefetch
    exact (prefetch_impl_data _ _ _).2.2.2.2
  · unfold HBTensorCached.cached_read
    simp only []
    rw [if_neg hne]
    unfold HBTensorCached.prefetch
    exact (prefetch_impl_data _ _ _).2.2.2.1

/-- Witness of C13: a 16-byte cache (two slots) over five elements, first read
at offset 3. -/
theorem fresh_cache_first_read_misses_witness :
    (5 : Nat) < 2 ^ 32 ∧ (3 : Nat) < 5 ∧
    ((∀ tag s, s < (HBTensorCached.create 16 5 (fun i => 10 * i)).cache_numel →
        HBTensorCached.invalidate (HBTensorCached.create 16 5 (fun i => 10 * i)).cache_numel
          tag s = UINT_MAX) ∧
      (∀ s, (HBTensorCached.create 16 5 (fun i => 10 * i)).cache_tag s = UINT_MAX) ∧
      (HBTensorCached.create 16 5 (fun i => 10 * i)).cache_tag
        (3 % (HBTensorCached.create 16 5 (fun i => 10 * i)).cache_numel) ≠ 3 ∧
      ((HBTensorCached.create 16 5 (fun i => 10 * i)).cached_read 3).2.misses = 1 ∧
      ((HBTensorCached.create 16 5 (fun i => 10 * i)).cached_read 3).2.hits = 0) :=
  ⟨by decide, by decide,
    fresh_cache_first_read_misses 16 5 (fun i => 10 * i) 3 (by decide) (by decide)⟩

/-- The prefetch run leaves the backing store as it was. -/
theorem prefetch_data {α : Type} (c : HBTensorCached α) (off : Nat) :
    (c.prefetch off).data = c.data :=
  (prefetch_impl_data c off _).1

/-- C14: `cached_read` never writes to the backing tensor data: for every
cache state and every offset, hit or miss, the backing store after the call
is the backing store before it. -/
theorem cached_read_backing_unchanged {α : Type} (c : HBTensorCached α) (off : Nat) :
    (c.cached_read off).2.data = c.data := by
  unfold HBTensorCached.cached_read
  simp only []
  split_ifs with h
  · rfl
  · exact prefetch_data _ off

/-! ### Work generators -/

/-- Recording the calls over a list of indices appends the list to the log. -/
theorem foldl_record_call (l log : List Nat) :
    l.foldl (fun s i => record_call i s) log = log ++ l := by
  induction l generalizing log with
  | nil => rw [List.foldl_nil, List.append_nil]
  | cons i l ih =>
    rw [List.foldl_cons, ih]
    unfold record_call
    rw [List.append_assoc]
    rfl

/-- The calls `hb_tiled_for` makes, in order. -/
theorem hb_tiled_for_calls (c : Topology) (numel : Nat) :
    hb_tiled_for c numel record_call []
      = List.range' (calc_range c numel).start
          ((calc_range c numel).end_ - (calc_range c numel).start) := by
  unfold hb_tiled_for
  simp only []
  rw [foldl_record_call, List.nil_append]

/-- An index is called by `hb_tiled_for` exactly when it is in the range of
the tile. -/
theorem mem_hb_tiled_for_calls (c : Topology) (numel i : Nat) :
    i ∈ hb_tiled_for c numel record_call [] ↔ (calc_range c numel).contains i := by
  rw [hb_tiled_for_calls, List.mem_range'_1]
  unfold hb_range.contains
  constructor
  · rintro ⟨h1, h2⟩
    exact ⟨h1, by omega⟩
  · rintro ⟨h1, h2⟩
    exact ⟨h1, by omega⟩

/-- A range of `calc_range` with `start ≥ end` is the range `(0, 0)`. -/
theorem calc_range_empty (c : Topology) (numel : Nat)
    (h : (calc_range c numel).start ≥ (calc_range c numel).end_) :
    calc_range c numel = ⟨0, 0⟩ := by
  revert h
  unfold calc_range
  simp only []
  generalize numel / c.BSG_POD_DIM + 1 = L
  generalize L * c.bsg_pod_id = ps
  generalize ((if ps + L > numel then numel else ps + L) - ps)
    / (c.bsg_tiles_X * c.bsg_tiles_Y) + 1 = lt
  generalize lt * c.bsg_id = ts
  split_ifs <;> simp only [] <;> intro h <;> first | trivial | (exfalso; omega)

/-- C19: an empty assigned range is a guarded no-op.  Whenever `calc_range`
gives a tile `start ≥ end`, the range is `(0, 0)`, `hb_tiled_for` invokes the
functor on no index and returns the state it started from, and
`hb_tiled_foreach` on a result of that element count runs its loop over no
index and leaves the memory, the result included, as it was, whatever the
functor. -/
theorem empty_range_no_op (c : Topology) (numel : Nat)
    (h : (calc_range c numel).start ≥ (calc_range c numel).end_) :
    calc_range c numel = ⟨0, 0⟩ ∧
      hb_tiled_for c numel record_call [] = [] ∧
      (∀ (σ : Type) (functor : Nat → σ → σ) (s : σ), hb_tiled_for c numel functor s = s) ∧
      List.range' (calc_range c numel).start
        ((calc_range c numel).end_ - (calc_range c numel).start) = [] ∧
      (∀ (α : Type) [Inhabited α] (F : List α → α) (res : HBTensor) (inputs : List HBTensor)
        (m : Mem α), res.numel = numel → hb_tiled_foreach c F res inputs m = m) := by
  have he := calc_range_empty c numel h
  refine ⟨he, ?_, ?_, ?_, ?_⟩
  · rw [hb_tiled_for_calls, he]
    rfl
  · intro σ functor s
    unfold hb_tiled_for
    simp only []
    rw [he]
    rfl
  · rw [he]
    rfl
  · intro α _ F res inputs m hres
    unfold hb_tiled_foreach
    simp only []
    rw [hres, he]
    split_ifs
    · rfl
    · rfl

/-- Witness of C19: tile 15 of one pod of 4 by 4 tiles on 16 elements. -/
theorem empty_range_no_op_witness :
    (calc_range ⟨1, 0, 4, 4, 15⟩ 16).start ≥ (calc_range ⟨1, 0, 4, 4, 15⟩ 16).end_ ∧
    (calc_range ⟨1, 0, 4, 4, 15⟩ 16 = ⟨0, 0⟩ ∧
      hb_tiled_for ⟨1, 0, 4, 4, 15⟩ 16 record_call [] = [] ∧
      (∀ (σ : Type) (functor : Nat → σ → σ) (s : σ),
        hb_tiled_for ⟨1, 0, 4, 4, 15⟩ 16 functor s = s) ∧
      List.range' (calc_range ⟨1, 0, 4, 4, 15⟩ 16).start
        ((calc_range ⟨1, 0, 4, 4, 15⟩ 16).end_ - (calc_range ⟨1, 0, 4, 4, 15⟩ 16).start) = [] ∧
      (∀ (α : Type) [Inhabited α] (F : List α → α) (res : HBTensor) (inputs : List HBTensor)
        (m : Mem α), res.numel = 16 → hb_tiled_foreach ⟨1, 0, 4, 4, 15⟩ F res inputs m = m)) :=
  ⟨by decide, empty_range_no_op ⟨1, 0, 4, 4, 15⟩ 16 (by decide)⟩

/-- The list of all tiles has no repetition. -/
theorem all_tiles_nodup (P T : Nat) : (all_tiles P T).Nodup :=
  List.Nodup.product (List.nodup_range P) (List.nodup_range T)

/-- C20: the work generators.  `hb_for` calls the functor on 0, 1, ...,
`numel - 1` in ascending order, each once (and so folds any functor over that
list); `hb_tiled_for` calls it on the indices of the tile's `calc_range` range
in ascending order; and over all tiles of `P ≥ 1` pods of `X * Y ≥ 1` tiles
the calls of `hb_tiled_for` have no repetition and are a permutation of the
calls of `hb_for`. -/
theorem work_generators (P X Y numel : Nat) (hP : 1 ≤ P) (hT : 1 ≤ X * Y) :
    hb_for numel record_call [] = List.range numel ∧
      (∀ (σ : Type) (functor : Nat → σ → σ) (s : σ),
        hb_for numel functor s = (List.range numel).foldl (fun s i => functor i s) s) ∧
      (∀ c : Topology, hb_tiled_for c numel record_call []
        = List.range' (calc_range c numel).start
            ((calc_range c numel).end_ - (calc_range c numel).start)) ∧
      (∀ (c : Topology) (i : Nat),
        i ∈ hb_tiled_for c numel record_call [] ↔ (calc_range c numel).contains i) ∧
      ((all_tiles P (X * Y)).flatMap
        (fun pt => hb_tiled_for ⟨P, pt.1, X, Y, pt.2⟩ numel record_call [])).Nodup ∧
      ((all_tiles P (X * Y)).flatMap
        (fun pt => hb_tiled_for ⟨P, pt.1, X, Y, pt.2⟩ numel record_call [])).Perm
        (hb_for numel record_call []) := by
  have hfor : hb_for numel record_call [] = List.range numel := by
    unfold hb_for
    rw [foldl_record_call, List.nil_append, Nat.sub_zero, List.range_eq_range']
  have hnd : ((all_tiles P (X * Y)).flatMap
      (fun pt => hb_tiled_for ⟨P, pt.1, X, Y, pt.2⟩ numel record_call [])).Nodup := by
    rw [List.nodup_flatMap]
    constructor
    · intro pt _
      rw [hb_tiled_for_calls]
      exact List.nodup_range' _ _
    · refine (all_tiles_nodup P (X * Y)).imp ?_
      intro a b hab
      show List.Disjoint _ _
      intro i hi hj
      rw [mem_hb_tiled_for_calls] at hi hj
      obtain ⟨e1, e2⟩ := calc_range_unique numel P X Y a.1 a.2 b.1 b.2 i hi hj
      exact hab (Prod.ext e1 e2)
  refine ⟨hfor, ?_, fun c => hb_tiled_for_calls c numel,
    fun c i => mem_hb_tiled_for_calls c numel i, hnd, ?_⟩
  · intro σ functor s
    unfold hb_for
    rw [Nat.sub_zero, List.range_eq_range']
  · rw [hfor, List.perm_ext_iff_of_nodup hnd (List.nodup_range numel)]
    intro i
    rw [List.mem_flatMap, List.mem_range]
    constructor
    · rintro ⟨pt, -, hi⟩
      rw [mem_hb_tiled_for_calls] at hi
      exact ((contains_calc_range _ numel i).1 hi).1
    · intro hi
      obtain ⟨pod, id, hpod, hid, hc⟩ := calc_range_cover numel P X Y hP hT i hi
      exact ⟨(pod, id), (mem_all_tiles P (X * Y) pod id).2 ⟨hpod, hid⟩,
        (mem_hb_tiled_for_calls _ numel i).2 hc⟩

/-- Witness of C20: 16 elements on one pod of 2 by 2 tiles. -/
theorem work_generators_witness :
    1 ≤ 1 ∧ 1 ≤ 2 * 2 ∧
    (hb_for 16 record_call [] = List.range 16 ∧
      (∀ (σ : Type) (functor : Nat → σ → σ) (s : σ),
        hb_for 16 functor s = (List.range 16).foldl (fun s i => functor i s) s) ∧
      (∀ c : Topology, hb_tiled_for c 16 record_call []
        = List.range' (calc_range c 16).start
            ((calc_range c 16).end_ - (calc_range c 16).start)) ∧
      (∀ (c : Topology) (i : Nat),
        i ∈ hb_tiled_for c 16 record_call [] ↔ (calc_range c 16).contains i) ∧
      ((all_tiles 1 (2 * 2)).flatMap
        (fun pt => hb_tiled_for ⟨1, pt.1, 2, 2, pt.2⟩ 16 record_call [])).Nodup ∧
      ((all_tiles 1 (2 * 2)).flatMap
        (fun pt => hb_tiled_for ⟨1, pt.1, 2, 2, pt.2⟩ 16 record_call [])).Perm
        (hb_for 16 record_call [])) :=
  ⟨by decide, by decide, work_generators 1 2 2 16 (by decide) (by decide)⟩

/-! ### The streaming pipeline of the systolic convolution -/

/-- C16: the bootstrap protocol of `load_conv_imap`.  Called with the triple
`(0, 0, 0)` it launches the transfer of block `(0, 0, 0)` into the current
buffer, waits for the acknowledgment, and launches the transfer of the
successor block (that of `loop_inc`) into the next buffer, before it returns;
called with any other triple it first waits for the acknowledgment and then
launches one transfer, of the successor block, into the next buffer.  Every
call ends by telling the FIFO that a write has finished. -/
theorem load_conv_imap_protocol (block_x block_y N Cout Cin : Nat) :
    load_conv_imap block_x block_y 0 0 0 N Cout Cin
        = [SmuCall.launch_smu_conv_imap block_x block_y 0 0 0 BufferSel.get_buffer,
            SmuCall.wait_smu,
            SmuCall.launch_smu_conv_imap block_x block_y (loop_inc 0 0 0 N Cout Cin).1
              (loop_inc 0 0 0 N Cout Cin).2.1 (loop_inc 0 0 0 N Cout Cin).2.2
              BufferSel.get_next_buffer,
            SmuCall.SMU_finish_wb] ∧
      ∀ image_id filter_id channel_id, (image_id, filter_id, channel_id) ≠ (0, 0, 0) →
        load_conv_imap block_x block_y image_id filter_id channel_id N Cout Cin
          = [SmuCall.wait_smu,
              SmuCall.launch_smu_conv_imap block_x block_y
                (loop_inc image_id filter_id channel_id N Cout Cin).1
                (loop_inc image_id filter_id channel_id N Cout Cin).2.1
                (loop_inc image_id filter_id channel_id N Cout Cin).2.2
                BufferSel.get_next_buffer,
              SmuCall.SMU_finish_wb] := by
  constructor
  · rfl
  · intro image_id filter_id channel_id hne
    unfold load_conv_imap
    simp only []
    rw [if_neg]
    · rfl
    · rintro ⟨h1, h2, h3⟩
      exact hne (by rw [h1, h2, h3])

/-- Witness of C16: the call for the triple `(0, 16, 1)` with 2 images, 20
output channels and 2 input channels. -/
theorem load_conv_imap_protocol_witness :
    ((0, 16, 1) : Nat × Nat × Nat) ≠ (0, 0, 0) ∧
    load_conv_imap 1 2 0 16 1 2 20 2
      = [SmuCall.wait_smu,
          SmuCall.launch_smu_conv_imap 1 2 (loop_inc 0 16 1 2 20 2).1 (loop_inc 0 16 1 2 20 2).2.1
            (loop_inc 0 16 1 2 20 2).2.2 BufferSel.get_next_buffer,
          SmuCall.SMU_finish_wb] :=
  ⟨by decide, (load_conv_imap_protocol 1 2 2 20 2).2 0 16 1 (by decide)⟩

/-- A tile that is not last in its row does forward: tile 0 with 20 output
channels passes the block on in both of its iterations. -/
theorem forward_passes_first_column : forward_passes 0 1 20 1 = [true, true] := by
  decide

/-- C18: the last tile in a row never forwards.  In the forward and
back-input kernels a tile with `bsg_x = 15` performs the pass-through copy in
no iteration of its loop nest; in the back-weight kernel a tile with
`bsg_x = BSG_TILE_GROUP_X_DIM - 1` performs the imap pass-through in no
iteration, and a tile with `bsg_y = BSG_TILE_GROUP_Y_DIM - 1` performs the
grad pass-through in no iteration. -/
theorem last_tile_never_forwards (X_DIM Y_DIM bsg_x bsg_y : Nat)
    (hx : (bsg_x : Int) = (X_DIM : Int) - 1) (hy : (bsg_y : Int) = (Y_DIM : Int) - 1) :
    (∀ N Cout Cin, ∀ b ∈ forward_passes 15 N Cout Cin, b = false) ∧
      (∀ row N Cout N_imap h_blocks w_blocks,
        ∀ b ∈ back_weight_imap_passes X_DIM bsg_x row N Cout N_imap h_blocks w_blocks,
          b = false) ∧
      (∀ col N Cout N_imap h_blocks w_blocks,
        ∀ b ∈ back_weight_grad_passes Y_DIM col bsg_y N Cout N_imap h_blocks w_blocks,
          b = false) := by
  refine ⟨?_, ?_, ?_⟩
  · intro N Cout Cin b hb
    unfold forward_passes at hb
    obtain ⟨t, -, rfl⟩ := List.mem_map.1 hb
    rfl
  · intro row N Cout N_imap h_blocks w_blocks b hb
    unfold back_weight_imap_passes at hb
    obtain ⟨t, -, rfl⟩ := List.mem_map.1 hb
    unfold should_pass_imap
    rw [if_pos hx]
    rfl
  · intro col N Cout N_imap h_blocks w_blocks b hb
    unfold back_weight_grad_passes at hb
    obtain ⟨t, -, rfl⟩ := List.mem_map.1 hb
    unfold should_pass_grad
    rw [if_pos hy]
    rfl

/-- Witness of C18: a tile group of 16 by 8 tiles, tile column 15 and tile
row 7. -/
theorem last_tile_never_forwards_witness :
    ((15 : Nat) : Int) = ((16 : Nat) : Int) - 1 ∧ ((7 : Nat) : Int) = ((8 : Nat) : Int) - 1 ∧
    ((∀ N Cout Cin, ∀ b ∈ forward_passes 15 N Cout Cin, b = false) ∧
      (∀ row N Cout N_imap h_blocks w_blocks,
        ∀ b ∈ back_weight_imap_passes 16 15 row N Cout N_imap h_blocks w_blocks, b = false) ∧
      (∀ col N Cout N_imap h_blocks w_blocks,
        ∀ b ∈ back_weight_grad_passes 8 col 7 N Cout N_imap h_blocks w_blocks, b = false)) :=
  ⟨by decide, by decide, last_tile_never_forwards 16 8 15 7 (by decide) (by decide)⟩

/-! ### The loop nest and its successor function -/

/-- A stepping loop that enters its body starts with its start value. -/
theorem for_step_cons (step bound fuel x : Nat) (h : x < bound) :
    for_step step bound (fuel + 1) x = x :: for_step step bound fuel (x + step) := by
  show (if x < bound then x :: for_step step bound fuel (x + step) else []) = _
  rw [if_pos h]

/-- The first value of a stepping loop is its start value, below the bound. -/
theorem for_step_head (step bound fuel x y : Nat)
    (hy : y ∈ (for_step step bound fuel x).head?) : y = x ∧ y < bound := by
  cases fuel with
  | zero => simp [for_step] at hy
  | succ fuel =>
    unfold for_step at hy
    split_ifs at hy with h
    · simp only [List.head?_cons, Option.mem_def, Option.some.injEq] at hy
      subst hy
      exact ⟨rfl, h⟩
    · simp at hy

/-- Consecutive values of a stepping loop differ by the step, and the later
one is below the bound. -/
theorem for_step_chain (step bound fuel x : Nat) :
    List.Chain' (fun f g => g = f + step ∧ g < bound) (for_step step bound fuel x) := by
  induction fuel generalizing x with
  | zero => exact List.chain'_nil
  | succ fuel ih =>
    unfold for_step
    split_ifs with h
    · exact (ih (x + step)).cons' (fun y hy => for_step_head step bound fuel (x + step) y hy)
    · exact List.chain'_nil

/-- With enough fuel the stepping loop ends because its condition fails: one
more step from the last value reaches the bound. -/
theorem for_step_last (step bound fuel x y : Nat) (hstep : 1 ≤ step) (hfuel : bound ≤ x + fuel)
    (hy : y ∈ (for_step step bound fuel x).getLast?) : bound ≤ y + step ∧ y < bound := by
  induction fuel generalizing x with
  | zero => simp [for_step] at hy
  | succ fuel ih =>
    unfold for_step at hy
    split_ifs at hy with h
    · rcases hr : for_step step bound fuel (x + step) with _ | ⟨b, l⟩
      · rw [hr] at hy
        simp only [List.getLast?_singleton, Option.mem_def, Option.some.injEq] at hy
        subst hy
        refine ⟨?_, h⟩
        cases fuel with
        | zero => omega
        | succ fuel =>
          unfold for_step at hr
          split_ifs at hr with h2
          omega
      · rw [hr, List.getLast?_cons_cons, ← hr] at hy
        exact ih (x + step) (by omega) hy
    · simp at hy

/-- The values of a stepping loop with enough fuel: the start value plus
multiples of the step, below the bound. -/
theorem mem_for_step (step bound fuel x y : Nat) (hstep : 1 ≤ step) (hfuel : bound ≤ x + fuel) :
    y ∈ for_step step bound fuel x ↔ x ≤ y ∧ y < bound ∧ step ∣ (y - x) := by
  induction fuel generalizing x with
  | zero =>
    unfold for_step
    simp only [List.not_mem_nil, false_iff]
    omega
  | succ fuel ih =>
    unfold for_step
    split_ifs with h
    · rw [List.mem_cons, ih (x + step) (by omega)]
      constructor
      · rintro (rfl | ⟨h1, h2, h3⟩)
        · exact ⟨Nat.le_refl _, h, by simp⟩
        · refine ⟨by omega, h2, ?_⟩
          have e : y - x = (y - (x + step)) + step := by omega
          rw [e]
          exact Nat.dvd_add h3 (Nat.dvd_refl _)
      · rintro ⟨h1, h2, h3⟩
        by_cases hxy : y = x
        · exact Or.inl hxy
        · right
          have hle : step ≤ y - x := Nat.le_of_dvd (by omega) h3
          refine ⟨by omega, h2, ?_⟩
          have e : y - x = (y - (x + step)) + step := by omega
          rw [e] at h3
          exact (Nat.dvd_add_left (Nat.dvd_refl _)).1 h3
    · simp only [List.not_mem_nil, false_iff]
      omega

/-- The first element of a nest of non-empty inner loops is the first
element of the first inner loop. -/
theorem head?_flatMap_of {α β : Type} (l : List α) (f : α → List β) (hne : ∀ a ∈ l, f a ≠ [])
    (x : β) (hx : x ∈ (l.flatMap f).head?) : ∃ a ∈ l.head?, x ∈ (f a).head? := by
  cases l with
  | nil => simp at hx
  | cons a l =>
    rw [List.flatMap_cons, List.head?_append_of_ne_nil _ (hne a (List.mem_cons_self _ _))] at hx
    exact ⟨a, rfl, hx⟩

/-- A nest of non-empty inner loops over a non-empty list is non-empty. -/
theorem flatMap_ne_nil_of {α β : Type} (l : List α) (f : α → List β) (hl : l ≠ [])
    (hne : ∀ a ∈ l, f a ≠ []) : l.flatMap f ≠ [] := by
  cases l with
  | nil => exact absurd rfl hl
  | cons a l =>
    rw [List.flatMap_cons]
    intro h
    exact hne a (List.mem_cons_self _ _) (List.append_eq_nil.1 h).1

/-- The last element of a nest of non-empty inner loops is the last element
of the last inner loop. -/
theorem getLast?_flatMap_of {α β : Type} (l : List α) (f : α → List β)
    (hne : ∀ a ∈ l, f a ≠ []) (x : β) (hx : x ∈ (l.flatMap f).getLast?) :
    ∃ a ∈ l.getLast?, x ∈ (f a).getLast? := by
  induction l with
  | nil => simp at hx
  | cons a l ih =>
    have hne' : ∀ b ∈ l, f b ≠ [] := fun b hb => hne b (List.mem_cons_of_mem _ hb)
    rw [List.flatMap_cons] at hx
    cases l with
    | nil =>
      rw [List.flatMap_nil, List.append_nil] at hx
      exact ⟨a, rfl, hx⟩
    | cons b l =>
      rw [List.getLast?_append_of_ne_nil _
        (flatMap_ne_nil_of (b :: l) f (List.cons_ne_nil _ _) hne')] at hx
      obtain ⟨c, hc, hxc⟩ := ih hne' hx
      exact ⟨c, by rw [List.getLast?_cons_cons]; exact hc, hxc⟩

/-- A nest of loops is chained by a relation when every inner loop is, and
the last element of each inner loop is related to the first of the next. -/
theorem chain'_flatMap_of {α β : Type} (R : β → β → Prop) (l : List α) (f : α → List β)
    (hne : ∀ a ∈ l, f a ≠ []) (hin : ∀ a ∈ l, List.Chain' R (f a))
    (hbt : List.Chain' (fun a b => ∀ x ∈ (f a).getLast?, ∀ y ∈ (f b).head?, R x y) l) :
    List.Chain' R (l.flatMap f) := by
  induction l with
  | nil => exact List.chain'_nil
  | cons a l ih =>
    have hne' : ∀ b ∈ l, f b ≠ [] := fun b hb => hne b (List.mem_cons_of_mem _ hb)
    rw [List.flatMap_cons]
    refine List.Chain'.append (hin a (List.mem_cons_self _ _))
      (ih hne' (fun b hb => hin b (List.mem_cons_of_mem _ hb)) hbt.tail) ?_
    intro x hx y hy
    obtain ⟨b, hb, hyb⟩ := head?_flatMap_of l f hne' y hy
    exact hbt.rel_head? hb x hx y hyb

/-- Inside the channel loop `loop_inc` steps the channel. -/
theorem loop_inc_channel (i f c N Cout Cin : Nat) (h : c + 1 < Cin) :
    loop_inc i f c N Cout Cin = (i, f, c + 1) := by
  unfold loop_inc
  simp only []
  split_ifs <;> first | rfl | (exfalso; omega)

/-- At the end of the channel loop `loop_inc` steps the filter by 16. -/
theorem loop_inc_filter (i f c N Cout Cin : Nat) (h1 : Cin ≤ c + 1) (h2 : f + 16 < Cout) :
    loop_inc i f c N Cout Cin = (i, f + 16, 0) := by
  unfold loop_inc
  simp only []
  split_ifs <;> first | rfl | (exfalso; omega)

/-- At the end of the filter loop `loop_inc` steps the image. -/
theorem loop_inc_image (i f c N Cout Cin : Nat) (h1 : Cin ≤ c + 1) (h2 : Cout ≤ f + 16)
    (h3 : i + 1 < N) : loop_inc i f c N Cout Cin = (i + 1, 0, 0) := by
  unfold loop_inc
  simp only []
  split_ifs <;> first | rfl | (exfalso; omega)

/-- At the end of the image loop `loop_inc` returns to the first triple. -/
theorem loop_inc_wrap (i f c N Cout Cin : Nat) (h1 : Cin ≤ c + 1) (h2 : Cout ≤ f + 16)
    (h3 : N ≤ i + 1) : loop_inc i f c N Cout Cin = (0, 0, 0) := by
  unfold loop_inc
  simp only []
  split_ifs <;> rfl

/-- The first and the last triple of a channel loop. -/
theorem channel_loop_ends (i f Cin : Nat) (hCin : 1 ≤ Cin) :
    ((List.range Cin).map (fun c => (i, f, c))).head? = some (i, f, 0) ∧
      ((List.range Cin).map (fun c => (i, f, c))).getLast? = some (i, f, Cin - 1) ∧
      (List.range Cin).map (fun c => (i, f, c)) ≠ [] := by
  obtain ⟨n, rfl⟩ : ∃ n, Cin = n + 1 := ⟨Cin - 1, by omega⟩
  refine ⟨?_, ?_, ?_⟩
  · rw [List.head?_map, List.head?_range]
    rfl
  · rw [List.getLast?_map, List.getLast?_range]
    rfl
  · rw [List.range_succ]
    simp

/-- The channel loop is chained by `loop_inc`. -/
theorem channel_loop_chain (i f N Cout Cin : Nat) :
    List.Chain' (fun t u => loop_inc_of t N Cout Cin = u)
      ((List.range Cin).map (fun c => (i, f, c))) := by
  rw [List.chain'_map]
  cases Cin with
  | zero => exact List.chain'_nil
  | succ n =>
    rw [List.chain'_range_succ]
    intro m hm
    exact loop_inc_channel i f m N Cout (n + 1) (by omega)

/-- The filter loop of the first column is not empty, starts at filter 0 and
ends at a filter within 16 of `Cout`. -/
theorem filter_loop_ends (i Cout Cin : Nat) (hCout : 1 ≤ Cout) (hCin : 1 ≤ Cin) :
    (for_step 16 Cout Cout 0).flatMap (fun f => (List.range Cin).map (fun c => (i, f, c))) ≠ [] ∧
      (∀ x ∈ ((for_step 16 Cout Cout 0).flatMap
          (fun f => (List.range Cin).map (fun c => (i, f, c)))).head?, x = (i, 0, 0)) ∧
      (∀ x ∈ ((for_step 16 Cout Cout 0).flatMap
          (fun f => (List.range Cin).map (fun c => (i, f, c)))).getLast?,
        x.1 = i ∧ Cout ≤ x.2.1 + 16 ∧ x.2.2 + 1 = Cin) := by
  have hne : ∀ f ∈ for_step 16 Cout Cout 0, (List.range Cin).map (fun c => (i, f, c)) ≠ [] :=
    fun f _ => (channel_loop_ends i f Cin hCin).2.2
  have hfs : for_step 16 Cout Cout 0 ≠ [] := by
    obtain ⟨n, rfl⟩ : ∃ n, Cout = n + 1 := ⟨Cout - 1, by omega⟩
    rw [for_step_cons 16 (n + 1) n 0 (by omega)]
    exact List.cons_ne_nil _ _
  refine ⟨flatMap_ne_nil_of _ _ hfs hne, ?_, ?_⟩
  · intro x hx
    obtain ⟨f, hf, hxf⟩ := head?_flatMap_of _ _ hne x hx
    obtain ⟨rfl, -⟩ := for_step_head 16 Cout Cout 0 f hf
    rw [(channel_loop_ends i 0 Cin hCin).1] at hxf
    exact (Option.some.inj hxf).symm
  · intro x hx
    obtain ⟨f, hf, hxf⟩ := getLast?_flatMap_of _ _ hne x hx
    obtain ⟨h1, -⟩ := for_step_last 16 Cout Cout 0 f (by omega) (by omega) hf
    rw [(channel_loop_ends i f Cin hCin).2.1] at hxf
    have := (Option.some.inj hxf).symm
    subst this
    exact ⟨rfl, h1, by simp only []; omega⟩

/-- The filter loop of the first column is chained by `loop_inc`. -/
theorem filter_loop_chain (i N Cout Cin : Nat) (hCin : 1 ≤ Cin) :
    List.Chain' (fun t u => loop_inc_of t N Cout Cin = u)
      ((for_step 16 Cout Cout 0).flatMap (fun f => (List.range Cin).map (fun c => (i, f, c)))) := by
  refine chain'_flatMap_of _ _ _ (fun f _ => (channel_loop_ends i f Cin hCin).2.2)
    (fun f _ => channel_loop_chain i f N Cout Cin) ?_
  refine (for_step_chain 16 Cout Cout 0).imp ?_
  rintro f g ⟨rfl, hg⟩ x hx y hy
  rw [(channel_loop_ends i f Cin hCin).2.1] at hx
  rw [(channel_loop_ends i (f + 16) Cin hCin).1] at hy
  have ex := (Option.some.inj hx).symm
  have ey := (Option.some.inj hy).symm
  subst ex
  subst ey
  exact loop_inc_filter i f (Cin - 1) N Cout Cin (by omega) hg

/-- The loop nest of the first column is chained by `loop_inc`. -/
theorem forward_visits_chain (N Cout Cin : Nat) (hCout : 1 ≤ Cout) (hCin : 1 ≤ Cin) :
    List.Chain' (fun t u => loop_inc_of t N Cout Cin = u) (forward_visits 0 N Cout Cin) := by
  unfold forward_visits
  refine chain'_flatMap_of _ _ _ (fun i _ => (filter_loop_ends i Cout Cin hCout hCin).1)
    (fun i _ => filter_loop_chain i N Cout Cin hCin) ?_
  cases N with
  | zero => exact List.chain'_nil
  | succ n =>
    rw [List.chain'_range_succ]
    intro m hm x hx y hy
    obtain ⟨h1, h2, h3⟩ := (filter_loop_ends m Cout Cin hCout hCin).2.2 x hx
    have ey := (filter_loop_ends (m + 1) Cout Cin hCout hCin).2.1 y hy
    subst ey
    obtain ⟨xi, xf, xc⟩ := x
    simp only [] at h1 h2 h3
    subst h1
    exact loop_inc_image xi xf xc (n + 1) Cout Cin (by omega) h2 (by omega)

/-- The triples the loop nest of the first column visits. -/
theorem mem_forward_visits (N Cout Cin : Nat) (t : Nat × Nat × Nat) :
    t ∈ forward_visits 0 N Cout Cin ↔ t.1 < N ∧ t.2.1 < Cout ∧ 16 ∣ t.2.1 ∧ t.2.2 < Cin := by
  obtain ⟨i, f, c⟩ := t
  unfold forward_visits
  simp only [List.mem_flatMap, List.mem_map, List.mem_range, Prod.mk.injEq]
  constructor
  · rintro ⟨i', hi, f', hf, c', hc, rfl, rfl, rfl⟩
    obtain ⟨-, h2, h3⟩ := (mem_for_step 16 Cout Cout 0 f' (by omega) (by omega)).1 hf
    exact ⟨hi, h2, h3, hc⟩
  · rintro ⟨hi, hf, hd, hc⟩
    exact ⟨i, hi, f,
      (mem_for_step 16 Cout Cout 0 f (by omega) (by omega)).2 ⟨Nat.zero_le _, hf, hd⟩,
      c, hc, rfl, rfl, rfl⟩

/-- C17: `loop_inc` is the successor function of the loop nest of the first
column.  For `N, Cout, Cin ≥ 1` the nest visits the triples with image below
`N`, filter a multiple of 16 below `Cout` and channel below `Cin`, starting at
`(0, 0, 0)`; for every iteration but the last `loop_inc` returns the triple of
the iteration that follows, which is therefore the block whose transfer
`load_conv_imap` launches into the next buffer; and after the last iteration
`loop_inc` returns `(0, 0, 0)`. -/
theorem loop_inc_is_successor (N Cout Cin : Nat) (hN : 1 ≤ N) (hCout : 1 ≤ Cout)
    (hCin : 1 ≤ Cin) :
    (∀ t : Nat × Nat × Nat, t ∈ forward_visits 0 N Cout Cin ↔
        t.1 < N ∧ t.2.1 < Cout ∧ 16 ∣ t.2.1 ∧ t.2.2 < Cin) ∧
      (forward_visits 0 N Cout Cin).head? = some (0, 0, 0) ∧
      (∀ k (h : k + 1 < (forward_visits 0 N Cout Cin).length),
        loop_inc_of ((forward_visits 0 N Cout Cin).get ⟨k, Nat.lt_of_succ_lt h⟩) N Cout Cin
          = (forward_visits 0 N Cout Cin).get ⟨k + 1, h⟩) ∧
      (∀ k (h : k + 1 < (forward_visits 0 N Cout Cin).length) (block_x block_y : Nat),
        SmuCall.launch_smu_conv_imap block_x block_y
            ((forward_visits 0 N Cout Cin).get ⟨k + 1, h⟩).1
            ((forward_visits 0 N Cout Cin).get ⟨k + 1, h⟩).2.1
            ((forward_visits 0 N Cout Cin).get ⟨k + 1, h⟩).2.2 BufferSel.get_next_buffer
          ∈ load_conv_imap block_x block_y
              ((forward_visits 0 N Cout Cin).get ⟨k, Nat.lt_of_succ_lt h⟩).1
              ((forward_visits 0 N Cout Cin).get ⟨k, Nat.lt_of_succ_lt h⟩).2.1
              ((forward_visits 0 N Cout Cin).get ⟨k, Nat.lt_of_succ_lt h⟩).2.2 N Cout Cin) ∧
      (∃ t, (forward_visits 0 N Cout Cin).getLast? = some t ∧
        loop_inc_of t N Cout Cin = (0, 0, 0)) := by
  have hne : ∀ i ∈ List.range N,
      (for_step 16 Cout Cout 0).flatMap (fun f => (List.range Cin).map (fun c => (i, f, c))) ≠ [] :=
    fun i _ => (filter_loop_ends i Cout Cin hCout hCin).1
  have hrange : List.range N ≠ [] := by
    obtain ⟨n, rfl⟩ : ∃ n, N = n + 1 := ⟨N - 1, by omega⟩
    rw [List.range_succ]
    simp
  have hvis : forward_visits 0 N Cout Cin ≠ [] := flatMap_ne_nil_of _ _ hrange hne
  have hsucc : ∀ k (h : k + 1 < (forward_visits 0 N Cout Cin).length),
      loop_inc_of ((forward_visits 0 N Cout Cin).get ⟨k, Nat.lt_of_succ_lt h⟩) N Cout Cin
        = (forward_visits 0 N Cout Cin).get ⟨k + 1, h⟩ :=
    fun k h => List.chain'_iff_get.1 (forward_visits_chain N Cout Cin hCout hCin) k (by omega)
  refine ⟨mem_forward_visits N Cout Cin, ?_, hsucc, ?_, ?_⟩
  · rcases hh : (forward_visits 0 N Cout Cin).head? with _ | x
    · exact absurd (List.head?_eq_none_iff.1 hh) hvis
    · obtain ⟨i, hi, hx⟩ := head?_flatMap_of (List.range N) _ hne x hh
      rw [List.head?_range, if_neg (by omega)] at hi
      have ei := (Option.some.inj hi).symm
      subst ei
      rw [(filter_loop_ends 0 Cout Cin hCout hCin).2.1 x hx]
  · intro k h block_x block_y
    have e := hsucc k h
    unfold loop_inc_of at e
    rw [← e]
    unfold load_conv_imap
    simp only []
    split_ifs <;> simp
  · rcases hl : (forward_visits 0 N Cout Cin).getLast? with _ | x
    · exact absurd (List.getLast?_eq_none_iff.1 hl) hvis
    · refine ⟨x, rfl, ?_⟩
      obtain ⟨i, hi, hx⟩ := getLast?_flatMap_of (List.range N) _ hne x hl
      rw [List.getLast?_range, if_neg (by omega)] at hi
      have ei := (Option.some.inj hi).symm
      subst ei
      obtain ⟨h1, h2, h3⟩ := (filter_loop_ends (N - 1) Cout Cin hCout hCin).2.2 x hx
      obtain ⟨xi, xf, xc⟩ := x
      simp only [] at h1 h2 h3
      exact loop_inc_wrap xi xf xc N Cout Cin (by omega) h2 (by omega)

/-- Witness of C17: 2 images, 20 output channels, 2 input channels. -/
theorem loop_inc_is_successor_witness :
    1 ≤ 2 ∧ 1 ≤ 20 ∧ 1 ≤ 2 ∧
    ((∀ t : Nat × Nat × Nat, t ∈ forward_visits 0 2 20 2 ↔
        t.1 < 2 ∧ t.2.1 < 20 ∧ 16 ∣ t.2.1 ∧ t.2.2 < 2) ∧
      (forward_visits 0 2 20 2).head? = some (0, 0, 0) ∧
      (∀ k (h : k + 1 < (forward_visits 0 2 20 2).length),
        loop_inc_of ((forward_visits 0 2 20 2).get ⟨k, Nat.lt_of_succ_lt h⟩) 2 20 2
          = (forward_visits 0 2 20 2).get ⟨k + 1, h⟩) ∧
      (∀ k (h : k + 1 < (forward_visits 0 2 20 2).length) (block_x block_y : Nat),
        SmuCall.launch_smu_conv_imap block_x block_y
            ((forward_visits 0 2 20 2).get ⟨k + 1, h⟩).1
            ((forward_visits 0 2 20 2).get ⟨k + 1, h⟩).2.1
            ((forward_visits 0 2 20 2).get ⟨k + 1, h⟩).2.2 BufferSel.get_next_buffer
          ∈ load_conv_imap block_x block_y
              ((forward_visits 0 2 20 2).get ⟨k, Nat.lt_of_succ_lt h⟩).1
              ((forward_visits 0 2 20 2).get ⟨k, Nat.lt_of_succ_lt h⟩).2.1
              ((forward_visits 0 2 20 2).get ⟨k, Nat.lt_of_succ_lt h⟩).2.2 2 20 2) ∧
      (∃ t, (forward_visits 0 2 20 2).getLast? = some t ∧
        loop_inc_of t 2 20 2 = (0, 0, 0))) :=
  ⟨by decide, by decide, by decide, loop_inc_is_successor 2 20 2 (by decide) (by decide)
    (by decide)⟩

/-! ### Chunk lengths of the partitioner -/

/-- The function `calc_range` in terms of its chunk lengths `len_per_pod` and
`len_per_tile`. -/
theorem calc_range_chunks (c : Topology) (numel : Nat) :
    calc_range c numel =
      (if len_per_pod c numel * c.bsg_pod_id
          ≥ min (len_per_pod c numel * c.bsg_pod_id + len_per_pod c numel) numel then ⟨0, 0⟩
      else if len_per_tile c (pod_size c.BSG_POD_DIM c.bsg_pod_id numel) * c.bsg_id
          ≥ min (len_per_tile c (pod_size c.BSG_POD_DIM c.bsg_pod_id numel) * c.bsg_id
                + len_per_tile c (pod_size c.BSG_POD_DIM c.bsg_pod_id numel))
              (pod_size c.BSG_POD_DIM c.bsg_pod_id numel) then ⟨0, 0⟩
      else ⟨len_per_pod c numel * c.bsg_pod_id
            + len_per_tile c (pod_size c.BSG_POD_DIM c.bsg_pod_id numel) * c.bsg_id,
          len_per_pod c numel * c.bsg_pod_id
            + min (len_per_tile c (pod_size c.BSG_POD_DIM c.bsg_pod_id numel) * c.bsg_id
                + len_per_tile c (pod_size c.BSG_POD_DIM c.bsg_pod_id numel))
              (pod_size c.BSG_POD_DIM c.bsg_pod_id numel)⟩) := by
  unfold calc_range len_per_pod len_per_tile pod_size
  simp only []
  generalize numel / c.BSG_POD_DIM + 1 = L
  generalize L * c.bsg_pod_id = ps
  have hmin : (if ps + L > numel then numel else ps + L) = min (ps + L) numel := by
    split_ifs <;> omega
  rw [hmin]
  generalize (min (ps + L) numel - ps) / (c.bsg_tiles_X * c.bsg_tiles_Y) + 1 = lt
  generalize lt * c.bsg_id = ts
  have hmin2 : (if ts + lt > min (ps + L) numel - ps then min (ps + L) numel - ps else ts + lt)
      = min (ts + lt) (min (ps + L) numel - ps) := by
    split_ifs <;> omega
  rw [hmin2]

/-- The ceiling of `n / d` is the least `q` with `n ≤ d * q`. -/
theorem ceil_div_spec (n d : Nat) (hd : 1 ≤ d) :
    n ≤ d * ceil_div n d ∧ ∀ q, n ≤ d * q → ceil_div n d ≤ q := by
  unfold ceil_div
  constructor
  · have h := lt_succ_div_mul (n + d - 1) d hd
    rw [Nat.mul_add, Nat.mul_one] at h
    omega
  · intro q hq
    apply Nat.le_of_lt_succ
    rw [Nat.div_lt_iff_lt_mul hd]
    rw [Nat.succ_mul, Nat.mul_comm]
    omega

/-- Floor plus one against ceiling: equal when `d` does not divide `n`, one
more when it does. -/
theorem succ_div_ceil (n d : Nat) (hd : 1 ≤ d) :
    (d ∣ n → n / d + 1 = ceil_div n d + 1) ∧ (¬ d ∣ n → n / d + 1 = ceil_div n d) := by
  obtain ⟨h1, h2⟩ := ceil_div_spec n d hd
  have hlt := lt_succ_div_mul n d hd
  have hle : d * (n / d) ≤ n := Nat.mul_div_le n d
  constructor
  · intro hdvd
    have he : d * (n / d) = n := Nat.mul_div_cancel' hdvd
    have h3 := h2 (n / d) (by omega)
    have h4 : n / d ≤ ceil_div n d := by
      by_contra hcon
      have h5 : ceil_div n d + 1 ≤ n / d := by omega
      have h6 := Nat.mul_le_mul_left d h5
      rw [Nat.mul_add, Nat.mul_one] at h6
      omega
    omega
  · intro hndvd
    have hne : d * (n / d) ≠ n := fun he => hndvd ⟨n / d, he.symm⟩
    have h3 := h2 (n / d + 1) (by omega)
    have h4 : n / d + 1 ≤ ceil_div n d := by
      by_contra hcon
      have h5 : ceil_div n d ≤ n / d := by omega
      have h6 := Nat.mul_le_mul_left d h5
      omega
    omega

/-- C21, as stated, fails: the chunk lengths are floor plus one, not the
ceiling.  For 16 elements on 2 pods the per-pod chunk length is 9 while the
ceiling of 16 / 2 is 8 (the pods get `[0, 9)` and `[9, 16)`); for a pod of 16
elements on 4 tiles the per-tile chunk length is 5 while the ceiling of 16 / 4
is 4. -/
theorem ceiling_split_counterexample :
    len_per_pod ⟨2, 0, 1, 1, 0⟩ 16 = 9 ∧ ceil_div 16 2 = 8 ∧
      calc_range ⟨2, 0, 1, 1, 0⟩ 16 = ⟨0, 9⟩ ∧ calc_range ⟨2, 1, 1, 1, 0⟩ 16 = ⟨9, 16⟩ ∧
      pod_size 1 0 16 = 16 ∧ len_per_tile ⟨1, 0, 2, 2, 0⟩ 16 = 5 ∧ ceil_div 16 (2 * 2) = 4 ∧
      calc_range ⟨1, 0, 2, 2, 0⟩ 16 = ⟨0, 5⟩ := by
  decide

/-- C21, amended: `calc_range` splits by floor division plus one.  For every
`N` and `P ≥ 1` the per-pod chunk length is `N / P + 1`, which is the ceiling
of `N / P` when `P` does not divide `N` and one more than the ceiling when it
does; and for every pod size `S` and `T ≥ 1` tiles the per-tile chunk length is
`S / T + 1`, the ceiling of `S / T` when `T` does not divide `S` and one more
when it does. -/
theorem chunk_lengths (c : Topology) (N S : Nat) (hP : 1 ≤ c.BSG_POD_DIM)
    (hT : 1 ≤ c.bsg_tiles_X * c.bsg_tiles_Y) :
    len_per_pod c N = N / c.BSG_POD_DIM + 1 ∧
      (¬ c.BSG_POD_DIM ∣ N → len_per_pod c N = ceil_div N c.BSG_POD_DIM) ∧
      (c.BSG_POD_DIM ∣ N → len_per_pod c N = ceil_div N c.BSG_POD_DIM + 1) ∧
      len_per_tile c S = S / (c.bsg_tiles_X * c.bsg_tiles_Y) + 1 ∧
      (¬ c.bsg_tiles_X * c.bsg_tiles_Y ∣ S →
        len_per_tile c S = ceil_div S (c.bsg_tiles_X * c.bsg_tiles_Y)) ∧
      (c.bsg_tiles_X * c.bsg_tiles_Y ∣ S →
        len_per_tile c S = ceil_div S (c.bsg_tiles_X * c.bsg_tiles_Y) + 1) :=
  ⟨rfl, (succ_div_ceil N c.BSG_POD_DIM hP).2, (succ_div_ceil N c.BSG_POD_DIM hP).1, rfl,
    (succ_div_ceil S (c.bsg_tiles_X * c.bsg_tiles_Y) hT).2,
    (succ_div_ceil S (c.bsg_tiles_X * c.bsg_tiles_Y) hT).1⟩

/-- Witness of C21, amended: 3 pods of 2 by 2 tiles, 16 elements, a pod of 6
elements. -/
theorem chunk_lengths_witness :
    1 ≤ (⟨3, 0, 2, 2, 0⟩ : Topology).BSG_POD_DIM ∧
    1 ≤ (⟨3, 0, 2, 2, 0⟩ : Topology).bsg_tiles_X * (⟨3, 0, 2, 2, 0⟩ : Topology).bsg_tiles_Y ∧
    (len_per_pod ⟨3, 0, 2, 2, 0⟩ 16 = 16 / (⟨3, 0, 2, 2, 0⟩ : Topology).BSG_POD_DIM + 1 ∧
      (¬ (⟨3, 0, 2, 2, 0⟩ : Topology).BSG_POD_DIM ∣ 16 →
        len_per_pod ⟨3, 0, 2, 2, 0⟩ 16 = ceil_div 16 (⟨3, 0, 2, 2, 0⟩ : Topology).BSG_POD_DIM) ∧
      ((⟨3, 0, 2, 2, 0⟩ : Topology).BSG_POD_DIM ∣ 16 →
        len_per_pod ⟨3, 0, 2, 2, 0⟩ 16
          = ceil_div 16 (⟨3, 0, 2, 2, 0⟩ : Topology).BSG_POD_DIM + 1) ∧
      len_per_tile ⟨3, 0, 2, 2, 0⟩ 6
        = 6 / ((⟨3, 0, 2, 2, 0⟩ : Topology).bsg_tiles_X
            * (⟨3, 0, 2, 2, 0⟩ : Topology).bsg_tiles_Y) + 1 ∧
      (¬ (⟨3, 0, 2, 2, 0⟩ : Topology).bsg_tiles_X * (⟨3, 0, 2, 2, 0⟩ : Topology).bsg_tiles_Y ∣ 6 →
        len_per_tile ⟨3, 0, 2, 2, 0⟩ 6
          = ceil_div 6 ((⟨3, 0, 2, 2, 0⟩ : Topology).bsg_tiles_X
              * (⟨3, 0, 2, 2, 0⟩ : Topology).bsg_tiles_Y)) ∧
      ((⟨3, 0, 2, 2, 0⟩ : Topology).bsg_tiles_X * (⟨3, 0, 2, 2, 0⟩ : Topology).bsg_tiles_Y ∣ 6 →
        len_per_tile ⟨3, 0, 2, 2, 0⟩ 6
          = ceil_div 6 ((⟨3, 0, 2, 2, 0⟩ : Topology).bsg_tiles_X
              * (⟨3, 0, 2, 2, 0⟩ : Topology).bsg_tiles_Y) + 1)) :=
  ⟨by decide, by decide, chunk_lengths ⟨3, 0, 2, 2, 0⟩ 16 6 (by decide) (by decide)⟩

/-! ### Tail starvation -/

/-- Within a pod the empty ranges are those of the highest-numbered tiles. -/
theorem calc_range_empty_mono (c : Topology) (numel t : Nat) (ht : c.bsg_id < t)
    (h : (calc_range c numel).start ≥ (calc_range c numel).end_) :
    calc_range ⟨c.BSG_POD_DIM, c.bsg_pod_id, c.bsg_tiles_X, c.bsg_tiles_Y, t⟩ numel = ⟨0, 0⟩ := by
  revert h
  unfold calc_range
  simp only []
  generalize numel / c.BSG_POD_DIM + 1 = L
  generalize L * c.bsg_pod_id = ps
  generalize hlt : ((if ps + L > numel then numel else ps + L) - ps)
    / (c.bsg_tiles_X * c.bsg_tiles_Y) + 1 = lt
  have hmul : lt * c.bsg_id + lt ≤ lt * t := by
    have h1 : lt * (c.bsg_id + 1) ≤ lt * t := Nat.mul_le_mul_left lt ht
    rw [Nat.mul_add, Nat.mul_one] at h1
    exact h1
  have hpos : 1 ≤ lt := by rw [← hlt]; exact Nat.le_add_left 1 _
  clear hlt
  generalize lt * c.bsg_id = ts at hmul ⊢
  generalize lt * t = ts2 at hmul ⊢
  split_ifs <;> simp only [] <;> intro h <;> first | trivial | (exfalso; omega)

/-- C22: tail starvation exists, and the idle tiles are the highest-numbered
ones.  For 16 elements on one pod of 16 tiles, tiles 8 to 15 get the empty
range `(0, 0)` while tiles 0 to 7 together cover `[0, 16)`; and in general, if
`calc_range` gives tile `t` of a pod an empty range, it gives every tile
`t' > t` of that pod an empty range. -/
theorem tail_starvation (c : Topology) (numel t : Nat) (ht : c.bsg_id < t)
    (h : (calc_range c numel).start ≥ (calc_range c numel).end_) :
    calc_range ⟨c.BSG_POD_DIM, c.bsg_pod_id, c.bsg_tiles_X, c.bsg_tiles_Y, t⟩ numel = ⟨0, 0⟩ ∧
      (∀ id, id < 16 → 8 ≤ id → calc_range ⟨1, 0, 4, 4, id⟩ 16 = ⟨0, 0⟩) ∧
      (∀ i, i < 16 → ∃ id, id < 8 ∧ (calc_range ⟨1, 0, 4, 4, id⟩ 16).contains i) :=
  ⟨calc_range_empty_mono c numel t ht h, by decide, by decide⟩

/-- Witness of C22: tile 8 of one pod of 4 by 4 tiles on 16 elements is empty,
and so is tile 12. -/
theorem tail_starvation_witness :
    (⟨1, 0, 4, 4, 8⟩ : Topology).bsg_id < 12 ∧
    (calc_range ⟨1, 0, 4, 4, 8⟩ 16).start ≥ (calc_range ⟨1, 0, 4, 4, 8⟩ 16).end_ ∧
    (calc_range ⟨(⟨1, 0, 4, 4, 8⟩ : Topology).BSG_POD_DIM, (⟨1, 0, 4, 4, 8⟩ : Topology).bsg_pod_id,
        (⟨1, 0, 4, 4, 8⟩ : Topology).bsg_tiles_X, (⟨1, 0, 4, 4, 8⟩ : Topology).bsg_tiles_Y, 12⟩ 16
        = ⟨0, 0⟩ ∧
      (∀ id, id < 16 → 8 ≤ id → calc_range ⟨1, 0, 4, 4, id⟩ 16 = ⟨0, 0⟩) ∧
      (∀ i, i < 16 → ∃ id, id < 8 ∧ (calc_range ⟨1, 0, 4, 4, id⟩ 16).contains i)) :=
  ⟨by decide, by decide, tail_starvation ⟨1, 0, 4, 4, 8⟩ 16 12 (by decide) (by decide)⟩

/-! ### Access patterns of the cache -/

/-- What a miss changes: the miss counter, and the slot of the offset, which
is tagged with the offset; the hit counter, the capacity, the element count
and the backing store stay. -/
theorem cached_read_miss {α : Type} (c : HBTensorCached α) (off : Nat)
    (hmiss : c.cache_tag (off % c.cache_numel) ≠ off) :
    (c.cached_read off).2.hits = c.hits ∧
      (c.cached_read off).2.misses = wrap32 (c.misses + 1) ∧
      (c.cached_read off).2.cache_tag (off % c.cache_numel) = off ∧
      (c.cached_read off).2.cache_size = c.cache_size ∧
      (c.cached_read off).2.N = c.N ∧ (c.cached_read off).2.data = c.data := by
  unfold HBTensorCached.cached_read
  simp only []
  rw [if_neg hmiss]
  unfold HBTensorCached.prefetch
  refine ⟨(prefetch_impl_data _ _ _).2.2.2.1, (prefetch_impl_data _ _ _).2.2.2.2, ?_,
    (prefetch_impl_data _ _ _).2.2.1, (prefetch_impl_data _ _ _).2.1,
    (prefetch_impl_data _ _ _).1⟩
  show Function.update _ _ _ _ = _
  rw [Function.update_same]

/-- What a hit changes: the hit counter only. -/
theorem cached_read_hit {α : Type} (c : HBTensorCached α) (off : Nat)
    (hhit : c.cache_tag (off % c.cache_numel) = off) :
    (c.cached_read off).2 = { c with hits := wrap32 (c.hits + 1) } := by
  unfold HBTensorCached.cached_read
  simp only []
  rw [if_pos hhit]

/-- After a miss whose run end does not overflow, every offset of the run
below the element count sits in its slot, tagged. -/
theorem cached_read_miss_block {α : Type} (c : HBTensorCached α) (off o : Nat)
    (hmiss : c.cache_tag (off % c.cache_numel) ≠ off) (hov : off + c.cache_numel < 2 ^ 32)
    (h1 : off ≤ o) (h2 : o < off + c.cache_numel) (h3 : o < c.N) :
    (c.cached_read off).2.cache_tag (o % c.cache_numel) = o := by
  unfold HBTensorCached.cached_read
  simp only []
  rw [if_neg hmiss]
  unfold HBTensorCached.prefetch
  have hw : wrap32 (off + c.cache_numel) = off + c.cache_numel := wrap32_of_lt _ hov
  have hn : ({ c with misses := wrap32 (c.misses + 1) } : HBTensorCached α).cache_numel
      = c.cache_numel := rfl
  have hN : ({ c with misses := wrap32 (c.misses + 1) } : HBTensorCached α).N = c.N := rfl
  simp only [hn, hN, hw]
  have hend : min (off + c.cache_numel) c.N = off + (min (off + c.cache_numel) c.N - off) := by
    omega
  rw [hend]
  have hrun := prefetch_impl_run ({ c with misses := wrap32 (c.misses + 1) } : HBTensorCached α)
    off (min (off + c.cache_numel) c.N - off) (by rw [hn]; omega) o h1 (by omega)
  rw [hn] at hrun
  by_cases ho : o = off
  · subst ho
    show Function.update _ _ _ _ = _
    rw [Function.update_same]
  · have hne : o % c.cache_numel ≠ off % c.cache_numel :=
      (slot_ne c.cache_numel off o (by omega) h2).symm
    simp only [Function.update_noteq hne]
    exact hrun.1

/-- Reading a concatenation is reading the parts one after the other. -/
theorem read_all_append {α : Type} (c : HBTensorCached α) (l1 l2 : List Nat) :
    (c.read_all (l1 ++ l2)).2 = ((c.read_all l1).2.read_all l2).2 := by
  induction l1 generalizing c with
  | nil => rfl
  | cons off l1 ih =>
    show ((c.cached_read off).2.read_all (l1 ++ l2)).2 = _
    rw [ih]
    rfl

/-- A sequence of reads leaves the element count, the capacity and the
backing store as they were. -/
theorem read_all_fields {α : Type} (c : HBTensorCached α) (offs : List Nat) :
    (c.read_all offs).2.N = c.N ∧ (c.read_all offs).2.cache_size = c.cache_size ∧
      (c.read_all offs).2.data = c.data := by
  induction offs generalizing c with
  | nil => exact ⟨rfl, rfl, rfl⟩
  | cons off offs ih =>
    have h := ih (c.cached_read off).2
    have hstep : (c.cached_read off).2.N = c.N ∧ (c.cached_read off).2.cache_size = c.cache_size ∧
        (c.cached_read off).2.data = c.data := by
      by_cases htag : c.cache_tag (off % c.cache_numel) = off
      · rw [cached_read_hit c off htag]
        exact ⟨rfl, rfl, rfl⟩
      · obtain ⟨-, -, -, h4, h5, h6⟩ := cached_read_miss c off htag
        exact ⟨h5, h4, h6⟩
    show ((c.cached_read off).2.read_all offs).2.N = c.N ∧
      ((c.cached_read off).2.read_all offs).2.cache_size = c.cache_size ∧
      ((c.cached_read off).2.read_all offs).2.data = c.data
    rw [h.1, h.2.1, h.2.2]
    exact hstep

/-- Loading an offset below the element count keeps the direct-mapped
invariant. -/
theorem fill_direct_mapped {α : Type} (c : HBTensorCached α) (i : Nat) (hi : i < c.N)
    (h : c.direct_mapped) : (c.fill i).direct_mapped := by
  intro s hs
  have hn : (c.fill i).cache_numel = c.cache_numel := rfl
  rw [hn] at hs ⊢
  show Function.update c.cache_tag (i % c.cache_numel) i s = UINT_MAX ∨
    (Function.update c.cache_tag (i % c.cache_numel) i s < c.N ∧
      Function.update c.cache_tag (i % c.cache_numel) i s % c.cache_numel = s ∧
      Function.update c.cache_data (i % c.cache_numel) (c.data i) s
        = c.data (Function.update c.cache_tag (i % c.cache_numel) i s))
  by_cases hsi : s = i % c.cache_numel
  · right
    rw [hsi, Function.update_same, Function.update_same]
    exact ⟨hi, rfl, rfl⟩
  · rw [Function.update_noteq hsi, Function.update_noteq hsi]
    exact h s hs

/-- The prefetch loop over offsets below the element count keeps the
direct-mapped invariant. -/
theorem prefetch_impl_direct_mapped {α : Type} (c : HBTensorCached α) (start end_ : Nat)
    (hend : end_ ≤ c.N) (h : c.direct_mapped) : (c.prefetch_impl start end_).direct_mapped := by
  unfold HBTensorCached.prefetch_impl
  have hl : ∀ i ∈ List.range' start (end_ - start), i < c.N := by
    intro i hi
    rw [List.mem_range'_1] at hi
    omega
  revert hl
  generalize List.range' start (end_ - start) = l
  intro hl
  induction l generalizing c with
  | nil => exact h
  | cons i l ih =>
    rw [List.foldl_cons]
    exact ih (c.fill i) (by exact hend) (fill_direct_mapped c i (hl i (List.mem_cons_self _ _)) h)
      (fun j hj => hl j (List.mem_cons_of_mem _ hj))

/-- The cache after a miss: the miss is counted, the run is prefetched, and
the slot of the offset is written once more. -/
theorem cached_read_miss_eq {α : Type} (c : HBTensorCached α) (off : Nat)
    (hmiss : c.cache_tag (off % c.cache_numel) ≠ off) :
    (c.cached_read off).2 =
      { (HBTensorCached.prefetch { c with misses := wrap32 (c.misses + 1) } off) with
        cache_tag := Function.update
          (HBTensorCached.prefetch { c with misses := wrap32 (c.misses + 1) } off).cache_tag
          (off % c.cache_numel) off
        cache_data := Function.update
          (HBTensorCached.prefetch { c with misses := wrap32 (c.misses + 1) } off).cache_data
          (off % c.cache_numel)
          ((HBTensorCached.prefetch { c with misses := wrap32 (c.misses + 1) } off).data off) } := by
  unfold HBTensorCached.cached_read
  simp only []
  rw [if_neg hmiss]

/-- One `cached_read` at an offset below the element count keeps the
direct-mapped invariant. -/
theorem cached_read_direct_mapped {α : Type} (c : HBTensorCached α) (off : Nat)
    (hoff : off < c.N) (h : c.direct_mapped) : (c.cached_read off).2.direct_mapped := by
  by_cases htag : c.cache_tag (off % c.cache_numel) = off
  · rw [cached_read_hit c off htag]
    exact h
  · rw [cached_read_miss_eq c off htag]
    have h1 : ({ c with misses := wrap32 (c.misses + 1) } : HBTensorCached α).direct_mapped := h
    have h2 : (HBTensorCached.prefetch { c with misses := wrap32 (c.misses + 1) } off).direct_mapped :=
      prefetch_impl_direct_mapped
        ({ c with misses := wrap32 (c.misses + 1) } : HBTensorCached α) off _
        (Nat.min_le_right _ _) h1
    have hd : (HBTensorCached.prefetch { c with misses := wrap32 (c.misses + 1) } off).data = c.data ∧
        (HBTensorCached.prefetch { c with misses := wrap32 (c.misses + 1) } off).N = c.N ∧
        (HBTensorCached.prefetch { c with misses := wrap32 (c.misses + 1) } off).cache_size
          = c.cache_size :=
      ⟨(prefetch_impl_data _ _ _).1, (prefetch_impl_data _ _ _).2.1,
        (prefetch_impl_data _ _ _).2.2.1⟩
    revert h2 hd
    generalize HBTensorCached.prefetch { c with misses := wrap32 (c.misses + 1) } off = q
    rintro h2 ⟨hd1, hd2, hd3⟩
    have hq : q.cache_numel = c.cache_numel := by
      unfold HBTensorCached.cache_numel
      rw [hd3]
    intro s hs
    have hs2 : s < q.cache_numel := hs
    show Function.update q.cache_tag (off % c.cache_numel) off s = UINT_MAX ∨
      (Function.update q.cache_tag (off % c.cache_numel) off s < q.N ∧
        Function.update q.cache_tag (off % c.cache_numel) off s % q.cache_numel = s ∧
        Function.update q.cache_data (off % c.cache_numel) (q.data off) s
          = q.data (Function.update q.cache_tag (off % c.cache_numel) off s))
    by_cases hsi : s = off % c.cache_numel
    · right
      rw [hsi, Function.update_same, Function.update_same, hd2, hq]
      exact ⟨hoff, rfl, rfl⟩
    · rw [Function.update_noteq hsi, Function.update_noteq hsi]
      exact h2 s hs2

/-- A sequence of reads at offsets below the element count keeps the
direct-mapped invariant. -/
theorem read_all_direct_mapped {α : Type} (c : HBTensorCached α) (offs : List Nat)
    (hoffs : ∀ off ∈ offs, off < c.N) (h : c.direct_mapped) :
    (c.read_all offs).2.direct_mapped := by
  induction offs generalizing c with
  | nil => exact h
  | cons off offs ih =>
    show ((c.cached_read off).2.read_all offs).2.direct_mapped
    have hN : (c.cached_read off).2.N = c.N := (read_all_fields c [off]).1
    exact ih (c.cached_read off).2
      (fun o ho => by rw [hN]; exact hoffs o (List.mem_cons_of_mem _ ho))
      (cached_read_direct_mapped c off (hoffs off (List.mem_cons_self _ _)) h)

/-- C28: the direct-mapped cache invariant.  The slot count is the capacity
over 8 (a 4-byte tag and a 4-byte datum).  After construction, and after every
`cached_read` of a sequence at offsets below `N`, every slot `s` below the
slot count holds the invalid tag `UINT_MAX`, or a tag `t < N` with
`t mod slot_count = s` and cached data equal to the backing value at `t`; the
element count and the backing store are those of the construction.  The
invariant is kept by a `cached_read` at an offset below `N` from any cache
that has it. -/
theorem direct_mapped_invariant {α : Type} [Zero α] (cache_size N : Nat) (data : Nat → α)
    (offs : List Nat) (hoffs : ∀ off ∈ offs, off < N) :
    (HBTensorCached.create cache_size N data).cache_numel = cache_size / 8 ∧
      (HBTensorCached.create cache_size N data).direct_mapped ∧
      ((HBTensorCached.create cache_size N data).read_all offs).2.direct_mapped ∧
      ((HBTensorCached.create cache_size N data).read_all offs).2.N = N ∧
      ((HBTensorCached.create cache_size N data).read_all offs).2.data = data ∧
      ((HBTensorCached.create cache_size N data).read_all offs).2.cache_numel = cache_size / 8 ∧
      (∀ c : HBTensorCached α, c.direct_mapped → ∀ off, off < c.N →
        (c.cached_read off).2.direct_mapped) := by
  have h0 : (HBTensorCached.create cache_size N data).direct_mapped := fun s _ => Or.inl rfl
  have hf := read_all_fields (HBTensorCached.create cache_size N data) offs
  refine ⟨rfl, h0, read_all_direct_mapped _ offs hoffs h0, hf.1, hf.2.2, ?_,
    fun c h off hoff => cached_read_direct_mapped c off hoff h⟩
  unfold HBTensorCached.cache_numel
  rw [hf.2.1]
  rfl

/-- Witness of C28: a two-slot cache over five elements after the reads
0, 1, 4, 0, 3. -/
theorem direct_mapped_invariant_witness :
    (∀ off ∈ [0, 1, 4, 0, 3], off < 5) ∧
    ((HBTensorCached.create 16 5 (fun i => 10 * i)).cache_numel = 16 / 8 ∧
      (HBTensorCached.create 16 5 (fun i => 10 * i)).direct_mapped ∧
      ((HBTensorCached.create 16 5 (fun i => 10 * i)).read_all [0, 1, 4, 0, 3]).2.direct_mapped ∧
      ((HBTensorCached.create 16 5 (fun i => 10 * i)).read_all [0, 1, 4, 0, 3]).2.N = 5 ∧
      ((HBTensorCached.create 16 5 (fun i => 10 * i)).read_all [0, 1, 4, 0, 3]).2.data
        = (fun i => 10 * i) ∧
      ((HBTensorCached.create 16 5 (fun i => 10 * i)).read_all [0, 1, 4, 0, 3]).2.cache_numel
        = 16 / 8 ∧
      (∀ c : HBTensorCached Nat, c.direct_mapped → ∀ off, off < c.N →
        (c.cached_read off).2.direct_mapped)) :=
  ⟨by decide, direct_mapped_invariant 16 5 (fun i => 10 * i) [0, 1, 4, 0, 3] (by decide)⟩

/-- Alternating reads of two offsets that share a slot, from a cache whose
slot does not hold the first: every read is a miss. -/
theorem alternate_misses {α : Type} (k : Nat) (c : HBTensorCached α) (a b : Nat) (hab : a ≠ b)
    (hmod : a % c.cache_numel = b % c.cache_numel)
    (htag : c.cache_tag (a % c.cache_numel) ≠ a) (hm : c.misses < WORD) :
    (c.read_all (alternate a b k)).2.hits = c.hits ∧
      (c.read_all (alternate a b k)).2.misses = wrap32 (c.misses + k) := by
  induction k generalizing c a b with
  | zero =>
    refine ⟨rfl, ?_⟩
    show c.misses = wrap32 (c.misses + 0)
    rw [Nat.add_zero, wrap32_of_lt _ hm]
  | succ k ih =>
    obtain ⟨h1, h2, h3, h4, -, -⟩ := cached_read_miss c a htag
    have hn : (c.cached_read a).2.cache_numel = c.cache_numel := by
      unfold HBTensorCached.cache_numel
      rw [h4]
    have hih := ih (c.cached_read a).2 b a hab.symm (by rw [hn]; exact hmod.symm)
      (by rw [hn, ← hmod, h3]; exact hab) (by rw [h2]; exact wrap32_lt _)
    show ((c.cached_read a).2.read_all (alternate b a k)).2.hits = c.hits ∧
      ((c.cached_read a).2.read_all (alternate b a k)).2.misses = wrap32 (c.misses + (k + 1))
    rw [hih.1, hih.2, h1, h2, wrap32_add_wrap32_left]
    exact ⟨rfl, by rw [Nat.add_assoc, Nat.add_comm 1 k]⟩

/-- C27: conflicting access degrades to a miss per read.  For two offsets
`a ≠ b` below the element count `N` (a `uint32_t`) that share a slot
(`a mod slot_count = b mod slot_count`), every read of the alternating sequence
`a, b, a, b, ...` on a fresh cache is a miss: after any number `k` of reads
the hit count is 0, and the miss count is `k` (as a `uint32_t`). -/
theorem conflict_misses {α : Type} [Zero α] (cache_size N : Nat) (data : Nat → α) (a b k : Nat)
    (hN : N < 2 ^ 32) (ha : a < N) (_hb : b < N) (hab : a ≠ b)
    (hmod : a % (HBTensorCached.create cache_size N data).cache_numel
      = b % (HBTensorCached.create cache_size N data).cache_numel) :
    ((HBTensorCached.create cache_size N data).read_all (alternate a b k)).2.hits = 0 ∧
      ((HBTensorCached.create cache_size N data).read_all (alternate a b k)).2.misses
        = wrap32 k ∧
      (k < 2 ^ 32 →
        ((HBTensorCached.create cache_size N data).read_all (alternate a b k)).2.misses = k) := by
  have htag : (HBTensorCached.create cache_size N data).cache_tag
      (a % (HBTensorCached.create cache_size N data).cache_numel) ≠ a := by
    show UINT_MAX ≠ a
    unfold UINT_MAX
    omega
  have h := alternate_misses k (HBTensorCached.create cache_size N data) a b hab hmod htag
    (by show 0 < WORD; unfold WORD; norm_num)
  have hz : (HBTensorCached.create cache_size N data).misses + k = k := Nat.zero_add k
  rw [hz] at h
  exact ⟨h.1, h.2, fun hk => by rw [h.2]; exact wrap32_of_lt k hk⟩

/-- Witness of C27: offsets 1 and 3 share slot 1 of a two-slot cache over five
elements; five alternating reads. -/
theorem conflict_misses_witness :
    (5 : Nat) < 2 ^ 32 ∧ (1 : Nat) < 5 ∧ (3 : Nat) < 5 ∧ (1 : Nat) ≠ 3 ∧
    1 % (HBTensorCached.create 16 5 (fun i => 10 * i)).cache_numel
      = 3 % (HBTensorCached.create 16 5 (fun i => 10 * i)).cache_numel ∧
    (((HBTensorCached.create 16 5 (fun i => 10 * i)).read_all (alternate 1 3 5)).2.hits = 0 ∧
      ((HBTensorCached.create 16 5 (fun i => 10 * i)).read_all (alternate 1 3 5)).2.misses
        = wrap32 5 ∧
      (5 < 2 ^ 32 →
        ((HBTensorCached.create 16 5 (fun i => 10 * i)).read_all (alternate 1 3 5)).2.misses
          = 5)) :=
  ⟨by decide, by decide, by decide, by decide, by decide,
    conflict_misses 16 5 (fun i => 10 * i) 1 3 5 (by decide) (by decide) (by decide) (by decide)
      (by decide)⟩

/-- The ceiling of `(k + 1) / n`. -/
theorem ceil_div_succ (k n : Nat) (hn : 1 ≤ n) : ceil_div (k + 1) n = k / n + 1 := by
  unfold ceil_div
  have h : k + 1 + n - 1 = k + n := by omega
  rw [h, Nat.add_div_right k hn]

/-- The block before a block boundary `k`: the offset `k - n` lies in the block
of `k - 1` and in the slot of `k`. -/
theorem block_before (k n : Nat) (hn : 1 ≤ n) (hk : 1 ≤ k) (hdvd : n ∣ k) :
    n ≤ k ∧ (k - n) / n = (k - 1) / n ∧ (k - n) % n = k % n := by
  obtain ⟨q, rfl⟩ := hdvd
  obtain ⟨q, rfl⟩ : ∃ q', q = q' + 1 := by
    rcases q with _ | q
    · rw [Nat.mul_zero] at hk
      omega
    · exact ⟨q, rfl⟩
  have e : n * (q + 1) - n = n * q := by rw [Nat.mul_succ]; omega
  have e2 : n * (q + 1) = n * q + n := Nat.mul_succ n q
  refine ⟨by rw [e2]; omega, ?_, ?_⟩
  · rw [e, Nat.mul_div_cancel_left q hn]
    symm
    rw [← chunk_iff n q _ hn, e2]
    omega
  · rw [e, Nat.mul_mod_right, Nat.mul_mod_right]

/-- Inside a block the offsets `k - 1` and `k` have the same quotient. -/
theorem block_inside (k n : Nat) (hn : 1 ≤ n) (hndvd : ¬ n ∣ k) : k / n = (k - 1) / n := by
  have h1 := Nat.div_add_mod k n
  have h2 : k % n ≠ 0 := fun h => hndvd (Nat.dvd_of_mod_eq_zero h)
  have h3 := Nat.mod_lt k hn
  symm
  rw [← chunk_iff n (k / n) _ hn]
  omega

/-- The block that starts at a block boundary `k`. -/
theorem block_at (k n o : Nat) (hn : 1 ≤ n) (hdvd : n ∣ k) (ho : o / n = k / n) :
    k ≤ o ∧ o < k + n := by
  have h := (chunk_iff n (k / n) o hn).2 ho
  rw [Nat.mul_div_cancel' hdvd] at h
  exact h

/-- Sequential reads from a fresh cache: after the offsets `0, ..., k - 1` the
miss count is the ceiling of `k / n`, the hit count is the rest, and the block
of the last offset read sits in the cache. -/
theorem sequential_reads {α : Type} [Zero α] (cache_size N : Nat) (data : Nat → α)
    (hn : 1 ≤ cache_size / 8) (hov : N + cache_size / 8 < 2 ^ 32) (k : Nat) (hk : k ≤ N) :
    ((HBTensorCached.create cache_size N data).read_all (List.range k)).2.hits
        = k - ceil_div k (cache_size / 8) ∧
      ((HBTensorCached.create cache_size N data).read_all (List.range k)).2.misses
        = ceil_div k (cache_size / 8) ∧
      (k = 0 → ∀ s,
        ((HBTensorCached.create cache_size N data).read_all (List.range k)).2.cache_tag s
          = UINT_MAX) ∧
      (1 ≤ k → ∀ o, o < N → o / (cache_size / 8) = (k - 1) / (cache_size / 8) →
        ((HBTensorCached.create cache_size N data).read_all (List.range k)).2.cache_tag
          (o % (cache_size / 8)) = o) := by
  induction k with
  | zero =>
    have hc0 : ceil_div 0 (cache_size / 8) = 0 := by
      unfold ceil_div
      rw [Nat.zero_add]
      exact Nat.div_eq_of_lt (by omega)
    refine ⟨?_, ?_, fun _ _ => rfl, fun h => by omega⟩
    · rw [hc0]
      rfl
    · rw [hc0]
      rfl
  | succ k ih =>
    obtain ⟨ih1, ih2, ih3, ih4⟩ := ih (by omega)
    have hf := read_all_fields (HBTensorCached.create cache_size N data) (List.range k)
    have hstep : ((HBTensorCached.create cache_size N data).read_all (List.range (k + 1))).2
        = (((HBTensorCached.create cache_size N data).read_all (List.range k)).2.cached_read k).2 := by
      rw [List.range_succ, read_all_append]
      rfl
    rw [hstep]
    revert ih1 ih2 ih3 ih4 hf
    generalize ((HBTensorCached.create cache_size N data).read_all (List.range k)).2 = c
    rintro ih1 ih2 ih3 ih4 ⟨hf1, hf2, -⟩
    have hf1 : c.N = N := hf1
    have hf2 : c.cache_size = cache_size := hf2
    have hcn : c.cache_numel = cache_size / 8 := by
      unfold HBTensorCached.cache_numel
      rw [hf2]
    have hcs := ceil_div_succ k (cache_size / 8) hn
    have hdm := Nat.div_mul_le_self k (cache_size / 8)
    have hqk : k / (cache_size / 8) ≤ k := Nat.div_le_self _ _
    by_cases hdvd : cache_size / 8 ∣ k
    · -- a block boundary: miss
      have hceil : ceil_div k (cache_size / 8) = k / (cache_size / 8) := by
        have := (succ_div_ceil k (cache_size / 8) hn).1 hdvd
        omega
      have hmiss : c.cache_tag (k % c.cache_numel) ≠ k := by
        rw [hcn]
        rcases Nat.eq_zero_or_pos k with h0 | hpos
        · rw [ih3 h0, h0]
          unfold UINT_MAX
          omega
        · obtain ⟨b1, b2, b3⟩ := block_before k (cache_size / 8) hn hpos hdvd
          have := ih4 hpos (k - cache_size / 8) (by omega) b2
          rw [b3] at this
          rw [this]
          omega
      obtain ⟨m1, m2, -, -, -, -⟩ := cached_read_miss c k hmiss
      refine ⟨?_, ?_, fun h => by omega, ?_⟩
      · rw [m1, ih1, hcs, hceil]
        omega
      · rw [m2, ih2, hcs, hceil]
        exact wrap32_of_lt _ (by unfold WORD; omega)
      · intro _ o ho hq
        rw [Nat.add_sub_cancel] at hq
        obtain ⟨o1, o2⟩ := block_at k (cache_size / 8) o hn hdvd hq
        have := cached_read_miss_block c k o hmiss (by rw [hcn]; omega) o1 (by rw [hcn]; exact o2)
          (by rw [hf1]; exact ho)
        rw [hcn] at this
        exact this
    · -- inside a block: hit
      have hceil : ceil_div k (cache_size / 8) = k / (cache_size / 8) + 1 := by
        have := (succ_div_ceil k (cache_size / 8) hn).2 hdvd
        omega
      have hpos : 1 ≤ k := by
        rcases Nat.eq_zero_or_pos k with h0 | hpos
        · exact absurd (h0 ▸ Nat.dvd_zero _) hdvd
        · exact hpos
      have hq := block_inside k (cache_size / 8) hn hdvd
      have hlt : k / (cache_size / 8) < k := by
        rcases Nat.lt_or_ge (k / (cache_size / 8)) k with h | h
        · exact h
        · exfalso
          have h1 := Nat.div_add_mod k (cache_size / 8)
          have h2 : k % (cache_size / 8) ≠ 0 := fun h => hdvd (Nat.dvd_of_mod_eq_zero h)
          have h3 : k / (cache_size / 8) ≤ cache_size / 8 * (k / (cache_size / 8)) :=
            Nat.le_mul_of_pos_left _ hn
          omega
      have hhit : c.cache_tag (k % c.cache_numel) = k := by
        rw [hcn]
        exact ih4 hpos k (by omega) hq
      rw [cached_read_hit c k hhit]
      refine ⟨?_, ?_, fun h => by omega, ?_⟩
      · show wrap32 (c.hits + 1) = k + 1 - ceil_div (k + 1) (cache_size / 8)
        rw [ih1, hcs, hceil]
        have : k - (k / (cache_size / 8) + 1) + 1 = k + 1 - (k / (cache_size / 8) + 1) := by omega
        rw [this]
        exact wrap32_of_lt _ (by unfold WORD; omega)
      · show c.misses = ceil_div (k + 1) (cache_size / 8)
        rw [ih2, hcs, hceil]
      · intro _ o ho hqo
        rw [Nat.add_sub_cancel] at hqo
        show c.cache_tag (o % (cache_size / 8)) = o
        exact ih4 hpos o ho (by rw [hqo, hq])

/-- C26: sequential access amortises misses.  Reading the flat offsets
`0, 1, ..., N - 1` in order from a freshly constructed cache with slot count
`n ≥ 1` produces the ceiling of `N / n` misses and `N` minus that many hits:
one miss per run of `n` consecutive offsets.  The capacity is a `uint32_t`
and the `N` elements of 4 bytes fit the 32-bit address space. -/
theorem sequential_access {α : Type} [Zero α] (cache_size N : Nat) (data : Nat → α)
    (hn : 1 ≤ (HBTensorCached.create cache_size N data).cache_numel)
    (hcs : cache_size < 2 ^ 32) (hN : 4 * N ≤ 2 ^ 32) :
    ((HBTensorCached.create cache_size N data).read_all (List.range N)).2.misses
        = ceil_div N (HBTensorCached.create cache_size N data).cache_numel ∧
      ((HBTensorCached.create cache_size N data).read_all (List.range N)).2.hits
        = N - ceil_div N (HBTensorCached.create cache_size N data).cache_numel ∧
      ((HBTensorCached.create cache_size N data).read_all (List.range N)).2.hits
        + ((HBTensorCached.create cache_size N data).read_all (List.range N)).2.misses = N := by
  have hn8 : 1 ≤ cache_size / 8 := hn
  have hlt : cache_size / 8 < 2 ^ 29 := by
    rw [Nat.div_lt_iff_lt_mul (by norm_num)]
    omega
  obtain ⟨h1, h2, -, -⟩ := sequential_reads cache_size N data hn8 (by omega) N (Nat.le_refl N)
  have hle : ceil_div N (cache_size / 8) ≤ N := by
    apply (ceil_div_spec N (cache_size / 8) hn8).2
    exact Nat.le_mul_of_pos_left N hn8
  refine ⟨h2, h1, ?_⟩
  rw [h1, h2]
  omega

/-- Witness of C26: seven elements through a two-slot cache: four misses and
three hits. -/
theorem sequential_access_witness :
    1 ≤ (HBTensorCached.create 16 7 (fun i => 10 * i)).cache_numel ∧
    (16 : Nat) < 2 ^ 32 ∧ 4 * 7 ≤ 2 ^ 32 ∧
    (((HBTensorCached.create 16 7 (fun i => 10 * i)).read_all (List.range 7)).2.misses
        = ceil_div 7 (HBTensorCached.create 16 7 (fun i => 10 * i)).cache_numel ∧
      ((HBTensorCached.create 16 7 (fun i => 10 * i)).read_all (List.range 7)).2.hits
        = 7 - ceil_div 7 (HBTensorCached.create 16 7 (fun i => 10 * i)).cache_numel ∧
      ((HBTensorCached.create 16 7 (fun i => 10 * i)).read_all (List.range 7)).2.hits
        + ((HBTensorCached.create 16 7 (fun i => 10 * i)).read_all (List.range 7)).2.misses = 7) :=
  ⟨by decide, by decide, by decide,
    sequential_access 16 7 (fun i => 10 * i) (by decide) (by decide) (by decide)⟩

/-- The counts of the sequential scenario, evaluated: seven elements through a
two-slot cache give four misses and three hits. -/
theorem seven_reads_counts :
    ((HBTensorCached.create 16 7 (fun i => 10 * i)).read_all (List.range 7)).2.misses = 4 ∧
      ((HBTensorCached.create 16 7 (fun i => 10 * i)).read_all (List.range 7)).2.hits = 3 ∧
      ceil_div 7 2 = 4 := by
  decide

/-! ### The back-weight loop nest and its successor function -/

/-- The back-weight loop nest as the filter loop over the channel loops. -/
theorem back_weight_visits_eq (bsg_x bsg_y N Cout N_imap h w : Nat) :
    back_weight_visits bsg_x bsg_y N Cout N_imap h w
      = (for_step 16 N N bsg_x).flatMap (fun filter_id =>
          back_weight_channel_loop bsg_y Cout N_imap h w filter_id) := rfl

/-- Inside the `block_x` loop `loop_inc_back_weight` steps `block_x`. -/
theorem loop_inc_back_weight_block_x (bx by_ f c i y x N Cout N_imap h w : Nat) (h1 : x + 1 < w) :
    loop_inc_back_weight bx by_ f c i y x N Cout N_imap h w = (f, c, i, y, x + 1) := by
  unfold loop_inc_back_weight
  simp only []
  rw [if_neg (by omega)]

/-- At the end of the `block_x` loop `loop_inc_back_weight` steps `block_y`. -/
theorem loop_inc_back_weight_block_y (bx by_ f c i y x N Cout N_imap h w : Nat) (h1 : w ≤ x + 1)
    (h2 : y + 1 < h) :
    loop_inc_back_weight bx by_ f c i y x N Cout N_imap h w = (f, c, i, y + 1, 0) := by
  unfold loop_inc_back_weight
  simp only []
  rw [if_pos (by omega), if_neg (by omega)]

/-- At the end of the `block_y` loop `loop_inc_back_weight` steps the image. -/
theorem loop_inc_back_weight_image (bx by_ f c i y x N Cout N_imap h w : Nat) (h1 : w ≤ x + 1)
    (h2 : h ≤ y + 1) (h3 : i + 1 < N_imap) :
    loop_inc_back_weight bx by_ f c i y x N Cout N_imap h w = (f, c, i + 1, 0, 0) := by
  unfold loop_inc_back_weight
  simp only []
  rw [if_pos (by omega), if_pos (by omega), if_neg (by omega)]

/-- At the end of the image loop `loop_inc_back_weight` steps the channel by 8. -/
theorem loop_inc_back_weight_channel (bx by_ f c i y x N Cout N_imap h w : Nat) (h1 : w ≤ x + 1)
    (h2 : h ≤ y + 1) (h3 : N_imap ≤ i + 1) (h4 : c + 8 < Cout) :
    loop_inc_back_weight bx by_ f c i y x N Cout N_imap h w = (f, c + 8, 0, 0, 0) := by
  unfold loop_inc_back_weight
  simp only []
  rw [if_pos (by omega), if_pos (by omega), if_pos (by omega), if_neg (by omega)]

/-- At the end of the channel loop `loop_inc_back_weight` steps the filter by
16 and restarts the channel at the row of the tile. -/
theorem loop_inc_back_weight_filter (bx by_ f c i y x N Cout N_imap h w : Nat) (h1 : w ≤ x + 1)
    (h2 : h ≤ y + 1) (h3 : N_imap ≤ i + 1) (h4 : Cout ≤ c + 8) (h5 : f + 16 < N) :
    loop_inc_back_weight bx by_ f c i y x N Cout N_imap h w = (f + 16, by_, 0, 0, 0) := by
  unfold loop_inc_back_weight
  simp only []
  rw [if_pos (by omega), if_pos (by omega), if_pos (by omega), if_pos (by omega),
    if_neg (by omega)]

/-- At the end of the filter loop `loop_inc_back_weight` returns to the first
tuple of the tile. -/
theorem loop_inc_back_weight_wrap (bx by_ f c i y x N Cout N_imap h w : Nat) (h1 : w ≤ x + 1)
    (h2 : h ≤ y + 1) (h3 : N_imap ≤ i + 1) (h4 : Cout ≤ c + 8) (h5 : N ≤ f + 16) :
    loop_inc_back_weight bx by_ f c i y x N Cout N_imap h w = (bx, by_, 0, 0, 0) := by
  unfold loop_inc_back_weight
  simp only []
  rw [if_pos (by omega), if_pos (by omega), if_pos (by omega), if_pos (by omega),
    if_pos (by omega)]

/-- The first and the last index of a counting loop that is entered. -/
theorem range_ends (n : Nat) (hn : 1 ≤ n) :
    List.range n ≠ [] ∧ (List.range n).head? = some 0 ∧ (List.range n).getLast? = some (n - 1) := by
  obtain ⟨m, rfl⟩ : ∃ m, n = m + 1 := ⟨n - 1, by omega⟩
  refine ⟨?_, ?_, ?_⟩
  · rw [List.range_succ]
    simp
  · rw [List.head?_range]
    rfl
  · rw [List.getLast?_range]
    rfl

/-- The ends of a nest: it is not empty, it starts where the first inner loop
starts and ends where the last inner loop ends. -/
theorem flatMap_ends {α β : Type} (l : List α) (f : α → List β) (first : α → β)
    (last : α → β → Prop) (a0 : α) (hl : l ≠ []) (hhead : ∀ a ∈ l.head?, a = a0)
    (hin : ∀ a ∈ l, f a ≠ [] ∧ (∀ x ∈ (f a).head?, x = first a) ∧
      (∀ x ∈ (f a).getLast?, last a x)) :
    l.flatMap f ≠ [] ∧ (∀ x ∈ (l.flatMap f).head?, x = first a0) ∧
      (∀ x ∈ (l.flatMap f).getLast?, ∃ a ∈ l.getLast?, last a x) := by
  have hne : ∀ a ∈ l, f a ≠ [] := fun a ha => (hin a ha).1
  refine ⟨flatMap_ne_nil_of l f hl hne, ?_, ?_⟩
  · intro x hx
    obtain ⟨a, ha, hxa⟩ := head?_flatMap_of l f hne x hx
    have e := hhead a ha
    subst e
    exact (hin a (List.mem_of_mem_head? ha)).2.1 x hxa
  · intro x hx
    obtain ⟨a, ha, hxa⟩ := getLast?_flatMap_of l f hne x hx
    exact ⟨a, ha, (hin a (List.mem_of_mem_getLast? ha)).2.2 x hxa⟩

/-- The ends of the `block_x` loop. -/
theorem block_x_loop_ends (w f c i y : Nat) (hw : 1 ≤ w) :
    back_weight_block_x_loop w f c i y ≠ [] ∧
      (∀ t ∈ (back_weight_block_x_loop w f c i y).head?, t = (f, c, i, y, 0)) ∧
      (∀ t ∈ (back_weight_block_x_loop w f c i y).getLast?, t = (f, c, i, y, w - 1)) := by
  obtain ⟨h1, h2, h3⟩ := range_ends w hw
  unfold back_weight_block_x_loop
  refine ⟨?_, ?_, ?_⟩
  · intro h
    exact h1 (List.map_eq_nil_iff.1 h)
  · intro t ht
    rw [List.head?_map, h2] at ht
    exact (Option.some.inj ht).symm
  · intro t ht
    rw [List.getLast?_map, h3] at ht
    exact (Option.some.inj ht).symm

/-- The `block_x` loop is chained by `loop_inc_back_weight`. -/
theorem block_x_loop_chain (bx by_ N Cout N_imap h w f c i y : Nat) :
    List.Chain' (fun t u => loop_inc_back_weight_of bx by_ t N Cout N_imap h w = u)
      (back_weight_block_x_loop w f c i y) := by
  unfold back_weight_block_x_loop
  rw [List.chain'_map]
  cases w with
  | zero => exact List.chain'_nil
  | succ n =>
    rw [List.chain'_range_succ]
    intro m hm
    exact loop_inc_back_weight_block_x bx by_ f c i y m N Cout N_imap h (n + 1) (by omega)

/-- The ends of the `block_y` loop. -/
theorem block_y_loop_ends (h w f c i : Nat) (hh : 1 ≤ h) (hw : 1 ≤ w) :
    back_weight_block_y_loop h w f c i ≠ [] ∧
      (∀ t ∈ (back_weight_block_y_loop h w f c i).head?, t = (f, c, i, 0, 0)) ∧
      (∀ t ∈ (back_weight_block_y_loop h w f c i).getLast?, t = (f, c, i, h - 1, w - 1)) := by
  obtain ⟨h1, h2, h3⟩ := range_ends h hh
  obtain ⟨e1, e2, e3⟩ := flatMap_ends (List.range h)
    (fun y => back_weight_block_x_loop w f c i y) (fun y => (f, c, i, y, 0))
    (fun y t => t = (f, c, i, y, w - 1)) 0 h1
    (fun a ha => by rw [h2] at ha; exact (Option.some.inj ha).symm)
    (fun y _ => block_x_loop_ends w f c i y hw)
  refine ⟨e1, e2, ?_⟩
  intro t ht
  obtain ⟨a, ha, hta⟩ := e3 t ht
  rw [h3] at ha
  rw [hta, ← Option.some.inj ha]

/-- The `block_y` loop is chained by `loop_inc_back_weight`. -/
theorem block_y_loop_chain (bx by_ N Cout N_imap h w f c i : Nat) (hw : 1 ≤ w) :
    List.Chain' (fun t u => loop_inc_back_weight_of bx by_ t N Cout N_imap h w = u)
      (back_weight_block_y_loop h w f c i) := by
  unfold back_weight_block_y_loop
  refine chain'_flatMap_of _ _ _ (fun y _ => (block_x_loop_ends w f c i y hw).1)
    (fun y _ => block_x_loop_chain bx by_ N Cout N_imap h w f c i y) ?_
  cases h with
  | zero => exact List.chain'_nil
  | succ n =>
    rw [List.chain'_range_succ]
    intro m hm t ht u hu
    have et := (block_x_loop_ends w f c i m hw).2.2 t ht
    have eu := (block_x_loop_ends w f c i (m + 1) hw).2.1 u hu
    subst et
    subst eu
    exact loop_inc_back_weight_block_y bx by_ f c i m (w - 1) N Cout N_imap (n + 1) w (by omega)
      (by omega)

/-- The ends of the image loop. -/
theorem image_loop_ends (N_imap h w f c : Nat) (hi : 1 ≤ N_imap) (hh : 1 ≤ h) (hw : 1 ≤ w) :
    back_weight_image_loop N_imap h w f c ≠ [] ∧
      (∀ t ∈ (back_weight_image_loop N_imap h w f c).head?, t = (f, c, 0, 0, 0)) ∧
      (∀ t ∈ (back_weight_image_loop N_imap h w f c).getLast?,
        t = (f, c, N_imap - 1, h - 1, w - 1)) := by
  obtain ⟨h1, h2, h3⟩ := range_ends N_imap hi
  obtain ⟨e1, e2, e3⟩ := flatMap_ends (List.range N_imap)
    (fun i => back_weight_block_y_loop h w f c i) (fun i => (f, c, i, 0, 0))
    (fun i t => t = (f, c, i, h - 1, w - 1)) 0 h1
    (fun a ha => by rw [h2] at ha; exact (Option.some.inj ha).symm)
    (fun i _ => block_y_loop_ends h w f c i hh hw)
  refine ⟨e1, e2, ?_⟩
  intro t ht
  obtain ⟨a, ha, hta⟩ := e3 t ht
  rw [h3] at ha
  rw [hta, ← Option.some.inj ha]

/-- The image loop is chained by `loop_inc_back_weight`. -/
theorem image_loop_chain (bx by_ N Cout N_imap h w f c : Nat) (hh : 1 ≤ h) (hw : 1 ≤ w) :
    List.Chain' (fun t u => loop_inc_back_weight_of bx by_ t N Cout N_imap h w = u)
      (back_weight_image_loop N_imap h w f c) := by
  unfold back_weight_image_loop
  refine chain'_flatMap_of _ _ _ (fun i _ => (block_y_loop_ends h w f c i hh hw).1)
    (fun i _ => block_y_loop_chain bx by_ N Cout N_imap h w f c i hw) ?_
  cases N_imap with
  | zero => exact List.chain'_nil
  | succ n =>
    rw [List.chain'_range_succ]
    intro m hm t ht u hu
    have et := (block_y_loop_ends h w f c m hh hw).2.2 t ht
    have eu := (block_y_loop_ends h w f c (m + 1) hh hw).2.1 u hu
    subst et
    subst eu
    exact loop_inc_back_weight_image bx by_ f c m (h - 1) (w - 1) N Cout (n + 1) h w (by omega)
      (by omega) (by omega)

/-- A stepping loop whose start is below the bound is entered, and it starts
at its start value. -/
theorem for_step_ends (step bound x : Nat) (hstep : 1 ≤ step) (hx : x < bound) :
    for_step step bound bound x ≠ [] ∧ (∀ a ∈ (for_step step bound bound x).head?, a = x) ∧
      (∀ a ∈ (for_step step bound bound x).getLast?, bound ≤ a + step ∧ a < bound) := by
  refine ⟨?_, fun a ha => (for_step_head step bound bound x a ha).1,
    fun a ha => for_step_last step bound bound x a hstep (by omega) ha⟩
  obtain ⟨n, rfl⟩ : ∃ n, bound = n + 1 := ⟨bound - 1, by omega⟩
  rw [for_step_cons step (n + 1) n x hx]
  exact List.cons_ne_nil _ _

/-- The ends of the channel loop. -/
theorem back_weight_channel_loop_ends (by_ Cout N_imap h w f : Nat) (hy : by_ < Cout)
    (hi : 1 ≤ N_imap) (hh : 1 ≤ h) (hw : 1 ≤ w) :
    back_weight_channel_loop by_ Cout N_imap h w f ≠ [] ∧
      (∀ t ∈ (back_weight_channel_loop by_ Cout N_imap h w f).head?, t = (f, by_, 0, 0, 0)) ∧
      (∀ t ∈ (back_weight_channel_loop by_ Cout N_imap h w f).getLast?,
        ∃ c, Cout ≤ c + 8 ∧ t = (f, c, N_imap - 1, h - 1, w - 1)) := by
  obtain ⟨h1, h2, h3⟩ := for_step_ends 8 Cout by_ (by omega) hy
  obtain ⟨e1, e2, e3⟩ := flatMap_ends (for_step 8 Cout Cout by_)
    (fun c => back_weight_image_loop N_imap h w f c) (fun c => (f, c, 0, 0, 0))
    (fun c t => t = (f, c, N_imap - 1, h - 1, w - 1)) by_ h1 h2
    (fun c _ => image_loop_ends N_imap h w f c hi hh hw)
  refine ⟨e1, e2, ?_⟩
  intro t ht
  obtain ⟨a, ha, hta⟩ := e3 t ht
  exact ⟨a, (h3 a ha).1, hta⟩

/-- The channel loop is chained by `loop_inc_back_weight`. -/
theorem back_weight_channel_loop_chain (bx by_ N Cout N_imap h w f : Nat) (hi : 1 ≤ N_imap)
    (hh : 1 ≤ h) (hw : 1 ≤ w) :
    List.Chain' (fun t u => loop_inc_back_weight_of bx by_ t N Cout N_imap h w = u)
      (back_weight_channel_loop by_ Cout N_imap h w f) := by
  unfold back_weight_channel_loop
  refine chain'_flatMap_of _ _ _ (fun c _ => (image_loop_ends N_imap h w f c hi hh hw).1)
    (fun c _ => image_loop_chain bx by_ N Cout N_imap h w f c hh hw) ?_
  refine (for_step_chain 8 Cout Cout by_).imp ?_
  rintro c d ⟨rfl, hd⟩ t ht u hu
  have et := (image_loop_ends N_imap h w f c hi hh hw).2.2 t ht
  have eu := (image_loop_ends N_imap h w f (c + 8) hi hh hw).2.1 u hu
  subst et
  subst eu
  exact loop_inc_back_weight_channel bx by_ f c (N_imap - 1) (h - 1) (w - 1) N Cout N_imap h w
    (by omega) (by omega) (by omega) hd

/-- The ends of the back-weight loop nest. -/
theorem back_weight_visits_ends (bx by_ N Cout N_imap h w : Nat) (hx : bx < N) (hy : by_ < Cout)
    (hi : 1 ≤ N_imap) (hh : 1 ≤ h) (hw : 1 ≤ w) :
    back_weight_visits bx by_ N Cout N_imap h w ≠ [] ∧
      (∀ t ∈ (back_weight_visits bx by_ N Cout N_imap h w).head?, t = (bx, by_, 0, 0, 0)) ∧
      (∀ t ∈ (back_weight_visits bx by_ N Cout N_imap h w).getLast?,
        ∃ f c, N ≤ f + 16 ∧ Cout ≤ c + 8 ∧ t = (f, c, N_imap - 1, h - 1, w - 1)) := by
  rw [back_weight_visits_eq]
  obtain ⟨h1, h2, h3⟩ := for_step_ends 16 N bx (by omega) hx
  obtain ⟨e1, e2, e3⟩ := flatMap_ends (for_step 16 N N bx)
    (fun f => back_weight_channel_loop by_ Cout N_imap h w f) (fun f => (f, by_, 0, 0, 0))
    (fun f t => ∃ c, Cout ≤ c + 8 ∧ t = (f, c, N_imap - 1, h - 1, w - 1)) bx h1 h2
    (fun f _ => back_weight_channel_loop_ends by_ Cout N_imap h w f hy hi hh hw)
  refine ⟨e1, e2, ?_⟩
  intro t ht
  obtain ⟨a, ha, c, hc, hta⟩ := e3 t ht
  exact ⟨a, c, (h3 a ha).1, hc, hta⟩

/-- The back-weight loop nest is chained by `loop_inc_back_weight`. -/
theorem back_weight_visits_chain (bx by_ N Cout N_imap h w : Nat) (hy : by_ < Cout)
    (hi : 1 ≤ N_imap) (hh : 1 ≤ h) (hw : 1 ≤ w) :
    List.Chain' (fun t u => loop_inc_back_weight_of bx by_ t N Cout N_imap h w = u)
      (back_weight_visits bx by_ N Cout N_imap h w) := by
  rw [back_weight_visits_eq]
  refine chain'_flatMap_of _ _ _
    (fun f _ => (back_weight_channel_loop_ends by_ Cout N_imap h w f hy hi hh hw).1)
    (fun f _ => back_weight_channel_loop_chain bx by_ N Cout N_imap h w f hi hh hw) ?_
  refine (for_step_chain 16 N N bx).imp ?_
  rintro f g ⟨rfl, hg⟩ t ht u hu
  obtain ⟨c, hc, et⟩ := (back_weight_channel_loop_ends by_ Cout N_imap h w f hy hi hh hw).2.2 t ht
  have eu := (back_weight_channel_loop_ends by_ Cout N_imap h w (f + 16) hy hi hh hw).2.1 u hu
  subst et
  subst eu
  exact loop_inc_back_weight_filter bx by_ f c (N_imap - 1) (h - 1) (w - 1) N Cout N_imap h w
    (by omega) (by omega) (by omega) hc hg

/-- The tuples the back-weight loop nest visits. -/
theorem mem_back_weight_visits (bx by_ N Cout N_imap h w : Nat)
    (t : Nat × Nat × Nat × Nat × Nat) :
    t ∈ back_weight_visits bx by_ N Cout N_imap h w ↔
      (bx ≤ t.1 ∧ t.1 < N ∧ 16 ∣ t.1 - bx) ∧ (by_ ≤ t.2.1 ∧ t.2.1 < Cout ∧ 8 ∣ t.2.1 - by_) ∧
        t.2.2.1 < N_imap ∧ t.2.2.2.1 < h ∧ t.2.2.2.2 < w := by
  obtain ⟨f, c, i, y, x⟩ := t
  unfold back_weight_visits
  simp only [List.mem_flatMap, List.mem_map, List.mem_range, Prod.mk.injEq]
  constructor
  · rintro ⟨f', hf, c', hc, i', hi, y', hy, x', hx, rfl, rfl, rfl, rfl, rfl⟩
    exact ⟨(mem_for_step 16 N N bx f' (by omega) (by omega)).1 hf,
      (mem_for_step 8 Cout Cout by_ c' (by omega) (by omega)).1 hc, hi, hy, hx⟩
  · rintro ⟨hf, hc, hi, hy, hx⟩
    exact ⟨f, (mem_for_step 16 N N bx f (by omega) (by omega)).2 hf, c,
      (mem_for_step 8 Cout Cout by_ c (by omega) (by omega)).2 hc, i, hi, y, hy, x, hx,
      rfl, rfl, rfl, rfl, rfl⟩

/-- The back-weight loop nest of tile `(1, 1)` for 18 filters, 10 channels, one
image and 1 by 2 blocks, and the successor of its last tuple. -/
theorem back_weight_visits_example :
    back_weight_visits 1 1 18 10 1 1 2
        = [(1, 1, 0, 0, 0), (1, 1, 0, 0, 1), (1, 9, 0, 0, 0), (1, 9, 0, 0, 1),
            (17, 1, 0, 0, 0), (17, 1, 0, 0, 1), (17, 9, 0, 0, 0), (17, 9, 0, 0, 1)] ∧
      loop_inc_back_weight_of 1 1 (1, 9, 0, 0, 1) 18 10 1 1 2 = (17, 1, 0, 0, 0) ∧
      loop_inc_back_weight_of 1 1 (17, 9, 0, 0, 1) 18 10 1 1 2 = (1, 1, 0, 0, 0) := by
  decide

/-- C29: `loop_inc_back_weight` is the successor function of the back-weight
loop nest.  On the tile `(bsg_x, bsg_y)` the nest of `compute_job` visits the
tuples `(filter_id, channel_id, image_id, block_y, block_x)` with the filter
at `bsg_x` plus a multiple of 16 below `N`, the channel at `bsg_y` plus a
multiple of 8 below `Cout`, the image below `N_imap` and the blocks below
their counts; it starts at `(bsg_x, bsg_y, 0, 0, 0)`; for every iteration but
the last `loop_inc_back_weight` returns the tuple of the iteration that
follows; and after the last iteration it returns the first tuple
`(bsg_x, bsg_y, 0, 0, 0)`. -/
theorem loop_inc_back_weight_is_successor (bsg_x bsg_y N Cout N_imap h w : Nat) :
    (∀ t : Nat × Nat × Nat × Nat × Nat, t ∈ back_weight_visits bsg_x bsg_y N Cout N_imap h w ↔
        (bsg_x ≤ t.1 ∧ t.1 < N ∧ 16 ∣ t.1 - bsg_x) ∧
          (bsg_y ≤ t.2.1 ∧ t.2.1 < Cout ∧ 8 ∣ t.2.1 - bsg_y) ∧
          t.2.2.1 < N_imap ∧ t.2.2.2.1 < h ∧ t.2.2.2.2 < w) ∧
      (∀ t ∈ (back_weight_visits bsg_x bsg_y N Cout N_imap h w).head?,
        t = (bsg_x, bsg_y, 0, 0, 0)) ∧
      (∀ k (hk : k + 1 < (back_weight_visits bsg_x bsg_y N Cout N_imap h w).length),
        loop_inc_back_weight_of bsg_x bsg_y
            ((back_weight_visits bsg_x bsg_y N Cout N_imap h w).get ⟨k, Nat.lt_of_succ_lt hk⟩)
            N Cout N_imap h w
          = (back_weight_visits bsg_x bsg_y N Cout N_imap h w).get ⟨k + 1, hk⟩) ∧
      (∀ t ∈ (back_weight_visits bsg_x bsg_y N Cout N_imap h w).getLast?,
        loop_inc_back_weight_of bsg_x bsg_y t N Cout N_imap h w = (bsg_x, bsg_y, 0, 0, 0)) ∧
      ((back_weight_visits bsg_x bsg_y N Cout N_imap h w ≠ []) ↔
        (bsg_x < N ∧ bsg_y < Cout ∧ 1 ≤ N_imap ∧ 1 ≤ h ∧ 1 ≤ w)) := by
  have hmem := mem_back_weight_visits bsg_x bsg_y N Cout N_imap h w
  have hpos : back_weight_visits bsg_x bsg_y N Cout N_imap h w ≠ [] →
      bsg_x < N ∧ bsg_y < Cout ∧ 1 ≤ N_imap ∧ 1 ≤ h ∧ 1 ≤ w := by
    intro hne
    obtain ⟨t, ht⟩ := List.exists_mem_of_ne_nil _ hne
    obtain ⟨⟨a1, a2, -⟩, ⟨b1, b2, -⟩, c1, c2, c3⟩ := (hmem t).1 ht
    exact ⟨by omega, by omega, by omega, by omega, by omega⟩
  refine ⟨hmem, ?_, ?_, ?_, hpos, ?_⟩
  · intro t ht
    obtain ⟨hx, hy, hi, hh, hw⟩ := hpos (by
      intro he
      rw [he] at ht
      exact absurd ht (by simp))
    exact (back_weight_visits_ends bsg_x bsg_y N Cout N_imap h w hx hy hi hh hw).2.1 t ht
  · intro k hk
    obtain ⟨-, hy, hi, hh, hw⟩ := hpos (by
      intro he
      rw [he] at hk
      exact absurd hk (by simp))
    exact List.chain'_iff_get.1
      (back_weight_visits_chain bsg_x bsg_y N Cout N_imap h w hy hi hh hw) k (by omega)
  · intro t ht
    obtain ⟨hx, hy, hi, hh, hw⟩ := hpos (by
      intro he
      rw [he] at ht
      exact absurd ht (by simp))
    obtain ⟨f, c, hf, hc, rfl⟩ :=
      (back_weight_visits_ends bsg_x bsg_y N Cout N_imap h w hx hy hi hh hw).2.2 t ht
    exact loop_inc_back_weight_wrap bsg_x bsg_y f c (N_imap - 1) (h - 1) (w - 1) N Cout N_imap h w
      (by omega) (by omega) (by omega) hc hf
  · rintro ⟨hx, hy, hi, hh, hw⟩
    exact (back_weight_visits_ends bsg_x bsg_y N Cout N_imap h w hx hy hi hh hw).1

/-! ### Pass-through balance -/

/-- A stepping loop that starts at or above its bound is not entered. -/
theorem for_step_nil (step bound fuel x : Nat) (h : bound ≤ x) : for_step step bound fuel x = [] := by
  cases fuel with
  | zero => rfl
  | succ fuel =>
    show (if x < bound then x :: for_step step bound fuel (x + step) else []) = []
    rw [if_neg (by omega)]

/-- The blocks a tile forwards within one image, with the filter moved to the
next column, are the blocks the next column visits within that image. -/
theorem forwarded_filter_loop (Cout Cin i fuel x : Nat) :
    (((for_step 16 Cout fuel x).flatMap
        (fun f => (List.range Cin).map (fun c => (i, f, c)))).filter
          (fun t => decide (t.2.1 + 1 < Cout))).map (fun t => (t.1, t.2.1 + 1, t.2.2))
      = (for_step 16 Cout fuel (x + 1)).flatMap
          (fun f => (List.range Cin).map (fun c => (i, f, c))) := by
  induction fuel generalizing x with
  | zero => rfl
  | succ fuel ih =>
    by_cases h1 : x + 1 < Cout
    · rw [for_step_cons 16 Cout fuel x (by omega), for_step_cons 16 Cout fuel (x + 1) h1,
        List.flatMap_cons, List.flatMap_cons, List.filter_append, List.map_append, ih (x + 16)]
      congr 1
      rw [List.filter_eq_self.2, List.map_map]
      · rfl
      · intro t ht
        obtain ⟨c, -, rfl⟩ := List.mem_map.1 ht
        exact decide_eq_true h1
    · rw [for_step_nil 16 Cout (fuel + 1) (x + 1) (by omega), List.flatMap_nil]
      by_cases h2 : x < Cout
      · rw [for_step_cons 16 Cout fuel x h2, for_step_nil 16 Cout fuel (x + 16) (by omega),
          List.flatMap_cons, List.flatMap_nil, List.append_nil, List.filter_eq_nil_iff.2]
        · rfl
        · intro t ht
          obtain ⟨c, -, rfl⟩ := List.mem_map.1 ht
          simp only [decide_eq_true_eq]
          exact h1
      · rw [for_step_nil 16 Cout (fuel + 1) x (by omega)]
        rfl

/-- The blocks a tile forwards, with the filter moved to the next column, are
the blocks the next column visits, in the same order. -/
theorem forwarded_visits (x N Cout Cin : Nat) :
    ((forward_visits x N Cout Cin).filter (fun t => decide (t.2.1 + 1 < Cout))).map
        (fun t => (t.1, t.2.1 + 1, t.2.2))
      = forward_visits (x + 1) N Cout Cin := by
  unfold forward_visits
  rw [List.filter_flatMap, List.map_flatMap]
  exact List.flatMap_congr (fun i _ => forwarded_filter_loop Cout Cin i Cout x)

/-- The number of pass-through copies of a tile that is not last in its row
is the number of its iterations with `filter_id + 1 < Cout`. -/
theorem forward_passes_count (x N Cout Cin : Nat) (hx : x ≠ 15) :
    (forward_passes x N Cout Cin).count true
      = ((forward_visits x N Cout Cin).filter (fun t => decide (t.2.1 + 1 < Cout))).length := by
  unfold forward_passes
  rw [List.count_eq_countP, List.countP_map, List.countP_eq_length_filter]
  congr 1
  apply List.filter_congr
  intro t _
  unfold should_pass
  rw [if_neg hx]
  simp

/-- The triples the forward loop nest visits on a tile of column `x`. -/
theorem mem_forward_visits_column (x N Cout Cin : Nat) (t : Nat × Nat × Nat) :
    t ∈ forward_visits x N Cout Cin ↔
      t.1 < N ∧ (x ≤ t.2.1 ∧ t.2.1 < Cout ∧ 16 ∣ t.2.1 - x) ∧ t.2.2 < Cin := by
  obtain ⟨i, f, c⟩ := t
  unfold forward_visits
  simp only [List.mem_flatMap, List.mem_map, List.mem_range, Prod.mk.injEq]
  constructor
  · rintro ⟨i', hi, f', hf, c', hc, rfl, rfl, rfl⟩
    exact ⟨hi, (mem_for_step 16 Cout Cout x f' (by omega) (by omega)).1 hf, hc⟩
  · rintro ⟨hi, hf, hc⟩
    exact ⟨i, hi, f, (mem_for_step 16 Cout Cout x f (by omega) (by omega)).2 hf, c, hc,
      rfl, rfl, rfl⟩

/-- C30: pass-through balance in the forward systolic kernel.  For every
column `x < 15` and every `N`, `Cout`, `Cin`, the number of blocks a tile of
column `x` forwards (its iterations with `filter_id + 1 < Cout`) is the number
of iterations of a tile of column `x + 1`, and the `k`-th forwarded block has
the image and the channel of the `k`-th iteration of that tile (whose filter
is one more): the forwarded blocks, in order, are the blocks the next column
reads, in order. -/
theorem pass_through_balance (x N Cout Cin : Nat) (hx : x < 15) :
    (forward_passes x N Cout Cin).count true = (forward_visits (x + 1) N Cout Cin).length ∧
      ((forward_visits x N Cout Cin).filter (fun t => decide (t.2.1 + 1 < Cout))).length
        = (forward_visits (x + 1) N Cout Cin).length ∧
      ((forward_visits x N Cout Cin).filter (fun t => decide (t.2.1 + 1 < Cout))).map
          (fun t => (t.1, t.2.2))
        = (forward_visits (x + 1) N Cout Cin).map (fun t => (t.1, t.2.2)) ∧
      ((forward_visits x N Cout Cin).filter (fun t => decide (t.2.1 + 1 < Cout))).map
          (fun t => (t.1, t.2.1 + 1, t.2.2))
        = forward_visits (x + 1) N Cout Cin ∧
      (∀ t : Nat × Nat × Nat, t ∈ forward_visits x N Cout Cin ↔
        t.1 < N ∧ (x ≤ t.2.1 ∧ t.2.1 < Cout ∧ 16 ∣ t.2.1 - x) ∧ t.2.2 < Cin) := by
  have h := forwarded_visits x N Cout Cin
  have hlen : ((forward_visits x N Cout Cin).filter (fun t => decide (t.2.1 + 1 < Cout))).length
      = (forward_visits (x + 1) N Cout Cin).length := by
    rw [← h, List.length_map]
  refine ⟨?_, hlen, ?_, h, mem_forward_visits_column x N Cout Cin⟩
  · rw [forward_passes_count x N Cout Cin (by omega), hlen]
  · rw [← h, List.map_map]
    rfl

/-- Witness of C30: column 0 against column 1 for 2 images, 18 output channels
and 2 input channels. -/
theorem pass_through_balance_witness :
    (0 : Nat) < 15 ∧
    ((forward_passes 0 2 18 2).count true = (forward_visits (0 + 1) 2 18 2).length ∧
      ((forward_visits 0 2 18 2).filter (fun t => decide (t.2.1 + 1 < 18))).length
        = (forward_visits (0 + 1) 2 18 2).length ∧
      ((forward_visits 0 2 18 2).filter (fun t => decide (t.2.1 + 1 < 18))).map
          (fun t => (t.1, t.2.2))
        = (forward_visits (0 + 1) 2 18 2).map (fun t => (t.1, t.2.2)) ∧
      ((forward_visits 0 2 18 2).filter (fun t => decide (t.2.1 + 1 < 18))).map
          (fun t => (t.1, t.2.1 + 1, t.2.2))
        = forward_visits (0 + 1) 2 18 2 ∧
      (∀ t : Nat × Nat × Nat, t ∈ forward_visits 0 2 18 2 ↔
        t.1 < 2 ∧ (0 ≤ t.2.1 ∧ t.2.1 < 18 ∧ 16 ∣ t.2.1 - 0) ∧ t.2.2 < 2)) :=
  ⟨by decide, pass_through_balance 0 2 18 2 (by decide)⟩

/-- The balance of the scenario, evaluated: with 17 output channels column 0
runs its nest for filters 0 and 16 and forwards only the blocks of filter 0,
which are the blocks column 1 reads for its one filter. -/
theorem forwarded_blocks_example :
    forward_visits 0 1 17 2 = [(0, 0, 0), (0, 0, 1), (0, 16, 0), (0, 16, 1)] ∧
      forward_passes 0 1 17 2 = [true, true, false, false] ∧
      forward_visits 1 1 17 2 = [(0, 1, 0), (0, 1, 1)] := by
  decide

/-! ### The conversion variant -/

/-- A loop whose body does not use its counter iterates the body. -/
theorem foldl_ignore {σ β : Type} (g : σ → σ) (l : List β) (st : σ) :
    l.foldl (fun st _ => g st) st = g^[l.length] st := by
  induction l generalizing st with
  | nil => rfl
  | cons a l ih =>
    rw [List.foldl_cons, ih, List.length_cons, Function.iterate_succ_apply]

/-- The state after `k` elements of a sweep whose pointers run through the
addresses `D 0, D 1, ...` and `S 0, S 1, ...`. -/
theorem conversion_steps {α : Type} (f : α → α) (ds ss : Nat) (D S : Nat → Nat) (k : Nat)
    (st : ConvState α) (hD0 : st.dst_data = D 0) (hS0 : st.src_data = S 0)
    (hD : ∀ j, j < k → ptr_add (D j) ds = D (j + 1))
    (hS : ∀ j, j < k → ptr_add (S j) ss = S (j + 1)) :
    (conversion_step f ds ss)^[k] st =
      { mem := (List.range k).foldl (fun m j => Function.update m (D j) (f (m (S j)))) st.mem
        stores := st.stores ++ (List.range k).map D
        dst_data := D k
        src_data := S k } := by
  induction k with
  | zero =>
    obtain ⟨m, l, d, s⟩ := st
    simp only [] at hD0 hS0
    subst hD0
    subst hS0
    show _ = ConvState.mk m (l ++ []) (D 0) (S 0)
    rw [List.append_nil]
    rfl
  | succ k ih =>
    rw [Function.iterate_succ_apply', ih (fun j hj => hD j (by omega)) (fun j hj => hS j (by omega))]
    unfold conversion_step
    simp only []
    rw [List.range_succ, List.foldl_append, List.map_append, List.append_assoc,
      hD k (by omega), hS k (by omega)]
    rfl

/-- A sweep over a concatenation is the sweep over the parts, one after the
other. -/
theorem list_path_append {α : Type} (A : HBTensor → Nat → Nat) (F : List α → α) (res : HBTensor)
    (inputs : List HBTensor) (L1 L2 : List Nat) (m : Mem α) :
    list_path A F res inputs (L1 ++ L2) m
      = list_path A F res inputs L2 (list_path A F res inputs L1 m) := by
  unfold list_path
  rw [List.foldl_append]

/-- The sweep changes no address outside the result elements of its list. -/
theorem list_path_frame {α : Type} (A : HBTensor → Nat → Nat) (F : List α → α) (res : HBTensor)
    (inputs : List HBTensor) (L : List Nat) (m : Mem α) (a : Nat)
    (ha : ∀ idx ∈ L, a ≠ A res idx) : list_path A F res inputs L m a = m a := by
  unfold list_path
  induction L generalizing m with
  | nil => rfl
  | cons x L ih =>
    rw [List.foldl_cons, ih _ (fun idx hidx => ha idx (List.mem_cons_of_mem _ hidx))]
    unfold addr_body
    rw [Function.update_noteq (ha x (List.mem_cons_self _ _))]

/-- The sweep over a list of flat indices below the element count: every
address other than the result elements of the list keeps its value, and the
result element of every index of the list holds the value of the map, read
from the initial memory. -/
theorem list_path_spec {α : Type} (F : List α → α) (res : HBTensor) (inputs : List HBTensor)
    (m : Mem α) (pre : foreach_pre res inputs) (L : List Nat) (hL : ∀ idx ∈ L, idx < res.N) :
    (∀ a, (∀ idx ∈ L, a ≠ elem_addr res idx) →
        list_path elem_addr F res inputs L m a = m a) ∧
      (∀ idx ∈ L, list_path elem_addr F res inputs L m (elem_addr res idx)
        = map_value F inputs m idx) := by
  refine ⟨fun a ha => list_path_frame elem_addr F res inputs L m a ha, ?_⟩
  induction L using List.reverseRecOn with
  | nil =>
    intro idx hidx
    exact absurd hidx (List.not_mem_nil _)
  | append_singleton L x ih =>
    have hL' : ∀ idx ∈ L, idx < res.N := fun idx hidx => hL idx (List.mem_append_left _ hidx)
    have hx : x < res.N := hL x (List.mem_append_right _ (List.mem_singleton_self x))
    have hin : ∀ t ∈ inputs, list_path elem_addr F res inputs L m (elem_addr t x)
        = m (elem_addr t x) := by
      intro t ht
      apply list_path_frame
      intro idx hidx
      exact (pre.no_overlap t ht idx (hL' idx hidx) x hx).symm
    have hval : F (inputs.map (fun t => list_path elem_addr F res inputs L m (elem_addr t x)))
        = map_value F inputs m x := by
      unfold map_value
      congr 1
      exact List.map_congr_left hin
    intro idx hidx
    rw [list_path_append]
    show Function.update _ _ _ _ = _
    by_cases he : elem_addr res idx = elem_addr res x
    · have hidx' : idx < res.N := hL idx hidx
      have e : idx = x := pre.distinct idx hidx' x hx (elem_addr_inj res idx x he)
      subst e
      rw [Function.update_same]
      exact hval
    · rw [Function.update_noteq he]
      rcases List.mem_append.1 hidx with h | h
      · exact ih hL' idx h
      · rw [List.mem_singleton] at h
        subst h
        exact absurd rfl he

/-- A loop whose every iteration performs a sweep performs the sweep over the
concatenation of the lists of its iterations. -/
theorem performs_sweep_nest {α β : Type} [Inhabited α] (A : HBTensor → Nat → Nat) (f : α → α)
    (res input : HBTensor) (l : List β) (B : ConvState α → β → ConvState α) (I : β → List Nat)
    (h : ∀ a ∈ l, performs_sweep A f res input (fun st => B st a) (I a)) :
    performs_sweep A f res input (fun st => l.foldl B st) (l.flatMap I) := by
  induction l with
  | nil =>
    intro st
    exact ⟨rfl, (List.append_nil _).symm⟩
  | cons a l ih =>
    intro st
    obtain ⟨h1, h2⟩ := h a (List.mem_cons_self _ _) st
    obtain ⟨h3, h4⟩ := ih (fun b hb => h b (List.mem_cons_of_mem _ hb)) (B st a)
    simp only [] at h1 h2 h3 h4
    simp only [List.foldl_cons, List.flatMap_cons]
    rw [h3, h4, h1, h2, list_path_append, List.map_append, List.append_assoc]
    exact ⟨rfl, rfl⟩

/-- A sweep of `k` elements whose pointers run through the addresses of the
flat indices `I 0, I 1, ...` performs the sweep over these indices, from any
state, once the pointers are set to the addresses of `I 0`. -/
theorem performs_sweep_steps {α : Type} [Inhabited α] (A : HBTensor → Nat → Nat) (f : α → α)
    (res input : HBTensor) (ds ss k : Nat) (I : Nat → Nat) (D S : Nat → Nat)
    (hD : ∀ j, j < k → ptr_add (D j) ds = D (j + 1))
    (hS : ∀ j, j < k → ptr_add (S j) ss = S (j + 1))
    (hDA : ∀ j, j < k → D j = A res (I j)) (hSA : ∀ j, j < k → S j = A input (I j)) :
    performs_sweep A f res input
      (fun st => (conversion_step f ds ss)^[k] { st with dst_data := D 0, src_data := S 0 })
      ((List.range k).map I) := by
  intro st
  simp only []
  rw [conversion_steps f ds ss D S k _ rfl rfl hD hS]
  simp only []
  constructor
  · unfold list_path
    rw [List.foldl_map]
    apply List.foldl_ext
    intro m j hj
    rw [List.mem_range] at hj
    unfold addr_body
    rw [hDA j hj, hSA j hj]
    rfl
  · rw [List.map_map]
    congr 1
    apply List.map_congr_left
    intro j hj
    rw [List.mem_range] at hj
    exact hDA j hj

/-- The address of an element from the digits of its flat index. -/
theorem elem_addr_digits (t : HBTensor) (digits : List Nat) (idx : Nat)
    (hdec : is_decomposition t.sizes digits idx) :
    elem_addr t idx = wrap32 (t.data + stride_sum digits t.strides) := by
  unfold elem_addr ptr_add offset_calc
  rw [offset_calc_loop_decomp t.sizes t.strides digits idx 0 (by unfold WORD; norm_num) hdec,
    Nat.zero_add, wrap32_add_wrap32_right]

/-- The shape of a well-formed operand of rank 2. -/
theorem rank2_shape (t : HBTensor) (hwf : t.wf) (h2 : t.ndim = 2) :
    ∃ z0 z1 s0 s1, t.sizes = [z0, z1] ∧ t.strides = [s0, s1] := by
  obtain ⟨hlen, -, -⟩ := hwf
  unfold HBTensor.ndim at h2
  rw [h2] at hlen
  rcases hs : t.sizes with _ | ⟨z0, _ | ⟨z1, _ | ⟨z2, zs⟩⟩⟩ <;> rw [hs] at h2 <;>
    simp only [List.length_cons, List.length_nil] at h2 <;> try omega
  rcases ht : t.strides with _ | ⟨s0, _ | ⟨s1, _ | ⟨s2, ss⟩⟩⟩ <;> rw [ht] at hlen <;>
    simp only [List.length_cons, List.length_nil] at hlen <;> try omega
  exact ⟨z0, z1, s0, s1, rfl, rfl⟩

/-- The shape of a well-formed operand of rank 3. -/
theorem rank3_shape (t : HBTensor) (hwf : t.wf) (h3 : t.ndim = 3) :
    ∃ z0 z1 z2 s0 s1 s2, t.sizes = [z0, z1, z2] ∧ t.strides = [s0, s1, s2] := by
  obtain ⟨hlen, -, -⟩ := hwf
  unfold HBTensor.ndim at h3
  rw [h3] at hlen
  rcases hs : t.sizes with _ | ⟨z0, _ | ⟨z1, _ | ⟨z2, _ | ⟨z3, zs⟩⟩⟩⟩ <;> rw [hs] at h3 <;>
    simp only [List.length_cons, List.length_nil] at h3 <;> try omega
  rcases ht : t.strides with _ | ⟨s0, _ | ⟨s1, _ | ⟨s2, _ | ⟨s3, ss⟩⟩⟩⟩ <;> rw [ht] at hlen <;>
    simp only [List.length_cons, List.length_nil] at hlen <;> try omega
  exact ⟨z0, z1, z2, s0, s1, s2, rfl, rfl⟩

/-- Rank 2: the element at position `i0` of dimension 0 and `i1` of
dimension 1 has flat index `i0 + z0 * i1` and address
`data + i0 * s0 + i1 * s1`. -/
theorem elem_addr_rank2 (t : HBTensor) (z0 z1 s0 s1 i0 i1 : Nat) (hsz : t.sizes = [z0, z1])
    (hst : t.strides = [s0, s1]) (h0 : i0 < z0) (h1 : i1 < z1) :
    elem_addr t (i0 + z0 * i1) = wrap32 (t.data + (i0 * s0 + i1 * s1)) := by
  rw [elem_addr_digits t [i0, i1] (i0 + z0 * i1), hst]
  · rfl
  · rw [hsz]
    exact ⟨List.Forall₂.cons h0 (List.Forall₂.cons h1 List.Forall₂.nil), rfl⟩

/-- Rank 3: the element at positions `i0`, `i1`, `i2` has flat index
`i0 + z0 * (i1 + z1 * i2)` and address `data + i1 * s1 + i0 * s0 + i2 * s2`. -/
theorem elem_addr_rank3 (t : HBTensor) (z0 z1 z2 s0 s1 s2 i0 i1 i2 : Nat)
    (hsz : t.sizes = [z0, z1, z2]) (hst : t.strides = [s0, s1, s2]) (h0 : i0 < z0)
    (h1 : i1 < z1) (h2 : i2 < z2) :
    elem_addr t (i0 + z0 * (i1 + z1 * i2)) = wrap32 (t.data + (i1 * s1 + i0 * s0 + i2 * s2)) := by
  rw [elem_addr_digits t [i0, i1, i2] (i0 + z0 * (i1 + z1 * i2)), hst]
  · show wrap32 (t.data + (i0 * s0 + (i1 * s1 + (i2 * s2 + 0)))) = _
    congr 1
    omega
  · rw [hsz]
    exact ⟨List.Forall₂.cons h0 (List.Forall₂.cons h1 (List.Forall₂.cons h2 List.Forall₂.nil)),
      rfl⟩

/-- Advancing a pointer `base + j * s` by the stride `s`. -/
theorem strided_succ (base s j : Nat) :
    ptr_add (wrap32 (base + j * s)) s = wrap32 (base + (j + 1) * s) := by
  unfold ptr_add
  rw [wrap32_add_wrap32_left, Nat.succ_mul, Nat.add_assoc]

/-- The pointer at the start of a strided sweep. -/
theorem strided_zero (data off s : Nat) :
    ptr_add data (wrap32 off) = wrap32 (data + off + 0 * s) := by
  unfold ptr_add
  rw [wrap32_add_wrap32_right, Nat.zero_mul, Nat.add_zero]

/-- The rank-2 path performs the sweep over the flat indices of its
positions. -/
theorem conversion_rank2_sweep {α : Type} [Inhabited α] (f : α → α) (res input : HBTensor)
    (z0 z1 s0 s1 t0 t1 start end_ : Nat) (hsz : res.sizes = [z0, z1])
    (hst : res.strides = [s0, s1]) (hisz : input.sizes = [z0, z1])
    (hist : input.strides = [t0, t1]) (hend : end_ ≤ z0) :
    performs_sweep elem_addr f res input (conversion_rank2 f res input start end_)
      (rank2_indices res start end_) := by
  have ed0 : res.dim 0 = z0 := by unfold HBTensor.dim; rw [hsz]; rfl
  have ed1 : res.dim 1 = z1 := by unfold HBTensor.dim; rw [hsz]; rfl
  have es0 : res.stride 0 = s0 := by unfold HBTensor.stride; rw [hst]; rfl
  have es1 : res.stride 1 = s1 := by unfold HBTensor.stride; rw [hst]; rfl
  have et0 : input.stride 0 = t0 := by unfold HBTensor.stride; rw [hist]; rfl
  have et1 : input.stride 1 = t1 := by unfold HBTensor.stride; rw [hist]; rfl
  unfold conversion_rank2 rank2_indices
  apply performs_sweep_nest
  intro idx hidx
  rw [List.mem_range'_1] at hidx
  have hk := performs_sweep_steps elem_addr f res input (res.stride 1) (input.stride 1)
    (res.dim 1) (fun j => idx + res.dim 0 * j)
    (fun j => wrap32 (res.data + idx * res.stride 0 + j * res.stride 1))
    (fun j => wrap32 (input.data + idx * input.stride 0 + j * input.stride 1))
    (fun j _ => strided_succ _ _ j) (fun j _ => strided_succ _ _ j)
    (fun j hj => by
      simp only []
      rw [ed0, es0, es1, elem_addr_rank2 res z0 z1 s0 s1 idx j hsz hst (by omega) (by omega),
        Nat.add_assoc])
    (fun j hj => by
      simp only []
      rw [ed0, et0, et1, elem_addr_rank2 input z0 z1 t0 t1 idx j hisz hist (by omega) (by omega),
        Nat.add_assoc])
  intro st
  have h := hk st
  simp only [] at h ⊢
  rw [foldl_ignore, List.length_range', Nat.sub_zero, strided_zero res.data _ (res.stride 1),
    strided_zero input.data _ (input.stride 1)]
  exact h

/-- The pointer at the start of a strided sweep of the rank-3 path. -/
theorem strided_zero2 (data a b s : Nat) :
    ptr_add (ptr_add data (wrap32 a)) (wrap32 b) = wrap32 (data + a + b + 0 * s) := by
  unfold ptr_add
  rw [wrap32_add_wrap32_right, wrap32_add_wrap32_right, wrap32_add_wrap32_left, Nat.zero_mul,
    Nat.add_zero]

/-- The rank-3 path performs the sweep over the flat indices of its
positions. -/
theorem conversion_rank3_sweep {α : Type} [Inhabited α] (f : α → α) (res input : HBTensor)
    (z0 z1 z2 s0 s1 s2 t0 t1 t2 start end_ : Nat) (hsz : res.sizes = [z0, z1, z2])
    (hst : res.strides = [s0, s1, s2]) (hisz : input.sizes = [z0, z1, z2])
    (hist : input.strides = [t0, t1, t2]) (hend : end_ ≤ z0 * z1) :
    performs_sweep elem_addr f res input (conversion_rank3 f res input start end_)
      (rank3_indices res start end_) := by
  have ed0 : res.dim 0 = z0 := by unfold HBTensor.dim; rw [hsz]; rfl
  have ed1 : res.dim 1 = z1 := by unfold HBTensor.dim; rw [hsz]; rfl
  have ed2 : res.dim 2 = z2 := by unfold HBTensor.dim; rw [hsz]; rfl
  have ei1 : input.dim 1 = z1 := by unfold HBTensor.dim; rw [hisz]; rfl
  have es0 : res.stride 0 = s0 := by unfold HBTensor.stride; rw [hst]; rfl
  have es1 : res.stride 1 = s1 := by unfold HBTensor.stride; rw [hst]; rfl
  have es2 : res.stride 2 = s2 := by unfold HBTensor.stride; rw [hst]; rfl
  have et0 : input.stride 0 = t0 := by unfold HBTensor.stride; rw [hist]; rfl
  have et1 : input.stride 1 = t1 := by unfold HBTensor.stride; rw [hist]; rfl
  have et2 : input.stride 2 = t2 := by unfold HBTensor.stride; rw [hist]; rfl
  unfold conversion_rank3 rank3_indices
  apply performs_sweep_nest
  intro idx hidx
  rw [List.mem_range'_1] at hidx
  have hidx2 : idx < z0 * z1 := by omega
  have hz1 : 0 < z1 := by
    rcases Nat.eq_zero_or_pos z1 with h | h
    · rw [h, Nat.mul_zero] at hidx2
      omega
    · exact h
  have hi0 : idx / z1 < z0 := (Nat.div_lt_iff_lt_mul hz1).2 hidx2
  have hi1 : idx % z1 < z1 := Nat.mod_lt idx hz1
  have hk := performs_sweep_steps elem_addr f res input (res.stride 2) (input.stride 2)
    (res.dim 2) (fun j => idx / res.dim 1 + res.dim 0 * (idx % res.dim 1 + res.dim 1 * j))
    (fun j => wrap32 (res.data + idx % res.dim 1 * res.stride 1 + idx / res.dim 1 * res.stride 0
      + j * res.stride 2))
    (fun j => wrap32 (input.data + idx % input.dim 1 * input.stride 1
      + idx / input.dim 1 * input.stride 0 + j * input.stride 2))
    (fun j _ => strided_succ _ _ j) (fun j _ => strided_succ _ _ j)
    (fun j hj => by
      simp only []
      rw [ed0, ed1, es0, es1, es2,
        elem_addr_rank3 res z0 z1 z2 s0 s1 s2 (idx / z1) (idx % z1) j hsz hst hi0 hi1 (by omega)]
      congr 1
      omega)
    (fun j hj => by
      simp only []
      rw [ed0, ed1, ei1, et0, et1, et2,
        elem_addr_rank3 input z0 z1 z2 t0 t1 t2 (idx / z1) (idx % z1) j hisz hist hi0 hi1
          (by omega)]
      congr 1
      omega)
  intro st
  have h := hk st
  simp only [] at h ⊢
  rw [foldl_ignore, List.length_range', Nat.sub_zero,
    strided_zero2 res.data _ _ (res.stride 2), strided_zero2 input.data _ _ (input.stride 2)]
  exact h

/-- The general path performs the sweep over its range of flat indices. -/
theorem conversion_general_sweep {α : Type} [Inhabited α] (f : α → α) (res input : HBTensor)
    (start end_ : Nat) :
    performs_sweep elem_addr f res input (conversion_general f res input start end_)
      (range_indices start end_) := by
  unfold conversion_general range_indices
  have h := performs_sweep_nest elem_addr f res input (List.range' start (end_ - start))
    (fun st idx =>
      { st with
        mem := Function.update st.mem (elem_addr res idx) (f (st.mem (elem_addr input idx)))
        stores := st.stores ++ [elem_addr res idx] })
    (fun idx => [idx]) (fun idx _ st => ⟨rfl, rfl⟩)
  rw [List.flatMap_singleton'] at h
  exact h

/-- The unrolled body is four elements of the plain sweep when none of the
four inputs it reads ahead is one of the result elements it stores before. -/
theorem unrolled_step_eq {α : Type} (f : α → α) (ds ss : Nat) (st : ConvState α)
    (h1 : ptr_add st.src_data ss ≠ st.dst_data)
    (h2 : ptr_add (ptr_add st.src_data ss) ss ≠ st.dst_data)
    (h3 : ptr_add (ptr_add st.src_data ss) ss ≠ ptr_add st.dst_data ds)
    (h4 : ptr_add (ptr_add (ptr_add st.src_data ss) ss) ss ≠ st.dst_data)
    (h5 : ptr_add (ptr_add (ptr_add st.src_data ss) ss) ss ≠ ptr_add st.dst_data ds)
    (h6 : ptr_add (ptr_add (ptr_add st.src_data ss) ss) ss
      ≠ ptr_add (ptr_add st.dst_data ds) ds) :
    unrolled_step f ds ss st = (conversion_step f ds ss)^[4] st := by
  show _ = conversion_step f ds ss (conversion_step f ds ss (conversion_step f ds ss
    (conversion_step f ds ss st)))
  unfold unrolled_step conversion_step
  simp only [List.append_assoc, List.singleton_append, List.cons_append, List.nil_append]
  rw [Function.update_noteq h1, Function.update_noteq h3, Function.update_noteq h2,
    Function.update_noteq h6, Function.update_noteq h5, Function.update_noteq h4]

/-- The plain sweep of `k` elements from flat index `idx`, as a state. -/
theorem plain_steps {α : Type} (f : α → α) (res input : HBTensor) (idx k : Nat)
    (st : ConvState α) (hd : st.dst_data = lin_addr res idx)
    (hs : st.src_data = lin_addr input idx) :
    (conversion_step f res.stride0 input.stride0)^[k] st =
      { mem := (List.range k).foldl (fun m j => Function.update m (lin_addr res (idx + j))
          (f (m (lin_addr input (idx + j))))) st.mem
        stores := st.stores ++ (List.range k).map (fun j => lin_addr res (idx + j))
        dst_data := lin_addr res (idx + k)
        src_data := lin_addr input (idx + k) } :=
  conversion_steps f res.stride0 input.stride0 (fun j => lin_addr res (idx + j))
    (fun j => lin_addr input (idx + j)) k st hd hs (fun j _ => lin_addr_succ res (idx + j))
    (fun j _ => lin_addr_succ input (idx + j))

/-- The unrolled loop over a range whose result elements are no input
elements: it stops at an index within the range, it has performed the plain
sweep up to that index, and with enough fuel it stops because its condition
fails. -/
theorem unrolled_loop_spec {α : Type} (f : α → α) (res input : HBTensor) (s e : Nat)
    (ho : ∀ i j, s ≤ i → i < e → s ≤ j → j < e → lin_addr res i ≠ lin_addr input j)
    (fuel idx : Nat) (st : ConvState α) (hs : s ≤ idx) (he : idx ≤ e)
    (hd : st.dst_data = lin_addr res idx) (hsrc : st.src_data = lin_addr input idx) :
    idx ≤ (unrolled_loop f res.stride0 input.stride0 e fuel idx st).1 ∧
      (unrolled_loop f res.stride0 input.stride0 e fuel idx st).1 ≤ e ∧
      (unrolled_loop f res.stride0 input.stride0 e fuel idx st).2
        = (conversion_step f res.stride0 input.stride0)^[
            (unrolled_loop f res.stride0 input.stride0 e fuel idx st).1 - idx] st ∧
      (e ≤ idx + 4 * fuel →
        ¬ (unrolled_loop f res.stride0 input.stride0 e fuel idx st).1 < e - 4) := by
  induction fuel generalizing idx st with
  | zero =>
    refine ⟨Nat.le_refl _, he, ?_, fun h => ?_⟩
    · show st = (conversion_step f res.stride0 input.stride0)^[idx - idx] st
      rw [Nat.sub_self]
      rfl
    · show ¬ idx < e - 4
      omega
  | succ fuel ih =>
    unfold unrolled_loop
    split_ifs with hlt
    · have h4 : unrolled_step f res.stride0 input.stride0 st
          = (conversion_step f res.stride0 input.stride0)^[4] st := by
        apply unrolled_step_eq
        · rw [hsrc, hd, lin_addr_succ]
          exact (ho idx (idx + 1) hs (by omega) (by omega) (by omega)).symm
        · rw [hsrc, hd, lin_addr_succ, lin_addr_succ]
          exact (ho idx (idx + 1 + 1) hs (by omega) (by omega) (by omega)).symm
        · rw [hsrc, hd, lin_addr_succ, lin_addr_succ, lin_addr_succ]
          exact (ho (idx + 1) (idx + 1 + 1) (by omega) (by omega) (by omega) (by omega)).symm
        · rw [hsrc, hd, lin_addr_succ, lin_addr_succ, lin_addr_succ]
          exact (ho idx (idx + 1 + 1 + 1) hs (by omega) (by omega) (by omega)).symm
        · rw [hsrc, hd, lin_addr_succ, lin_addr_succ, lin_addr_succ, lin_addr_succ]
          exact (ho (idx + 1) (idx + 1 + 1 + 1) (by omega) (by omega) (by omega) (by omega)).symm
        · rw [hsrc, hd, lin_addr_succ, lin_addr_succ, lin_addr_succ, lin_addr_succ, lin_addr_succ]
          exact (ho (idx + 1 + 1) (idx + 1 + 1 + 1) (by omega) (by omega) (by omega)
            (by omega)).symm
      have hp := plain_steps f res input idx 4 st hd hsrc
      rw [h4]
      obtain ⟨i1, i2, i3, i4⟩ := ih (idx + 4)
        ((conversion_step f res.stride0 input.stride0)^[4] st) (by omega) (by omega)
        (by rw [hp]) (by rw [hp])
      refine ⟨by omega, i2, ?_, fun h => i4 (by omega)⟩
      rw [i3, ← Function.iterate_add_apply]
      congr 1
      omega
    · refine ⟨Nat.le_refl _, he, ?_, fun _ => hlt⟩
      show st = (conversion_step f res.stride0 input.stride0)^[idx - idx] st
      rw [Nat.sub_self]
      rfl

/-- The rank-1 path with its unrolled loop leaves the state of the plain
one-element-at-a-time loop, when no result element of the range is an input
element of the range. -/
theorem conversion_rank1_plain_eq {α : Type} (f : α → α) (res input : HBTensor) (s e : Nat)
    (ho : ∀ i j, s ≤ i → i < e → s ≤ j → j < e → lin_addr res i ≠ lin_addr input j)
    (st : ConvState α) :
    conversion_rank1 f res input s e st = conversion_rank1_plain f res input s e st := by
  unfold conversion_rank1 conversion_rank1_plain
  simp only []
  split_ifs with hgt
  · obtain ⟨h1, h2, h3, -⟩ := unrolled_loop_spec f res input s e ho e s
      { st with
        dst_data := ptr_add res.data (wrap32 (res.stride0 * s))
        src_data := ptr_add input.data (wrap32 (input.stride0 * s)) }
      (Nat.le_refl s) (by omega) (lin_addr_start res s) (lin_addr_start input s)
    rw [foldl_ignore, foldl_ignore, List.length_range', List.length_range', h3,
      ← Function.iterate_add_apply]
    congr 1
    omega
  · rfl

/-- The plain one-element-at-a-time loop performs the sweep over its range,
with the operands addressed by their strided pointers. -/
theorem conversion_rank1_plain_sweep {α : Type} [Inhabited α] (f : α → α) (res input : HBTensor)
    (s e : Nat) :
    performs_sweep lin_addr f res input (conversion_rank1_plain f res input s e)
      (range_indices s e) := by
  have hk := performs_sweep_steps lin_addr f res input res.stride0 input.stride0 (e - s)
    (fun j => s + j) (fun j => lin_addr res (s + j)) (fun j => lin_addr input (s + j))
    (fun j _ => lin_addr_succ res (s + j)) (fun j _ => lin_addr_succ input (s + j))
    (fun j _ => rfl) (fun j _ => rfl)
  intro st
  have h := hk st
  unfold conversion_rank1_plain range_indices
  simp only [] at h ⊢
  rw [foldl_ignore, List.length_range', lin_addr_start, lin_addr_start, List.range'_eq_map_range]
  exact h

/-- The range of a tile is not inverted. -/
theorem calc_range_start_le (c : Topology) (M : Nat) :
    (calc_range c M).start ≤ (calc_range c M).end_ := by
  rcases Nat.lt_or_ge (calc_range c M).start (calc_range c M).end_ with h | h
  · exact Nat.le_of_lt h
  · rw [calc_range_empty c M h]

/-- C23: the rank-1 sweep of `hb_tiled_foreach_conversion`, four elements per
iteration while `idx < end - 4` and then one element at a time, is the plain
one-element-at-a-time loop, for every range `[start, end)` no result element
of which is an input element: it leaves the same state, it stores to the
result element of every index of the range once, in ascending order, and the
memory is that of the element-wise sweep; when the result elements of the
range are distinct, the result element of every index `idx` of the range holds
the functor of the input element of `idx`.  The unrolled loop, entered for
more than four elements, leaves at most four of them to the one-element loop.
On a rank-1 result `hb_tiled_foreach_conversion` is this sweep over the range
of the tile, which has `start ≤ end`. -/
theorem unrolled_sweep_eq_plain {α : Type} [Inhabited α] (f : α → α) (res input : HBTensor)
    (start end_ : Nat) (st : ConvState α)
    (ho : ∀ i, i < end_ → ∀ j, j < end_ → start ≤ i → start ≤ j →
      lin_addr res i ≠ lin_addr input j) :
    conversion_rank1 f res input start end_ st = conversion_rank1_plain f res input start end_ st ∧
      (conversion_rank1 f res input start end_ st).stores
        = st.stores ++ (range_indices start end_).map (lin_addr res) ∧
      (conversion_rank1 f res input start end_ st).mem
        = list_path lin_addr (unary_functor f) res [input] (range_indices start end_) st.mem ∧
      ((∀ i, i < end_ → ∀ j, j < end_ → start ≤ i → start ≤ j →
          lin_addr res i = lin_addr res j → i = j) →
        ∀ idx, start ≤ idx → idx < end_ →
          (conversion_rank1 f res input start end_ st).mem (lin_addr res idx)
            = f (st.mem (lin_addr input idx))) ∧
      (end_ - start > 4 →
        start ≤ (unrolled_loop f res.stride0 input.stride0 end_ end_ start
            { st with
              dst_data := ptr_add res.data (wrap32 (res.stride0 * start))
              src_data := ptr_add input.data (wrap32 (input.stride0 * start)) }).1 ∧
          end_ - (unrolled_loop f res.stride0 input.stride0 end_ end_ start
            { st with
              dst_data := ptr_add res.data (wrap32 (res.stride0 * start))
              src_data := ptr_add input.data (wrap32 (input.stride0 * start)) }).1 ≤ 4) ∧
      (∀ c : Topology, res.ndim = 1 → (calc_range c res.numel).start = start →
        (calc_range c res.numel).end_ = end_ →
        start ≤ end_ ∧ hb_tiled_foreach_conversion c f res input st
          = conversion_rank1_plain f res input start end_ st) := by
  have ho' : ∀ i j, start ≤ i → i < end_ → start ≤ j → j < end_ →
      lin_addr res i ≠ lin_addr input j := fun i j h1 h2 h3 h4 => ho i h2 j h4 h1 h3
  have heq := conversion_rank1_plain_eq f res input start end_ ho' st
  obtain ⟨hmem, hstores⟩ := conversion_rank1_plain_sweep f res input start end_ st
  refine ⟨heq, ?_, ?_, ?_, ?_, ?_⟩
  · rw [heq]
    exact hstores
  · rw [heq]
    exact hmem
  · intro hd idx h1 h2
    rw [heq, hmem]
    have he : end_ = start + (end_ - start) := by omega
    have hv := addr_path_value lin_addr (unary_functor f) res [input] st.mem start (end_ - start)
      (fun i j a1 a2 a3 a4 => hd i (by omega) j (by omega) a1 a3)
      (fun t ht i j a1 a2 a3 a4 => by
        rw [List.mem_singleton] at ht
        subst ht
        exact ho i (by omega) j (by omega) a1 a3)
      idx h1 (by omega)
    rw [← he] at hv
    exact hv
  · intro hgt
    obtain ⟨h1, h2, -, h4⟩ := unrolled_loop_spec f res input start end_ ho' end_ start
      { st with
        dst_data := ptr_add res.data (wrap32 (res.stride0 * start))
        src_data := ptr_add input.data (wrap32 (input.stride0 * start)) }
      (Nat.le_refl start) (by omega) (lin_addr_start res start) (lin_addr_start input start)
    have h5 := h4 (by omega)
    exact ⟨h1, by omega⟩
  · intro c h1 hs he
    refine ⟨by rw [← hs, ← he]; exact calc_range_start_le c _, ?_⟩
    unfold hb_tiled_foreach_conversion
    rw [if_pos h1]
    simp only []
    rw [hs, he]
    exact heq

/-- Witness of C23: nine elements, the whole range, from the identity
memory. -/
theorem unrolled_sweep_eq_plain_witness :
    (∀ i, i < 9 → ∀ j, j < 9 → 0 ≤ i → 0 ≤ j → lin_addr cv_res1 i ≠ lin_addr cv_in1 j) ∧
    (conversion_rank1 (fun x : Nat => x + 1) cv_res1 cv_in1 0 9 ⟨fun a => a, [], 0, 0⟩
        = conversion_rank1_plain (fun x : Nat => x + 1) cv_res1 cv_in1 0 9 ⟨fun a => a, [], 0, 0⟩ ∧
      (conversion_rank1 (fun x : Nat => x + 1) cv_res1 cv_in1 0 9 ⟨fun a => a, [], 0, 0⟩).stores
        = (⟨fun a => a, [], 0, 0⟩ : ConvState Nat).stores
          ++ (range_indices 0 9).map (lin_addr cv_res1) ∧
      (conversion_rank1 (fun x : Nat => x + 1) cv_res1 cv_in1 0 9 ⟨fun a => a, [], 0, 0⟩).mem
        = list_path lin_addr (unary_functor (fun x : Nat => x + 1)) cv_res1 [cv_in1]
            (range_indices 0 9) (⟨fun a => a, [], 0, 0⟩ : ConvState Nat).mem ∧
      ((∀ i, i < 9 → ∀ j, j < 9 → 0 ≤ i → 0 ≤ j →
          lin_addr cv_res1 i = lin_addr cv_res1 j → i = j) →
        ∀ idx, 0 ≤ idx → idx < 9 →
          (conversion_rank1 (fun x : Nat => x + 1) cv_res1 cv_in1 0 9
              ⟨fun a => a, [], 0, 0⟩).mem (lin_addr cv_res1 idx)
            = (fun x : Nat => x + 1)
                ((⟨fun a => a, [], 0, 0⟩ : ConvState Nat).mem (lin_addr cv_in1 idx))) ∧
      (9 - 0 > 4 →
        0 ≤ (unrolled_loop (fun x : Nat => x + 1) cv_res1.stride0 cv_in1.stride0 9 9 0
            { (⟨fun a => a, [], 0, 0⟩ : ConvState Nat) with
              dst_data := ptr_add cv_res1.data (wrap32 (cv_res1.stride0 * 0))
              src_data := ptr_add cv_in1.data (wrap32 (cv_in1.stride0 * 0)) }).1 ∧
          9 - (unrolled_loop (fun x : Nat => x + 1) cv_res1.stride0 cv_in1.stride0 9 9 0
            { (⟨fun a => a, [], 0, 0⟩ : ConvState Nat) with
              dst_data := ptr_add cv_res1.data (wrap32 (cv_res1.stride0 * 0))
              src_data := ptr_add cv_in1.data (wrap32 (cv_in1.stride0 * 0)) }).1 ≤ 4) ∧
      (∀ c : Topology, cv_res1.ndim = 1 → (calc_range c cv_res1.numel).start = 0 →
        (calc_range c cv_res1.numel).end_ = 9 →
        0 ≤ 9 ∧ hb_tiled_foreach_conversion c (fun x : Nat => x + 1) cv_res1 cv_in1
            ⟨fun a => a, [], 0, 0⟩
          = conversion_rank1_plain (fun x : Nat => x + 1) cv_res1 cv_in1 0 9
              ⟨fun a => a, [], 0, 0⟩)) :=
  ⟨by decide, unrolled_sweep_eq_plain (fun x : Nat => x + 1) cv_res1 cv_in1 0 9
    ⟨fun a => a, [], 0, 0⟩ (by decide)⟩

/-- The unrolled sweep of the scenario, evaluated: on nine elements the
unrolled loop runs twice and stops at index 8, and the stores go to the nine
result elements in ascending order. -/
theorem unrolled_sweep_example :
    (unrolled_loop (fun x : Nat => x + 1) 4 8 9 9 0 ⟨fun a => a, [], 0, 64⟩).1 = 8 ∧
      (conversion_rank1 (fun x : Nat => x + 1) cv_res1 cv_in1 0 9 ⟨fun a => a, [], 0, 0⟩).stores
        = [0, 4, 8, 12, 16, 20, 24, 28, 32] ∧
      (conversion_rank1 (fun x : Nat => x + 1) cv_res1 cv_in1 0 9 ⟨fun a => a, [], 0, 0⟩).mem 32
        = 129 := by
  decide

/-- The flat indices of a range. -/
theorem mem_range_indices (s e i : Nat) : i ∈ range_indices s e ↔ s ≤ i ∧ i < e := by
  unfold range_indices
  rw [List.mem_range'_1]
  omega

/-- The ranges of all tiles, one after the other in any order of the tiles,
are a rearrangement of `0, ..., M - 1`. -/
theorem tile_ranges_perm (P X Y M : Nat) (tiles : List (Nat × Nat)) (hP : 1 ≤ P)
    (hT : 1 ≤ X * Y) (hperm : tiles.Perm (all_tiles P (X * Y))) :
    (tiles.flatMap (fun pt => range_indices (calc_range ⟨P, pt.1, X, Y, pt.2⟩ M).start
      (calc_range ⟨P, pt.1, X, Y, pt.2⟩ M).end_)).Perm (List.range M) := by
  refine (List.Perm.flatMap_right _ hperm).trans ?_
  have hnd : ((all_tiles P (X * Y)).flatMap
      (fun pt => range_indices (calc_range ⟨P, pt.1, X, Y, pt.2⟩ M).start
        (calc_range ⟨P, pt.1, X, Y, pt.2⟩ M).end_)).Nodup := by
    rw [List.nodup_flatMap]
    constructor
    · intro pt _
      exact List.nodup_range' _ _
    · refine (all_tiles_nodup P (X * Y)).imp ?_
      intro a b hab
      show List.Disjoint _ _
      intro i hi hj
      rw [mem_range_indices] at hi hj
      obtain ⟨e1, e2⟩ := calc_range_unique M P X Y a.1 a.2 b.1 b.2 i hi hj
      exact hab (Prod.ext e1 e2)
  rw [List.perm_ext_iff_of_nodup hnd (List.nodup_range M)]
  intro i
  rw [List.mem_flatMap, List.mem_range]
  constructor
  · rintro ⟨pt, -, hi⟩
    rw [mem_range_indices] at hi
    exact ((contains_calc_range _ M i).1 hi).1
  · intro hi
    obtain ⟨pod, id, hpod, hid, hc⟩ := calc_range_cover M P X Y hP hT i hi
    exact ⟨(pod, id), (mem_all_tiles P (X * Y) pod id).2 ⟨hpod, hid⟩,
      (mem_range_indices _ _ i).2 hc⟩

/-- The range of a tile ends within the count it partitions. -/
theorem calc_range_end_le (c : Topology) (M : Nat) : (calc_range c M).end_ ≤ M := by
  rcases Nat.lt_or_ge (calc_range c M).start (calc_range c M).end_ with h | h
  · have hc : (calc_range c M).contains ((calc_range c M).end_ - 1) := by
      unfold hb_range.contains
      omega
    have := ((contains_calc_range c M _).1 hc).1
    omega
  · rw [calc_range_empty c M h]
    exact Nat.zero_le M

/-- Position pairs of a rank-2 tensor against flat indices: the pairs, with
dimension 0 outermost, are a rearrangement of the flat indices. -/
theorem rank2_flat_perm (z0 z1 : Nat) :
    ((List.range z0).flatMap (fun idx => (List.range z1).map (fun j => idx + z0 * j))).Perm
      (List.range (z0 * z1)) := by
  have hnd : ((List.range z0).flatMap
      (fun idx => (List.range z1).map (fun j => idx + z0 * j))).Nodup := by
    rw [List.nodup_flatMap]
    constructor
    · intro idx hidx
      rw [List.mem_range] at hidx
      refine List.Nodup.map_on ?_ (List.nodup_range z1)
      intro a _ b _ hab
      exact Nat.eq_of_mul_eq_mul_left (by omega) (Nat.add_left_cancel hab)
    · refine (List.nodup_range z0).imp_of_mem ?_
      intro a b ha hb hab
      rw [List.mem_range] at ha hb
      show List.Disjoint _ _
      intro k hk1 hk2
      obtain ⟨j, -, rfl⟩ := List.mem_map.1 hk1
      obtain ⟨j', -, hk⟩ := List.mem_map.1 hk2
      have h1 : (a + z0 * j) % z0 = a := by
        rw [Nat.add_mul_mod_self_left, Nat.mod_eq_of_lt ha]
      have h2 : (b + z0 * j') % z0 = b := by
        rw [Nat.add_mul_mod_self_left, Nat.mod_eq_of_lt hb]
      rw [hk, h1] at h2
      exact hab h2
  rw [List.perm_ext_iff_of_nodup hnd (List.nodup_range _)]
  intro k
  rw [List.mem_flatMap, List.mem_range]
  constructor
  · rintro ⟨idx, hidx, hk⟩
    obtain ⟨j, hj, rfl⟩ := List.mem_map.1 hk
    rw [List.mem_range] at hidx hj
    have h1 : z0 * (j + 1) ≤ z0 * z1 := Nat.mul_le_mul_left z0 hj
    rw [Nat.mul_add, Nat.mul_one] at h1
    omega
  · intro hk
    have hz0 : 0 < z0 := by
      rcases Nat.eq_zero_or_pos z0 with h | h
      · rw [h, Nat.zero_mul] at hk
        omega
      · exact h
    refine ⟨k % z0, List.mem_range.2 (Nat.mod_lt k hz0), List.mem_map.2
      ⟨k / z0, List.mem_range.2 (Nat.div_lt_of_lt_mul hk), Nat.mod_add_div k z0⟩⟩

/-- Two digits below their extents are determined by their value. -/
theorem two_digits_inj (z a b a' b' : Nat) (ha : a < z) (ha' : a' < z)
    (h : a + z * b = a' + z * b') : a = a' ∧ b = b' := by
  have h1 : (a + z * b) % z = a := by rw [Nat.add_mul_mod_self_left, Nat.mod_eq_of_lt ha]
  have h2 : (a' + z * b') % z = a' := by rw [Nat.add_mul_mod_self_left, Nat.mod_eq_of_lt ha']
  have e : a = a' := by rw [← h1, h, h2]
  subst e
  exact ⟨rfl, Nat.eq_of_mul_eq_mul_left (by omega) (Nat.add_left_cancel h)⟩

/-- Outer positions of a rank-3 tensor against flat indices: the outer
positions, decoded by quotient and remainder, with the positions of
dimension 2, are a rearrangement of the flat indices. -/
theorem rank3_flat_perm (z0 z1 z2 : Nat) :
    ((List.range (z0 * z1)).flatMap (fun idx =>
        (List.range z2).map (fun j => idx / z1 + z0 * (idx % z1 + z1 * j)))).Perm
      (List.range (z0 * z1 * z2)) := by
  have hdec : ∀ idx, idx < z0 * z1 → 0 < z1 ∧ idx / z1 < z0 ∧ idx % z1 < z1 := by
    intro idx hidx
    have hz1 : 0 < z1 := by
      rcases Nat.eq_zero_or_pos z1 with h | h
      · rw [h, Nat.mul_zero] at hidx
        omega
      · exact h
    exact ⟨hz1, (Nat.div_lt_iff_lt_mul hz1).2 hidx, Nat.mod_lt idx hz1⟩
  have hnd : ((List.range (z0 * z1)).flatMap (fun idx =>
      (List.range z2).map (fun j => idx / z1 + z0 * (idx % z1 + z1 * j)))).Nodup := by
    rw [List.nodup_flatMap]
    constructor
    · intro idx hidx
      rw [List.mem_range] at hidx
      obtain ⟨hz1, h0, h1⟩ := hdec idx hidx
      refine List.Nodup.map_on ?_ (List.nodup_range z2)
      intro a _ b _ hab
      have e1 := (two_digits_inj z0 _ _ _ _ h0 h0 hab).2
      exact (two_digits_inj z1 _ _ _ _ h1 h1 e1).2
    · refine (List.nodup_range (z0 * z1)).imp_of_mem ?_
      intro a b ha hb hab
      rw [List.mem_range] at ha hb
      obtain ⟨-, a0, a1⟩ := hdec a ha
      obtain ⟨-, b0, b1⟩ := hdec b hb
      show List.Disjoint _ _
      intro k hk1 hk2
      obtain ⟨j, -, rfl⟩ := List.mem_map.1 hk1
      obtain ⟨j', -, hk⟩ := List.mem_map.1 hk2
      obtain ⟨e0, e1⟩ := two_digits_inj z0 _ _ _ _ b0 a0 hk
      obtain ⟨e2, -⟩ := two_digits_inj z1 _ _ _ _ b1 a1 e1
      apply hab
      rw [← Nat.div_add_mod a z1, ← Nat.div_add_mod b z1, e0, e2]
  rw [List.perm_ext_iff_of_nodup hnd (List.nodup_range _)]
  intro k
  rw [List.mem_flatMap, List.mem_range]
  constructor
  · rintro ⟨idx, hidx, hk⟩
    obtain ⟨j, hj, rfl⟩ := List.mem_map.1 hk
    rw [List.mem_range] at hidx hj
    obtain ⟨hz1, h0, h1⟩ := hdec idx hidx
    have e1 : z1 * (j + 1) ≤ z1 * z2 := Nat.mul_le_mul_left z1 hj
    rw [Nat.mul_add, Nat.mul_one] at e1
    have e2 : z0 * (idx % z1 + z1 * j + 1) ≤ z0 * (z1 * z2) := Nat.mul_le_mul_left z0 (by omega)
    rw [Nat.mul_add z0 _ 1, Nat.mul_one, ← Nat.mul_assoc] at e2
    omega
  · intro hk
    rw [Nat.mul_assoc] at hk
    have hz0 : 0 < z0 := by
      rcases Nat.eq_zero_or_pos z0 with h | h
      · rw [h, Nat.zero_mul] at hk
        omega
      · exact h
    have hr : k / z0 < z1 * z2 := Nat.div_lt_of_lt_mul hk
    have hz1 : 0 < z1 := by
      rcases Nat.eq_zero_or_pos z1 with h | h
      · rw [h, Nat.zero_mul] at hr
        exact absurd hr (Nat.not_lt_zero _)
      · exact h
    have hj : k / z0 / z1 < z2 := Nat.div_lt_of_lt_mul hr
    have hi1 : k / z0 % z1 < z1 := Nat.mod_lt _ hz1
    have hi0 : k % z0 < z0 := Nat.mod_lt _ hz0
    refine ⟨z1 * (k % z0) + k / z0 % z1, List.mem_range.2 ?_, List.mem_map.2
      ⟨k / z0 / z1, List.mem_range.2 hj, ?_⟩⟩
    · have e : z1 * (k % z0 + 1) ≤ z1 * z0 := Nat.mul_le_mul_left z1 hi0
      rw [Nat.mul_add, Nat.mul_one, Nat.mul_comm z1 z0] at e
      omega
    · rw [Nat.mul_add_div hz1, Nat.mul_add_mod, Nat.div_eq_of_lt hi1, Nat.add_zero,
        Nat.mod_eq_of_lt hi1, Nat.mod_add_div (k / z0) z1, Nat.mod_add_div k z0]

/-- On a result of rank other than 1, `hb_tiled_foreach_conversion` performs
the sweep over the flat indices of the tile, for well-formed operands of equal
sizes. -/
theorem conversion_tile_sweep {α : Type} [Inhabited α] (c : Topology) (f : α → α)
    (res input : HBTensor) (hwf : res.wf) (hiwf : input.wf) (hsz : input.sizes = res.sizes)
    (h1 : res.ndim ≠ 1) :
    performs_sweep elem_addr f res input (hb_tiled_foreach_conversion c f res input)
      (conversion_indices c res) := by
  by_cases h2 : res.ndim = 2
  · have hfun : hb_tiled_foreach_conversion c f res input
        = conversion_rank2 f res input (calc_range c (res.dim 0)).start
            (calc_range c (res.dim 0)).end_ := by
      funext st
      unfold hb_tiled_foreach_conversion
      rw [if_neg h1, if_pos h2]
    have hidx : conversion_indices c res
        = rank2_indices res (calc_range c (res.dim 0)).start (calc_range c (res.dim 0)).end_ := by
      unfold conversion_indices
      rw [if_neg h1, if_pos h2]
    rw [hfun, hidx]
    obtain ⟨z0, z1, s0, s1, e1, e2⟩ := rank2_shape res hwf h2
    obtain ⟨y0, y1, t0, t1, e3, e4⟩ := rank2_shape input hiwf (by
      unfold HBTensor.ndim at h2 ⊢
      rw [hsz]
      exact h2)
    rw [hsz, e1] at e3
    have ed0 : res.dim 0 = z0 := by unfold HBTensor.dim; rw [e1]; rfl
    exact conversion_rank2_sweep f res input z0 z1 s0 s1 t0 t1 _ _ e1 e2 (hsz.trans e1) e4
      (by rw [← ed0]; exact calc_range_end_le c _)
  · by_cases h3 : res.ndim = 3
    · have hfun : hb_tiled_foreach_conversion c f res input
          = conversion_rank3 f res input (calc_range c (res.dim 0 * res.dim 1)).start
              (calc_range c (res.dim 0 * res.dim 1)).end_ := by
        funext st
        unfold hb_tiled_foreach_conversion
        rw [if_neg h1, if_neg h2, if_pos h3]
      have hidx : conversion_indices c res
          = rank3_indices res (calc_range c (res.dim 0 * res.dim 1)).start
              (calc_range c (res.dim 0 * res.dim 1)).end_ := by
        unfold conversion_indices
        rw [if_neg h1, if_neg h2, if_pos h3]
      rw [hfun, hidx]
      obtain ⟨z0, z1, z2, s0, s1, s2, e1, e2⟩ := rank3_shape res hwf h3
      obtain ⟨y0, y1, y2, t0, t1, t2, e3, e4⟩ := rank3_shape input hiwf (by
        unfold HBTensor.ndim at h3 ⊢
        rw [hsz]
        exact h3)
      have ed0 : res.dim 0 = z0 := by unfold HBTensor.dim; rw [e1]; rfl
      have ed1 : res.dim 1 = z1 := by unfold HBTensor.dim; rw [e1]; rfl
      exact conversion_rank3_sweep f res input z0 z1 z2 s0 s1 s2 t0 t1 t2 _ _ e1 e2
        (hsz.trans e1) e4 (by rw [← ed0, ← ed1]; exact calc_range_end_le c _)
    · have hfun : hb_tiled_foreach_conversion c f res input
          = conversion_general f res input (calc_range c res.numel).start
              (calc_range c res.numel).end_ := by
        funext st
        unfold hb_tiled_foreach_conversion
        rw [if_neg h1, if_neg h2, if_neg h3]
      have hidx : conversion_indices c res
          = range_indices (calc_range c res.numel).start (calc_range c res.numel).end_ := by
        unfold conversion_indices
        rw [if_neg h1, if_neg h2, if_neg h3]
      rw [hfun, hidx]
      exact conversion_general_sweep f res input _ _

/-- For a well-formed result of rank other than 1, the flat indices that the
tiles visit, one tile after the other in any order of the tiles, are a
rearrangement of `0, ..., N - 1`. -/
theorem conversion_indices_perm (P X Y : Nat) (res : HBTensor) (tiles : List (Nat × Nat))
    (hP : 1 ≤ P) (hT : 1 ≤ X * Y) (hperm : tiles.Perm (all_tiles P (X * Y))) (hwf : res.wf)
    (h1 : res.ndim ≠ 1) :
    (tiles.flatMap (fun pt => conversion_indices ⟨P, pt.1, X, Y, pt.2⟩ res)).Perm
      (List.range res.N) := by
  by_cases h2 : res.ndim = 2
  · obtain ⟨z0, z1, s0, s1, e1, e2⟩ := rank2_shape res hwf h2
    have ed0 : res.dim 0 = z0 := by unfold HBTensor.dim; rw [e1]; rfl
    have ed1 : res.dim 1 = z1 := by unfold HBTensor.dim; rw [e1]; rfl
    have hN : res.N = z0 * z1 := by
      rw [hwf.2.1, e1]
      simp
    have hci : ∀ pt : Nat × Nat, conversion_indices ⟨P, pt.1, X, Y, pt.2⟩ res
        = (range_indices (calc_range ⟨P, pt.1, X, Y, pt.2⟩ z0).start
            (calc_range ⟨P, pt.1, X, Y, pt.2⟩ z0).end_).flatMap
            (fun idx => (List.range z1).map (fun inner => idx + z0 * inner)) := by
      intro pt
      unfold conversion_indices rank2_indices range_indices
      rw [if_neg h1, if_pos h2, ed0, ed1]
    rw [List.flatMap_congr (fun pt _ => hci pt), ← List.flatMap_assoc, hN]
    exact (List.Perm.flatMap_right _ (tile_ranges_perm P X Y z0 tiles hP hT hperm)).trans
      (rank2_flat_perm z0 z1)
  · by_cases h3 : res.ndim = 3
    · obtain ⟨z0, z1, z2, s0, s1, s2, e1, e2⟩ := rank3_shape res hwf h3
      have ed0 : res.dim 0 = z0 := by unfold HBTensor.dim; rw [e1]; rfl
      have ed1 : res.dim 1 = z1 := by unfold HBTensor.dim; rw [e1]; rfl
      have ed2 : res.dim 2 = z2 := by unfold HBTensor.dim; rw [e1]; rfl
      have hN : res.N = z0 * z1 * z2 := by
        rw [hwf.2.1, e1]
        simp [Nat.mul_assoc]
      have hci : ∀ pt : Nat × Nat, conversion_indices ⟨P, pt.1, X, Y, pt.2⟩ res
          = (range_indices (calc_range ⟨P, pt.1, X, Y, pt.2⟩ (z0 * z1)).start
              (calc_range ⟨P, pt.1, X, Y, pt.2⟩ (z0 * z1)).end_).flatMap
              (fun idx => (List.range z2).map
                (fun inner => idx / z1 + z0 * (idx % z1 + z1 * inner))) := by
        intro pt
        unfold conversion_indices rank3_indices range_indices
        rw [if_neg h1, if_neg h2, if_pos h3, ed0, ed1, ed2]
      rw [List.flatMap_congr (fun pt _ => hci pt), ← List.flatMap_assoc, hN]
      exact (List.Perm.flatMap_right _ (tile_ranges_perm P X Y (z0 * z1) tiles hP hT hperm)).trans
        (rank3_flat_perm z0 z1 z2)
    · have hci : ∀ pt : Nat × Nat, conversion_indices ⟨P, pt.1, X, Y, pt.2⟩ res
          = range_indices (calc_range ⟨P, pt.1, X, Y, pt.2⟩ res.N).start
              (calc_range ⟨P, pt.1, X, Y, pt.2⟩ res.N).end_ := by
        intro pt
        unfold conversion_indices HBTensor.numel
        rw [if_neg h1, if_neg h2, if_neg h3]
      rw [List.flatMap_congr (fun pt _ => hci pt)]
      exact tile_ranges_perm P X Y res.N tiles hP hT hperm

/-- The run of `hb_tiled_foreach_conversion` on all tiles, in any order, on a
result of rank other than 1: the memory is that of the general path over the
full flat range, and the stores go to the result elements of the flat indices
`0, ..., N - 1`, each once. -/
theorem run_tiles_conversion_spec {α : Type} [Inhabited α] (P X Y : Nat) (f : α → α)
    (res input : HBTensor) (m : Mem α) (tiles : List (Nat × Nat)) (hP : 1 ≤ P)
    (hT : 1 ≤ X * Y) (pre : foreach_pre res [input]) (h1 : res.ndim ≠ 1)
    (hperm : tiles.Perm (all_tiles P (X * Y))) :
    (run_tiles_conversion P X Y f res input tiles m).mem
        = general_path (unary_functor f) res [input] 0 res.numel m ∧
      (run_tiles_conversion P X Y f res input tiles m).stores.Perm
        ((List.range res.N).map (elem_addr res)) ∧
      (run_tiles_conversion P X Y f res input tiles m).stores.Nodup ∧
      (∀ idx, idx < res.N →
        (run_tiles_conversion P X Y f res input tiles m).mem (elem_addr res idx)
          = f (m (elem_addr input idx))) := by
  have hin : input ∈ [input] := List.mem_singleton_self input
  obtain ⟨hmem, hstores⟩ := performs_sweep_nest elem_addr f res input tiles
    (fun st pt => hb_tiled_foreach_conversion ⟨P, pt.1, X, Y, pt.2⟩ f res input st)
    (fun pt => conversion_indices ⟨P, pt.1, X, Y, pt.2⟩ res)
    (fun pt _ => conversion_tile_sweep ⟨P, pt.1, X, Y, pt.2⟩ f res input pre.wf_res
      (pre.wf_in input hin) (pre.same_sizes input hin) h1)
    { mem := m, stores := [], dst_data := 0, src_data := 0 }
  have hL := conversion_indices_perm P X Y res tiles hP hT hperm pre.wf_res h1
  have hlt : ∀ idx ∈ tiles.flatMap (fun pt => conversion_indices ⟨P, pt.1, X, Y, pt.2⟩ res),
      idx < res.N := fun idx hidx => List.mem_range.1 (hL.mem_iff.1 hidx)
  have hcov : ∀ idx, idx < res.N →
      idx ∈ tiles.flatMap (fun pt => conversion_indices ⟨P, pt.1, X, Y, pt.2⟩ res) :=
    fun idx hidx => hL.mem_iff.2 (List.mem_range.2 hidx)
  obtain ⟨hf1, hv1⟩ := list_path_spec (unary_functor f) res [input] m pre _ hlt
  obtain ⟨hf2, hv2⟩ := sweep_spec (unary_functor f) res [input] m pre 0 res.N (fun i _ h => h)
  have hrun : (run_tiles_conversion P X Y f res input tiles m).mem
      = list_path elem_addr (unary_functor f) res [input]
          (tiles.flatMap (fun pt => conversion_indices ⟨P, pt.1, X, Y, pt.2⟩ res)) m := hmem
  have hst : (run_tiles_conversion P X Y f res input tiles m).stores
      = (tiles.flatMap (fun pt => conversion_indices ⟨P, pt.1, X, Y, pt.2⟩ res)).map
          (elem_addr res) := by
    have e : (run_tiles_conversion P X Y f res input tiles m).stores
        = [] ++ (tiles.flatMap (fun pt => conversion_indices ⟨P, pt.1, X, Y, pt.2⟩ res)).map
            (elem_addr res) := hstores
    rw [e, List.nil_append]
  have hperm2 : (run_tiles_conversion P X Y f res input tiles m).stores.Perm
      ((List.range res.N).map (elem_addr res)) := by
    rw [hst]
    exact hL.map _
  have hnd : ((List.range res.N).map (elem_addr res)).Nodup := by
    refine List.Nodup.map_on ?_ (List.nodup_range _)
    intro i hi j hj hij
    rw [List.mem_range] at hi hj
    exact pre.distinct i hi j hj (elem_addr_inj res i j hij)
  refine ⟨?_, hperm2, hperm2.nodup_iff.2 hnd, ?_⟩
  · rw [hrun, general_path_eq]
    exact map_mem_ext (unary_functor f) res [input] m _ _
      (fun a ha => hf1 a (fun idx hidx => ha idx (hlt idx hidx)))
      (fun idx hidx => hv1 idx (hcov idx hidx))
      (fun a ha => hf2 a (fun idx _ hidx => ha idx hidx))
      (fun idx hidx => hv2 idx (Nat.zero_le _) hidx)
  · intro idx hidx
    rw [hrun, hv1 idx (hcov idx hidx)]
    rfl

/-- The general path of `hb_tiled_foreach_conversion` over the full flat
range is the general element-wise sweep. -/
theorem conversion_general_full {α : Type} [Inhabited α] (f : α → α) (res input : HBTensor)
    (m : Mem α) :
    (conversion_general f res input 0 res.numel
        { mem := m, stores := [], dst_data := 0, src_data := 0 }).mem
      = general_path (unary_functor f) res [input] 0 res.numel m :=
  (conversion_general_sweep f res input 0 res.numel
    { mem := m, stores := [], dst_data := 0, src_data := 0 }).1

/-- The 4x4 operands of the conversion scenario satisfy the precondition of
the element-wise map. -/
theorem bc_pre_unary : foreach_pre bc_res2 [bc_a2] :=
  ⟨by decide, by decide, by decide, by decide, by decide⟩

/-- The 2x2x2 operands of the conversion scenario satisfy the precondition of
the element-wise map. -/
theorem cv_pre3 : foreach_pre cv_res3 [cv_in3] :=
  ⟨by decide, by decide, by decide, by decide, by decide⟩

/-- C24: for well-formed rank-2 operands of equal sizes, with distinct result
elements none of which is an input element, running
`hb_tiled_foreach_conversion` on all tiles of `P ≥ 1` pods of `X * Y ≥ 1`
tiles, in any order, gives the memory of the general per-element `offset_calc`
path over the full flat range; the stores go to the result elements of the
index pairs `(i0, i1)`, each pair once; and the result element of every pair
`(i0, i1)`, at address `data + i0 * strides[0] + i1 * strides[1]`, holds the
functor of the input element of the same pair. -/
theorem conversion_rank2_eq_general {α : Type} [Inhabited α] (P X Y : Nat) (f : α → α)
    (res input : HBTensor) (m : Mem α) (tiles : List (Nat × Nat)) (hP : 1 ≤ P)
    (hT : 1 ≤ X * Y) (pre : foreach_pre res [input]) (h2 : res.ndim = 2)
    (hperm : tiles.Perm (all_tiles P (X * Y))) :
    (run_tiles_conversion P X Y f res input tiles m).mem
        = (conversion_general f res input 0 res.numel
            { mem := m, stores := [], dst_data := 0, src_data := 0 }).mem ∧
      (run_tiles_conversion P X Y f res input tiles m).mem
        = general_path (unary_functor f) res [input] 0 res.numel m ∧
      (run_tiles_conversion P X Y f res input tiles m).stores.Perm
        ((List.range (res.dim 0)).flatMap (fun i0 =>
          (List.range (res.dim 1)).map (fun i1 => elem_addr res (i0 + res.dim 0 * i1)))) ∧
      (run_tiles_conversion P X Y f res input tiles m).stores.Nodup ∧
      (∀ i0 i1, i0 < res.dim 0 → i1 < res.dim 1 →
        elem_addr res (i0 + res.dim 0 * i1)
            = wrap32 (res.data + (i0 * res.stride 0 + i1 * res.stride 1)) ∧
          elem_addr input (i0 + res.dim 0 * i1)
            = wrap32 (input.data + (i0 * input.stride 0 + i1 * input.stride 1)) ∧
          (run_tiles_conversion P X Y f res input tiles m).mem (elem_addr res (i0 + res.dim 0 * i1))
            = f (m (elem_addr input (i0 + res.dim 0 * i1)))) := by
  have hin : input ∈ [input] := List.mem_singleton_self input
  obtain ⟨hmem, hst, hnd, hval⟩ := run_tiles_conversion_spec P X Y f res input m tiles hP hT pre
    (by omega) hperm
  obtain ⟨z0, z1, s0, s1, e1, e2⟩ := rank2_shape res pre.wf_res h2
  obtain ⟨y0, y1, t0, t1, e3, e4⟩ := rank2_shape input (pre.wf_in input hin) (by
    unfold HBTensor.ndim at h2 ⊢
    rw [pre.same_sizes input hin]
    exact h2)
  have e3 : input.sizes = [z0, z1] := (pre.same_sizes input hin).trans e1
  have ed0 : res.dim 0 = z0 := by unfold HBTensor.dim; rw [e1]; rfl
  have ed1 : res.dim 1 = z1 := by unfold HBTensor.dim; rw [e1]; rfl
  have es0 : res.stride 0 = s0 := by unfold HBTensor.stride; rw [e2]; rfl
  have es1 : res.stride 1 = s1 := by unfold HBTensor.stride; rw [e2]; rfl
  have et0 : input.stride 0 = t0 := by unfold HBTensor.stride; rw [e4]; rfl
  have et1 : input.stride 1 = t1 := by unfold HBTensor.stride; rw [e4]; rfl
  have hN : res.N = z0 * z1 := by
    rw [pre.wf_res.2.1, e1]
    simp
  refine ⟨by rw [hmem, conversion_general_full], hmem, ?_, hnd, ?_⟩
  · refine hst.trans ?_
    have hp := ((rank2_flat_perm z0 z1).map (elem_addr res)).symm
    rw [List.map_flatMap, ← hN] at hp
    rw [ed0, ed1]
    refine hp.trans (List.Perm.of_eq ?_)
    apply List.flatMap_congr
    intro i0 _
    rw [List.map_map]
    rfl
  · intro i0 i1 h0 h1
    rw [ed0] at h0 ⊢
    rw [ed1] at h1
    have hlt : i0 + z0 * i1 < res.N := by
      rw [hN]
      have h := Nat.mul_le_mul_left z0 (Nat.succ_le_of_lt h1)
      rw [Nat.mul_succ] at h
      omega
    rw [es0, es1, et0, et1]
    exact ⟨elem_addr_rank2 res z0 z1 s0 s1 i0 i1 e1 e2 h0 h1,
      elem_addr_rank2 input z0 z1 t0 t1 i0 i1 e3 e4 h0 h1, hval _ hlt⟩

/-- Witness of C24: the 4x4 operands on one pod of 2 by 2 tiles, the tiles in
reverse order, from the identity memory. -/
theorem conversion_rank2_eq_general_witness :
    1 ≤ 1 ∧ 1 ≤ 2 * 2 ∧ foreach_pre bc_res2 [bc_a2] ∧ bc_res2.ndim = 2 ∧
    (all_tiles 1 (2 * 2)).reverse.Perm (all_tiles 1 (2 * 2)) ∧
    ((run_tiles_conversion 1 2 2 (fun x : Nat => x + 1) bc_res2 bc_a2
          (all_tiles 1 (2 * 2)).reverse (fun a => a)).mem
        = (conversion_general (fun x : Nat => x + 1) bc_res2 bc_a2 0 bc_res2.numel
            { mem := fun a => a, stores := [], dst_data := 0, src_data := 0 }).mem ∧
      (run_tiles_conversion 1 2 2 (fun x : Nat => x + 1) bc_res2 bc_a2
          (all_tiles 1 (2 * 2)).reverse (fun a => a)).mem
        = general_path (unary_functor (fun x : Nat => x + 1)) bc_res2 [bc_a2] 0 bc_res2.numel
            (fun a => a) ∧
      (run_tiles_conversion 1 2 2 (fun x : Nat => x + 1) bc_res2 bc_a2
          (all_tiles 1 (2 * 2)).reverse (fun a => a)).stores.Perm
        ((List.range (bc_res2.dim 0)).flatMap (fun i0 =>
          (List.range (bc_res2.dim 1)).map (fun i1 =>
            elem_addr bc_res2 (i0 + bc_res2.dim 0 * i1)))) ∧
      (run_tiles_conversion 1 2 2 (fun x : Nat => x + 1) bc_res2 bc_a2
          (all_tiles 1 (2 * 2)).reverse (fun a => a)).stores.Nodup ∧
      (∀ i0 i1, i0 < bc_res2.dim 0 → i1 < bc_res2.dim 1 →
        elem_addr bc_res2 (i0 + bc_res2.dim 0 * i1)
            = wrap32 (bc_res2.data + (i0 * bc_res2.stride 0 + i1 * bc_res2.stride 1)) ∧
          elem_addr bc_a2 (i0 + bc_res2.dim 0 * i1)
            = wrap32 (bc_a2.data + (i0 * bc_a2.stride 0 + i1 * bc_a2.stride 1)) ∧
          (run_tiles_conversion 1 2 2 (fun x : Nat => x + 1) bc_res2 bc_a2
              (all_tiles 1 (2 * 2)).reverse (fun a => a)).mem
              (elem_addr bc_res2 (i0 + bc_res2.dim 0 * i1))
            = (fun x : Nat => x + 1)
                ((fun a => a) (elem_addr bc_a2 (i0 + bc_res2.dim 0 * i1))))) :=
  ⟨by decide, by decide, bc_pre_unary, by decide, List.reverse_perm _,
    conversion_rank2_eq_general 1 2 2 (fun x : Nat => x + 1) bc_res2 bc_a2 (fun a => a)
      (all_tiles 1 (2 * 2)).reverse (by decide) (by decide) bc_pre_unary (by decide)
      (List.reverse_perm _)⟩

/-- The rank-2 scenario, evaluated: on the 4x4 operands tile 1 of one pod of
2 by 2 tiles takes positions 2 and 3 of dimension 0 and stores to their eight
result elements, dimension 1 innermost. -/
theorem conversion_rank2_example :
    calc_range ⟨1, 0, 2, 2, 1⟩ (bc_res2.dim 0) = ⟨2, 4⟩ ∧
      (hb_tiled_foreach_conversion ⟨1, 0, 2, 2, 1⟩ (fun x : Nat => x + 1) bc_res2 bc_a2
          ⟨fun a => a, [], 0, 0⟩).stores
        = [4104, 4120, 4136, 4152, 4108, 4124, 4140, 4156] ∧
      (hb_tiled_foreach_conversion ⟨1, 0, 2, 2, 1⟩ (fun x : Nat => x + 1) bc_res2 bc_a2
          ⟨fun a => a, [], 0, 0⟩).mem 4156 = 8253 := by
  decide

/-- C25: for well-formed rank-3 operands of equal sizes, with distinct result
elements none of which is an input element, running
`hb_tiled_foreach_conversion` on all tiles of `P ≥ 1` pods of `X * Y ≥ 1`
tiles, in any order, gives the memory of the general per-element `offset_calc`
path over the full flat range; the stores go to the result elements of the
`dim(0) * dim(1)` outer positions, decoded as `idx / sizes[1]` and
`idx % sizes[1]`, with the positions of dimension 2, each once; and the result
element of every index triple `(i0, i1, i2)`, at address
`data + i1 * strides[1] + i0 * strides[0] + i2 * strides[2]`, holds the functor
of the input element of the same triple. -/
theorem conversion_rank3_eq_general {α : Type} [Inhabited α] (P X Y : Nat) (f : α → α)
    (res input : HBTensor) (m : Mem α) (tiles : List (Nat × Nat)) (hP : 1 ≤ P)
    (hT : 1 ≤ X * Y) (pre : foreach_pre res [input]) (h3 : res.ndim = 3)
    (hperm : tiles.Perm (all_tiles P (X * Y))) :
    (run_tiles_conversion P X Y f res input tiles m).mem
        = (conversion_general f res input 0 res.numel
            { mem := m, stores := [], dst_data := 0, src_data := 0 }).mem ∧
      (run_tiles_conversion P X Y f res input tiles m).mem
        = general_path (unary_functor f) res [input] 0 res.numel m ∧
      (run_tiles_conversion P X Y f res input tiles m).stores.Perm
        ((List.range (res.dim 0 * res.dim 1)).flatMap (fun idx =>
          (List.range (res.dim 2)).map (fun i2 =>
            elem_addr res (idx / res.dim 1 + res.dim 0 * (idx % res.dim 1 + res.dim 1 * i2))))) ∧
      (run_tiles_conversion P X Y f res input tiles m).stores.Nodup ∧
      (∀ i0 i1 i2, i0 < res.dim 0 → i1 < res.dim 1 → i2 < res.dim 2 →
        elem_addr res (i0 + res.dim 0 * (i1 + res.dim 1 * i2))
            = wrap32 (res.data + (i1 * res.stride 1 + i0 * res.stride 0 + i2 * res.stride 2)) ∧
          elem_addr input (i0 + res.dim 0 * (i1 + res.dim 1 * i2))
            = wrap32 (input.data
                + (i1 * input.stride 1 + i0 * input.stride 0 + i2 * input.stride 2)) ∧
          (run_tiles_conversion P X Y f res input tiles m).mem
              (elem_addr res (i0 + res.dim 0 * (i1 + res.dim 1 * i2)))
            = f (m (elem_addr input (i0 + res.dim 0 * (i1 + res.dim 1 * i2))))) := by
  have hin : input ∈ [input] := List.mem_singleton_self input
  obtain ⟨hmem, hst, hnd, hval⟩ := run_tiles_conversion_spec P X Y f res input m tiles hP hT pre
    (by omega) hperm
  obtain ⟨z0, z1, z2, s0, s1, s2, e1, e2⟩ := rank3_shape res pre.wf_res h3
  obtain ⟨y0, y1, y2, t0, t1, t2, e3, e4⟩ := rank3_shape input (pre.wf_in input hin) (by
    unfold HBTensor.ndim at h3 ⊢
    rw [pre.same_sizes input hin]
    exact h3)
  have e3 : input.sizes = [z0, z1, z2] := (pre.same_sizes input hin).trans e1
  have ed0 : res.dim 0 = z0 := by unfold HBTensor.dim; rw [e1]; rfl
  have ed1 : res.dim 1 = z1 := by unfold HBTensor.dim; rw [e1]; rfl
  have ed2 : res.dim 2 = z2 := by unfold HBTensor.dim; rw [e1]; rfl
  have es0 : res.stride 0 = s0 := by unfold HBTensor.stride; rw [e2]; rfl
  have es1 : res.stride 1 = s1 := by unfold HBTensor.stride; rw [e2]; rfl
  have es2 : res.stride 2 = s2 := by unfold HBTensor.stride; rw [e2]; rfl
  have et0 : input.stride 0 = t0 := by unfold HBTensor.stride; rw [e4]; rfl
  have et1 : input.stride 1 = t1 := by unfold HBTensor.stride; rw [e4]; rfl
  have et2 : input.stride 2 = t2 := by unfold HBTensor.stride; rw [e4]; rfl
  have hN : res.N = z0 * z1 * z2 := by
    rw [pre.wf_res.2.1, e1]
    simp [Nat.mul_assoc]
  refine ⟨by rw [hmem, conversion_general_full], hmem, ?_, hnd, ?_⟩
  · refine hst.trans ?_
    have hp := ((rank3_flat_perm z0 z1 z2).map (elem_addr res)).symm
    rw [List.map_flatMap, ← hN] at hp
    rw [ed0, ed1, ed2]
    refine hp.trans (List.Perm.of_eq ?_)
    apply List.flatMap_congr
    intro idx _
    rw [List.map_map]
    rfl
  · intro i0 i1 i2 h0 h1 h2
    rw [ed0] at h0 ⊢
    rw [ed1] at h1 ⊢
    rw [ed2] at h2
    have hlt : i0 + z0 * (i1 + z1 * i2) < res.N := by
      rw [hN, Nat.mul_assoc]
      have a1 := Nat.mul_le_mul_left z1 (Nat.succ_le_of_lt h2)
      rw [Nat.mul_succ] at a1
      have a2 : z0 * (i1 + z1 * i2 + 1) ≤ z0 * (z1 * z2) := Nat.mul_le_mul_left z0 (by omega)
      rw [Nat.mul_add z0 _ 1, Nat.mul_one] at a2
      omega
    rw [es0, es1, es2, et0, et1, et2]
    exact ⟨elem_addr_rank3 res z0 z1 z2 s0 s1 s2 i0 i1 i2 e1 e2 h0 h1 h2,
      elem_addr_rank3 input z0 z1 z2 t0 t1 t2 i0 i1 i2 e3 e4 h0 h1 h2, hval _ hlt⟩

/-- Witness of C25: the 2x2x2 operands on one pod of 2 by 2 tiles, the tiles
in reverse order, from the identity memory. -/
theorem conversion_rank3_eq_general_witness :
    1 ≤ 1 ∧ 1 ≤ 2 * 2 ∧ foreach_pre cv_res3 [cv_in3] ∧ cv_res3.ndim = 3 ∧
    (all_tiles 1 (2 * 2)).reverse.Perm (all_tiles 1 (2 * 2)) ∧
    ((run_tiles_conversion 1 2 2 (fun x : Nat => x + 1) cv_res3 cv_in3
          (all_tiles 1 (2 * 2)).reverse (fun a => a)).mem
        = (conversion_general (fun x : Nat => x + 1) cv_res3 cv_in3 0 cv_res3.numel
            { mem := fun a => a, stores := [], dst_data := 0, src_data := 0 }).mem ∧
      (run_tiles_conversion 1 2 2 (fun x : Nat => x + 1) cv_res3 cv_in3
          (all_tiles 1 (2 * 2)).reverse (fun a => a)).mem
        = general_path (unary_functor (fun x : Nat => x + 1)) cv_res3 [cv_in3] 0 cv_res3.numel
            (fun a => a) ∧
      (run_tiles_conversion 1 2 2 (fun x : Nat => x + 1) cv_res3 cv_in3
          (all_tiles 1 (2 * 2)).reverse (fun a => a)).stores.Perm
        ((List.range (cv_res3.dim 0 * cv_res3.dim 1)).flatMap (fun idx =>
          (List.range (cv_res3.dim 2)).map (fun i2 =>
            elem_addr cv_res3 (idx / cv_res3.dim 1
              + cv_res3.dim 0 * (idx % cv_res3.dim 1 + cv_res3.dim 1 * i2))))) ∧
      (run_tiles_conversion 1 2 2 (fun x : Nat => x + 1) cv_res3 cv_in3
          (all_tiles 1 (2 * 2)).reverse (fun a => a)).stores.Nodup ∧
      (∀ i0 i1 i2, i0 < cv_res3.dim 0 → i1 < cv_res3.dim 1 → i2 < cv_res3.dim 2 →
        elem_addr cv_res3 (i0 + cv_res3.dim 0 * (i1 + cv_res3.dim 1 * i2))
            = wrap32 (cv_res3.data
                + (i1 * cv_res3.stride 1 + i0 * cv_res3.stride 0 + i2 * cv_res3.stride 2)) ∧
          elem_addr cv_in3 (i0 + cv_res3.dim 0 * (i1 + cv_res3.dim 1 * i2))
            = wrap32 (cv_in3.data
                + (i1 * cv_in3.stride 1 + i0 * cv_in3.stride 0 + i2 * cv_in3.stride 2)) ∧
          (run_tiles_conversion 1 2 2 (fun x : Nat => x + 1) cv_res3 cv_in3
              (all_tiles 1 (2 * 2)).reverse (fun a => a)).mem
              (elem_addr cv_res3 (i0 + cv_res3.dim 0 * (i1 + cv_res3.dim 1 * i2)))
            = (fun x : Nat => x + 1)
                ((fun a => a)
                  (elem_addr cv_in3 (i0 + cv_res3.dim 0 * (i1 + cv_res3.dim 1 * i2)))))) :=
  ⟨by decide, by decide, cv_pre3, by decide, List.reverse_perm _,
    conversion_rank3_eq_general 1 2 2 (fun x : Nat => x + 1) cv_res3 cv_in3 (fun a => a)
      (all_tiles 1 (2 * 2)).reverse (by decide) (by decide) cv_pre3 (by decide)
      (List.reverse_perm _)⟩

/-- The rank-3 scenario, evaluated: on the 2x2x2 operands tile 1 of one pod of
2 by 2 tiles takes the outer positions 2 and 3, which decode to position 1 of
dimension 0 with positions 0 and 1 of dimension 1, and stores to their four
result elements, dimension 2 innermost. -/
theorem conversion_rank3_example :
    calc_range ⟨1, 0, 2, 2, 1⟩ (cv_res3.dim 0 * cv_res3.dim 1) = ⟨2, 4⟩ ∧
      (hb_tiled_foreach_conversion ⟨1, 0, 2, 2, 1⟩ (fun x : Nat => x + 1) cv_res3 cv_in3
          ⟨fun a => a, [], 0, 0⟩).stores = [4, 20, 12, 28] ∧
      (hb_tiled_foreach_conversion ⟨1, 0, 2, 2, 1⟩ (fun x : Nat => x + 1) cv_res3 cv_in3
          ⟨fun a => a, [], 0, 0⟩).mem 28 = 121 := by
  decide

/-! ### Shape of the ranges -/

/-- Within a pod the range of a tile ends where the range of the next tile
starts, when that next range is not empty. -/
theorem calc_range_contiguous (c : Topology) (numel : Nat)
    (h : (calc_range ⟨c.BSG_POD_DIM, c.bsg_pod_id, c.bsg_tiles_X, c.bsg_tiles_Y, c.bsg_id + 1⟩
        numel).start
      < (calc_range ⟨c.BSG_POD_DIM, c.bsg_pod_id, c.bsg_tiles_X, c.bsg_tiles_Y, c.bsg_id + 1⟩
        numel).end_) :
    (calc_range c numel).end_
      = (calc_range ⟨c.BSG_POD_DIM, c.bsg_pod_id, c.bsg_tiles_X, c.bsg_tiles_Y, c.bsg_id + 1⟩
          numel).start := by
  revert h
  unfold calc_range
  simp only []
  generalize numel / c.BSG_POD_DIM + 1 = L
  generalize L * c.bsg_pod_id = ps
  generalize hlt : ((if ps + L > numel then numel else ps + L) - ps)
    / (c.bsg_tiles_X * c.bsg_tiles_Y) + 1 = lt
  have hpos : 1 ≤ lt := by rw [← hlt]; exact Nat.le_add_left 1 _
  clear hlt
  have hmul : lt * (c.bsg_id + 1) = lt * c.bsg_id + lt := Nat.mul_succ lt c.bsg_id
  rw [hmul]
  clear hmul
  generalize lt * c.bsg_id = ts
  split_ifs <;> simp only [] <;> intro h <;> first | trivial | omega

/-- C35: `calc_range` always returns a well-formed range.  For every count
`N`, topology and tile, `start ≤ end ≤ N`; a tile whose range would be empty
(`start ≥ end`) gets exactly `(0, 0)`; and within a pod the end of the range
of tile `t` is the start of the range of tile `t + 1` whenever the range of
tile `t + 1` is not empty. -/
theorem calc_range_well_formed (c : Topology) (N : Nat) :
    (calc_range c N).start ≤ (calc_range c N).end_ ∧ (calc_range c N).end_ ≤ N ∧
      ((calc_range c N).start ≥ (calc_range c N).end_ → calc_range c N = ⟨0, 0⟩) ∧
      ((calc_range ⟨c.BSG_POD_DIM, c.bsg_pod_id, c.bsg_tiles_X, c.bsg_tiles_Y, c.bsg_id + 1⟩
            N).start
          < (calc_range ⟨c.BSG_POD_DIM, c.bsg_pod_id, c.bsg_tiles_X, c.bsg_tiles_Y, c.bsg_id + 1⟩
            N).end_ →
        (calc_range c N).start < (calc_range c N).end_ ∧
        (calc_range c N).end_
          = (calc_range ⟨c.BSG_POD_DIM, c.bsg_pod_id, c.bsg_tiles_X, c.bsg_tiles_Y, c.bsg_id + 1⟩
              N).start) := by
  refine ⟨calc_range_start_le c N, calc_range_end_le c N, calc_range_empty c N, fun h => ?_⟩
  refine ⟨?_, calc_range_contiguous c N h⟩
  by_contra hcon
  have he := calc_range_empty_mono c N (c.bsg_id + 1) (Nat.lt_succ_self _) (by omega)
  rw [he] at h
  exact absurd h (Nat.lt_irrefl 0)

/-- The ranges of the scenario of 16 elements on one pod of 2 by 2 tiles are
contiguous: `[0, 5)`, `[5, 10)`, `[10, 15)`, `[15, 16)`; and with 16 tiles the
ranges of tiles 7 and 8 are `[14, 16)` and `(0, 0)`. -/
theorem calc_range_contiguous_example :
    (calc_range ⟨1, 0, 2, 2, 0⟩ 16).end_ = (calc_range ⟨1, 0, 2, 2, 1⟩ 16).start ∧
      (calc_range ⟨1, 0, 2, 2, 1⟩ 16).end_ = (calc_range ⟨1, 0, 2, 2, 2⟩ 16).start ∧
      (calc_range ⟨1, 0, 2, 2, 2⟩ 16).end_ = (calc_range ⟨1, 0, 2, 2, 3⟩ 16).start ∧
      calc_range ⟨1, 0, 4, 4, 7⟩ 16 = ⟨14, 16⟩ ∧ calc_range ⟨1, 0, 4, 4, 8⟩ 16 = ⟨0, 0⟩ := by
  decide

/-! ### The frozen result -/

/-- C36: on the rank-1 (trivial) path of `hb_foreach` and `hb_tiled_foreach`,
when the step stride of the result view is 0 the result pointer is redirected
to the frozen local copy `fixed_data[0]`, which holds the value read once
from the result, and the call leaves the whole remote memory, the result's
backing memory included, unchanged, for every element count, functor, list of
inputs and tile. -/
theorem frozen_result_unchanged {α : Type} [Inhabited α] (F : List α → α) (res : HBTensor)
    (inputs : List HBTensor) (m : Mem α) (h1 : res.ndim = 1) (hs : res.stride0 = 0) :
    (trivial_init res inputs m).data.head? = some (Ptr.fixed 0) ∧
      (trivial_init res inputs m).fixed_data 0 = m res.data ∧
      hb_foreach F res inputs m = m ∧
      (∀ c : Topology, hb_tiled_foreach c F res inputs m = m) ∧
      (∀ (P X Y : Nat) (tiles : List (Nat × Nat)), run_tiles P X Y F res inputs tiles m = m) := by
  refine ⟨?_, ?_, hb_foreach_frozen F res inputs m h1 hs, fun c => ?_,
    fun P X Y tiles => run_tiles_frozen P X Y F res inputs tiles m h1 hs⟩
  · unfold trivial_init
    simp only [freeze_loop, if_pos hs]
    rfl
  · unfold trivial_init
    simp only [freeze_loop, if_pos hs]
    rw [freeze_loop_below _ _ _ _ _ 0 (by omega), Function.update_same]
  · unfold hb_tiled_foreach
    simp only []
    rw [if_pos h1]
    exact trivial_path_frozen F res inputs _ _ m hs

/-- Witness of C36: the one-element result with stride 0. -/
theorem frozen_result_unchanged_witness :
    one_res.ndim = 1 ∧ one_res.stride0 = 0 ∧
    ((trivial_init one_res [one_in] (fun a : Nat => a + 7)).data.head? = some (Ptr.fixed 0) ∧
      (trivial_init one_res [one_in] (fun a : Nat => a + 7)).fixed_data 0
        = (fun a : Nat => a + 7) one_res.data ∧
      hb_foreach (fun l => l.sum + 1) one_res [one_in] (fun a : Nat => a + 7)
        = (fun a : Nat => a + 7) ∧
      (∀ c : Topology, hb_tiled_foreach c (fun l => l.sum + 1) one_res [one_in]
        (fun a : Nat => a + 7) = (fun a : Nat => a + 7)) ∧
      (∀ (P X Y : Nat) (tiles : List (Nat × Nat)),
        run_tiles P X Y (fun l => l.sum + 1) one_res [one_in] tiles (fun a : Nat => a + 7)
          = (fun a : Nat => a + 7))) :=
  ⟨by decide, by decide,
    frozen_result_unchanged (fun l => l.sum + 1) one_res [one_in] (fun a : Nat => a + 7)
      (by decide) (by decide)⟩

/-! ### Bounds of the cache refill -/

/-- Every access of `prefetch_impl` over a run that ends at or before `N` is
in bounds. -/
theorem prefetch_impl_in_bounds {α : Type} (c : HBTensorCached α) (start end_ : Nat)
    (he : end_ ≤ c.N) (hn : 0 < c.cache_numel) :
    ∀ a ∈ c.prefetch_impl_accesses start end_, a.in_bounds c.N c.cache_numel := by
  intro a ha
  unfold HBTensorCached.prefetch_impl_accesses at ha
  rw [List.mem_flatMap] at ha
  obtain ⟨i, hi, hai⟩ := ha
  rw [List.mem_range'_1] at hi
  have hlt : i < c.N := by omega
  have hs : i % c.cache_numel < c.cache_numel := Nat.mod_lt _ hn
  unfold HBTensorCached.fill_accesses at hai
  simp only [List.mem_cons, List.mem_singleton, List.not_mem_nil, or_false] at hai
  rcases hai with h | h | h <;> rw [h] <;> assumption

/-- C37: the cache refill stays in bounds.  For every cache state with at
least one slot and every `cached_read` at an offset `off < N`, every
backing-store index read by `prefetch` and by `cached_read` is below `N` and
every slot index of `cache_tag` and `cache_data` read or written is below the
slot count; this holds whether or not the `uint32_t` sum `off + cache_numel`
wraps, because the run ends at `min (off + cache_numel) N`. -/
theorem cache_refill_in_bounds {α : Type} (c : HBTensorCached α) (off : Nat)
    (hoff : off < c.N) (hn : 0 < c.cache_numel) :
    (∀ a ∈ c.prefetch_accesses off, a.in_bounds c.N c.cache_numel) ∧
      (∀ a ∈ c.cached_read_accesses off, a.in_bounds c.N c.cache_numel) := by
  have hp : ∀ a ∈ c.prefetch_accesses off, a.in_bounds c.N c.cache_numel :=
    prefetch_impl_in_bounds c off _ (Nat.min_le_right _ _) hn
  refine ⟨hp, ?_⟩
  intro a ha
  have hs : off % c.cache_numel < c.cache_numel := Nat.mod_lt _ hn
  unfold HBTensorCached.cached_read_accesses at ha
  simp only [] at ha
  split_ifs at ha with hhit
  · simp only [List.mem_cons, List.mem_singleton, List.not_mem_nil, or_false] at ha
    rcases ha with h | h <;> rw [h] <;> exact hs
  · simp only [List.mem_append, List.mem_cons, List.mem_singleton, List.not_mem_nil,
      or_false] at ha
    rcases ha with (h | h) | h | h | h
    · rw [h]; exact hs
    · exact hp a h
    · rw [h]; exact hoff
    · rw [h]; exact hs
    · rw [h]; exact hs

/-- Witness of C37: the miss at offset 4 of a fresh two-slot cache over 5
elements. -/
theorem cache_refill_in_bounds_witness :
    4 < (HBTensorCached.create 16 5 (fun i => 10 * i)).N ∧
    0 < (HBTensorCached.create 16 5 (fun i => 10 * i)).cache_numel ∧
    ((∀ a ∈ (HBTensorCached.create 16 5 (fun i => 10 * i)).prefetch_accesses 4,
        a.in_bounds (HBTensorCached.create 16 5 (fun i => 10 * i)).N
          (HBTensorCached.create 16 5 (fun i => 10 * i)).cache_numel) ∧
      (∀ a ∈ (HBTensorCached.create 16 5 (fun i => 10 * i)).cached_read_accesses 4,
        a.in_bounds (HBTensorCached.create 16 5 (fun i => 10 * i)).N
          (HBTensorCached.create 16 5 (fun i => 10 * i)).cache_numel)) :=
  ⟨by decide, by decide,
    cache_refill_in_bounds (HBTensorCached.create 16 5 (fun i => 10 * i)) 4 (by decide)
      (by decide)⟩

/-- The accesses of the miss at offset 4 of a fresh two-slot cache over 5
elements: the tag comparison, the one prefetched offset, and the write of the
slot. -/
theorem cache_refill_accesses_example :
    (HBTensorCached.create 16 5 (fun i => 10 * i)).cached_read_accesses 4
      = [CacheAccess.tag_read 0, CacheAccess.backing_read 4, CacheAccess.data_write 0,
          CacheAccess.tag_write 0, CacheAccess.backing_read 4, CacheAccess.tag_write 0,
          CacheAccess.data_write 0] := by
  decide

/-! ### Block assignment of the SPMD convolution -/

/-- The values of a stepping loop are at least its start value. -/
theorem for_step_ge (step bound fuel x y : Nat) (hy : y ∈ for_step step bound fuel x) :
    x ≤ y := by
  induction fuel generalizing x with
  | zero => simp [for_step] at hy
  | succ fuel ih =>
    unfold for_step at hy
    split_ifs at hy with h
    · rcases List.mem_cons.1 hy with e | e
      · omega
      · have := ih (x + step) e
        omega
    · simp at hy

/-- The values of a stepping loop with a positive step are distinct. -/
theorem for_step_nodup (step bound fuel x : Nat) (hstep : 1 ≤ step) :
    (for_step step bound fuel x).Nodup := by
  induction fuel generalizing x with
  | zero => exact List.nodup_nil
  | succ fuel ih =>
    unfold for_step
    split_ifs with h
    · refine List.nodup_cons.2 ⟨fun hx => ?_, ih (x + step)⟩
      have := for_step_ge step bound fuel (x + step) x hx
      omega
    · exact List.nodup_nil

/-- The block indices of a tile are those below the count that are congruent
to the tile id modulo the size of the tile group. -/
theorem mem_conv_resnet_block_indices (T num_blocks b idx : Nat) (hT : 1 ≤ T) (hb : b < T) :
    idx ∈ conv_resnet_block_indices T num_blocks b num_blocks
      ↔ idx < num_blocks ∧ idx % T = b := by
  unfold conv_resnet_block_indices
  rw [List.mem_filter, mem_for_step T num_blocks num_blocks b idx hT (by omega)]
  simp only [decide_eq_true_eq]
  constructor
  · rintro ⟨⟨h1, h2, k, hk⟩, -⟩
    refine ⟨h2, ?_⟩
    have e : idx = b + T * k := by omega
    rw [e, Nat.add_mul_mod_self_left, Nat.mod_eq_of_lt hb]
  · rintro ⟨h1, h2⟩
    have hle : idx % T ≤ idx := Nat.mod_le _ _
    refine ⟨⟨by omega, h1, idx / T, ?_⟩, h1⟩
    have := Nat.mod_add_div idx T
    omega

/-- The decode of a block index below the number of blocks lies in the
product of the four ranges. -/
theorem conv_resnet_decode_lt (N Cout h_blocks w_blocks idx : Nat)
    (h : idx < N * Cout * (h_blocks * w_blocks)) :
    (conv_resnet_decode Cout h_blocks w_blocks idx).1 < N ∧
      (conv_resnet_decode Cout h_blocks w_blocks idx).2.1 < Cout ∧
      (conv_resnet_decode Cout h_blocks w_blocks idx).2.2.1 < h_blocks ∧
      (conv_resnet_decode Cout h_blocks w_blocks idx).2.2.2 < w_blocks := by
  unfold conv_resnet_decode
  simp only []
  have hCB : 0 < Cout * (h_blocks * w_blocks) := by
    rcases Nat.eq_zero_or_pos (Cout * (h_blocks * w_blocks)) with e | e
    · rw [Nat.mul_assoc, e, Nat.mul_zero] at h
      omega
    · exact e
  have hB : 0 < h_blocks * w_blocks := Nat.pos_of_mul_pos_left hCB
  have hw : 0 < w_blocks := Nat.pos_of_mul_pos_left hB
  refine ⟨?_, ?_, ?_, Nat.mod_lt _ hw⟩
  · rw [Nat.div_lt_iff_lt_mul hCB, ← Nat.mul_assoc]
    exact h
  · rw [Nat.div_lt_iff_lt_mul hB]
    exact Nat.mod_lt _ hCB
  · rw [Nat.div_lt_iff_lt_mul hw]
    exact Nat.mod_lt _ hB

/-- The block index is recovered from its decode. -/
theorem conv_resnet_decode_encode (Cout h_blocks w_blocks idx : Nat) :
    (conv_resnet_decode Cout h_blocks w_blocks idx).1 * (Cout * (h_blocks * w_blocks))
        + (conv_resnet_decode Cout h_blocks w_blocks idx).2.1 * (h_blocks * w_blocks)
        + (conv_resnet_decode Cout h_blocks w_blocks idx).2.2.1 * w_blocks
        + (conv_resnet_decode Cout h_blocks w_blocks idx).2.2.2 = idx := by
  unfold conv_resnet_decode
  simp only []
  have e1 := Nat.div_add_mod idx (Cout * (h_blocks * w_blocks))
  have e2 := Nat.div_add_mod (idx % (Cout * (h_blocks * w_blocks))) (h_blocks * w_blocks)
  have e3 := Nat.div_add_mod (idx % (Cout * (h_blocks * w_blocks)) % (h_blocks * w_blocks))
    w_blocks
  rw [Nat.mul_comm] at e1 e2 e3
  omega

/-- A quadruple of the product of the four ranges is the decode of its
block index, which is below the number of blocks. -/
theorem conv_resnet_encode_decode (N Cout h_blocks w_blocks n f y x : Nat)
    (hn : n < N) (hf : f < Cout) (hy : y < h_blocks) (hx : x < w_blocks) :
    n * (Cout * (h_blocks * w_blocks)) + f * (h_blocks * w_blocks) + y * w_blocks + x
        < N * Cout * (h_blocks * w_blocks) ∧
      conv_resnet_decode Cout h_blocks w_blocks
          (n * (Cout * (h_blocks * w_blocks)) + f * (h_blocks * w_blocks) + y * w_blocks + x)
        = (n, f, y, x) := by
  have b1 : y * w_blocks + x < h_blocks * w_blocks := by
    have := Nat.mul_le_mul_right w_blocks (Nat.succ_le_of_lt hy)
    rw [Nat.succ_mul] at this
    omega
  have b2 : f * (h_blocks * w_blocks) + (y * w_blocks + x) < Cout * (h_blocks * w_blocks) := by
    have := Nat.mul_le_mul_right (h_blocks * w_blocks) (Nat.succ_le_of_lt hf)
    rw [Nat.succ_mul] at this
    omega
  have b3 : n * (Cout * (h_blocks * w_blocks))
      + (f * (h_blocks * w_blocks) + (y * w_blocks + x)) < N * Cout * (h_blocks * w_blocks) := by
    have := Nat.mul_le_mul_right (Cout * (h_blocks * w_blocks)) (Nat.succ_le_of_lt hn)
    rw [Nat.succ_mul, ← Nat.mul_assoc N] at this
    omega
  have ea : n * (Cout * (h_blocks * w_blocks)) + f * (h_blocks * w_blocks) + y * w_blocks + x
      = (f * (h_blocks * w_blocks) + (y * w_blocks + x)) + (Cout * (h_blocks * w_blocks)) * n := by
    rw [Nat.mul_comm (Cout * (h_blocks * w_blocks)) n]
    omega
  refine ⟨by rw [ea, Nat.add_comm, Nat.mul_comm _ n]; exact b3, ?_⟩
  have hCB : 0 < Cout * (h_blocks * w_blocks) := by omega
  have hB : 0 < h_blocks * w_blocks := by omega
  have hw : 0 < w_blocks := by omega
  unfold conv_resnet_decode
  simp only []
  rw [ea, Nat.add_mul_div_left _ _ hCB, Nat.add_mul_mod_self_left, Nat.div_eq_of_lt b2,
    Nat.mod_eq_of_lt b2, Nat.zero_add]
  have eb : f * (h_blocks * w_blocks) + (y * w_blocks + x)
      = (y * w_blocks + x) + (h_blocks * w_blocks) * f := by
    rw [Nat.mul_comm (h_blocks * w_blocks) f]
    omega
  rw [eb, Nat.add_mul_div_left _ _ hB, Nat.add_mul_mod_self_left, Nat.div_eq_of_lt b1,
    Nat.mod_eq_of_lt b1, Nat.zero_add]
  have ec : y * w_blocks + x = x + w_blocks * y := by
    rw [Nat.mul_comm w_blocks y]
    omega
  rw [ec, Nat.add_mul_div_left _ _ hw, Nat.add_mul_mod_self_left, Nat.div_eq_of_lt hx,
    Nat.mod_eq_of_lt hx, Nat.zero_add]

/-- C34: in the SPMD convolution kernel the tiles of a tile group of `T ≥ 1`
tiles receive output blocks that do not overlap.  The block indices
`bsg_id + k * T` below `num_blocks` that the tile `bsg_id < T` processes are
exactly the indices below `num_blocks` congruent to `bsg_id` modulo `T`, each
processed once; so distinct tiles process disjoint indices and every index of
`[0, num_blocks)` is processed by exactly one tile.  The decode
`idx ↦ (image_id, filter_id, block_y, block_x)` is a bijection from
`[0, N * Cout * h_blocks * w_blocks)` onto
`[0, N) × [0, Cout) × [0, h_blocks) × [0, w_blocks)`. -/
theorem conv_blocks_partition (N Cout h_blocks w_blocks T : Nat) (hT : 1 ≤ T) :
    (∀ b idx, b < T →
      (idx ∈ conv_resnet_block_indices T (N * Cout * (h_blocks * w_blocks)) b
          (N * Cout * (h_blocks * w_blocks))
        ↔ idx < N * Cout * (h_blocks * w_blocks) ∧ idx % T = b)) ∧
      (∀ b, (conv_resnet_block_indices T (N * Cout * (h_blocks * w_blocks)) b
          (N * Cout * (h_blocks * w_blocks))).Nodup) ∧
      (∀ b b' idx, b < T → b' < T →
        idx ∈ conv_resnet_block_indices T (N * Cout * (h_blocks * w_blocks)) b
          (N * Cout * (h_blocks * w_blocks)) →
        idx ∈ conv_resnet_block_indices T (N * Cout * (h_blocks * w_blocks)) b'
          (N * Cout * (h_blocks * w_blocks)) → b = b') ∧
      (∀ idx, idx < N * Cout * (h_blocks * w_blocks) →
        ∃ b, b < T ∧ idx ∈ conv_resnet_block_indices T (N * Cout * (h_blocks * w_blocks)) b
          (N * Cout * (h_blocks * w_blocks))) ∧
      (∀ idx, idx < N * Cout * (h_blocks * w_blocks) →
        (conv_resnet_decode Cout h_blocks w_blocks idx).1 < N ∧
        (conv_resnet_decode Cout h_blocks w_blocks idx).2.1 < Cout ∧
        (conv_resnet_decode Cout h_blocks w_blocks idx).2.2.1 < h_blocks ∧
        (conv_resnet_decode Cout h_blocks w_blocks idx).2.2.2 < w_blocks) ∧
      (∀ idx idx', conv_resnet_decode Cout h_blocks w_blocks idx
          = conv_resnet_decode Cout h_blocks w_blocks idx' → idx = idx') ∧
      (∀ n f y x, n < N → f < Cout → y < h_blocks → x < w_blocks →
        ∃ idx, idx < N * Cout * (h_blocks * w_blocks) ∧
          conv_resnet_decode Cout h_blocks w_blocks idx = (n, f, y, x)) := by
  refine ⟨fun b idx hb => mem_conv_resnet_block_indices T _ b idx hT hb, fun b => ?_,
    fun b b' idx hb hb' h h' => ?_, fun idx hidx => ?_,
    fun idx hidx => conv_resnet_decode_lt N Cout h_blocks w_blocks idx hidx,
    fun idx idx' h => ?_, fun n f y x hn hf hy hx => ?_⟩
  · exact (for_step_nodup T _ _ b hT).filter _
  · rw [mem_conv_resnet_block_indices T _ b idx hT hb] at h
    rw [mem_conv_resnet_block_indices T _ b' idx hT hb'] at h'
    rw [← h.2, ← h'.2]
  · exact ⟨idx % T, Nat.mod_lt _ (by omega),
      (mem_conv_resnet_block_indices T _ (idx % T) idx hT (Nat.mod_lt _ (by omega))).2
        ⟨hidx, rfl⟩⟩
  · rw [← conv_resnet_decode_encode Cout h_blocks w_blocks idx,
      ← conv_resnet_decode_encode Cout h_blocks w_blocks idx', h]
  · exact ⟨_, conv_resnet_encode_decode N Cout h_blocks w_blocks n f y x hn hf hy hx⟩

/-- Witness of C34: 2 images, 3 output channels, 2 by 2 blocks per channel and
a tile group of 4 tiles. -/
theorem conv_blocks_partition_witness :
    1 ≤ 4 ∧
    ((∀ b idx, b < 4 →
      (idx ∈ conv_resnet_block_indices 4 (2 * 3 * (2 * 2)) b (2 * 3 * (2 * 2))
        ↔ idx < 2 * 3 * (2 * 2) ∧ idx % 4 = b)) ∧
      (∀ b, (conv_resnet_block_indices 4 (2 * 3 * (2 * 2)) b (2 * 3 * (2 * 2))).Nodup) ∧
      (∀ b b' idx, b < 4 → b' < 4 →
        idx ∈ conv_resnet_block_indices 4 (2 * 3 * (2 * 2)) b (2 * 3 * (2 * 2)) →
        idx ∈ conv_resnet_block_indices 4 (2 * 3 * (2 * 2)) b' (2 * 3 * (2 * 2)) → b = b') ∧
      (∀ idx, idx < 2 * 3 * (2 * 2) →
        ∃ b, b < 4 ∧ idx ∈ conv_resnet_block_indices 4 (2 * 3 * (2 * 2)) b (2 * 3 * (2 * 2))) ∧
      (∀ idx, idx < 2 * 3 * (2 * 2) →
        (conv_resnet_decode 3 2 2 idx).1 < 2 ∧
        (conv_resnet_decode 3 2 2 idx).2.1 < 3 ∧
        (conv_resnet_decode 3 2 2 idx).2.2.1 < 2 ∧
        (conv_resnet_decode 3 2 2 idx).2.2.2 < 2) ∧
      (∀ idx idx', conv_resnet_decode 3 2 2 idx = conv_resnet_decode 3 2 2 idx' → idx = idx') ∧
      (∀ n f y x, n < 2 → f < 3 → y < 2 → x < 2 →
        ∃ idx, idx < 2 * 3 * (2 * 2) ∧ conv_resnet_decode 3 2 2 idx = (n, f, y, x))) :=
  ⟨by decide, conv_blocks_partition 2 3 2 2 4 (by decide)⟩

/-- The blocks of tile 1 of 4 for 2 images, 3 output channels and 2 by 2
blocks per channel: indices 1, 5, 9, 13, 17, 21 and their decodes. -/
theorem conv_resnet_main_loop_example :
    conv_resnet_block_indices 4 24 1 24 = [1, 5, 9, 13, 17, 21] ∧
      conv_resnet_main_loop 2 3 2 2 4 1 24
        = [(0, 0, 0, 1), (0, 1, 0, 1), (0, 2, 0, 1), (1, 0, 0, 1), (1, 1, 0, 1), (1, 2, 0, 1)] := by
  decide

/-! ### The unrolled scratchpad copies -/

/-- Advancing a `float*` pointer twice is advancing it by the sum. -/
theorem float_ptr_add_add (p a b : Nat) :
    float_ptr_add (float_ptr_add p a) b = float_ptr_add p (a + b) := by
  unfold float_ptr_add ptr_add wrap32 WORD
  omega

/-- The addresses of fewer than `2 ^ 30` consecutive elements are distinct. -/
theorem float_ptr_add_inj (p i j : Nat) (hi : i < 2 ^ 30) (hj : j < 2 ^ 30)
    (h : float_ptr_add p i = float_ptr_add p j) : i = j := by
  unfold float_ptr_add ptr_add wrap32 WORD at h
  norm_num at hi hj
  omega

/-- Outside the destination the copied memory is the original one. -/
theorem copied_frame {α : Type} (m0 : Mem α) (dest src n a : Nat)
    (h : ∀ i, i < n → a ≠ float_ptr_add dest i) : copied m0 dest src n a = m0 a := by
  induction n with
  | zero => rfl
  | succ n ih =>
    unfold copied at ih ⊢
    rw [List.range_succ, List.foldl_append, List.foldl_cons, List.foldl_nil,
      Function.update_noteq (h n (Nat.lt_succ_self n))]
    exact ih (fun i hi => h i (Nat.lt_succ_of_lt hi))

/-- Element `i` of the destination of the copied memory is element `i` of the
source in the original memory. -/
theorem copied_at {α : Type} (m0 : Mem α) (dest src n i : Nat) (hn : n ≤ 2 ^ 30) (hi : i < n) :
    copied m0 dest src n (float_ptr_add dest i) = m0 (float_ptr_add src i) := by
  induction n with
  | zero => omega
  | succ n ih =>
    unfold copied at ih ⊢
    rw [List.range_succ, List.foldl_append, List.foldl_cons, List.foldl_nil]
    rcases Nat.lt_succ_iff_lt_or_eq.1 hi with h | h
    · rw [Function.update_noteq]
      · exact ih (by omega) h
      · intro e
        have := float_ptr_add_inj dest i n (by omega) (by omega) e
        omega
    · rw [h, Function.update_same]

/-- The copied memory grows by one element. -/
theorem copied_succ {α : Type} (m0 : Mem α) (dest src n : Nat) :
    copied m0 dest src (n + 1)
      = Function.update (copied m0 dest src n) (float_ptr_add dest n)
          (m0 (float_ptr_add src n)) := by
  unfold copied
  rw [List.range_succ, List.foldl_append, List.foldl_cons, List.foldl_nil]

/-- A block of `n` loads and `n` stores that starts after `c` copied
elements leaves `c + n` copied elements, when no destination element is a
source element. -/
theorem copy_block_spec {α : Type} (m0 : Mem α) (d0 s0 c n : Nat) (st : CopyState α)
    (hmem : st.mem = copied m0 d0 s0 c)
    (hd : ∀ k, float_ptr_add st.dest k = float_ptr_add d0 (c + k))
    (hs : ∀ k, float_ptr_add st.src k = float_ptr_add s0 (c + k))
    (hsep : ∀ i j, i < c + n → j < c + n → float_ptr_add d0 i ≠ float_ptr_add s0 j) :
    (copy_block n st).mem = copied m0 d0 s0 (c + n) ∧
      (copy_block n st).loads = st.loads ++ (List.range' c n).map (float_ptr_add s0) ∧
      (copy_block n st).stores = st.stores ++ (List.range' c n).map (float_ptr_add d0) ∧
      (∀ k, float_ptr_add (copy_block n st).dest k = float_ptr_add d0 (c + n + k)) ∧
      (∀ k, float_ptr_add (copy_block n st).src k = float_ptr_add s0 (c + n + k)) := by
  have hmap : ∀ p q : Nat, (∀ k, float_ptr_add q k = float_ptr_add p (c + k)) →
      (List.range n).map (float_ptr_add q) = (List.range' c n).map (float_ptr_add p) := by
    intro p q hq
    rw [List.range'_eq_map_range, List.map_map]
    exact List.map_congr_left (fun k _ => hq k)
  refine ⟨?_, ?_, ?_, ?_, ?_⟩
  · show (List.range n).foldl
      (fun m k => Function.update m (float_ptr_add st.dest k) (st.mem (float_ptr_add st.src k)))
      st.mem = _
    rw [hmem]
    clear hmem hmap
    induction n with
    | zero => rfl
    | succ n ih =>
      rw [List.range_succ, List.foldl_append, List.foldl_cons, List.foldl_nil,
        ih (fun i j hi hj => hsep i j (by omega) (by omega)), ← Nat.add_assoc, copied_succ,
        hd, hs,
        copied_frame m0 d0 s0 c _ (fun i hi e => hsep i (c + n) (by omega) (by omega) e.symm)]
  · show st.loads ++ (List.range n).map (float_ptr_add st.src) = _
    rw [hmap s0 st.src hs]
  · show st.stores ++ (List.range n).map (float_ptr_add st.dest) = _
    rw [hmap d0 st.dest hd]
  · intro k
    show float_ptr_add (float_ptr_add st.dest n) k = _
    rw [float_ptr_add_add, hd, Nat.add_assoc]
  · intro k
    show float_ptr_add (float_ptr_add st.src n) k = _
    rw [float_ptr_add_add, hs, Nat.add_assoc]

/-- Consecutive runs of indices join. -/
theorem range_append_range' (a b : Nat) :
    List.range a ++ List.range' a b = List.range (a + b) := by
  have h := List.range'_append_1 0 a b
  rw [Nat.zero_add] at h
  rw [List.range_eq_range', List.range_eq_range', h, Nat.add_comm]

/-- After `b` blocks of `n` elements the first `n * b` elements are copied. -/
theorem copy_blocks_spec {α : Type} (n b : Nat) (st : CopyState α)
    (hsep : ∀ i j, i < n * b → j < n * b →
      float_ptr_add st.dest i ≠ float_ptr_add st.src j) :
    ((copy_block n)^[b] st).mem = copied st.mem st.dest st.src (n * b) ∧
      ((copy_block n)^[b] st).loads
        = st.loads ++ (List.range (n * b)).map (float_ptr_add st.src) ∧
      ((copy_block n)^[b] st).stores
        = st.stores ++ (List.range (n * b)).map (float_ptr_add st.dest) ∧
      (∀ k, float_ptr_add ((copy_block n)^[b] st).dest k = float_ptr_add st.dest (n * b + k)) ∧
      (∀ k, float_ptr_add ((copy_block n)^[b] st).src k = float_ptr_add st.src (n * b + k)) := by
  induction b with
  | zero =>
    refine ⟨rfl, ?_, ?_, ?_, ?_⟩
    · simp
    · simp
    · intro k
      rw [Nat.mul_zero, Nat.zero_add]
      rfl
    · intro k
      rw [Nat.mul_zero, Nat.zero_add]
      rfl
  | succ b ih =>
    have hle : n * b ≤ n * (b + 1) := Nat.mul_le_mul_left n (Nat.le_succ b)
    obtain ⟨h1, h2, h3, h4, h5⟩ := ih (fun i j hi hj => hsep i j (by omega) (by omega))
    rw [Function.iterate_succ_apply']
    have e : n * (b + 1) = n * b + n := Nat.mul_succ n b
    obtain ⟨g1, g2, g3, g4, g5⟩ := copy_block_spec st.mem st.dest st.src (n * b) n
      ((copy_block n)^[b] st) h1 h4 h5 (by rw [← e]; exact hsep)
    rw [e]
    refine ⟨g1, ?_, ?_, g4, g5⟩
    · rw [g2, h2, List.append_assoc, ← List.map_append, range_append_range']
    · rw [g3, h3, List.append_assoc, ← List.map_append, range_append_range']

/-- The plain loop over `n` elements copies them, when no destination
element is a source element. -/
theorem copy_plain_spec {α : Type} (n : Nat) (st : CopyState α)
    (hsep : ∀ i j, i < n → j < n → float_ptr_add st.dest i ≠ float_ptr_add st.src j) :
    (copy_plain n st).mem = copied st.mem st.dest st.src n ∧
      (copy_plain n st).loads = st.loads ++ (List.range n).map (float_ptr_add st.src) ∧
      (copy_plain n st).stores = st.stores ++ (List.range n).map (float_ptr_add st.dest) ∧
      (copy_plain n st).dest = st.dest ∧ (copy_plain n st).src = st.src := by
  induction n with
  | zero =>
    refine ⟨rfl, ?_, ?_, rfl, rfl⟩
    · show st.loads = _
      simp
    · show st.stores = _
      simp
  | succ n ih =>
    obtain ⟨h1, h2, h3, h4, h5⟩ := ih (fun i j hi hj => hsep i j (by omega) (by omega))
    have e : copy_plain (n + 1) st = copy_plain_step n (copy_plain n st) := by
      unfold copy_plain
      rw [List.range_succ, List.foldl_append, List.foldl_cons, List.foldl_nil]
    rw [e]
    generalize copy_plain n st = q at h1 h2 h3 h4 h5
    refine ⟨?_, ?_, ?_, h4, h5⟩
    · show Function.update q.mem (float_ptr_add q.dest n) (q.mem (float_ptr_add q.src n)) = _
      rw [h1, h4, h5, copied_succ, copied_frame st.mem st.dest st.src n _
        (fun i hi e => hsep i n (by omega) (by omega) e.symm)]
    · show q.loads ++ [float_ptr_add q.src n] = _
      rw [h2, h5, List.range_succ, List.map_append, List.append_assoc]
      rfl
    · show q.stores ++ [float_ptr_add q.dest n] = _
      rw [h3, h4, List.range_succ, List.map_append, List.append_assoc]
      rfl

/-- Fuel beyond the number of iterations does not change a stepping loop. -/
theorem for_step_fuel (step bound fuel k x : Nat) (h : bound ≤ x + step * fuel) :
    for_step step bound (fuel + k) x = for_step step bound fuel x := by
  induction fuel generalizing x with
  | zero =>
    rw [for_step_nil step bound (0 + k) x (by omega), for_step_nil step bound 0 x (by omega)]
  | succ fuel ih =>
    rw [Nat.add_right_comm]
    unfold for_step
    split_ifs with hx
    · rw [ih (x + step) (by rw [Nat.mul_succ] at h; omega)]
    · rfl

/-- The body of `spcpy_imap` is a block of nine elements. -/
theorem spcpy_imap_body_eq {α : Type} (st : CopyState α) :
    spcpy_imap_body st = copy_block 9 st := rfl

/-- The body of `spcpy_grad` is a block of eight elements. -/
theorem spcpy_grad_body_eq {α : Type} (st : CopyState α) :
    spcpy_grad_body st = copy_block 8 st := rfl

/-- With fuel for its 20 iterations `spcpy_imap` is 20 blocks of nine. -/
theorem spcpy_imap_blocks {α : Type} (fuel : Nat) (hfuel : 20 ≤ fuel) (st : CopyState α) :
    spcpy_imap fuel st = (copy_block 9)^[20] st := by
  obtain ⟨k, rfl⟩ : ∃ k, fuel = 20 + k := ⟨fuel - 20, by omega⟩
  unfold spcpy_imap
  have hb : IMAP_DIM_X * IMAP_DIM_Y = 180 := by decide
  rw [hb, for_step_fuel 9 180 20 k 0 (by omega), foldl_ignore]
  have hl : (for_step 9 180 20 0).length = 20 := by decide
  rw [hl]
  exact congrArg (fun f => f^[20] st) (funext spcpy_imap_body_eq)

/-- With fuel for its 16 iterations `spcpy_grad` is 16 blocks of eight. -/
theorem spcpy_grad_blocks {α : Type} (fuel : Nat) (hfuel : 16 ≤ fuel) (st : CopyState α) :
    spcpy_grad fuel st = (copy_block 8)^[16] st := by
  obtain ⟨k, rfl⟩ : ∃ k, fuel = 16 + k := ⟨fuel - 16, by omega⟩
  unfold spcpy_grad
  have hb : BLOCK_DIM_X * BLOCK_DIM_Y = 128 := by decide
  rw [hb, for_step_fuel 8 128 16 k 0 (by omega), foldl_ignore]
  have hl : (for_step 8 128 16 0).length = 16 := by decide
  rw [hl]
  exact congrArg (fun f => f^[16] st) (funext spcpy_grad_body_eq)

/-- A state whose memory is the copied memory and whose logs are those of
the `n` elements is the outcome of copying exactly `n` elements. -/
theorem copies_exactly_of {α : Type} (n : Nat) (st after : CopyState α) (hn : n ≤ 2 ^ 30)
    (h1 : after.mem = copied st.mem st.dest st.src n)
    (h2 : after.loads = st.loads ++ (List.range n).map (float_ptr_add st.src))
    (h3 : after.stores = st.stores ++ (List.range n).map (float_ptr_add st.dest)) :
    copies_exactly n st after := by
  refine ⟨fun i hi => ?_, fun a ha => ?_, h2, h3⟩
  · rw [h1, copied_at st.mem st.dest st.src n i hn hi]
  · rw [h1, copied_frame st.mem st.dest st.src n a ha]

/-- C31: `spcpy_imap`, unrolled nine at a time, copies exactly the
`IMAP_DIM_X * IMAP_DIM_Y = 180` elements `src[0..179]` to `dest[0..179]`: with
fuel for its 20 iterations, and when no destination element is a source
element, `dest[i]` ends up holding the old `src[i]` for every `i < 180`, the
rest of the memory is unchanged, the loads and stores are exactly those of
the indices 0 to 179 in order (no index from 180 on is touched), and memory
and access logs are those of the plain loop `dest[i] = src[i]`.  Likewise
`spcpy_grad`, unrolled eight at a time, copies exactly the
`BLOCK_DIM_X * BLOCK_DIM_Y = 128` elements. -/
theorem spcpy_copies_exactly {α : Type} (st st' : CopyState α) (fuel fuel' : Nat)
    (hfuel : 20 ≤ fuel) (hfuel' : 16 ≤ fuel')
    (hsep : ∀ i j, i < 180 → j < 180 → float_ptr_add st.dest i ≠ float_ptr_add st.src j)
    (hsep' : ∀ i j, i < 128 → j < 128 → float_ptr_add st'.dest i ≠ float_ptr_add st'.src j) :
    (IMAP_DIM_X * IMAP_DIM_Y = 180 ∧
      copies_exactly 180 st (spcpy_imap fuel st) ∧
      (spcpy_imap fuel st).mem = (copy_plain 180 st).mem ∧
      (spcpy_imap fuel st).loads = (copy_plain 180 st).loads ∧
      (spcpy_imap fuel st).stores = (copy_plain 180 st).stores) ∧
    (BLOCK_DIM_X * BLOCK_DIM_Y = 128 ∧
      copies_exactly 128 st' (spcpy_grad fuel' st') ∧
      (spcpy_grad fuel' st').mem = (copy_plain 128 st').mem ∧
      (spcpy_grad fuel' st').loads = (copy_plain 128 st').loads ∧
      (spcpy_grad fuel' st').stores = (copy_plain 128 st').stores) := by
  constructor
  · obtain ⟨h1, h2, h3, -, -⟩ := copy_blocks_spec 9 20 st hsep
    obtain ⟨g1, g2, g3, -, -⟩ := copy_plain_spec 180 st hsep
    rw [spcpy_imap_blocks fuel hfuel st]
    exact ⟨by decide, copies_exactly_of 180 st _ (by norm_num) h1 h2 h3,
      h1.trans g1.symm, h2.trans g2.symm, h3.trans g3.symm⟩
  · obtain ⟨h1, h2, h3, -, -⟩ := copy_blocks_spec 8 16 st' hsep'
    obtain ⟨g1, g2, g3, -, -⟩ := copy_plain_spec 128 st' hsep'
    rw [spcpy_grad_blocks fuel' hfuel' st']
    exact ⟨by decide, copies_exactly_of 128 st' _ (by norm_num) h1 h2 h3,
      h1.trans g1.symm, h2.trans g2.symm, h3.trans g3.symm⟩

/-- Witness of C31: the destination buffer at address 4000 and the source
buffer at address 1000, 3000 bytes apart. -/
theorem spcpy_copies_exactly_witness :
    20 ≤ 20 ∧ 16 ≤ 16 ∧
    (∀ i j, i < 180 → j < 180 →
      float_ptr_add copy_example.dest i ≠ float_ptr_add copy_example.src j) ∧
    (∀ i j, i < 128 → j < 128 →
      float_ptr_add copy_example.dest i ≠ float_ptr_add copy_example.src j) ∧
    ((IMAP_DIM_X * IMAP_DIM_Y = 180 ∧
      copies_exactly 180 copy_example (spcpy_imap 20 copy_example) ∧
      (spcpy_imap 20 copy_example).mem = (copy_plain 180 copy_example).mem ∧
      (spcpy_imap 20 copy_example).loads = (copy_plain 180 copy_example).loads ∧
      (spcpy_imap 20 copy_example).stores = (copy_plain 180 copy_example).stores) ∧
    (BLOCK_DIM_X * BLOCK_DIM_Y = 128 ∧
      copies_exactly 128 copy_example (spcpy_grad 16 copy_example) ∧
      (spcpy_grad 16 copy_example).mem = (copy_plain 128 copy_example).mem ∧
      (spcpy_grad 16 copy_example).loads = (copy_plain 128 copy_example).loads ∧
      (spcpy_grad 16 copy_example).stores = (copy_plain 128 copy_example).stores)) :=
  have hsep : ∀ n i j, n ≤ 180 → i < n → j < n →
      float_ptr_add copy_example.dest i ≠ float_ptr_add copy_example.src j := by
    intro n i j hn hi hj
    show float_ptr_add 4000 i ≠ float_ptr_add 1000 j
    unfold float_ptr_add ptr_add wrap32 WORD
    omega
  ⟨by decide, by decide, fun i j => hsep 180 i j (by decide), fun i j => hsep 128 i j (by decide),
    spcpy_copies_exactly copy_example copy_example 20 16 (by decide) (by decide)
      (fun i j => hsep 180 i j (by decide)) (fun i j => hsep 128 i j (by decide))⟩

/-- The first block of `spcpy_grad` on the example: eight loads from the
source, then eight stores to the destination, and element 3 of the destination
holds what element 3 of the source held. -/
theorem spcpy_grad_body_example :
    (spcpy_grad_body copy_example).loads = [1000, 1004, 1008, 1012, 1016, 1020, 1024, 1028] ∧
      (spcpy_grad_body copy_example).stores
        = [4000, 4004, 4008, 4012, 4016, 4020, 4024, 4028] ∧
      (spcpy_grad_body copy_example).mem 4012 = 1019 ∧
      (spcpy_grad_body copy_example).dest = 4032 ∧ (spcpy_grad_body copy_example).src = 1032 := by
  decide

/-! ### The unrolled matrix product -/

/-- Sum of the products for `k` in `[a, a + n)`. -/
theorem range'_sum_split {R : Type} [Semiring R] (t : Nat → R) (a n m : Nat) :
    ((List.range' a (n + m)).map t).sum
      = ((List.range' a n).map t).sum + ((List.range' (a + n) m).map t).sum := by
  have h := List.range'_append_1 a n m
  rw [Nat.add_comm m n] at h
  rw [← h, List.map_append, List.sum_append]

/-- The eight products of one iteration of the unrolled loop, added from
left to right, are the sum of the products for `k`, ..., `k + 7`. -/
theorem eight_products {R : Type} [Semiring R] (sp_mat1 sp_mat2 : Nat → R)
    (dim_x mro j k : Nat) :
    sp_mat1 (mro + k) * sp_mat2 (k * dim_x + j)
        + sp_mat1 (mro + k + 1) * sp_mat2 (k * dim_x + j + dim_x)
        + sp_mat1 (mro + k + 2) * sp_mat2 (k * dim_x + j + 2 * dim_x)
        + sp_mat1 (mro + k + 3) * sp_mat2 (k * dim_x + j + 3 * dim_x)
        + sp_mat1 (mro + k + 4) * sp_mat2 (k * dim_x + j + 4 * dim_x)
        + sp_mat1 (mro + k + 5) * sp_mat2 (k * dim_x + j + 5 * dim_x)
        + sp_mat1 (mro + k + 6) * sp_mat2 (k * dim_x + j + 6 * dim_x)
        + sp_mat1 (mro + k + 7) * sp_mat2 (k * dim_x + j + 7 * dim_x)
      = ((List.range' k 8).map (fun k => sp_mat1 (mro + k) * sp_mat2 (k * dim_x + j))).sum := by
  have e8 : List.range' k 8 = [k, k + 1, k + 2, k + 3, k + 4, k + 5, k + 6, k + 7] := rfl
  have i1 : ∀ t, k * dim_x + j + t * dim_x = (k + t) * dim_x + j := fun t => by ring
  have i0 : k * dim_x + j + dim_x = (k + 1) * dim_x + j := by ring
  rw [e8, i0, i1 2, i1 3, i1 4, i1 5, i1 6, i1 7]
  simp only [List.map_cons, List.map_nil, List.sum_cons, List.sum_nil, add_zero, add_assoc,
    Nat.add_assoc]

/-- The unrolled loop adds to the cell the products from `k` to the value
of `k` on exit, which is `k` itself or at most `mid_dim`. -/
theorem compute_simple_unrolled_spec {R : Type} [Semiring R] (sp_mat1 sp_mat2 : Nat → R)
    (dim_x mid_dim dro mro j fuel k : Nat) (dest : Nat → R) :
    k ≤ (compute_simple_unrolled sp_mat1 sp_mat2 dim_x mid_dim dro mro j fuel k dest).1 ∧
      ((compute_simple_unrolled sp_mat1 sp_mat2 dim_x mid_dim dro mro j fuel k dest).1 = k ∨
        (compute_simple_unrolled sp_mat1 sp_mat2 dim_x mid_dim dro mro j fuel k dest).1
          ≤ mid_dim) ∧
      (compute_simple_unrolled sp_mat1 sp_mat2 dim_x mid_dim dro mro j fuel k dest).2
        = Function.update dest (dro + j) (dest (dro + j)
          + ((List.range' k
              ((compute_simple_unrolled sp_mat1 sp_mat2 dim_x mid_dim dro mro j fuel k dest).1
                - k)).map
              (fun k => sp_mat1 (mro + k) * sp_mat2 (k * dim_x + j))).sum) := by
  have hstop : ∀ (k : Nat) (dest : Nat → R), dest = Function.update dest (dro + j) (dest (dro + j)
      + ((List.range' k (k - k)).map
          (fun k => sp_mat1 (mro + k) * sp_mat2 (k * dim_x + j))).sum) := by
    intro k dest
    rw [Nat.sub_self]
    simp
  induction fuel generalizing k dest with
  | zero => exact ⟨Nat.le_refl k, Or.inl rfl, hstop k dest⟩
  | succ fuel ih =>
    unfold compute_simple_unrolled
    split_ifs with h
    · simp only []
      rw [eight_products]
      generalize hd : Function.update dest (dro + j) _ = d1
      obtain ⟨h1, h2, h3⟩ := ih (k + 8) d1
      generalize compute_simple_unrolled sp_mat1 sp_mat2 dim_x mid_dim dro mro j fuel (k + 8) d1
        = r at h1 h2 h3
      refine ⟨by omega, Or.inr (by omega), ?_⟩
      rw [h3, ← hd, Function.update_same, Function.update_idem]
      have e : r.1 - k = 8 + (r.1 - (k + 8)) := by omega
      rw [e, range'_sum_split, add_assoc]
    · exact ⟨Nat.le_refl k, Or.inl rfl, hstop k dest⟩

/-- With enough fuel the fix-up loop adds the products from `k` to
`mid_dim`. -/
theorem compute_simple_fixup_spec {R : Type} [Semiring R] (sp_mat1 sp_mat2 : Nat → R)
    (dim_x mid_dim mro j fuel k : Nat) (tmp_fix : R) (hfuel : mid_dim ≤ k + fuel) :
    compute_simple_fixup sp_mat1 sp_mat2 dim_x mid_dim mro j fuel k tmp_fix
      = tmp_fix + ((List.range' k (mid_dim - k)).map
          (fun k => sp_mat1 (mro + k) * sp_mat2 (k * dim_x + j))).sum := by
  induction fuel generalizing k tmp_fix with
  | zero =>
    have e : mid_dim - k = 0 := by omega
    rw [e]
    simp [compute_simple_fixup]
  | succ fuel ih =>
    unfold compute_simple_fixup
    split_ifs with h
    · simp only []
      rw [ih (k + 1) _ (by omega)]
      have e : mid_dim - k = (mid_dim - (k + 1)) + 1 := by omega
      rw [e, List.range'_succ, List.map_cons, List.sum_cons, add_assoc]
    · have e : mid_dim - k = 0 := by omega
      rw [e]
      simp

/-- With enough fuel the body of the loop over `j` adds the whole sum of
products to its cell. -/
theorem compute_simple_cell_spec {R : Type} [Semiring R] (fuel : Nat) (sp_mat1 sp_mat2 : Nat → R)
    (dim_x mid_dim i j : Nat) (dest : Nat → R) (hfuel : mid_dim ≤ fuel) :
    compute_simple_cell fuel sp_mat1 sp_mat2 dim_x mid_dim i j dest
      = Function.update dest (i * dim_x + j)
          (dest (i * dim_x + j) + dot_product sp_mat1 sp_mat2 dim_x mid_dim i j) := by
  unfold compute_simple_cell
  simp only []
  obtain ⟨h1, h2, h3⟩ := compute_simple_unrolled_spec sp_mat1 sp_mat2 dim_x mid_dim (i * dim_x)
    (i * mid_dim) j fuel 0 dest
  generalize compute_simple_unrolled sp_mat1 sp_mat2 dim_x mid_dim (i * dim_x) (i * mid_dim)
    j fuel 0 dest = r at h1 h2 h3
  rw [Nat.sub_zero] at h3
  have hsum : ((List.range' 0 r.1).map
        (fun k => sp_mat1 (i * mid_dim + k) * sp_mat2 (k * dim_x + j))).sum
      + ((List.range' r.1 (mid_dim - r.1)).map
        (fun k => sp_mat1 (i * mid_dim + k) * sp_mat2 (k * dim_x + j))).sum
      = dot_product sp_mat1 sp_mat2 dim_x mid_dim i j := by
    unfold dot_product
    rw [List.range_eq_range']
    rcases h2 with h2 | h2
    · rw [h2]
      simp
    · have e : mid_dim = r.1 + (mid_dim - r.1) := by omega
      have h := range'_sum_split
        (fun k => sp_mat1 (i * mid_dim + k) * sp_mat2 (k * dim_x + j)) 0 r.1 (mid_dim - r.1)
      rw [← e, Nat.zero_add] at h
      exact h.symm
  rw [compute_simple_fixup_spec sp_mat1 sp_mat2 dim_x mid_dim (i * mid_dim) j fuel r.1 0
    (by omega), h3, Function.update_same, Function.update_idem, zero_add, add_assoc, hsum]

/-- Adding the terms of a list to one cell, one at a time, adds their sum. -/
theorem foldl_accumulate {R : Type} [Semiring R] (t : Nat → R) (c : Nat) (l : List Nat)
    (dest : Nat → R) :
    l.foldl (fun dest k => Function.update dest c (dest c + t k)) dest
      = Function.update dest c (dest c + (l.map t).sum) := by
  induction l generalizing dest with
  | nil => simp
  | cons a l ih =>
    rw [List.foldl_cons, ih, Function.update_same, Function.update_idem, List.map_cons,
      List.sum_cons, add_assoc]

/-- A loop nest over two lists is one loop over their product. -/
theorem foldl_product {σ : Type} (f : Nat → Nat → σ → σ) (l1 l2 : List Nat) (s : σ) :
    l1.foldl (fun s i => l2.foldl (fun s j => f i j s) s) s
      = (l1 ×ˢ l2).foldl (fun s p => f p.1 p.2 s) s := by
  induction l1 generalizing s with
  | nil => rfl
  | cons a l1 ih =>
    rw [List.foldl_cons, ih, List.product_cons, List.foldl_append, List.foldl_map]

/-- A cell that no step of an accumulation names keeps its value. -/
theorem accumulate_frame {ι R : Type} [Semiring R] (key : ι → Nat) (val : ι → R) (l : List ι)
    (dest : Nat → R) (p : Nat) (hp : ∀ x ∈ l, p ≠ key x) :
    l.foldl (fun dest x => Function.update dest (key x) (dest (key x) + val x)) dest p
      = dest p := by
  induction l generalizing dest with
  | nil => rfl
  | cons a l ih =>
    rw [List.foldl_cons, ih _ (fun x hx => hp x (List.mem_cons_of_mem a hx)),
      Function.update_noteq (hp a (List.mem_cons_self a l))]

/-- A cell that exactly one step of an accumulation names gains the value of
that step. -/
theorem accumulate_at {ι R : Type} [Semiring R] (key : ι → Nat) (val : ι → R) (l : List ι)
    (dest : Nat → R) (x : ι) (hx : x ∈ l) (hnd : (l.map key).Nodup) :
    l.foldl (fun dest x => Function.update dest (key x) (dest (key x) + val x)) dest (key x)
      = dest (key x) + val x := by
  induction l generalizing dest with
  | nil => simp at hx
  | cons a l ih =>
    rw [List.map_cons, List.nodup_cons] at hnd
    rw [List.foldl_cons]
    rcases List.mem_cons.1 hx with e | e
    · subst e
      rw [accumulate_frame key val l _ _
        (fun y hy e => hnd.1 (by rw [e]; exact List.mem_map_of_mem key hy)),
        Function.update_same]
    · rw [ih _ e hnd.2, Function.update_noteq]
      intro e2
      exact hnd.1 (by rw [← e2]; exact List.mem_map_of_mem key e)

/-- With enough fuel `compute_simple` is the accumulation of the sums of
products over the cells. -/
theorem compute_simple_cells {R : Type} [Semiring R] (fuel : Nat) (sp_mat1 sp_mat2 : Nat → R)
    (dim_y dim_x mid_dim : Nat) (dest : Nat → R) (hfuel : mid_dim ≤ fuel) :
    compute_simple fuel sp_mat1 sp_mat2 dim_y dim_x mid_dim dest
      = (List.range dim_y ×ˢ List.range dim_x).foldl
          (fun dest p => Function.update dest (p.1 * dim_x + p.2)
            (dest (p.1 * dim_x + p.2) + dot_product sp_mat1 sp_mat2 dim_x mid_dim p.1 p.2))
          dest := by
  unfold compute_simple
  refine (@foldl_product (Nat → R)
    (fun i j dest => compute_simple_cell fuel sp_mat1 sp_mat2 dim_x mid_dim i j dest)
    _ _ dest).trans ?_
  congr 1
  funext dest p
  exact compute_simple_cell_spec fuel sp_mat1 sp_mat2 dim_x mid_dim p.1 p.2 dest hfuel

/-- The plain accumulation loop is the accumulation of the sums of products
over the cells. -/
theorem compute_plain_cells {R : Type} [Semiring R] (sp_mat1 sp_mat2 : Nat → R)
    (dim_y dim_x mid_dim : Nat) (dest : Nat → R) :
    compute_plain sp_mat1 sp_mat2 dim_y dim_x mid_dim dest
      = (List.range dim_y ×ˢ List.range dim_x).foldl
          (fun dest p => Function.update dest (p.1 * dim_x + p.2)
            (dest (p.1 * dim_x + p.2) + dot_product sp_mat1 sp_mat2 dim_x mid_dim p.1 p.2))
          dest := by
  unfold compute_plain
  refine (@foldl_product (Nat → R) (fun i j dest => (List.range mid_dim).foldl (fun dest k =>
    Function.update dest (i * dim_x + j)
      (dest (i * dim_x + j) + sp_mat1 (i * mid_dim + k) * sp_mat2 (k * dim_x + j))) dest)
    _ _ dest).trans ?_
  congr 1
  funext dest p
  exact foldl_accumulate (fun k => sp_mat1 (p.1 * mid_dim + k) * sp_mat2 (k * dim_x + p.2)) _ _ _

/-- The cells `i * dim_x + j` with `j < dim_x` are distinct. -/
theorem cells_nodup (dim_y dim_x : Nat) :
    ((List.range dim_y ×ˢ List.range dim_x).map
      (fun p => p.1 * dim_x + p.2)).Nodup := by
  refine List.Nodup.map_on ?_ ((List.nodup_range dim_y).product (List.nodup_range dim_x))
  rintro ⟨i, j⟩ hp ⟨i', j'⟩ hp' h
  rw [List.mem_product, List.mem_range, List.mem_range] at hp hp'
  have h2 : j + dim_x * i = j' + dim_x * i' := by
    simp only [] at h
    rw [Nat.mul_comm dim_x i, Nat.mul_comm dim_x i']
    omega
  obtain ⟨e1, e2⟩ := two_digits_inj dim_x j i j' i' hp.2 hp'.2 h2
  rw [e1, e2]

/-- C32: over exact arithmetic (any semiring, the rationals among them),
`compute_simple` with its eight-way unrolled inner loop and its fix-up loop,
given fuel for `mid_dim` iterations, adds to `dest[i * dim_x + j]`, for every
`i < dim_y` and `j < dim_x`, exactly the sum over `k` in `[0, mid_dim)` of
`sp_mat1[i * mid_dim + k] * sp_mat2[k * dim_x + j]`, each `k` contributing
once, for every `mid_dim ≥ 0` (also `mid_dim ≤ 8` and `mid_dim` not divisible
by 8); it leaves every other element of `dest` unchanged, and it equals the
plain accumulation loop. -/
theorem compute_simple_eq_plain {R : Type} [Semiring R] (fuel : Nat) (sp_mat1 sp_mat2 : Nat → R)
    (dim_y dim_x mid_dim : Nat) (dest : Nat → R) (hfuel : mid_dim ≤ fuel) :
    compute_simple fuel sp_mat1 sp_mat2 dim_y dim_x mid_dim dest
        = compute_plain sp_mat1 sp_mat2 dim_y dim_x mid_dim dest ∧
      (∀ i j, i < dim_y → j < dim_x →
        compute_simple fuel sp_mat1 sp_mat2 dim_y dim_x mid_dim dest (i * dim_x + j)
          = dest (i * dim_x + j)
            + ((List.range mid_dim).map
                (fun k => sp_mat1 (i * mid_dim + k) * sp_mat2 (k * dim_x + j))).sum) ∧
      (∀ p, (∀ i j, i < dim_y → j < dim_x → p ≠ i * dim_x + j) →
        compute_simple fuel sp_mat1 sp_mat2 dim_y dim_x mid_dim dest p = dest p) := by
  refine ⟨?_, fun i j hi hj => ?_, fun p hp => ?_⟩
  · rw [compute_simple_cells fuel sp_mat1 sp_mat2 dim_y dim_x mid_dim dest hfuel,
      compute_plain_cells]
  · rw [compute_simple_cells fuel sp_mat1 sp_mat2 dim_y dim_x mid_dim dest hfuel]
    exact accumulate_at (fun p : Nat × Nat => p.1 * dim_x + p.2)
      (fun p => dot_product sp_mat1 sp_mat2 dim_x mid_dim p.1 p.2) _ dest (i, j)
      (List.mem_product.2 ⟨List.mem_range.2 hi, List.mem_range.2 hj⟩) (cells_nodup dim_y dim_x)
  · rw [compute_simple_cells fuel sp_mat1 sp_mat2 dim_y dim_x mid_dim dest hfuel]
    refine accumulate_frame (fun p : Nat × Nat => p.1 * dim_x + p.2)
      (fun p => dot_product sp_mat1 sp_mat2 dim_x mid_dim p.1 p.2) _ dest p ?_
    rintro ⟨i, j⟩ hx
    rw [List.mem_product, List.mem_range, List.mem_range] at hx
    exact hp i j hx.1 hx.2

/-- Witness of C32: a 2 by 3 block with `mid_dim = 11` over the rationals. -/
theorem compute_simple_eq_plain_witness :
    11 ≤ 11 ∧
    (compute_simple 11 mm_example_mat1 mm_example_mat2 2 3 11 (fun _ => 0)
        = compute_plain mm_example_mat1 mm_example_mat2 2 3 11 (fun _ => 0) ∧
      (∀ i j, i < 2 → j < 3 →
        compute_simple 11 mm_example_mat1 mm_example_mat2 2 3 11 (fun _ => 0) (i * 3 + j)
          = (fun _ => (0 : ℚ)) (i * 3 + j)
            + ((List.range 11).map
                (fun k => mm_example_mat1 (i * 11 + k) * mm_example_mat2 (k * 3 + j))).sum) ∧
      (∀ p, (∀ i j, i < 2 → j < 3 → p ≠ i * 3 + j) →
        compute_simple 11 mm_example_mat1 mm_example_mat2 2 3 11 (fun _ => 0) p
          = (fun _ => (0 : ℚ)) p)) :=
  ⟨by decide, compute_simple_eq_plain 11 mm_example_mat1 mm_example_mat2 2 3 11
    (fun _ => 0) (by decide)⟩

/-- The unrolled loop on a row of 19 products stops at `k = 16` after two
iterations, on 8 products it does not run, and on the natural numbers the
cell of a 1 by 1 block with `mid_dim = 10` gains `1 + 2 + ... + 10`. -/
theorem compute_simple_example :
    (compute_simple_unrolled (fun a => a + 1) (fun _ => 1) 1 19 0 0 0 19 0 (fun _ => 0)).1 = 16 ∧
      (compute_simple_unrolled (fun a => a + 1) (fun _ => 1) 1 8 0 0 0 8 0 (fun _ => 0)).1 = 0 ∧
      compute_simple 10 (fun a => a + 1) (fun _ => 1) 1 1 10 (fun _ => 0) 0 = 55 := by
  decide

/-! ### Write-back of the matrix product -/

/-- The values of a stepping loop are below its bound. -/
theorem for_step_lt (step bound fuel x y : Nat) (hy : y ∈ for_step step bound fuel x) :
    y < bound := by
  induction fuel generalizing x with
  | zero => simp [for_step] at hy
  | succ fuel ih =>
    unfold for_step at hy
    split_ifs at hy with h
    · rcases List.mem_cons.1 hy with e | e
      · omega
      · exact ih (x + step) e
    · simp at hy

/-- Rows (or columns) of a block below the number of blocks lie inside the
matrix: with `q` blocks of dimension `B` for `r` rows, the last one of
dimension `r % B` (or `B` when that is 0), offset `i` of block `rr < q` is
below `r`. -/
theorem block_offset_lt (B r rr i : Nat) (hB : 1 ≤ B) (hrr : rr < (r + B - 1) / B)
    (hi : i < (if rr = (r + B - 1) / B - 1 then (if r % B = 0 then B else r % B) else B)) :
    rr * B + i < r := by
  have hm : r % B < B := Nat.mod_lt _ (by omega)
  have hr : B * (r / B) + r % B = r := Nat.div_add_mod r B
  have hq1 : B * ((r + B - 1) / B) ≤ r + B - 1 := Nat.mul_div_le _ _
  have hq2 : r + B - 1 < B * ((r + B - 1) / B) + B := by
    have := Nat.lt_div_mul_add (a := r + B - 1) (b := B) (by omega)
    rw [Nat.mul_comm] at this
    exact this
  generalize (r + B - 1) / B = q at hrr hi hq1 hq2
  generalize r / B = d at hr
  generalize r % B = m at hm hr hi
  have hqd : q ≤ d + 1 := by
    by_contra hc
    have : B * (d + 2) ≤ B * q := Nat.mul_le_mul_left B (by omega)
    rw [Nat.mul_add] at this
    omega
  have hrrB : rr * B = B * rr := Nat.mul_comm _ _
  by_cases hlast : rr = q - 1
  · rw [if_pos hlast] at hi
    by_cases hm0 : m = 0
    · rw [if_pos hm0] at hi
      have hqd2 : q ≤ d := by
        by_contra hc
        have : B * (d + 1) ≤ B * q := Nat.mul_le_mul_left B (by omega)
        rw [Nat.mul_add] at this
        omega
      have : B * (rr + 1) ≤ B * d := Nat.mul_le_mul_left B (by omega)
      rw [Nat.mul_add] at this
      omega
    · rw [if_neg hm0] at hi
      have hdq : d < q := by
        by_contra hc
        have : B * q ≤ B * d := Nat.mul_le_mul_left B (by omega)
        omega
      have e : rr = d := by omega
      rw [e] at hrrB ⊢
      omega
  · rw [if_neg hlast] at hi
    have : B * (rr + 1) ≤ B * d := Nat.mul_le_mul_left B (by omega)
    rw [Nat.mul_add] at this
    omega

/-- The write-back of a block whose coordinates are below the numbers of
blocks stays inside the result matrix. -/
theorem tensorlib_mm_block_writes_in_bounds (BLOCK_DIM r1 c2 rr rc : Nat) (hB : 1 ≤ BLOCK_DIM)
    (hrr : rr < (r1 + BLOCK_DIM - 1) / BLOCK_DIM) (hrc : rc < (c2 + BLOCK_DIM - 1) / BLOCK_DIM) :
    ∀ p ∈ tensorlib_mm_block_writes BLOCK_DIM r1 c2 rr rc, p.1 < r1 ∧ p.2 < c2 := by
  intro p hp
  unfold tensorlib_mm_block_writes at hp
  simp only [List.mem_flatMap, List.mem_map, List.mem_range] at hp
  obtain ⟨i, hi, j, hj, rfl⟩ := hp
  exact ⟨block_offset_lt BLOCK_DIM r1 rr i hB hrr hi, block_offset_lt BLOCK_DIM c2 rc j hB hrc hj⟩

/-- A tile group of one tile writes only inside the result matrix. -/
theorem tensorlib_mm_single_tile_in_bounds (BLOCK_DIM r1 c2 fuel : Nat) (hB : 1 ≤ BLOCK_DIM) :
    ∀ p ∈ tensorlib_mm_writes BLOCK_DIM r1 c2 1 1 0 0 fuel, p.1 < r1 ∧ p.2 < c2 := by
  intro p hp
  unfold tensorlib_mm_writes at hp
  simp only [List.mem_flatMap] at hp
  obtain ⟨i, hi, j, hj, hp⟩ := hp
  have hi2 := for_step_lt _ _ _ _ _ hi
  have hj2 := for_step_lt _ _ _ _ _ hj
  exact tensorlib_mm_block_writes_in_bounds BLOCK_DIM r1 c2 (i + 0) (j + 0) hB hi2 hj2 p hp

/-- Failing input of C38: `tensorlib_mm` writes outside the result matrix.
With `BLOCK_DIM = 16`, operands of 1 by 1 (`r1 = c1 = r2 = c2 = 1`) and a tile
group of 1 by 2 tiles, the tile `(bsg_x, bsg_y) = (0, 1)` runs the one block
iteration `i = 0`, `j = 0` with `rr = 1`, which no test compares with the
number of row blocks (1), and writes `result(16, 0)`, ..., `result(31, 0)`:
rows that are not below `r1 = 1`. -/
theorem tensorlib_mm_writes_out_of_bounds :
    (16, 0) ∈ tensorlib_mm_writes 16 1 1 1 2 0 1 1 ∧ ¬ (16 < 1) ∧
      tensorlib_mm_writes 16 1 1 1 2 0 1 1 = (List.range 16).map (fun i => (16 + i, 0)) ∧
      (∀ fuel, 1 ≤ fuel →
        tensorlib_mm_writes 16 1 1 1 2 0 1 fuel = tensorlib_mm_writes 16 1 1 1 2 0 1 1) := by
  refine ⟨by decide, by decide, by decide, fun fuel hfuel => ?_⟩
  obtain ⟨k, rfl⟩ : ∃ k, fuel = 1 + k := ⟨fuel - 1, by omega⟩
  unfold tensorlib_mm_writes
  simp only []
  have e1 : (1 + 16 - 1) / 16 = 1 := by decide
  rw [e1, for_step_fuel 2 1 1 k 0 (by omega), for_step_fuel 1 1 1 k 0 (by omega)]

/-! ### The recursive sorts -/

/-- More fuel does not change the exit of the scan of `i`. -/
theorem vsort_scan_i_fuel {α : Type} [LinearOrder α] (vec : Int → α) (piv last : Int)
    (fuel k : Nat) (i r : Int) (h : vsort_scan_i vec piv last fuel i = some r) :
    vsort_scan_i vec piv last (fuel + k) i = some r := by
  induction fuel generalizing i with
  | zero => simp [vsort_scan_i] at h
  | succ fuel ih =>
    rw [Nat.add_right_comm]
    unfold vsort_scan_i at h ⊢
    split_ifs at h ⊢ with hc
    · exact ih _ h
    · exact h

/-- More fuel does not change the exit of the scan of `j`. -/
theorem vsort_scan_j_fuel {α : Type} [LinearOrder α] (vec : Int → α) (piv : Int)
    (fuel k : Nat) (j r : Int) (h : vsort_scan_j vec piv fuel j = some r) :
    vsort_scan_j vec piv (fuel + k) j = some r := by
  induction fuel generalizing j with
  | zero => simp [vsort_scan_j] at h
  | succ fuel ih =>
    rw [Nat.add_right_comm]
    unfold vsort_scan_j at h ⊢
    split_ifs at h ⊢ with hc
    · exact ih _ h
    · exact h

/-- More fuel does not change the result of the partition loop. -/
theorem vsort_partition_fuel {α : Type} [LinearOrder α] (piv last : Int) (fuel k : Nat)
    (i j : Int) (vec : Int → α) (r : Int × (Int → α))
    (h : vsort_partition piv last fuel i j vec = some r) :
    vsort_partition piv last (fuel + k) i j vec = some r := by
  induction fuel generalizing i j vec with
  | zero => simp [vsort_partition] at h
  | succ fuel ih =>
    rw [Nat.add_right_comm]
    unfold vsort_partition at h ⊢
    split_ifs at h ⊢ with hc
    · rcases hi : vsort_scan_i vec piv last fuel i with _ | i1
      · rw [hi] at h
        simp at h
      · rw [hi] at h
        rw [vsort_scan_i_fuel vec piv last fuel k i i1 hi]
        simp only [Option.some_bind] at h ⊢
        rcases hj : vsort_scan_j vec piv fuel j with _ | j1
        · rw [hj] at h
          simp at h
        · rw [hj] at h
          rw [vsort_scan_j_fuel vec piv fuel k j j1 hj]
          simp only [Option.some_bind] at h ⊢
          exact ih _ _ _ h
    · exact h

/-- More fuel does not change the result of `tensorlib_vsort_recur`. -/
theorem tensorlib_vsort_recur_fuel {α : Type} [LinearOrder α] (fuel k : Nat)
    (vec : Int → α) (first last : Int) (r : Int → α)
    (h : tensorlib_vsort_recur fuel vec first last = some r) :
    tensorlib_vsort_recur (fuel + k) vec first last = some r := by
  induction fuel generalizing vec first last r with
  | zero => simp [tensorlib_vsort_recur] at h
  | succ fuel ih =>
    rw [Nat.add_right_comm]
    unfold tensorlib_vsort_recur at h ⊢
    split_ifs at h ⊢ with hc
    · exact h
    · simp only [] at h ⊢
      rcases hp : vsort_partition ((first + last) / 2) last fuel first last vec with _ | p
      · rw [hp] at h
        simp at h
      · rw [hp] at h
        rw [vsort_partition_fuel _ last fuel k first last vec p hp]
        simp only [Option.some_bind] at h ⊢
        rcases h1 : tensorlib_vsort_recur fuel (swap_elems p.2 ((first + last) / 2) p.1) first
          (p.1 - 1) with _ | v1
        · rw [h1] at h
          simp at h
        · rw [h1] at h
          rw [ih _ _ _ _ h1]
          simp only [Option.some_bind] at h ⊢
          exact ih _ _ _ _ h

/-- On the vector `[1, 2, 0]` the call of `tensorlib_vsort_recur` returns the
sorted vector `[0, 1, 2]`, with fuel 6. -/
theorem tensorlib_vsort_recur_example :
    (tensorlib_vsort_recur 6 (fun i : Int => if i = 0 then 1 else if i = 1 then 2 else 0) 0 2).map
      (fun v => [v 0, v 1, v 2]) = some [0, 1, 2] := by
  decide

/-- Failing input of C39: `tensorlib_vsort_recur` does not sort `[2, 0, 1]`.
On the vector `[2, 0, 1]` with `first = 0` and `last = 2` (so
`0 ≤ first ≤ last < numel = 3`) the call returns, with fuel 6 and so with any
larger fuel, and leaves `[0, 2, 1]`: the first exchange moves the pivot
element itself (index `piv = 1`), the scans then compare with the element
that took its place, and the elements at indices 1 and 2 end in descending
order. -/
theorem tensorlib_vsort_recur_unsorted :
    (∀ k, (tensorlib_vsort_recur (6 + k) vsort_example 0 2).map (fun v => [v 0, v 1, v 2])
      = some [0, 2, 1]) ∧
    (∀ fuel v, tensorlib_vsort_recur fuel vsort_example 0 2 = some v → ¬ (v 1 ≤ v 2)) ∧
    [vsort_example 0, vsort_example 1, vsort_example 2] = [2, 0, 1] := by
  have h5 : ∃ v, tensorlib_vsort_recur 6 vsort_example 0 2 = some v ∧
      [v 0, v 1, v 2] = [0, 2, 1] := by
    have h2 : (tensorlib_vsort_recur 6 vsort_example 0 2).map (fun v => [v 0, v 1, v 2])
        = some [0, 2, 1] := by decide
    rcases h : tensorlib_vsort_recur 6 vsort_example 0 2 with _ | v
    · rw [h] at h2
      exact absurd h2 (by simp)
    · rw [h] at h2
      exact ⟨v, rfl, Option.some.inj h2⟩
  obtain ⟨v, hv, hl⟩ := h5
  refine ⟨fun k => ?_, fun fuel w hw => ?_, by decide⟩
  · rw [tensorlib_vsort_recur_fuel 6 k vsort_example 0 2 v hv, Option.map_some', hl]
  · have e1 := tensorlib_vsort_recur_fuel fuel 6 vsort_example 0 2 w hw
    have e2 := tensorlib_vsort_recur_fuel 6 fuel vsort_example 0 2 v hv
    rw [Nat.add_comm] at e2
    rw [e1] at e2
    have e3 : w = v := Option.some.inj e2
    rw [e3]
    have h1 : v 1 = 2 := by
      have := congrArg (fun l => l.getD 1 0) hl
      exact this
    have h2 : v 2 = 1 := by
      have := congrArg (fun l => l.getD 2 0) hl
      exact this
    rw [h1, h2]
    decide

/-- The scan of `j` never exits when the loaded value at `j` is above the
loaded pivot value. -/
theorem quicksort_scan_j_none {α : Type} [LinearOrder α] (j_val p_val : α) (fuel : Nat) (j : Int)
    (h : j_val > p_val) : quicksort_scan_j j_val p_val fuel j = none := by
  induction fuel generalizing j with
  | zero => rfl
  | succ fuel ih =>
    unfold quicksort_scan_j
    rw [if_pos h]
    exact ih (j - 1)

/-- The scan of `j` runs downwards without bound when the loaded value at
`j` is above the loaded pivot value: within `fuel` iterations `j` takes the
values `j`, `j - 1`, ..., `j - fuel`. -/
theorem quicksort_scan_j_values_eq {α : Type} [LinearOrder α] (j_val p_val : α) (fuel : Nat)
    (j : Int) (h : j_val > p_val) :
    quicksort_scan_j_values j_val p_val fuel j
      = (List.range (fuel + 1)).map (fun k : Nat => j - Int.ofNat k) := by
  induction fuel generalizing j with
  | zero =>
    show [j] = [j - Int.ofNat 0]
    simp
  | succ fuel ih =>
    unfold quicksort_scan_j_values
    rw [if_pos h, ih (j - 1), List.range_succ_eq_map (fuel + 1), List.map_cons, List.map_map]
    refine congrArg₂ List.cons (by simp) (List.map_congr_left (fun k _ => ?_))
    show j - 1 - Int.ofNat k = j - Int.ofNat (k + 1)
    simp only [Int.ofNat_eq_coe]
    omega

/-- On the array `[2, 1]` both scans of `quicksort_recur` exit and the call
returns the array `[1, 2]`, with fuel 4. -/
theorem quicksort_recur_example :
    (quicksort_recur 0 4 4 (fun a => if a = 0 then 2 else if a = 4 then 1 else 0) 0 1).map
      (fun m => [m 0, m 4]) = some [1, 2] := by
  decide

/-- Failing input of C40: `quicksort_recur` does not terminate on `[1, 2]`.
For the array `[1, 2]` of 4-byte elements (`stride = 4`) with `first = 0` and
`last = 1`, the first outer iteration loads `i_val = 1`, `j_val = 2` and
`p_val = 1` (`piv = 0`); the scan of `i` stops at `i = 1 = last`; the scan of
`j` tests `j_val > p_val`, which no iteration changes, so it decrements `j`
for ever: no amount of fuel reaches an exit of the call, and `j` takes the
values `1, 0, -1, -2, ...`, which leave `[first, last]` at the third. -/
theorem quicksort_recur_diverges :
    (∀ fuel, quicksort_recur 0 4 fuel quicksort_example 0 1 = none) ∧
      (∀ fuel j, quicksort_scan_j (quicksort_example (quicksort_addr 0 4 1))
        (quicksort_example (quicksort_addr 0 4 ((0 + 1) / 2))) fuel j = none) ∧
      (∀ fuel, quicksort_scan_j_values (quicksort_example (quicksort_addr 0 4 1))
          (quicksort_example (quicksort_addr 0 4 ((0 + 1) / 2))) fuel 1
        = (List.range (fuel + 1)).map (fun k : Nat => 1 - Int.ofNat k)) ∧
      [quicksort_example (quicksort_addr 0 4 0), quicksort_example (quicksort_addr 0 4 1)]
        = [1, 2] := by
  have hv : quicksort_example (quicksort_addr 0 4 1)
      > quicksort_example (quicksort_addr 0 4 ((0 + 1) / 2)) := by decide
  refine ⟨fun fuel => ?_, fun fuel j => quicksort_scan_j_none _ _ fuel j hv,
    fun fuel => quicksort_scan_j_values_eq _ _ fuel 1 hv, by decide⟩
  cases fuel with
  | zero => rfl
  | succ fuel =>
    unfold quicksort_recur
    rw [if_neg (by decide)]
    simp only []
    cases fuel with
    | zero => rfl
    | succ fuel =>
      unfold quicksort_partition
      rw [if_pos (by decide)]
      simp only []
      rw [quicksort_scan_j_none _ _ fuel 1 hv]
      cases quicksort_scan_i (quicksort_example (quicksort_addr 0 4 0))
        (quicksort_example (quicksort_addr 0 4 ((0 + 1) / 2))) 1 fuel 0 <;> rfl

/-! ### The odd-even merge sort -/

/-- Outside its two indices `compare_swap` changes nothing. -/
theorem compare_swap_frame {α : Type} [LinearOrder α] (numel : Nat) (vec : Nat → α)
    (i j p : Nat) (hi : p ≠ i) (hj : p ≠ j) : compare_swap numel vec i j p = vec p := by
  unfold compare_swap
  split_ifs
  · simp only []
    rw [Function.update_noteq hj, Function.update_noteq hi]
  · rfl
  · rfl

/-- When the second index is not below `numel`, `compare_swap` does nothing,
so the test that guards its calls in `odd_even` changes nothing. -/
theorem compare_swap_guard {α : Type} [LinearOrder α] (numel : Nat) (vec : Nat → α) (i j : Nat) :
    (if j < numel then compare_swap numel vec i j else vec) = compare_swap numel vec i j := by
  split_ifs with h
  · rfl
  · unfold compare_swap
    rw [if_neg (fun hc => h hc.2)]

/-- The elements that `compare_swap` leaves at its two indices depend only on
the elements it finds there. -/
theorem compare_swap_congr {α : Type} [LinearOrder α] (numel : Nat) (v w : Nat → α) (i j : Nat)
    (hi : v i = w i) (hj : v j = w j) :
    compare_swap numel v i j i = compare_swap numel w i j i ∧
      compare_swap numel v i j j = compare_swap numel w i j j := by
  unfold compare_swap
  rw [hi, hj]
  by_cases hij : i = j
  · subst hij
    split_ifs <;> simp [hi]
  · split_ifs <;> simp [hi, hj, Function.update_noteq hij, Function.update_noteq (Ne.symm hij)]

/-- A vector is a rearrangement of itself. -/
theorem rearranged_on_refl {α : Type} (S : Nat → Prop) (v : Nat → α) : rearranged_on S v v :=
  ⟨Equiv.refl Nat, fun _ _ => rfl, fun _ => rfl⟩

/-- Rearrangements compose. -/
theorem rearranged_on_trans {α : Type} (S : Nat → Prop) (v1 v2 v3 : Nat → α)
    (h12 : rearranged_on S v1 v2) (h23 : rearranged_on S v2 v3) : rearranged_on S v1 v3 := by
  obtain ⟨σ, hσ, h1⟩ := h12
  obtain ⟨τ, hτ, h2⟩ := h23
  refine ⟨τ.trans σ, fun p hp => ?_, fun p => ?_⟩
  · show σ (τ p) = p
    rw [hτ p hp, hσ p hp]
  · show v3 p = v1 (σ (τ p))
    rw [h2, h1]

/-- A rearrangement on a set of indices is one on every larger set. -/
theorem rearranged_on_mono {α : Type} (S T : Nat → Prop) (v1 v2 : Nat → α)
    (hST : ∀ p, S p → T p) (h : rearranged_on S v1 v2) : rearranged_on T v1 v2 := by
  obtain ⟨σ, hσ, h1⟩ := h
  exact ⟨σ, fun p hp => hσ p (fun hs => hp (hST p hs)), h1⟩

/-- A rearrangement leaves the elements outside its set of indices in
place. -/
theorem rearranged_on_frame {α : Type} (S : Nat → Prop) (v1 v2 : Nat → α)
    (h : rearranged_on S v1 v2) (p : Nat) (hp : ¬ S p) : v2 p = v1 p := by
  obtain ⟨σ, hσ, h1⟩ := h
  rw [h1, hσ p hp]

/-- The result of `compare_swap` is a rearrangement on every set of indices
that holds its two indices when both are below `numel`. -/
theorem compare_swap_rearranged {α : Type} [LinearOrder α] (S : Nat → Prop) (numel : Nat)
    (vec : Nat → α) (i j : Nat) (hS : i < numel → j < numel → S i ∧ S j) :
    rearranged_on S vec (compare_swap numel vec i j) := by
  unfold compare_swap
  split_ifs with hg hc
  · obtain ⟨si, sj⟩ := hS hg.1 hg.2
    refine ⟨Equiv.swap i j, fun p hp => ?_, fun p => ?_⟩
    · exact Equiv.swap_apply_of_ne_of_ne (fun e => hp (e ▸ si)) (fun e => hp (e ▸ sj))
    · simp only []
      by_cases hpj : p = j
      · rw [hpj, Function.update_same, Equiv.swap_apply_right]
      · rw [Function.update_noteq hpj]
        by_cases hpi : p = i
        · rw [hpi, Function.update_same, Equiv.swap_apply_left]
        · rw [Function.update_noteq hpi, Equiv.swap_apply_of_ne_of_ne hpi hpj]
  · exact rearranged_on_refl S vec
  · exact rearranged_on_refl S vec

/-- With both indices below `numel`, `compare_swap` leaves the smaller
element at `i` and the larger at `j`. -/
theorem compare_swap_min_max {α : Type} [LinearOrder α] (numel : Nat) (vec : Nat → α)
    (i j : Nat) (hij : i ≠ j) (hi : i < numel) (hj : j < numel) :
    compare_swap numel vec i j i = min (vec i) (vec j) ∧
      compare_swap numel vec i j j = max (vec i) (vec j) := by
  unfold compare_swap
  rw [if_pos ⟨hi, hj⟩]
  by_cases hc : vec i > vec j
  · rw [if_pos hc, min_eq_right (le_of_lt hc), max_eq_left (le_of_lt hc)]
    refine ⟨?_, ?_⟩
    · show Function.update (Function.update vec i (vec j)) j (vec i) i = vec j
      rw [Function.update_noteq hij, Function.update_same]
    · show Function.update (Function.update vec i (vec j)) j (vec i) j = vec i
      rw [Function.update_same]
  · rw [if_neg hc, min_eq_left (not_lt.1 hc), max_eq_right (not_lt.1 hc)]
    exact ⟨rfl, rfl⟩

/-- On truth values read as `true` from `numel` on, `compare_swap` of
`i < j` leaves the conjunction at `i` and the disjunction at `j`. -/
theorem compare_swap_ext_true (numel : Nat) (v : Nat → Bool) (i j : Nat) (hij : i < j) :
    ext_true numel (compare_swap numel v i j) i = (ext_true numel v i && ext_true numel v j) ∧
      ext_true numel (compare_swap numel v i j) j
        = (ext_true numel v i || ext_true numel v j) := by
  have hne : i ≠ j := Nat.ne_of_lt hij
  by_cases hj : j < numel
  · have hi : i < numel := by omega
    obtain ⟨h1, h2⟩ := compare_swap_min_max numel v i j hne hi hj
    unfold ext_true
    rw [if_pos hi, if_pos hj, if_pos hi, if_pos hj, h1, h2]
    cases v i <;> cases v j <;> decide
  · have e : compare_swap numel v i j = v := by
      unfold compare_swap
      rw [if_neg (fun hc => hj hc.2)]
    rw [e]
    unfold ext_true
    rw [if_neg hj]
    simp

/-- A monotone map of the elements commutes with `compare_swap`. -/
theorem compare_swap_map {α β : Type} [LinearOrder α] [LinearOrder β] (f : α → β)
    (hf : Monotone f) (numel : Nat) (vec : Nat → α) (i j : Nat) :
    compare_swap numel (fun p => f (vec p)) i j = fun p => f (compare_swap numel vec i j p) := by
  funext p
  unfold compare_swap
  by_cases hg : i < numel ∧ j < numel
  · rw [if_pos hg, if_pos hg]
    by_cases hc : vec i > vec j
    · rw [if_pos hc]
      have hle : f (vec j) ≤ f (vec i) := hf (le_of_lt hc)
      by_cases hc2 : f (vec i) > f (vec j)
      · rw [if_pos hc2]
        simp only [Function.update_apply]
        split_ifs <;> rfl
      · rw [if_neg hc2]
        have he : f (vec i) = f (vec j) := le_antisymm (not_lt.1 hc2) hle
        simp only [Function.update_apply]
        split_ifs with h1 h2
        · rw [h1, he]
        · rw [h2, he]
        · rfl
    · rw [if_neg hc]
      have hle : f (vec i) ≤ f (vec j) := hf (not_lt.1 hc)
      rw [if_neg (not_lt.2 hle)]
  · rw [if_neg hg, if_neg hg]

/-- The loop of `odd_even` with `n` iterations ahead and fuel for them: it
returns; the result is a rearrangement; the elements at the pair of indices
of each iteration are those `compare_swap` leaves there; and the other
elements are unchanged. -/
theorem odd_even_loop_spec {α : Type} [LinearOrder α] (S : Nat → Prop) (numel l s r m : Nat)
    (hrm : r < m) (n : Nat) :
    ∀ (fuel i : Nat) (v : Nat → α), n < fuel →
      (∀ t, t < n → i + t * m + r < l + s) → ¬ (i + n * m + r < l + s) →
      (∀ t, t < n → i + t * m + r < numel → S (i + t * m) ∧ S (i + t * m + r)) →
      ∃ w, odd_even_loop numel l s r m fuel i v = some w ∧ rearranged_on S v w ∧
        (∀ t, t < n →
          w (i + t * m) = compare_swap numel v (i + t * m) (i + t * m + r) (i + t * m) ∧
          w (i + t * m + r)
            = compare_swap numel v (i + t * m) (i + t * m + r) (i + t * m + r)) ∧
        (∀ p, (∀ t, t < n → p ≠ i + t * m ∧ p ≠ i + t * m + r) → w p = v p) := by
  induction n with
  | zero =>
    intro fuel i v hfuel _ hexit _
    obtain ⟨f, rfl⟩ : ∃ f, fuel = f + 1 := ⟨fuel - 1, by omega⟩
    refine ⟨v, ?_, rearranged_on_refl S v, fun t ht => absurd ht (Nat.not_lt_zero t),
      fun p _ => rfl⟩
    unfold odd_even_loop
    rw [if_neg (by rw [Nat.zero_mul, Nat.add_zero] at hexit; exact hexit)]
  | succ n ih =>
    intro fuel i v hfuel hrun hexit hS
    obtain ⟨f, rfl⟩ : ∃ f, fuel = f + 1 := ⟨fuel - 1, by omega⟩
    have h0 : i + r < l + s := by
      have := hrun 0 (Nat.succ_pos n)
      rw [Nat.zero_mul, Nat.add_zero] at this
      exact this
    have hidx : ∀ t, i + m + t * m = i + (t + 1) * m := by
      intro t
      rw [Nat.succ_mul]
      omega
    obtain ⟨w, hw, hper, hpair, hframe⟩ := ih f (i + m) (compare_swap numel v i (i + r))
      (by omega)
      (fun t ht => by rw [hidx]; exact hrun (t + 1) (by omega))
      (by rw [hidx]; exact hexit)
      (fun t ht => by rw [hidx]; exact hS (t + 1) (by omega))
    refine ⟨w, ?_, ?_, ?_, ?_⟩
    · unfold odd_even_loop
      rw [if_pos h0, compare_swap_guard]
      exact hw
    · refine rearranged_on_trans S v _ w (compare_swap_rearranged S numel v i (i + r) ?_) hper
      intro _ hj
      have := hS 0 (Nat.succ_pos n) (by rw [Nat.zero_mul, Nat.add_zero]; exact hj)
      rw [Nat.zero_mul, Nat.add_zero] at this
      exact this
    · intro t ht
      rcases Nat.eq_zero_or_pos t with h | h
      · subst h
        rw [Nat.zero_mul, Nat.add_zero]
        constructor
        · refine hframe i (fun t _ => ?_)
          have := Nat.zero_le (t * m)
          omega
        · refine hframe (i + r) (fun t _ => ?_)
          have := Nat.zero_le (t * m)
          omega
      · obtain ⟨u, rfl⟩ : ∃ u, t = u + 1 := ⟨t - 1, by omega⟩
        obtain ⟨g1, g2⟩ := hpair u (by omega)
        rw [hidx] at g1 g2
        have hpos : m ≤ (u + 1) * m := Nat.le_mul_of_pos_left m (Nat.succ_pos u)
        obtain ⟨c1, c2⟩ := compare_swap_congr numel (compare_swap numel v i (i + r)) v
          (i + (u + 1) * m) (i + (u + 1) * m + r)
          (compare_swap_frame numel v i (i + r) _ (by omega) (by omega))
          (compare_swap_frame numel v i (i + r) _ (by omega) (by omega))
        exact ⟨g1.trans c1, g2.trans c2⟩
    · intro p hp
      have hp0 := hp 0 (Nat.succ_pos n)
      rw [Nat.zero_mul, Nat.add_zero] at hp0
      rw [hframe p (fun t ht => by rw [hidx]; exact hp (t + 1) (by omega)),
        compare_swap_frame numel v i (i + r) p hp0.1 hp0.2]

/-- The test of the loop of `odd_even` on the subsequence of stride `r`:
the pair of iteration `t` is in range when `2 * t + 2` is below the length. -/
theorem odd_even_loop_test (l r t N : Nat) (hr : 1 ≤ r) :
    l + r + t * (r * 2) + r < l + r * N ↔ 2 * t + 2 < N := by
  have e : l + r + t * (r * 2) + r = l + r * (2 * t + 2) := by ring
  rw [e, Nat.add_lt_add_iff_left]
  exact Nat.mul_lt_mul_left (by omega)

/-- With fuel for its depth and its loops, `odd_even` on the subsequence of
stride `r` and length `2 ^ (j + 1)` from `l` returns, and the result is a
rearrangement of the elements of that subsequence below `numel`. -/
theorem odd_even_rearranged {α : Type} [LinearOrder α] (numel j : Nat) :
    ∀ (r l fuel : Nat) (v : Nat → α), 1 ≤ r → 2 ^ (j + 1) ≤ fuel →
      ∃ w, odd_even numel fuel v l (r * 2 ^ (j + 1)) r = some w ∧
        rearranged_on (stride_set numel l r (2 ^ (j + 1))) v w := by
  induction j with
  | zero =>
    intro r l fuel v hr hfuel
    obtain ⟨f, rfl⟩ : ∃ f, fuel = f + 1 := ⟨fuel - 1, by omega⟩
    refine ⟨compare_swap numel v l (l + r), ?_, ?_⟩
    · unfold odd_even
      simp only []
      rw [if_neg (by norm_num), compare_swap_guard]
    · refine compare_swap_rearranged _ numel v l (l + r) (fun h1 h2 => ?_)
      exact ⟨⟨h1, 0, by norm_num, by omega⟩, ⟨h2, 1, by norm_num, by omega⟩⟩
  | succ j ih =>
    intro r l fuel v hr hfuel
    have hfp : 1 ≤ 2 ^ (j + 1 + 1) := Nat.one_le_two_pow
    obtain ⟨f, rfl⟩ : ∃ f, fuel = f + 1 := ⟨fuel - 1, by omega⟩
    have hp1 : 2 ^ (j + 1 + 1) = 2 * 2 ^ (j + 1) := by rw [pow_succ]; ring
    have hpos : 1 ≤ 2 ^ (j + 1) := Nat.one_le_two_pow
    have hpos2 : 1 < 2 ^ (j + 1) := Nat.one_lt_two_pow (by omega)
    have hs : r * 2 ^ (j + 1 + 1) = r * 2 * 2 ^ (j + 1) := by rw [hp1]; ring
    have hf : 2 ^ (j + 1) ≤ f := by omega
    obtain ⟨w1, hw1, hper1⟩ := ih (r * 2) l f v (by omega) hf
    obtain ⟨w2, hw2, hper2⟩ := ih (r * 2) (l + r) f w1 (by omega) hf
    obtain ⟨w3, hw3, hper3, -, -⟩ := odd_even_loop_spec
      (stride_set numel l r (2 ^ (j + 1 + 1))) numel l (r * 2 ^ (j + 1 + 1)) r (r * 2)
      (by omega) (2 ^ (j + 1) - 1) f (l + r) w2 (by omega)
      (fun t ht => (odd_even_loop_test l r t _ hr).2 (by omega))
      (fun hc => by
        have := (odd_even_loop_test l r (2 ^ (j + 1) - 1) _ hr).1 hc
        omega)
      (fun t ht hlt => by
        have e1 : l + r + t * (r * 2) = l + (2 * t + 1) * r := by ring
        have e2 : l + r + t * (r * 2) + r = l + (2 * t + 2) * r := by ring
        exact ⟨⟨by omega, 2 * t + 1, by omega, e1⟩, ⟨hlt, 2 * t + 2, by omega, e2⟩⟩)
    refine ⟨w3, ?_, ?_⟩
    · unfold odd_even
      simp only []
      rw [if_pos (by rw [hs]; exact (Nat.lt_mul_iff_one_lt_right (by omega)).2 hpos2)]
      rw [hs] at hw3 ⊢
      rw [hw1, Option.some_bind, hw2, Option.some_bind]
      exact hw3
    · refine rearranged_on_trans _ v w2 w3 (rearranged_on_trans _ v w1 w2 ?_ ?_) hper3
      · refine rearranged_on_mono _ _ v w1 ?_ hper1
        rintro p ⟨hp, k, hk, rfl⟩
        exact ⟨hp, 2 * k, by omega, by ring⟩
      · refine rearranged_on_mono _ _ w1 w2 ?_ hper2
        rintro p ⟨hp, k, hk, rfl⟩
        exact ⟨hp, 2 * k + 1, by omega, by ring⟩

/-- The indices of a subsequence of positive stride are distinct. -/
theorem stride_inj (l r k k2 : Nat) (hr : 1 ≤ r) (h : l + k * r = l + k2 * r) : k = k2 :=
  Nat.eq_of_mul_eq_mul_right (by omega) (Nat.add_left_cancel h)

/-- The reading of a vector of truth values at an index depends only on the
element at that index. -/
theorem ext_true_congr (numel : Nat) (v w : Nat → Bool) (p : Nat) (h : w p = v p) :
    ext_true numel w p = ext_true numel v p := by
  unfold ext_true
  rw [h]

/-- The merge step on truth values.  When the two halves of the subsequence
of stride `r` and length `2 ^ (j + 1)` from `l`, read as `true` from `numel`
on, are `a` times `false` then `true`, and `b` times `false` then `true`,
the result of `odd_even` reads `a + b` times `false` then `true`. -/
theorem odd_even_merges_bits (numel j : Nat) :
    ∀ (r l fuel : Nat) (v w : Nat → Bool) (a b : Nat), 1 ≤ r → 2 ^ (j + 1) ≤ fuel →
      a ≤ 2 ^ j → b ≤ 2 ^ j →
      (∀ k, k < 2 ^ j → ext_true numel v (l + k * r) = decide (a ≤ k)) →
      (∀ k, k < 2 ^ j → ext_true numel v (l + (2 ^ j + k) * r) = decide (b ≤ k)) →
      odd_even numel fuel v l (r * 2 ^ (j + 1)) r = some w →
      ∀ k, k < 2 ^ (j + 1) → ext_true numel w (l + k * r) = decide (a + b ≤ k) := by
  induction j with
  | zero =>
    intro r l fuel v w a b hr hfuel ha hb h1 h2 hw k hk
    obtain ⟨f, rfl⟩ : ∃ f, fuel = f + 1 := ⟨fuel - 1, by omega⟩
    unfold odd_even at hw
    simp only [] at hw
    rw [if_neg (by norm_num), compare_swap_guard] at hw
    have hw2 := Option.some.inj hw
    subst hw2
    obtain ⟨c1, c2⟩ := compare_swap_ext_true numel v l (l + r) (by omega)
    have g1 := h1 0 (by norm_num)
    have g2 := h2 0 (by norm_num)
    rw [Nat.zero_mul, Nat.add_zero] at g1
    rw [pow_zero, Nat.add_zero, Nat.one_mul] at g2
    rw [pow_zero] at ha hb
    rw [g1, g2] at c1 c2
    have hk2 : k = 0 ∨ k = 1 := by
      norm_num at hk
      omega
    rcases hk2 with rfl | rfl
    · rw [Nat.zero_mul, Nat.add_zero, c1, ← Bool.decide_and, decide_eq_decide]
      omega
    · rw [Nat.one_mul, c2, ← Bool.decide_or, decide_eq_decide]
      omega
  | succ j ih =>
    intro r l fuel v w a b hr hfuel ha hb h1 h2 hw
    have hfp : 1 ≤ 2 ^ (j + 1 + 1) := Nat.one_le_two_pow
    obtain ⟨f, rfl⟩ : ∃ f, fuel = f + 1 := ⟨fuel - 1, by omega⟩
    have hp0 : 2 ^ (j + 1) = 2 * 2 ^ j := by rw [pow_succ]; ring
    have hp1 : 2 ^ (j + 1 + 1) = 2 * 2 ^ (j + 1) := by rw [pow_succ]; ring
    have hH : 1 ≤ 2 ^ j := Nat.one_le_two_pow
    have hpos2 : 1 < 2 ^ (j + 1) := Nat.one_lt_two_pow (by omega)
    have hs : r * 2 ^ (j + 1 + 1) = r * 2 * 2 ^ (j + 1) := by rw [hp1]; ring
    have hf : 2 ^ (j + 1) ≤ f := by omega
    -- the three stages of the call
    obtain ⟨w1, hw1, hper1⟩ := odd_even_rearranged numel j (r * 2) l f v (by omega) hf
    obtain ⟨w2, hw2, hper2⟩ := odd_even_rearranged numel j (r * 2) (l + r) f w1 (by omega) hf
    obtain ⟨w3, hw3, -, hpair, hframe⟩ := odd_even_loop_spec
      (fun _ => True) numel l (r * 2 ^ (j + 1 + 1)) r (r * 2)
      (by omega) (2 ^ (j + 1) - 1) f (l + r) w2 (by omega)
      (fun t ht => (odd_even_loop_test l r t _ hr).2 (by omega))
      (fun hc => by
        have := (odd_even_loop_test l r (2 ^ (j + 1) - 1) _ hr).1 hc
        omega)
      (fun t _ _ => ⟨trivial, trivial⟩)
    unfold odd_even at hw
    simp only [] at hw
    rw [if_pos (by rw [hs]; exact (Nat.lt_mul_iff_one_lt_right (by omega)).2 hpos2)] at hw
    rw [hs] at hw hw3
    rw [hw1, Option.some_bind, hw2, Option.some_bind, hw3] at hw
    have hw4 := Option.some.inj hw
    subst hw4
    -- index forms
    have ie : ∀ k, l + k * (r * 2) = l + (2 * k) * r := fun k => by ring
    have io : ∀ k, l + r + k * (r * 2) = l + (2 * k + 1) * r := fun k => by ring
    have ip : ∀ k, l + r + k * (r * 2) + r = l + (2 * k + 2) * r := fun k => by ring
    -- the even subsequence
    have hE : ∀ k, k < 2 ^ (j + 1) →
        ext_true numel w1 (l + (2 * k) * r) = decide ((a + 1) / 2 + (b + 1) / 2 ≤ k) := by
      intro k hk
      rw [← ie]
      refine ih (r * 2) l f v w1 ((a + 1) / 2) ((b + 1) / 2) (by omega) hf (by omega) (by omega)
        (fun k hk => ?_) (fun k hk => ?_) hw1 k hk
      · rw [ie, h1 (2 * k) (by omega), decide_eq_decide]
        omega
      · have e : l + (2 ^ j + k) * (r * 2) = l + (2 ^ (j + 1) + 2 * k) * r := by
          rw [hp0]; ring
        rw [e, h2 (2 * k) (by omega), decide_eq_decide]
        omega
    have hv1 : ∀ k, w1 (l + (2 * k + 1) * r) = v (l + (2 * k + 1) * r) := by
      intro k
      refine rearranged_on_frame _ v w1 hper1 _ ?_
      rintro ⟨-, k2, -, e⟩
      rw [ie] at e
      have := stride_inj l r _ _ hr e
      omega
    -- the odd subsequence
    have hO : ∀ k, k < 2 ^ (j + 1) →
        ext_true numel w2 (l + (2 * k + 1) * r) = decide (a / 2 + b / 2 ≤ k) := by
      intro k hk
      rw [← io]
      refine ih (r * 2) (l + r) f w1 w2 (a / 2) (b / 2) (by omega) hf (by omega) (by omega)
        (fun k hk => ?_) (fun k hk => ?_) hw2 k hk
      · rw [io, ext_true_congr numel v w1 _ (hv1 k), h1 (2 * k + 1) (by omega),
          decide_eq_decide]
        omega
      · have e : l + r + (2 ^ j + k) * (r * 2) = l + (2 * (2 ^ j + k) + 1) * r := by ring
        have e2 : l + (2 * (2 ^ j + k) + 1) * r = l + (2 ^ (j + 1) + (2 * k + 1)) * r := by
          rw [hp0]; ring
        rw [e, ext_true_congr numel v w1 _ (hv1 (2 ^ j + k)), e2, h2 (2 * k + 1) (by omega),
          decide_eq_decide]
        omega
    have hE2 : ∀ k, k < 2 ^ (j + 1) →
        ext_true numel w2 (l + (2 * k) * r) = decide ((a + 1) / 2 + (b + 1) / 2 ≤ k) := by
      intro k hk
      rw [← hE k hk]
      refine ext_true_congr numel w1 w2 _ (rearranged_on_frame _ w1 w2 hper2 _ ?_)
      rintro ⟨-, k2, -, e⟩
      rw [io] at e
      have := stride_inj l r _ _ hr e
      omega
    -- the loop
    intro k hk
    have hcases : k = 0 ∨ k = 2 * (2 ^ (j + 1) - 1) + 1 ∨
        ∃ t, t < 2 ^ (j + 1) - 1 ∧ (k = 2 * t + 1 ∨ k = 2 * t + 2) := by
      rcases Nat.eq_zero_or_pos k with h | h
      · exact Or.inl h
      · by_cases hl : k = 2 * (2 ^ (j + 1) - 1) + 1
        · exact Or.inr (Or.inl hl)
        · exact Or.inr (Or.inr ⟨(k - 1) / 2, by omega, by omega⟩)
    have hout : ∀ q, (q = 0 ∨ q = 2 * (2 ^ (j + 1) - 1) + 1) →
        w3 (l + q * r) = w2 (l + q * r) := by
      intro q hq
      refine hframe _ (fun t ht => ?_)
      rw [ip, io]
      constructor
      · intro e
        have := stride_inj l r _ _ hr e
        omega
      · intro e
        have := stride_inj l r _ _ hr e
        omega
    rcases hcases with rfl | rfl | ⟨t, ht, rfl | rfl⟩
    · rw [ext_true_congr numel w2 w3 _ (hout 0 (Or.inl rfl))]
      have := hE2 0 (by omega)
      rw [Nat.mul_zero] at this
      rw [this, decide_eq_decide]
      omega
    · rw [ext_true_congr numel w2 w3 _ (hout _ (Or.inr rfl)), hO _ (by omega), decide_eq_decide]
      omega
    · obtain ⟨c1, -⟩ := compare_swap_ext_true numel w2 (l + (2 * t + 1) * r)
        (l + (2 * t + 2) * r) (by
          have : (2 * t + 2) * r = (2 * t + 1) * r + r := by ring
          omega)
      have g := (hpair t ht).1
      rw [ip, io] at g
      have e2 : 2 * t + 2 = 2 * (t + 1) := by ring
      rw [ext_true_congr numel _ w3 _ g, c1, hO t (by omega), e2, hE2 (t + 1) (by omega),
        ← Bool.decide_and, decide_eq_decide]
      omega
    · obtain ⟨-, c2⟩ := compare_swap_ext_true numel w2 (l + (2 * t + 1) * r)
        (l + (2 * t + 2) * r) (by
          have : (2 * t + 2) * r = (2 * t + 1) * r + r := by ring
          omega)
      have g := (hpair t ht).2
      rw [ip, io] at g
      have e2 : 2 * t + 2 = 2 * (t + 1) := by ring
      rw [ext_true_congr numel _ w3 _ g, c2, hO t (by omega)]
      rw [e2, hE2 (t + 1) (by omega), ← Bool.decide_or, decide_eq_decide]
      omega

/-- A monotone map of the elements commutes with the loop of `odd_even`. -/
theorem odd_even_loop_map {α β : Type} [LinearOrder α] [LinearOrder β] (f : α → β)
    (hf : Monotone f) (numel l s r m : Nat) :
    ∀ (fuel i : Nat) (v : Nat → α),
      odd_even_loop numel l s r m fuel i (fun p => f (v p))
        = (odd_even_loop numel l s r m fuel i v).map (fun w p => f (w p)) := by
  intro fuel
  induction fuel with
  | zero => intro i v; rfl
  | succ fuel ih =>
    intro i v
    unfold odd_even_loop
    rw [compare_swap_guard, compare_swap_guard]
    by_cases h : i + r < l + s
    · rw [if_pos h, if_pos h, compare_swap_map f hf, ih]
    · rw [if_neg h, if_neg h]
      rfl

/-- A monotone map of the elements commutes with `odd_even`. -/
theorem odd_even_map {α β : Type} [LinearOrder α] [LinearOrder β] (f : α → β)
    (hf : Monotone f) (numel : Nat) :
    ∀ (fuel : Nat) (v : Nat → α) (l s r : Nat),
      odd_even numel fuel (fun p => f (v p)) l s r
        = (odd_even numel fuel v l s r).map (fun w p => f (w p)) := by
  intro fuel
  induction fuel with
  | zero => intro v l s r; rfl
  | succ fuel ih =>
    intro v l s r
    unfold odd_even
    simp only []
    rw [compare_swap_guard, compare_swap_guard]
    by_cases h : r * 2 < s
    · rw [if_pos h, if_pos h, ih]
      rcases odd_even numel fuel v l s (r * 2) with _ | w1
      · rfl
      · simp only [Option.map_some', Option.some_bind]
        rw [ih]
        rcases odd_even numel fuel w1 (l + r) s (r * 2) with _ | w2
        · rfl
        · simp only [Option.map_some', Option.some_bind]
          exact odd_even_loop_map f hf numel l s r (r * 2) fuel (l + r) w2
    · rw [if_neg h, if_neg h, compare_swap_map f hf]
      rfl

/-- A monotone map of the elements commutes with `merge_range`. -/
theorem merge_range_map {α β : Type} [LinearOrder α] [LinearOrder β] (f : α → β)
    (hf : Monotone f) (numel : Nat) :
    ∀ (fuel : Nat) (v : Nat → α) (lo hi : Nat),
      merge_range numel fuel (fun p => f (v p)) lo hi
        = (merge_range numel fuel v lo hi).map (fun w p => f (w p)) := by
  intro fuel
  induction fuel with
  | zero => intro v lo hi; rfl
  | succ fuel ih =>
    intro v lo hi
    unfold merge_range
    simp only []
    by_cases h : hi - lo > 1
    · rw [if_pos h, if_pos h, ih]
      rcases merge_range numel fuel v lo (lo + (hi - lo) / 2) with _ | w1
      · rfl
      · simp only [Option.map_some', Option.some_bind]
        rw [ih]
        rcases merge_range numel fuel w1 (lo + (hi - lo) / 2) hi with _ | w2
        · rfl
        · simp only [Option.map_some', Option.some_bind]
          exact odd_even_map f hf numel fuel w2 lo (hi - lo) 1
    · rw [if_neg h, if_neg h]
      rfl

/-- With fuel above the length, `merge_range` on `[lo, lo + 2 ^ k)` returns,
and the result is a rearrangement of the elements at the indices of that
range below `numel`. -/
theorem merge_range_rearranged {α : Type} [LinearOrder α] (numel k : Nat) :
    ∀ (lo fuel : Nat) (v : Nat → α), 2 ^ k < fuel →
      ∃ w, merge_range numel fuel v lo (lo + 2 ^ k) = some w ∧
        rearranged_on (fun p => lo ≤ p ∧ p < lo + 2 ^ k ∧ p < numel) v w := by
  induction k with
  | zero =>
    intro lo fuel v hfuel
    obtain ⟨f, rfl⟩ : ∃ f, fuel = f + 1 := ⟨fuel - 1, by omega⟩
    refine ⟨v, ?_, rearranged_on_refl _ v⟩
    unfold merge_range
    rw [if_neg (by norm_num)]
  | succ k ih =>
    intro lo fuel v hfuel
    have hH : 1 ≤ 2 ^ k := Nat.one_le_two_pow
    have hp : 2 ^ (k + 1) = 2 * 2 ^ k := by rw [pow_succ]; ring
    obtain ⟨f, rfl⟩ : ∃ f, fuel = f + 1 := ⟨fuel - 1, by omega⟩
    have hmid : lo + (lo + 2 ^ (k + 1) - lo) / 2 = lo + 2 ^ k := by omega
    have hhi : lo + 2 ^ (k + 1) = lo + 2 ^ k + 2 ^ k := by omega
    obtain ⟨w1, hw1, hper1⟩ := ih lo f v (by omega)
    obtain ⟨w2, hw2, hper2⟩ := ih (lo + 2 ^ k) f w1 (by omega)
    obtain ⟨w3, hw3, hper3⟩ := odd_even_rearranged numel k 1 lo f w2 (by omega) (by omega)
    rw [Nat.one_mul] at hw3
    refine ⟨w3, ?_, ?_⟩
    · unfold merge_range
      rw [if_pos (by omega)]
      simp only []
      rw [hmid, hw1, Option.some_bind]
      rw [hhi, hw2, Option.some_bind, ← hhi, Nat.add_sub_cancel_left]
      exact hw3
    · refine rearranged_on_trans _ v w2 w3 (rearranged_on_trans _ v w1 w2 ?_ ?_) ?_
      · exact rearranged_on_mono _ _ v w1 (fun p hp => ⟨hp.1, by omega, hp.2.2⟩) hper1
      · exact rearranged_on_mono _ _ w1 w2 (fun p hp => ⟨by omega, by omega, hp.2.2⟩) hper2
      · refine rearranged_on_mono _ _ w2 w3 ?_ hper3
        rintro p ⟨hp, t, ht, rfl⟩
        exact ⟨by omega, by omega, hp⟩

/-- The sort on truth values.  The result of `merge_range` on
`[lo, lo + 2 ^ k)`, read as `true` from `numel` on, is some number of times
`false`, then `true`. -/
theorem merge_range_bits_sorted (numel k : Nat) :
    ∀ (lo fuel : Nat) (v w : Nat → Bool), 2 ^ k < fuel →
      merge_range numel fuel v lo (lo + 2 ^ k) = some w →
      ∃ a, a ≤ 2 ^ k ∧ ∀ t, t < 2 ^ k → ext_true numel w (lo + t) = decide (a ≤ t) := by
  induction k with
  | zero =>
    intro lo fuel v w hfuel hw
    obtain ⟨f, rfl⟩ : ∃ f, fuel = f + 1 := ⟨fuel - 1, by omega⟩
    unfold merge_range at hw
    rw [if_neg (by norm_num)] at hw
    have e := Option.some.inj hw
    subst e
    rcases hb : ext_true numel v lo with _ | _
    · refine ⟨1, by norm_num, fun t ht => ?_⟩
      have e : t = 0 := by norm_num at ht; omega
      subst e
      rw [Nat.add_zero, hb]
      rfl
    · refine ⟨0, by norm_num, fun t ht => ?_⟩
      have e : t = 0 := by norm_num at ht; omega
      subst e
      rw [Nat.add_zero, hb]
      rfl
  | succ k ih =>
    intro lo fuel v w hfuel hw
    have hH : 1 ≤ 2 ^ k := Nat.one_le_two_pow
    have hp : 2 ^ (k + 1) = 2 * 2 ^ k := by rw [pow_succ]; ring
    obtain ⟨f, rfl⟩ : ∃ f, fuel = f + 1 := ⟨fuel - 1, by omega⟩
    have hmid : lo + (lo + 2 ^ (k + 1) - lo) / 2 = lo + 2 ^ k := by omega
    have hhi : lo + 2 ^ (k + 1) = lo + 2 ^ k + 2 ^ k := by omega
    obtain ⟨w1, hw1, -⟩ := merge_range_rearranged numel k lo f v (by omega)
    obtain ⟨w2, hw2, hper2⟩ := merge_range_rearranged numel k (lo + 2 ^ k) f w1 (by omega)
    unfold merge_range at hw
    rw [if_pos (by omega)] at hw
    simp only [] at hw
    rw [hmid, hw1, Option.some_bind] at hw
    rw [hhi, hw2, Option.some_bind, ← hhi, Nat.add_sub_cancel_left] at hw
    obtain ⟨a, ha, h1⟩ := ih lo f v w1 (by omega) hw1
    obtain ⟨b, hb, h2⟩ := ih (lo + 2 ^ k) f w1 w2 (by omega) hw2
    have hw3 : odd_even numel f w2 lo (1 * 2 ^ (k + 1)) 1 = some w := by
      rw [Nat.one_mul]
      exact hw
    have hm := odd_even_merges_bits numel k 1 lo f w2 w a b (by omega) (by omega) ha hb
      (fun t ht => by
        rw [Nat.mul_one, ← h1 t ht]
        exact ext_true_congr numel w1 w2 _
          (rearranged_on_frame _ w1 w2 hper2 _ (fun hc => by omega)))
      (fun t ht => by
        rw [Nat.mul_one, ← Nat.add_assoc]
        exact h2 t ht)
      hw3
    refine ⟨a + b, by omega, fun t ht => ?_⟩
    have := hm t ht
    rw [Nat.mul_one] at this
    exact this

/-- A rearrangement on the indices of a list without repetition permutes
the elements along that list. -/
theorem rearranged_on_perm {α : Type} (S : Nat → Prop) (L : List Nat) (v w : Nat → α)
    (hnd : L.Nodup) (hS : ∀ p, S p → p ∈ L) (h : rearranged_on S v w) :
    (L.map w).Perm (L.map v) := by
  obtain ⟨σ, hσ, hw⟩ := h
  have e : L.map w = (L.map σ).map v := by
    rw [List.map_map]
    exact List.map_congr_left (fun p _ => hw p)
  rw [e]
  refine List.Perm.map v ?_
  rw [List.perm_ext_iff_of_nodup (hnd.map σ.injective) hnd]
  intro x
  rw [List.mem_map]
  constructor
  · rintro ⟨p, hp, rfl⟩
    by_cases hs : S (σ p)
    · exact hS _ hs
    · have := σ.injective (hσ _ hs)
      rw [this]
      exact hp
  · intro hx
    refine ⟨σ.symm x, ?_, σ.apply_symm_apply x⟩
    by_cases hs : S (σ.symm x)
    · exact hS _ hs
    · have := hσ _ hs
      rw [σ.apply_symm_apply] at this
      rw [← this]
      exact hx

/-- C33: `merge_range` sorts in place by exchanges.  For a vector over a
totally ordered element type, every `lo` and every `hi = lo + 2 ^ k`, and
fuel above the length `2 ^ k`, the call `merge_range(vec, lo, hi)` returns;
afterwards the elements at the indices of `[lo, min hi numel)` are in
ascending order and are a permutation of the elements that were there, and
every element outside that range of indices is unchanged. -/
theorem merge_range_sorts {α : Type} [LinearOrder α] (numel lo k fuel : Nat) (vec : Nat → α)
    (hfuel : 2 ^ k < fuel) :
    ∃ w, merge_range numel fuel vec lo (lo + 2 ^ k) = some w ∧
      (∀ p q, lo ≤ p → p ≤ q → q < min (lo + 2 ^ k) numel → w p ≤ w q) ∧
      ((List.range' lo (min (lo + 2 ^ k) numel - lo)).map w).Perm
        ((List.range' lo (min (lo + 2 ^ k) numel - lo)).map vec) ∧
      (∀ p, (p < lo ∨ min (lo + 2 ^ k) numel ≤ p) → w p = vec p) := by
  obtain ⟨w, hw, hper⟩ := merge_range_rearranged numel k lo fuel vec hfuel
  refine ⟨w, hw, fun p q hp hpq hq => ?_, ?_, fun p hp => ?_⟩
  · by_contra hc
    have hlt : w q < w p := not_le.1 hc
    have hf : Monotone (fun y : α => decide (w q < y)) := by
      intro x y hxy
      by_cases h1 : w q < x
      · have h2 : w q < y := lt_of_lt_of_le h1 hxy
        simp [h1, h2]
      · simp [h1]
    have hb := merge_range_map (fun y : α => decide (w q < y)) hf numel fuel vec lo (lo + 2 ^ k)
    rw [hw, Option.map_some'] at hb
    obtain ⟨a, -, ha⟩ := merge_range_bits_sorted numel k lo fuel _ _ hfuel hb
    have hq2 : q < lo + 2 ^ k ∧ q < numel := by
      rw [Nat.lt_min] at hq
      exact hq
    have g1 := ha (p - lo) (by omega)
    have g2 := ha (q - lo) (by omega)
    have e1 : lo + (p - lo) = p := by omega
    have e2 : lo + (q - lo) = q := by omega
    rw [e1] at g1
    rw [e2] at g2
    unfold ext_true at g1 g2
    rw [if_pos (by omega)] at g1 g2
    simp only [hlt, lt_self_iff_false, decide_True, decide_False] at g1 g2
    have g3 : a ≤ p - lo := by
      by_contra hn
      rw [decide_eq_false hn] at g1
      exact Bool.noConfusion g1
    have g4 : ¬ a ≤ q - lo := by
      intro hn
      rw [decide_eq_true hn] at g2
      exact Bool.noConfusion g2
    omega
  · refine rearranged_on_perm _ _ vec w (List.nodup_range' lo _) ?_ hper
    intro p hp
    rw [List.mem_range'_1]
    have := Nat.lt_min.2 ⟨hp.2.1, hp.2.2⟩
    omega
  · refine rearranged_on_frame _ vec w hper p ?_
    intro hs
    have := Nat.lt_min.2 ⟨hs.2.1, hs.2.2⟩
    omega

/-- Witness of C33: seven elements sorted as a range of eight. -/
theorem merge_range_sorts_witness :
    2 ^ 3 < 9 ∧
    ∃ w, merge_range 7 9 merge_example 0 (0 + 2 ^ 3) = some w ∧
      (∀ p q, 0 ≤ p → p ≤ q → q < min (0 + 2 ^ 3) 7 → w p ≤ w q) ∧
      ((List.range' 0 (min (0 + 2 ^ 3) 7 - 0)).map w).Perm
        ((List.range' 0 (min (0 + 2 ^ 3) 7 - 0)).map merge_example) ∧
      (∀ p, (p < 0 ∨ min (0 + 2 ^ 3) 7 ≤ p) → w p = merge_example p) :=
  ⟨by decide, merge_range_sorts 7 0 3 9 merge_example (by decide)⟩

/-- The vector `[5, 3, 8, 1, 9, 2, 7]` sorted as the range `[0, 8)`, and its
last three elements sorted as the range `[4, 8)`. -/
theorem merge_range_example :
    (merge_range 7 9 merge_example 0 8).map (fun w => (List.range 7).map w)
        = some [1, 2, 3, 5, 7, 8, 9] ∧
      (merge_range 7 5 merge_example 4 8).map (fun w => (List.range 7).map w)
        = some [5, 3, 8, 1, 2, 7, 9] := by
  decide

end HB
